import Mathlib

/-!
Shallow embedding of the weighted-graph algorithm library
(`superhortiz/Graph-Algorithms-Python3`) and proofs of its specification
claims.

Python `float` weights are modelled as rationals, and `float('inf')` as the
top element `⊤` of `WithTop ℚ`; the only arithmetic the code performs on
possibly-infinite values is addition of a finite weight and order
comparison, for which IEEE infinity agrees with `WithTop ℚ`.

Python lists are modelled as Lean `List`s; a read `xs[i]` is modelled with
`List.getD` together with explicit bounds checks (or well-formedness
invariants) at the places where the Python code can raise `IndexError`.
`while` loops are modelled by structural recursion on an explicit fuel
argument so that every definition is executable by the kernel; for each
loop the relevant theorems either prove that a concrete fuel is sufficient
or quantify over all fuels.  Operations that can raise are modelled in
`Except`.
-/

namespace GraphAlgs

/-- A `float` distance value: finite rational or `float('inf')`. -/
abbrev EVal := WithTop ℚ

/-- The exceptions the priority-queue code can raise:
`HeapEmptyError` (custom class in `index_min_pq.py`), `ValueError`
(raised by `decrease_key`), `IndexError` (out-of-range list subscript),
and `TypeError` (Python 3 `<` against `None`). -/
inductive PQError where
  | heapEmpty
  | valueError
  | indexError
  | typeError
deriving DecidableEq, Repr

/-- State of `IndexMinPQ` (`src/minimum_spanning_tree/utils/index_min_pq.py`).

`keys`, `pq`, `qp` are the three Python lists (`self._keys`, `self._pq`,
`self._qp`), each of length `max_n + 1`; `n` is `self._n`.  Slots of
`keys` and `pq` that Python initialises to `None` are modelled with
`Option`; `qp` holds machine integers with `-1` as the "absent" sentinel,
modelled as `Int`. -/
structure IndexMinPQ (α : Type) where
  keys : List (Option α)
  pq : List (Option Nat)
  qp : List Int
  n : Nat
deriving Repr

namespace IndexMinPQ

variable {α : Type} [LinearOrder α]

/-- `IndexMinPQ.__init__`: three lists of length `max_n + 1`, size 0. -/
def new (α : Type) (maxN : Nat) : IndexMinPQ α :=
  ⟨List.replicate (maxN + 1) none, List.replicate (maxN + 1) none,
   List.replicate (maxN + 1) (-1), 0⟩

/-- The vertex index stored at heap position `k`: Python `self._pq[k]`.
Positions that hold `None` (never read by the code on well-formed states)
are given the junk value `0`. -/
def pqAt (s : IndexMinPQ α) (k : Nat) : Nat :=
  (s.pq.getD k none).getD 0

/-- The key currently associated with vertex index `i`:
Python `self._keys[i]`. -/
def keyAt (s : IndexMinPQ α) (i : Nat) : Option α :=
  s.keys.getD i none

/-- The key stored at heap position `k`: Python `self._keys[self._pq[k]]`. -/
def slotKey (s : IndexMinPQ α) (k : Nat) : Option α :=
  s.keyAt (s.pqAt k)

/-- `IndexMinPQ._greater`: `self._keys[self._pq[i]] > self._keys[self._pq[j]]`.
On well-formed states both keys are present; the `None` cases (on which
Python 3 would raise `TypeError`) are junk-valued `false`. -/
def greater (s : IndexMinPQ α) (i j : Nat) : Bool :=
  match s.slotKey i, s.slotKey j with
  | some a, some b => decide (b < a)
  | _, _ => false

/-- `IndexMinPQ._exchange`: swap heap positions `i` and `j` and rewrite the
two position-lookup entries.  Python performs the tuple assignment
`self._pq[i], self._pq[j] = self._pq[j], self._pq[i]` and then
`self._qp[self._pq[i]], self._qp[self._pq[j]] = i, j`, the latter writing
`qp` at the freshly swapped `pq` values, left target first. -/
def exchange (s : IndexMinPQ α) (i j : Nat) : IndexMinPQ α :=
  let pi := s.pq.getD i none
  let pj := s.pq.getD j none
  { s with
    pq := (s.pq.set i pj).set j pi,
    qp := (s.qp.set (pj.getD 0) (Int.ofNat i)).set (pi.getD 0) (Int.ofNat j) }

/-- The loop body of `IndexMinPQ._swim`, by recursion on fuel:
`while k > 1 and self._greater(k // 2, k): self._exchange(k, k // 2); k //= 2`. -/
def swimAux : Nat → IndexMinPQ α → Nat → IndexMinPQ α
  | 0, s, _ => s
  | fuel + 1, s, k =>
    if 1 < k ∧ s.greater (k / 2) k then
      swimAux fuel (s.exchange k (k / 2)) (k / 2)
    else s

/-- `IndexMinPQ._swim` starting from position `k`.  The loop halves `k`
each iteration, so `k` units of fuel always suffice. -/
def swim (s : IndexMinPQ α) (k : Nat) : IndexMinPQ α :=
  swimAux k s k

/-- The loop body of `IndexMinPQ._sink`, by recursion on fuel.  The guard
`1 ≤ k` is implied at every call site of the Python code (`_sink` is only
ever called with `k = 1` and the loop moves `k` to a child `j ≥ 2k`); at
`k = 0` the Python loop would read the unused slot `pq[0] = None` and
raise `TypeError` inside `_greater`. -/
def sinkAux : Nat → IndexMinPQ α → Nat → IndexMinPQ α
  | 0, s, _ => s
  | fuel + 1, s, k =>
    if 1 ≤ k ∧ 2 * k ≤ s.n then
      let j := 2 * k
      let j' := if j < s.n ∧ s.greater j (j + 1) then j + 1 else j
      if s.greater j' k then s
      else sinkAux fuel (s.exchange k j') j'
    else s

/-- `IndexMinPQ._sink` from position `k`; `s.n` units of fuel suffice since
each iteration at least doubles `k` and the loop stops once `2k > n`. -/
def sink (s : IndexMinPQ α) (k : Nat) : IndexMinPQ α :=
  sinkAux s.n s k

/-- `IndexMinPQ.contains`: `self._qp[i] != -1`.  A subscript `i` beyond the
list length (Python `IndexError`) is junk-valued `false`; all callers in
the repository pass `i < max_n`. -/
def contains (s : IndexMinPQ α) (i : Nat) : Bool :=
  s.qp.getD i (-1) != -1

/-- `IndexMinPQ.__bool__`: `bool(self._n)`. -/
def toBool (s : IndexMinPQ α) : Bool :=
  s.n != 0

/-- `IndexMinPQ.insert`: increment `n`, write `pq[n] = i`, `qp[i] = n`,
`keys[i] = key`, swim up from position `n`.  The Python method performs no
duplicate-index check; the only way it can fail is an out-of-range list
subscript (`pq[n]` when the heap is full, or `qp[i]`/`keys[i]` when `i`
is at least `max_n + 1`), checked here up front. -/
def insert (s : IndexMinPQ α) (i : Nat) (key : α) : Except PQError (IndexMinPQ α) :=
  if s.n + 1 < s.pq.length ∧ i < s.qp.length ∧ i < s.keys.length then
    let s1 : IndexMinPQ α :=
      { keys := s.keys.set i (some key),
        pq := s.pq.set (s.n + 1) (some i),
        qp := s.qp.set i (Int.ofNat (s.n + 1)),
        n := s.n + 1 }
    .ok (s1.swim (s.n + 1))
  else .error .indexError

/-- `IndexMinPQ.del_min`: raise `HeapEmptyError` if empty, else record
`pq[1]`, exchange positions `1` and `n`, decrement `n`, sink from the
root, then clear `keys` and `qp` at the removed index `pq[n + 1]`. -/
def del_min (s : IndexMinPQ α) : Except PQError (Nat × IndexMinPQ α) :=
  if s.n = 0 then .error .heapEmpty
  else
    let min_index := s.pqAt 1
    let s1 := s.exchange 1 s.n
    let s2 : IndexMinPQ α := { s1 with n := s1.n - 1 }
    let s3 := s2.sink 1
    let last := s3.pqAt (s3.n + 1)
    .ok (min_index,
      { s3 with keys := s3.keys.set last none, qp := s3.qp.set last (-1) })

/-- `IndexMinPQ.decrease_key`: evaluate `key < self._keys[i]` (an
out-of-range `i` raises `IndexError`; a `None` current key raises
`TypeError` in Python 3); on success write the key and swim from
`self._qp[i]`, otherwise raise `ValueError`. -/
def decrease_key (s : IndexMinPQ α) (i : Nat) (key : α) :
    Except PQError (IndexMinPQ α) :=
  if i < s.keys.length then
    match s.keys.getD i none with
    | some cur =>
      if key < cur then
        .ok (IndexMinPQ.swim { s with keys := s.keys.set i (some key) }
              (s.qp.getD i (-1)).toNat)
      else .error .valueError
    | none => .error .typeError
  else .error .indexError

end IndexMinPQ

/-! ### List access helper lemmas -/

theorem getD_set_self {β : Type} (l : List β) (i : Nat) (a d : β)
    (h : i < l.length) : (l.set i a).getD i d = a := by
  simp [List.getD_eq_getElem?_getD, List.getElem?_set_self, h]

theorem getD_set_ne {β : Type} (l : List β) {i j : Nat} (a d : β)
    (h : i ≠ j) : (l.set i a).getD j d = l.getD j d := by
  simp [List.getD_eq_getElem?_getD, List.getElem?_set_ne h]

theorem getD_replicate_lt {β : Type} {n i : Nat} (a d : β) (h : i < n) :
    (List.replicate n a).getD i d = a := by
  simp [List.getD_eq_getElem?_getD, List.getElem?_replicate, h]

theorem getD_oob {β : Type} (l : List β) {i : Nat} (d : β)
    (h : l.length ≤ i) : l.getD i d = d := by
  simp [List.getD_eq_getElem?_getD, List.getElem?_eq_none h]

namespace IndexMinPQ

variable {α : Type} [LinearOrder α]

/-! ### Well-formedness of the indexed priority queue -/

/-- Python `self._qp[i]` with the out-of-range junk value `-1`. -/
def qpAt (s : IndexMinPQ α) (i : Nat) : Int :=
  s.qp.getD i (-1)

/-- Index `i` occupies some heap slot `1 .. n`. -/
def isOcc (s : IndexMinPQ α) (i : Nat) : Prop :=
  ∃ k, 1 ≤ k ∧ k ≤ s.n ∧ s.pq.getD k none = some i

/-- Structural well-formedness: list lengths, size bound, and every heap
slot `1 .. n` holding an in-range index whose `qp` entry points back to
the slot and whose key is present. -/
structure Core (s : IndexMinPQ α) (maxN : Nat) : Prop where
  hkeys : s.keys.length = maxN + 1
  hpq : s.pq.length = maxN + 1
  hqp : s.qp.length = maxN + 1
  hn : s.n ≤ maxN
  hslot : ∀ k, 1 ≤ k → k ≤ s.n → ∃ i, s.pq.getD k none = some i ∧ i < maxN ∧
    s.qp.getD i (-1) = Int.ofNat k ∧ (s.keys.getD i none).isSome = true

/-- Binary-heap order on the occupied slots. -/
def Ord (s : IndexMinPQ α) : Prop :=
  ∀ k, 2 ≤ k → k ≤ s.n → ∀ a b,
    s.slotKey (k / 2) = some a → s.slotKey k = some b → a ≤ b

/-- Every non-`-1` entry of `qp` points to a heap slot holding its index:
`qp` is the exact inverse of the occupied part of `pq`. -/
def QpMem (s : IndexMinPQ α) : Prop :=
  ∀ i, s.qp.getD i (-1) ≠ -1 → ∃ k, 1 ≤ k ∧ k ≤ s.n ∧
    s.qp.getD i (-1) = Int.ofNat k ∧ s.pq.getD k none = some i

/-- Full well-formedness. -/
structure WF (s : IndexMinPQ α) (maxN : Nat) : Prop where
  core : Core s maxN
  qpmem : QpMem s
  ord : Ord s

theorem Core.qp_of_slot {s : IndexMinPQ α} {maxN : Nat} (hc : Core s maxN)
    {k i : Nat} (hk1 : 1 ≤ k) (hkn : k ≤ s.n) (h : s.pq.getD k none = some i) :
    i < maxN ∧ s.qp.getD i (-1) = Int.ofNat k ∧ (s.keys.getD i none).isSome = true := by
  obtain ⟨i', hi', hlt, hqp, hks⟩ := hc.hslot k hk1 hkn
  rw [h] at hi'
  obtain rfl : i' = i := by simpa using hi'.symm
  exact ⟨hlt, hqp, hks⟩

theorem Core.slot_inj {s : IndexMinPQ α} {maxN : Nat} (hc : Core s maxN)
    {k k' i : Nat} (hk1 : 1 ≤ k) (hkn : k ≤ s.n) (hk1' : 1 ≤ k') (hkn' : k' ≤ s.n)
    (h : s.pq.getD k none = some i) (h' : s.pq.getD k' none = some i) : k = k' := by
  have e1 := (hc.qp_of_slot hk1 hkn h).2.1
  have e2 := (hc.qp_of_slot hk1' hkn' h').2.1
  rw [e1] at e2
  exact Int.ofNat.inj e2

/-- On well-formed states, every occupied slot carries a present key. -/
theorem Core.slotKey_isSome {s : IndexMinPQ α} {maxN : Nat} (hc : Core s maxN)
    {k : Nat} (hk1 : 1 ≤ k) (hkn : k ≤ s.n) : ∃ a, s.slotKey k = some a := by
  obtain ⟨i, hi, _, _, hks⟩ := hc.hslot k hk1 hkn
  obtain ⟨a, ha⟩ := Option.isSome_iff_exists.mp hks
  have hp : s.pqAt k = i := by unfold pqAt; rw [hi]; rfl
  refine ⟨a, ?_⟩
  unfold slotKey keyAt
  rw [hp, ha]

/-- What an operation preserves: keys, size, slots above `n`, `qp` entries
of unoccupied indices, and the set of occupants. -/
structure Unch (s s' : IndexMinPQ α) : Prop where
  hkeys : s'.keys = s.keys
  hn : s'.n = s.n
  hpqlen : s'.pq.length = s.pq.length
  hqplen : s'.qp.length = s.qp.length
  hpqhi : ∀ m, s.n < m → s'.pq.getD m none = s.pq.getD m none
  hqpun : ∀ i, ¬ isOcc s i → s'.qp.getD i (-1) = s.qp.getD i (-1)
  hocc : ∀ i, isOcc s' i ↔ isOcc s i

theorem Unch.rfl (s : IndexMinPQ α) : Unch s s :=
  ⟨by rfl, by rfl, by rfl, by rfl, fun _ _ => by rfl, fun _ _ => by rfl, fun _ => Iff.rfl⟩

theorem Unch.trans {s t u : IndexMinPQ α} (h1 : Unch s t) (h2 : Unch t u) : Unch s u := by
  refine ⟨h2.hkeys.trans h1.hkeys, h2.hn.trans h1.hn, h2.hpqlen.trans h1.hpqlen,
    h2.hqplen.trans h1.hqplen, ?_, ?_, fun i => (h2.hocc i).trans (h1.hocc i)⟩
  · intro m hm
    rw [h2.hpqhi m (h1.hn ▸ hm), h1.hpqhi m hm]
  · intro i hi
    rw [h2.hqpun i (fun h => hi ((h1.hocc i).mp h)), h1.hqpun i hi]

/-- The slot permutation performed by `exchange i j`. -/
def swapIdx (i j m : Nat) : Nat :=
  if m = i then j else if m = j then i else m

theorem swapIdx_self (i j : Nat) : swapIdx i j i = j := by simp [swapIdx]

theorem swapIdx_other {i j m : Nat} (hmi : m ≠ i) (hmj : m ≠ j) :
    swapIdx i j m = m := by simp [swapIdx, hmi, hmj]

theorem swapIdx_right (i j : Nat) : swapIdx i j j = i := by
  unfold swapIdx
  by_cases h : j = i
  · simp [h]
  · simp [h]

theorem swapIdx_invol (i j m : Nat) : swapIdx i j (swapIdx i j m) = m := by
  by_cases h1 : m = i
  · rw [h1, swapIdx_self, swapIdx_right]
  · by_cases h2 : m = j
    · rw [h2, swapIdx_right, swapIdx_self]
    · rw [swapIdx_other h1 h2, swapIdx_other h1 h2]

/-- Characterisation of `exchange` on a structurally well-formed state with
both positions occupied. -/
theorem exchange_spec {s : IndexMinPQ α} {maxN : Nat} (hc : Core s maxN)
    {i j : Nat} (hi1 : 1 ≤ i) (hin : i ≤ s.n) (hj1 : 1 ≤ j) (hjn : j ≤ s.n) :
    Core (s.exchange i j) maxN ∧ Unch s (s.exchange i j) ∧
    (∀ m, (s.exchange i j).pq.getD m none = s.pq.getD (swapIdx i j m) none) ∧
    (∀ q, (s.exchange i j).qp.getD q (-1) =
      if q = s.pqAt i then Int.ofNat j else if q = s.pqAt j then Int.ofNat i
      else s.qp.getD q (-1)) ∧
    (∀ m, (s.exchange i j).slotKey m = s.slotKey (swapIdx i j m)) := by
  obtain ⟨pi, hpi, hpilt, hqpi, hkpi⟩ := hc.hslot i hi1 hin
  obtain ⟨pj, hpj, hpjlt, hqpj, hkpj⟩ := hc.hslot j hj1 hjn
  have hLpq := hc.hpq
  have hLqp := hc.hqp
  have hN := hc.hn
  have hpqi : i < s.pq.length := by omega
  have hpqj : j < s.pq.length := by omega
  have hqpi' : pi < s.qp.length := by omega
  have hqpj' : pj < s.qp.length := by omega
  have hpinat : s.pqAt i = pi := by unfold pqAt; rw [hpi]; rfl
  have hpjnat : s.pqAt j = pj := by unfold pqAt; rw [hpj]; rfl
  have hswjj : swapIdx i j j = i := swapIdx_right i j
  -- description of the new pq
  have hpq : ∀ m, (s.exchange i j).pq.getD m none = s.pq.getD (swapIdx i j m) none := by
    intro m
    show ((s.pq.set i (s.pq.getD j none)).set j (s.pq.getD i none)).getD m none = _
    by_cases hmj : m = j
    · rw [hmj, hswjj, getD_set_self _ _ _ _ (by simpa using hpqj)]
    · by_cases hmi : m = i
      · rw [hmi, swapIdx_self, getD_set_ne _ _ _ (fun h => hmj (hmi ▸ h.symm)),
          getD_set_self _ _ _ _ hpqi]
      · rw [getD_set_ne _ _ _ (fun h => hmj h.symm), getD_set_ne _ _ _ (fun h => hmi h.symm),
          swapIdx_other hmi hmj]
  -- description of the new qp
  have hqp : ∀ q, (s.exchange i j).qp.getD q (-1) =
      if q = s.pqAt i then Int.ofNat j else if q = s.pqAt j then Int.ofNat i
      else s.qp.getD q (-1) := by
    intro q
    rw [hpinat, hpjnat]
    show ((s.qp.set ((s.pq.getD j none).getD 0) (Int.ofNat i)).set
      ((s.pq.getD i none).getD 0) (Int.ofNat j)).getD q (-1) = _
    rw [hpi, hpj]
    show ((s.qp.set pj (Int.ofNat i)).set pi (Int.ofNat j)).getD q (-1) = _
    by_cases hqpi2 : q = pi
    · rw [hqpi2, if_pos rfl, getD_set_self _ _ _ _ (by simpa using hqpi')]
    · rw [if_neg hqpi2, getD_set_ne _ _ _ (fun h => hqpi2 h.symm)]
      by_cases hqpj2 : q = pj
      · rw [hqpj2, if_pos rfl, getD_set_self _ _ _ _ hqpj']
      · rw [if_neg hqpj2, getD_set_ne _ _ _ (fun h => hqpj2 h.symm)]
  have hswap_range : ∀ m, 1 ≤ m → m ≤ s.n → 1 ≤ swapIdx i j m ∧ swapIdx i j m ≤ s.n := by
    intro m hm1 hm2
    by_cases h1 : m = i
    · rw [h1, swapIdx_self]; omega
    · by_cases h2 : m = j
      · rw [h2, hswjj]; omega
      · rw [swapIdx_other h1 h2]; omega
  have hkeys : (s.exchange i j).keys = s.keys := rfl
  have hn : (s.exchange i j).n = s.n := rfl
  -- slot keys
  have hsk : ∀ m, (s.exchange i j).slotKey m = s.slotKey (swapIdx i j m) := by
    intro m
    simp only [slotKey, keyAt, pqAt, hpq m, hkeys, hn]
  have hcore : Core (s.exchange i j) maxN := by
    refine ⟨by simpa [hkeys] using hc.hkeys, ?_, ?_, by simpa [hn] using hc.hn, ?_⟩
    · simpa [exchange] using hc.hpq
    · simpa [exchange] using hc.hqp
    · intro k hk1 hkn
      rw [hn] at hkn
      obtain ⟨hk1', hkn'⟩ := hswap_range k hk1 hkn
      obtain ⟨i', hi', hlt', hqp', hks'⟩ := hc.hslot (swapIdx i j k) hk1' hkn'
      refine ⟨i', by rw [hpq k, hi'], hlt', ?_, by simpa [hkeys] using hks'⟩
      rw [hqp i']
      -- the occupant of `swapIdx i j k` gets its qp entry redirected to `k`
      by_cases h1 : i' = s.pqAt i
      · -- occupant of slot i sits at swapIdx i j k, so swapIdx i j k = i, so k = j
        rw [if_pos h1]
        have hpieq : s.pq.getD (swapIdx i j k) none = some pi := by
          rw [hi', h1, hpinat]
        have hsw : swapIdx i j k = i :=
          hc.slot_inj hk1' hkn' hi1 hin hpieq hpi
        have hkj : k = j := by
          by_cases hki : k = i
          · rw [hki, swapIdx_self] at hsw; omega
          · by_cases hkj : k = j
            · exact hkj
            · rw [swapIdx_other hki hkj] at hsw; omega
        rw [hkj]
      · rw [if_neg h1]
        by_cases h2 : i' = s.pqAt j
        · rw [if_pos h2]
          have hpjeq : s.pq.getD (swapIdx i j k) none = some pj := by
            rw [hi', h2, hpjnat]
          have hsw : swapIdx i j k = j :=
            hc.slot_inj hk1' hkn' hj1 hjn hpjeq hpj
          have hki : k = i := by
            by_cases hki : k = i
            · exact hki
            · by_cases hkj : k = j
              · exfalso
                rw [hkj, hswjj] at hsw
                rw [hsw] at hpi
                rw [hpi] at hpj
                exact h1 (by rw [h2, hpinat, hpjnat]; exact (Option.some.inj hpj).symm)
              · rw [swapIdx_other hki hkj] at hsw; omega
          rw [hki]
        · rw [if_neg h2]
          have hsw : swapIdx i j k = k := by
            by_cases hki : k = i
            · exfalso
              rw [hki, swapIdx_self, hpj] at hi'
              exact h2 (by rw [hpjnat]; simpa using hi'.symm)
            · by_cases hkj : k = j
              · exfalso
                rw [hkj, hswjj, hpi] at hi'
                exact h1 (by rw [hpinat]; simpa using hi'.symm)
              · exact swapIdx_other hki hkj
          rw [hsw] at hqp'
          exact hqp'
  have hocc : ∀ q, isOcc (s.exchange i j) q ↔ isOcc s q := by
    intro q
    constructor
    · rintro ⟨k, hk1, hkn, hk⟩
      rw [hn] at hkn
      rw [hpq k] at hk
      exact ⟨swapIdx i j k, (hswap_range k hk1 hkn).1, (hswap_range k hk1 hkn).2, hk⟩
    · rintro ⟨k, hk1, hkn, hk⟩
      refine ⟨swapIdx i j k, (hswap_range k hk1 hkn).1, by rw [hn]; exact (hswap_range k hk1 hkn).2, ?_⟩
      rw [hpq (swapIdx i j k), swapIdx_invol]; exact hk
  refine ⟨hcore, ⟨hkeys, hn, by simp [exchange], by simp [exchange], ?_, ?_, hocc⟩, hpq, hqp, hsk⟩
  · intro m hm
    rw [hpq m, swapIdx_other (by omega) (by omega)]
  · intro q hq
    rw [hqp q]
    have h1 : q ≠ s.pqAt i := by
      intro h; subst h; exact hq ⟨i, hi1, hin, by rw [hpinat]; exact hpi⟩
    have h2 : q ≠ s.pqAt j := by
      intro h; subst h; exact hq ⟨j, hj1, hjn, by rw [hpjnat]; exact hpj⟩
    rw [if_neg h1, if_neg h2]

theorem greater_eq {s : IndexMinPQ α} {i j : Nat} {a b : α}
    (ha : s.slotKey i = some a) (hb : s.slotKey j = some b) :
    s.greater i j = decide (b < a) := by
  unfold greater
  rw [ha, hb]

/-- Heap order holding at every parent edge except possibly the one into
slot `t`. -/
def OrdExcept (s : IndexMinPQ α) (t : Nat) : Prop :=
  ∀ k, 2 ≤ k → k ≤ s.n → k ≠ t → ∀ a b,
    s.slotKey (k / 2) = some a → s.slotKey k = some b → a ≤ b

/-- The key of slot `t`'s parent bounds the keys of `t`'s children (the
bridging fact that `_swim` maintains as the hole moves up). -/
def SwimBridge (s : IndexMinPQ α) (t : Nat) : Prop :=
  ∀ c, 2 ≤ c → c ≤ s.n → c / 2 = t → 2 ≤ t → ∀ a b,
    s.slotKey (t / 2) = some a → s.slotKey c = some b → a ≤ b

/-- Main specification of the `_swim` loop: on a structurally well-formed
state whose heap order can only be broken at the edge into slot `t`
(with the bridging condition), the loop restores full heap order and
changes nothing observable. -/
theorem swimAux_spec {maxN : Nat} : ∀ (fuel t : Nat) (s : IndexMinPQ α),
    Core s maxN → 1 ≤ t → t ≤ s.n → t ≤ fuel →
    OrdExcept s t → SwimBridge s t →
    Core (swimAux fuel s t) maxN ∧ Ord (swimAux fuel s t) ∧
      Unch s (swimAux fuel s t) := by
  intro fuel
  induction fuel with
  | zero => intro t s _ ht1 _ htf _ _; omega
  | succ fuel ih =>
    intro t s hc ht1 htn htf hOE hBR
    rw [swimAux]
    by_cases hg : 1 < t ∧ s.greater (t / 2) t
    · rw [if_pos hg]
      obtain ⟨ht2, hgr⟩ := hg
      have hp1 : 1 ≤ t / 2 := by omega
      have hpn : t / 2 ≤ s.n := by omega
      have hpt : t / 2 ≠ t := by omega
      obtain ⟨a, ha⟩ := hc.slotKey_isSome hp1 hpn
      obtain ⟨b, hb⟩ := hc.slotKey_isSome ht1 htn
      have hba : b < a := by
        have := greater_eq ha hb
        rw [hgr] at this
        exact of_decide_eq_true this.symm
      obtain ⟨hc', hu', hpq', hqp', hsk'⟩ := exchange_spec hc ht1 htn hp1 hpn
      set p := t / 2 with hpdef
      set s' := s.exchange t p with hs'def
      have hn' : s'.n = s.n := hu'.hn
      -- keys of the exchanged state
      have hkt : s'.slotKey t = some a := by rw [hsk' t, swapIdx_self, ha]
      have hkp : s'.slotKey p = some b := by rw [hsk' p, swapIdx_right, hb]
      have hkother : ∀ m, m ≠ t → m ≠ p → s'.slotKey m = s.slotKey m := by
        intro m hmt hmp
        rw [hsk' m, swapIdx_other hmt hmp]
      -- heap order of s' may only be broken at the edge into p
      have hOE' : OrdExcept s' p := by
        intro k hk2 hkn hkp' a' b' ha' hb'
        rw [hn'] at hkn
        by_cases hkt' : k = t
        · -- the swapped edge (p, t) now holds
          rw [hkt'] at ha' hb'
          rw [← hpdef] at ha'
          rw [hkp] at ha'
          rw [hkt] at hb'
          obtain rfl : b = a' := by simpa using ha'
          obtain rfl : a = b' := by simpa using hb'
          exact hba.le
        · by_cases hk2t : k / 2 = t
          · -- k is a child of t: grandparent-to-child bound
            have hknp : k ≠ p := hkp'
            rw [hk2t] at ha'
            rw [hkt] at ha'
            obtain rfl : a = a' := by simpa using ha'
            rw [hkother k hkt' hknp] at hb'
            exact hBR k hk2 hkn hk2t ht2 a b' ha hb'
          · by_cases hk2p : k / 2 = p
            · -- k is t's sibling under p
              rw [hk2p, hkp] at ha'
              obtain rfl : b = a' := by simpa using ha'
              rw [hkother k hkt' hkp'] at hb'
              have h1 : a ≤ b' := hOE k hk2 hkn hkt' a b' (by rw [hk2p]; exact ha) hb'
              exact (hba.trans_le h1).le
            · rw [hkother (k / 2) hk2t hk2p] at ha'
              rw [hkother k hkt' hkp'] at hb'
              exact hOE k hk2 hkn hkt' a' b' ha' hb'
      -- the bridging condition moves up with the hole
      have hBR' : SwimBridge s' p := by
        intro c hc2 hcn hc2p hp2 a' b' ha' hb'
        rw [hn'] at hcn
        have hp2t : p / 2 ≠ t := by omega
        have hp2p : p / 2 ≠ p := by omega
        rw [hkother (p / 2) hp2t hp2p] at ha'
        have h1 : a' ≤ a := hOE p hp2 hpn hpt a' a ha' ha
        by_cases hct : c = t
        · rw [hct, hkt] at hb'
          obtain rfl : a = b' := by simpa using hb'
          exact h1
        · have hcp : c ≠ p := by omega
          rw [hkother c hct hcp] at hb'
          have h2 : a ≤ b' := hOE c hc2 hcn hct a b' (by rw [hc2p]; exact ha) hb'
          exact h1.trans h2
      have ihres := ih p s' hc' hp1 (by rw [hn']; exact hpn) (by omega) hOE' hBR'
      exact ⟨ihres.1, ihres.2.1, hu'.trans ihres.2.2⟩
    · rw [if_neg hg]
      refine ⟨hc, ?_, Unch.rfl s⟩
      intro k hk2 hkn a b ha hb
      by_cases hkt : k = t
      · have ht2 : 1 < t := by omega
        have hgr : ¬ (s.greater (t / 2) t = true) := fun h => hg ⟨ht2, h⟩
        rw [hkt] at ha hb
        rw [greater_eq ha hb] at hgr
        simpa using not_lt.mp (by simpa using hgr)
      · exact hOE k hk2 hkn hkt a b ha hb

/-- Heap order except possibly at the edges from slot `t` down to its
children. -/
def OrdExceptDown (s : IndexMinPQ α) (t : Nat) : Prop :=
  ∀ k, 2 ≤ k → k ≤ s.n → k / 2 ≠ t → ∀ a b,
    s.slotKey (k / 2) = some a → s.slotKey k = some b → a ≤ b

theorem ord_of_no_children {s : IndexMinPQ α} {t : Nat}
    (hOED : OrdExceptDown s t) (h : s.n < 2 * t) : Ord s :=
  fun k hk2 hkn a b ha hb =>
    hOED k hk2 hkn (fun h2 => by omega) a b ha hb

/-- One step of the `_sink` loop: the comparison of slot `t` against its
smaller child `j'` either stops with full heap order or exchanges and
recurses with the broken edges moved down to `j'`. -/
theorem sinkAux_step {maxN fuel : Nat}
    (ih : ∀ (t : Nat) (s : IndexMinPQ α), Core s maxN → 1 ≤ t →
      s.n + 1 ≤ fuel + t → OrdExceptDown s t → SwimBridge s t →
      Core (sinkAux fuel s t) maxN ∧ Ord (sinkAux fuel s t) ∧
        Unch s (sinkAux fuel s t))
    {s : IndexMinPQ α} {t j' : Nat} {kt kj' : α}
    (hc : Core s maxN) (ht1 : 1 ≤ t) (htf : s.n + 1 ≤ (fuel + 1) + t)
    (hOED : OrdExceptDown s t) (hBR : SwimBridge s t) (h2t : 2 * t ≤ s.n)
    (hkt : s.slotKey t = some kt) (hkj' : s.slotKey j' = some kj')
    (hj'2 : 2 ≤ j') (hj'n : j' ≤ s.n) (hj'div : j' / 2 = t)
    (hmin : ∀ c, 2 ≤ c → c ≤ s.n → c / 2 = t → ∀ b,
      s.slotKey c = some b → kj' ≤ b) :
    Core (if s.greater j' t then s else sinkAux fuel (s.exchange t j') j') maxN ∧
    Ord (if s.greater j' t then s else sinkAux fuel (s.exchange t j') j') ∧
    Unch s (if s.greater j' t then s else sinkAux fuel (s.exchange t j') j') := by
  have htj' : t < j' := by omega
  by_cases hgr : s.greater j' t = true
  · rw [if_pos hgr]
    have hktkj : kt < kj' := by
      have := greater_eq hkj' hkt
      rw [hgr] at this
      exact of_decide_eq_true this.symm
    refine ⟨hc, ?_, Unch.rfl s⟩
    intro k hk2 hkn a b ha hb
    by_cases hk2t : k / 2 = t
    · rw [hk2t, hkt] at ha
      obtain rfl : kt = a := by simpa using ha
      exact (hktkj.trans_le (hmin k hk2 hkn hk2t b hb)).le
    · exact hOED k hk2 hkn hk2t a b ha hb
  · rw [if_neg hgr]
    have hkj'kt : kj' ≤ kt := by
      rw [greater_eq hkj' hkt] at hgr
      exact not_lt.mp (by simpa using hgr)
    obtain ⟨hc', hu', hpq', hqp', hsk'⟩ :=
      exchange_spec hc ht1 (by omega) (by omega) hj'n
    have hn' : (s.exchange t j').n = s.n := hu'.hn
    have hknew_t : (s.exchange t j').slotKey t = some kj' := by
      rw [hsk' t, swapIdx_self, hkj']
    have hknew_j : (s.exchange t j').slotKey j' = some kt := by
      rw [hsk' j', swapIdx_right, hkt]
    have hkoth : ∀ m, m ≠ t → m ≠ j' →
        (s.exchange t j').slotKey m = s.slotKey m := by
      intro m h1 h2
      rw [hsk' m, swapIdx_other h1 h2]
    have hOED' : OrdExceptDown (s.exchange t j') j' := by
      intro k hk2 hkn hk2j a' b' ha' hb'
      rw [hn'] at hkn
      by_cases hkeq : k = j'
      · rw [hkeq, hj'div] at ha'
        rw [hknew_t] at ha'
        obtain rfl : kj' = a' := by simpa using ha'
        rw [hkeq, hknew_j] at hb'
        obtain rfl : kt = b' := by simpa using hb'
        exact hkj'kt
      · by_cases hkt2 : k = t
        · rw [hkt2] at ha' hb' hk2
          rw [hknew_t] at hb'
          obtain rfl : kj' = b' := by simpa using hb'
          rw [hkoth (t / 2) (by omega) (by omega)] at ha'
          exact hBR j' hj'2 hj'n hj'div hk2 a' kj' ha' hkj'
        · by_cases hk2t : k / 2 = t
          · rw [hk2t, hknew_t] at ha'
            obtain rfl : kj' = a' := by simpa using ha'
            rw [hkoth k hkt2 hkeq] at hb'
            exact hmin k hk2 hkn hk2t b' hb'
          · rw [hkoth (k / 2) hk2t hk2j] at ha'
            rw [hkoth k hkt2 hkeq] at hb'
            exact hOED k hk2 hkn hk2t a' b' ha' hb'
    have hBR' : SwimBridge (s.exchange t j') j' := by
      intro c hc2 hcn hcdiv hj2 a' b' ha' hb'
      rw [hn'] at hcn
      rw [hj'div, hknew_t] at ha'
      obtain rfl : kj' = a' := by simpa using ha'
      have hct : c ≠ t := by omega
      have hcj : c ≠ j' := by omega
      rw [hkoth c hct hcj] at hb'
      exact hOED c hc2 hcn (by omega) kj' b' (by rw [hcdiv]; exact hkj') hb'
    have ihres := ih j' (s.exchange t j') hc' (by omega)
      (by rw [hn']; omega) hOED' hBR'
    exact ⟨ihres.1, ihres.2.1, hu'.trans ihres.2.2⟩

/-- Main specification of the `_sink` loop: on a structurally well-formed
state whose heap order can only be broken on the edges from slot `t` to
its children (with the same bridging condition as for `_swim`), the loop
restores full heap order and changes nothing observable. -/
theorem sinkAux_spec {maxN : Nat} : ∀ (fuel t : Nat) (s : IndexMinPQ α),
    Core s maxN → 1 ≤ t → s.n + 1 ≤ fuel + t →
    OrdExceptDown s t → SwimBridge s t →
    Core (sinkAux fuel s t) maxN ∧ Ord (sinkAux fuel s t) ∧
      Unch s (sinkAux fuel s t) := by
  intro fuel
  induction fuel with
  | zero =>
    intro t s hc ht1 htf hOED hBR
    simp only [sinkAux]
    exact ⟨hc, ord_of_no_children hOED (by omega), Unch.rfl s⟩
  | succ fuel ih =>
    intro t s hc ht1 htf hOED hBR
    simp only [sinkAux]
    by_cases hguard : 1 ≤ t ∧ 2 * t ≤ s.n
    · rw [if_pos hguard]
      obtain ⟨-, h2t⟩ := hguard
      have htn : t ≤ s.n := by omega
      obtain ⟨kt, hkt⟩ := hc.slotKey_isSome ht1 htn
      obtain ⟨kj, hkj⟩ := hc.slotKey_isSome (k := 2 * t) (by omega) h2t
      -- the chosen child j' and its properties
      by_cases hcond : 2 * t < s.n ∧ s.greater (2 * t) (2 * t + 1)
      · -- j' = 2t + 1, whose key is strictly below its sibling's
        rw [if_pos hcond]
        obtain ⟨hlt, hgr⟩ := hcond
        obtain ⟨kj1, hkj1⟩ := hc.slotKey_isSome (k := 2 * t + 1) (by omega) (by omega)
        have hkj1kj : kj1 < kj := by
          have := greater_eq hkj hkj1
          rw [hgr] at this
          exact of_decide_eq_true this.symm
        have hmin : ∀ c, 2 ≤ c → c ≤ s.n → c / 2 = t → ∀ b,
            s.slotKey c = some b → kj1 ≤ b := by
          intro c hc2 hcn hc2t b hb
          have : c = 2 * t ∨ c = 2 * t + 1 := by omega
          rcases this with rfl | rfl
          · rw [hkj] at hb
            obtain rfl : kj = b := by simpa using hb
            exact hkj1kj.le
          · rw [hkj1] at hb
            obtain rfl : kj1 = b := by simpa using hb
            exact le_rfl
        exact sinkAux_step ih hc ht1 htf hOED hBR h2t hkt hkj1 (by omega) (by omega) (by omega) hmin
      · rw [if_neg hcond]
        have hmin : ∀ c, 2 ≤ c → c ≤ s.n → c / 2 = t → ∀ b,
            s.slotKey c = some b → kj ≤ b := by
          intro c hc2 hcn hc2t b hb
          have hcc : c = 2 * t ∨ c = 2 * t + 1 := by omega
          rcases hcc with rfl | rfl
          · rw [hkj] at hb
            obtain rfl : kj = b := by simpa using hb
            exact le_rfl
          · obtain ⟨kj1, hkj1⟩ := hc.slotKey_isSome (k := 2 * t + 1) (by omega) hcn
            have hngr : ¬ (s.greater (2 * t) (2 * t + 1) = true) := by
              intro h
              exact hcond ⟨by omega, h⟩
            rw [greater_eq hkj hkj1] at hngr
            have : ¬ kj1 < kj := by simpa using hngr
            rw [hkj1] at hb
            obtain rfl : kj1 = b := by simpa using hb
            exact not_lt.mp this
        exact sinkAux_step ih hc ht1 htf hOED hBR h2t hkt hkj (by omega) h2t (by omega) hmin
    · rw [if_neg hguard]
      have : s.n < 2 * t := by omega
      exact ⟨hc, ord_of_no_children hOED this, Unch.rfl s⟩

theorem swim_spec {maxN : Nat} {s : IndexMinPQ α} (hc : Core s maxN) {t : Nat}
    (ht1 : 1 ≤ t) (htn : t ≤ s.n) (hOE : OrdExcept s t) (hBR : SwimBridge s t) :
    Core (s.swim t) maxN ∧ Ord (s.swim t) ∧ Unch s (s.swim t) :=
  swimAux_spec t t s hc ht1 htn le_rfl hOE hBR

theorem sink_spec {maxN : Nat} {s : IndexMinPQ α} (hc : Core s maxN) {t : Nat}
    (ht1 : 1 ≤ t) (hOED : OrdExceptDown s t) (hBR : SwimBridge s t) :
    Core (s.sink t) maxN ∧ Ord (s.sink t) ∧ Unch s (s.sink t) :=
  sinkAux_spec s.n t s hc ht1 (by omega) hOED hBR

theorem contains_iff {s : IndexMinPQ α} {i : Nat} :
    s.contains i = true ↔ s.qp.getD i (-1) ≠ -1 := by
  simp [contains]

theorem contains_false_iff {s : IndexMinPQ α} {i : Nat} :
    s.contains i = false ↔ s.qp.getD i (-1) = -1 := by
  simp [contains]

theorem contains_of_occ {maxN : Nat} {s : IndexMinPQ α} (hc : Core s maxN)
    {i : Nat} (h : isOcc s i) : s.contains i = true := by
  obtain ⟨k, hk1, hkn, hk⟩ := h
  have := (hc.qp_of_slot hk1 hkn hk).2.1
  rw [contains_iff, this]
  intro hcon
  simp at hcon

theorem occ_of_contains {s : IndexMinPQ α} (hq : QpMem s) {i : Nat}
    (h : s.contains i = true) :
    ∃ k, 1 ≤ k ∧ k ≤ s.n ∧ s.pq.getD k none = some i ∧
      s.qp.getD i (-1) = Int.ofNat k := by
  obtain ⟨k, hk1, hkn, he, hp⟩ := hq i (contains_iff.mp h)
  exact ⟨k, hk1, hkn, hp, he⟩

theorem slotKey_eq_keyAt {s : IndexMinPQ α} {k i : Nat}
    (h : s.pq.getD k none = some i) : s.slotKey k = s.keyAt i := by
  unfold slotKey
  have : s.pqAt k = i := by unfold pqAt; rw [h]; rfl
  rw [this]

/-- The root of a well-ordered heap bounds every occupied slot. -/
theorem root_min {maxN : Nat} {s : IndexMinPQ α} (hc : Core s maxN) (ho : Ord s) :
    ∀ k, 1 ≤ k → k ≤ s.n → ∀ a b,
      s.slotKey 1 = some a → s.slotKey k = some b → a ≤ b := by
  intro k
  induction k using Nat.strong_induction_on with
  | _ k ih =>
    intro hk1 hkn a b ha hb
    by_cases hk : k = 1
    · rw [hk] at hb
      rw [ha] at hb
      obtain rfl : a = b := by simpa using hb
      exact le_rfl
    · have hk2 : 2 ≤ k := by omega
      obtain ⟨c, hcval⟩ := hc.slotKey_isSome (k := k / 2) (by omega) (by omega)
      have h1 : a ≤ c := ih (k / 2) (by omega) (by omega) (by omega) a c ha hcval
      exact h1.trans (ho k hk2 hkn c b hcval hb)

/-- Transfer `QpMem` across an operation, given that every live `qp` entry
of the starting state belongs to an occupant. -/
theorem qpmem_transfer {maxN : Nat} {s s' : IndexMinPQ α} (hc' : Core s' maxN)
    (hu : Unch s s') (h : ∀ q, s.qp.getD q (-1) ≠ -1 → isOcc s q) :
    QpMem s' := by
  intro q hq
  have hocc : isOcc s' q := by
    by_contra hno
    have hno' : ¬ isOcc s q := fun hx => hno ((hu.hocc q).mpr hx)
    rw [hu.hqpun q hno'] at hq
    exact hno ((hu.hocc q).mpr (h q hq))
  obtain ⟨k, hk1, hkn, hk⟩ := hocc
  exact ⟨k, hk1, hkn, (hc'.qp_of_slot hk1 hkn hk).2.1, hk⟩

/-- `IndexMinPQ.__init__` yields a well-formed empty queue. -/
theorem new_wf (maxN : Nat) : WF (new α maxN) maxN := by
  refine ⟨⟨?_, ?_, ?_, ?_, ?_⟩, ?_, ?_⟩
  · simp [new]
  · simp [new]
  · simp [new]
  · exact Nat.zero_le maxN
  · intro k hk1 hkn
    exact absurd (hk1.trans hkn) (by simp [new])
  · intro i hi
    exfalso
    apply hi
    by_cases h : i < maxN + 1
    · exact getD_replicate_lt _ _ h
    · exact getD_oob _ _ (by simpa [new] using Nat.le_of_not_lt h)
  · intro k hk2 hkn
    exact absurd (le_trans hk2 hkn) (by simp [new])

/-- Full specification of `insert` on a fresh in-range index with spare
capacity: it succeeds, preserves well-formedness, and adds exactly the
entry `(i, key)`. -/
theorem insert_spec {maxN : Nat} {s : IndexMinPQ α} (h : WF s maxN)
    {i : Nat} (hi : i < maxN) (hni : s.contains i = false) (hroom : s.n < maxN)
    (key : α) :
    ∃ s', s.insert i key = .ok s' ∧ WF s' maxN ∧ s'.n = s.n + 1 ∧
      s'.contains i = true ∧ s'.keyAt i = some key ∧
      (∀ j, j ≠ i → s'.contains j = s.contains j ∧ s'.keyAt j = s.keyAt j) := by
  obtain ⟨hc, hq, ho⟩ := h
  have hLk := hc.hkeys
  have hLp := hc.hpq
  have hLq := hc.hqp
  have hN := hc.hn
  have hqpi : s.qp.getD i (-1) = -1 := contains_false_iff.mp hni
  have hguard : s.n + 1 < s.pq.length ∧ i < s.qp.length ∧ i < s.keys.length := by
    omega
  have hnotocc : ∀ k, 1 ≤ k → k ≤ s.n → s.pq.getD k none ≠ some i := by
    intro k hk1 hkn hk
    have := (hc.qp_of_slot hk1 hkn hk).2.1
    rw [hqpi] at this
    simp at this
  set s1 : IndexMinPQ α :=
    { keys := s.keys.set i (some key),
      pq := s.pq.set (s.n + 1) (some i),
      qp := s.qp.set i (Int.ofNat (s.n + 1)),
      n := s.n + 1 } with hs1
  have heq : s.insert i key = .ok (s1.swim (s.n + 1)) := by
    rw [insert, if_pos hguard]
  -- facts about s1
  have hs1pq_top : s1.pq.getD (s.n + 1) none = some i := by
    show (s.pq.set (s.n + 1) (some i)).getD (s.n + 1) none = some i
    exact getD_set_self _ _ _ _ (by omega)
  have hs1pq_low : ∀ k, k ≠ s.n + 1 → s1.pq.getD k none = s.pq.getD k none := by
    intro k hk
    exact getD_set_ne _ _ _ (fun h2 => hk h2.symm)
  have hs1qp_i : s1.qp.getD i (-1) = Int.ofNat (s.n + 1) := by
    show (s.qp.set i (Int.ofNat (s.n + 1))).getD i (-1) = _
    exact getD_set_self _ _ _ _ (by omega)
  have hs1qp_ne : ∀ q, q ≠ i → s1.qp.getD q (-1) = s.qp.getD q (-1) := by
    intro q hq2
    exact getD_set_ne _ _ _ (fun h2 => hq2 h2.symm)
  have hs1keys_i : s1.keys.getD i none = some key := by
    show (s.keys.set i (some key)).getD i none = _
    exact getD_set_self _ _ _ _ (by omega)
  have hs1keys_ne : ∀ q, q ≠ i → s1.keys.getD q none = s.keys.getD q none := by
    intro q hq2
    exact getD_set_ne _ _ _ (fun h2 => hq2 h2.symm)
  have hc1 : Core s1 maxN := by
    refine ⟨by simpa using hLk, by simpa using hLp, by simpa using hLq,
      by show s.n + 1 ≤ maxN; omega, ?_⟩
    intro k hk1 hkn
    by_cases hk : k = s.n + 1
    · refine ⟨i, by rw [hk]; exact hs1pq_top, hi, by rw [hk] at hkn ⊢; exact hs1qp_i, ?_⟩
      rw [hs1keys_i]; rfl
    · have hkn' : k ≤ s.n := by
        have : s1.n = s.n + 1 := rfl
        omega
      obtain ⟨i', hi', hlt', hqp', hks'⟩ := hc.hslot k hk1 hkn'
      have hii : i' ≠ i := fun h2 => hnotocc k hk1 hkn' (h2 ▸ hi')
      refine ⟨i', by rw [hs1pq_low k hk]; exact hi', hlt', ?_, ?_⟩
      · rw [hs1qp_ne i' hii]; exact hqp'
      · rw [hs1keys_ne i' hii]; exact hks'
  have hsk1_low : ∀ m, 1 ≤ m → m ≤ s.n → s1.slotKey m = s.slotKey m := by
    intro m hm1 hmn
    obtain ⟨i', hi', _, _, _⟩ := hc.hslot m hm1 hmn
    have hii : i' ≠ i := fun h2 => hnotocc m hm1 hmn (h2 ▸ hi')
    rw [slotKey_eq_keyAt (by rw [hs1pq_low m (by omega)]; exact hi'),
      slotKey_eq_keyAt hi']
    unfold keyAt
    exact hs1keys_ne i' hii
  have hOE1 : OrdExcept s1 (s.n + 1) := by
    intro k hk2 hkn hkne a b ha hb
    have hkn' : k ≤ s.n := by
      have : s1.n = s.n + 1 := rfl
      omega
    rw [hsk1_low k (by omega) hkn'] at hb
    rw [hsk1_low (k / 2) (by omega) (by omega)] at ha
    exact ho k hk2 hkn' a b ha hb
  have hBR1 : SwimBridge s1 (s.n + 1) := by
    intro c hc2 hcn hcdiv h2 a b ha hb
    have : s1.n = s.n + 1 := rfl
    omega
  obtain ⟨hc', hord', hu'⟩ := swim_spec hc1 (t := s.n + 1) (by omega) (le_of_eq rfl) hOE1 hBR1
  refine ⟨s1.swim (s.n + 1), heq, ⟨hc', ?_, hord'⟩, ?_, ?_, ?_, ?_⟩
  · -- QpMem
    refine qpmem_transfer hc' hu' ?_
    intro q hq2
    by_cases hqi : q = i
    · exact ⟨s.n + 1, by omega, le_of_eq rfl, by rw [hqi]; exact hs1pq_top⟩
    · rw [hs1qp_ne q hqi] at hq2
      obtain ⟨k, hk1, hkn, _, hp⟩ := hq q hq2
      exact ⟨k, hk1, by
        have : s1.n = s.n + 1 := rfl
        omega, by rw [hs1pq_low k (by omega)]; exact hp⟩
  · rw [hu'.hn]
  · apply contains_of_occ hc'
    rw [hu'.hocc]
    exact ⟨s.n + 1, by omega, le_of_eq rfl, hs1pq_top⟩
  · show (s1.swim (s.n + 1)).keys.getD i none = some key
    rw [hu'.hkeys]
    exact hs1keys_i
  · intro j hj
    constructor
    · by_cases hjo : isOcc s j
      · have h1 : s.contains j = true := contains_of_occ hc hjo
        have h2 : isOcc s1 j := by
          obtain ⟨k, hk1, hkn, hk⟩ := hjo
          exact ⟨k, hk1, by
            have : s1.n = s.n + 1 := rfl
            omega, by rw [hs1pq_low k (by omega)]; exact hk⟩
        rw [h1]
        exact contains_of_occ hc' ((hu'.hocc j).mpr h2)
      · have h2 : ¬ isOcc s1 j := by
          rintro ⟨k, hk1, hkn, hk⟩
          by_cases hk2 : k = s.n + 1
          · rw [hk2, hs1pq_top] at hk
            exact hj (by simpa using hk.symm)
          · have hkn' : k ≤ s.n := by
              have : s1.n = s.n + 1 := rfl
              omega
            rw [hs1pq_low k hk2] at hk
            exact hjo ⟨k, hk1, hkn', hk⟩
        have e1 : (s1.swim (s.n + 1)).qp.getD j (-1) = s1.qp.getD j (-1) :=
          hu'.hqpun j h2
        show ((s1.swim (s.n + 1)).qp.getD j (-1) != -1) = (s.qp.getD j (-1) != -1)
        rw [e1, hs1qp_ne j hj]
    · show (s1.swim (s.n + 1)).keys.getD j none = s.keys.getD j none
      rw [hu'.hkeys]
      exact hs1keys_ne j hj

/-- Full specification of `decrease_key` on a contained index with a
strictly smaller key: it succeeds, preserves well-formedness, and updates
exactly the entry for `i`. -/
theorem decrease_key_spec {maxN : Nat} {s : IndexMinPQ α} (h : WF s maxN)
    {i : Nat} {cur : α} (hcont : s.contains i = true) (hcur : s.keyAt i = some cur)
    {key : α} (hlt : key < cur) :
    ∃ s', s.decrease_key i key = .ok s' ∧ WF s' maxN ∧ s'.n = s.n ∧
      s'.contains i = true ∧ s'.keyAt i = some key ∧
      (∀ j, j ≠ i → s'.contains j = s.contains j ∧ s'.keyAt j = s.keyAt j) := by
  obtain ⟨hc, hq, ho⟩ := h
  obtain ⟨k, hk1, hkn, hpk, hqpk⟩ := occ_of_contains hq hcont
  have hilen : i < s.qp.length := by
    by_contra hbig
    rw [getD_oob _ _ (Nat.le_of_not_lt hbig)] at hqpk
    simp at hqpk
  have hiklen : i < s.keys.length := by
    have := hc.hkeys; have := hc.hqp; omega
  set s1 : IndexMinPQ α := { s with keys := s.keys.set i (some key) } with hs1
  have harg : (s.qp.getD i (-1)).toNat = k := by
    rw [hqpk]; rfl
  have heq : s.decrease_key i key = .ok (s1.swim k) := by
    rw [decrease_key, if_pos hiklen]
    have hcur' : s.keys.getD i none = some cur := hcur
    rw [hcur']
    show (if key < cur then
        Except.ok (s1.swim (s.qp.getD i (-1)).toNat)
      else Except.error PQError.valueError) = Except.ok (s1.swim k)
    rw [if_pos hlt, harg]
  have hnotocc : ∀ m, 1 ≤ m → m ≤ s.n → m ≠ k → s.pq.getD m none ≠ some i := by
    intro m hm1 hmn hmk hm
    exact hmk (hc.slot_inj hm1 hmn hk1 hkn hm hpk)
  have hskk : s1.slotKey k = some key := by
    rw [slotKey_eq_keyAt (s := s1) hpk]
    show (s.keys.set i (some key)).getD i none = some key
    exact getD_set_self _ _ _ _ hiklen
  have hskother : ∀ m, 1 ≤ m → m ≤ s.n → m ≠ k → s1.slotKey m = s.slotKey m := by
    intro m hm1 hmn hmk
    obtain ⟨i', hi', _, _, _⟩ := hc.hslot m hm1 hmn
    have hii : i' ≠ i := fun h2 => hnotocc m hm1 hmn hmk (h2 ▸ hi')
    rw [slotKey_eq_keyAt (s := s1) hi', slotKey_eq_keyAt hi']
    show (s.keys.set i (some key)).getD i' none = s.keys.getD i' none
    exact getD_set_ne _ _ _ (fun h2 => hii h2.symm)
  have hsks : s.slotKey k = some cur := by
    rw [slotKey_eq_keyAt hpk]; exact hcur
  have hc1 : Core s1 maxN := by
    refine ⟨by simpa using hc.hkeys, hc.hpq, hc.hqp, hc.hn, ?_⟩
    intro m hm1 hmn
    obtain ⟨i', hi', hlt', hqp', hks'⟩ := hc.hslot m hm1 hmn
    refine ⟨i', hi', hlt', hqp', ?_⟩
    by_cases hii : i' = i
    · rw [hii]
      show ((s.keys.set i (some key)).getD i none).isSome = true
      rw [getD_set_self _ _ _ _ hiklen]; rfl
    · show ((s.keys.set i (some key)).getD i' none).isSome = true
      rw [getD_set_ne _ _ _ (fun h2 => hii h2.symm)]; exact hks'
  have hOE1 : OrdExcept s1 k := by
    intro m hm2 hmn hmk a b ha hb
    have hmn : m ≤ s.n := by
      have : s1.n = s.n := rfl
      omega
    by_cases hm2k : m / 2 = k
    · rw [hm2k, hskk] at ha
      obtain rfl : key = a := by simpa using ha
      rw [hskother m (by omega) hmn hmk] at hb
      have hold : cur ≤ b := ho m hm2 hmn cur b (by rw [hm2k]; exact hsks) hb
      exact (hlt.trans_le hold).le
    · rw [hskother (m / 2) (by omega) (by omega) hm2k] at ha
      rw [hskother m (by omega) hmn hmk] at hb
      exact ho m hm2 hmn a b ha hb
  have hBR1 : SwimBridge s1 k := by
    intro c hc2 hcn hcdiv hk2 a b ha hb
    have hcn : c ≤ s.n := by
      have : s1.n = s.n := rfl
      omega
    rw [hskother (k / 2) (by omega) (by omega) (by omega)] at ha
    rw [hskother c (by omega) hcn (by omega)] at hb
    have h1 : a ≤ cur := ho k hk2 hkn a cur ha hsks
    have h2 : cur ≤ b := ho c hc2 hcn cur b (by rw [hcdiv]; exact hsks) hb
    exact h1.trans h2
  obtain ⟨hc', hord', hu'⟩ := swim_spec hc1 hk1 hkn hOE1 hBR1
  have hocc1 : ∀ q, isOcc s1 q ↔ isOcc s q := fun q => Iff.rfl
  refine ⟨s1.swim k, heq, ⟨hc', ?_, hord'⟩, by rw [hu'.hn], ?_, ?_, ?_⟩
  · refine qpmem_transfer hc' hu' ?_
    intro q hq2
    obtain ⟨m, hm1, hmn, _, hp⟩ := hq q hq2
    exact ⟨m, hm1, hmn, hp⟩
  · apply contains_of_occ hc'
    rw [hu'.hocc]
    exact ⟨k, hk1, hkn, hpk⟩
  · show (s1.swim k).keys.getD i none = some key
    rw [hu'.hkeys]
    show (s.keys.set i (some key)).getD i none = some key
    exact getD_set_self _ _ _ _ hiklen
  · intro j hj
    constructor
    · by_cases hjo : isOcc s j
      · rw [contains_of_occ hc hjo]
        exact contains_of_occ hc' ((hu'.hocc j).mpr hjo)
      · have e1 : (s1.swim k).qp.getD j (-1) = s1.qp.getD j (-1) := hu'.hqpun j hjo
        show ((s1.swim k).qp.getD j (-1) != -1) = (s.qp.getD j (-1) != -1)
        rw [e1]
    · show (s1.swim k).keys.getD j none = s.keys.getD j none
      rw [hu'.hkeys]
      show (s.keys.set i (some key)).getD j none = s.keys.getD j none
      exact getD_set_ne _ _ _ (fun h2 => hj h2.symm)

/-- `del_min` on an empty queue raises `HeapEmptyError`. -/
theorem del_min_empty {s : IndexMinPQ α} (h : s.n = 0) :
    s.del_min = .error .heapEmpty := by
  rw [del_min, if_pos h]

/-- Full specification of `del_min` on a nonempty well-formed queue: it
returns a contained index whose key is minimal among all contained
indices, removes exactly that index, and preserves well-formedness. -/
theorem del_min_spec {maxN : Nat} {s : IndexMinPQ α} (h : WF s maxN)
    (hne : s.n ≠ 0) :
    ∃ r s', s.del_min = .ok (r, s') ∧
      s.contains r = true ∧
      (∀ j a b, s.contains j = true → s.keyAt r = some a →
        s.keyAt j = some b → a ≤ b) ∧
      WF s' maxN ∧ s'.n = s.n - 1 ∧ s'.contains r = false ∧
      (∀ j, j ≠ r → s'.contains j = s.contains j ∧ s'.keyAt j = s.keyAt j) := by
  obtain ⟨hc, hq, ho⟩ := h
  have hn1 : 1 ≤ s.n := Nat.one_le_iff_ne_zero.mpr hne
  obtain ⟨r, hr, hrlt, hqpr, hkr⟩ := hc.hslot 1 le_rfl hn1
  obtain ⟨rn, hrn, hrnlt, hqprn, hkrn⟩ := hc.hslot s.n hn1 le_rfl
  have hrAt : s.pqAt 1 = r := by unfold pqAt; rw [hr]; rfl
  have hrnAt : s.pqAt s.n = rn := by unfold pqAt; rw [hrn]; rfl
  obtain ⟨hc1, hu1, hpq1, hqp1, hsk1⟩ :=
    exchange_spec (i := 1) (j := s.n) hc le_rfl hn1 hn1 le_rfl
  set s1 := s.exchange 1 s.n with hs1def
  have hn1' : s1.n = s.n := hu1.hn
  set s2 : IndexMinPQ α := { s1 with n := s1.n - 1 } with hs2def
  have hs2n : s2.n = s.n - 1 := by show s1.n - 1 = s.n - 1; rw [hn1']
  have hc2 : Core s2 maxN := by
    refine ⟨hc1.hkeys, hc1.hpq, hc1.hqp, ?_, ?_⟩
    · show s1.n - 1 ≤ maxN
      have := hc.hn
      omega
    · intro k hk1 hkn
      rw [hs2n] at hkn
      exact hc1.hslot k hk1 (by omega)
  have hOED2 : OrdExceptDown s2 1 := by
    intro k hk2 hkn hk2ne a b ha hb
    rw [hs2n] at hkn
    have e1 : s2.slotKey k = s.slotKey k := by
      show s1.slotKey k = s.slotKey k
      rw [hsk1 k, swapIdx_other (by omega) (by omega)]
    have e2 : s2.slotKey (k / 2) = s.slotKey (k / 2) := by
      show s1.slotKey (k / 2) = s.slotKey (k / 2)
      rw [hsk1 (k / 2), swapIdx_other (by omega) (by omega)]
    rw [e1] at hb
    rw [e2] at ha
    exact ho k hk2 (by omega) a b ha hb
  have hBR2 : SwimBridge s2 1 := by
    intro c _ _ _ h21
    omega
  obtain ⟨hc3, hord3, hu3⟩ := sink_spec hc2 le_rfl hOED2 hBR2
  set s3 := s2.sink 1 with hs3def
  have hn3 : s3.n = s.n - 1 := by rw [hu3.hn, hs2n]
  have hkeys31 : s3.keys = s.keys := by
    rw [hu3.hkeys]
    rfl
  have hlast : s3.pqAt (s3.n + 1) = r := by
    have e0 : s3.pq.getD (s3.n + 1) none = s2.pq.getD (s3.n + 1) none := by
      apply hu3.hpqhi
      rw [← hu3.hn]
      omega
    unfold pqAt
    rw [e0]
    show (s1.pq.getD (s3.n + 1) none).getD 0 = r
    rw [show s3.n + 1 = s.n from by rw [hn3]; omega, hpq1 s.n, swapIdx_right, hr]
    rfl
  set s4 : IndexMinPQ α :=
    { s3 with keys := s3.keys.set r none, qp := s3.qp.set r (-1) } with hs4def
  have heq : s.del_min = .ok (r, s4) := by
    rw [del_min, if_neg hne]
    show Except.ok (s.pqAt 1,
      ({ s3 with
        keys := s3.keys.set (s3.pqAt (s3.n + 1)) none,
        qp := s3.qp.set (s3.pqAt (s3.n + 1)) (-1) } : IndexMinPQ α)) = _
    rw [hrAt, hlast]
  have hrq : r < s3.qp.length := by
    have := hc3.hqp
    omega
  have hrnot2 : ¬ isOcc s2 r := by
    rintro ⟨k, hk1, hkn, hk⟩
    rw [hs2n] at hkn
    have hkn1 : k ≤ s1.n := by omega
    have h2 := (hc1.qp_of_slot hk1 hkn1 hk).2.1
    rw [hqp1 r, hrAt, if_pos rfl] at h2
    have := Int.ofNat.inj h2
    omega
  have hrnot3 : ¬ isOcc s3 r := fun h3 => hrnot2 ((hu3.hocc r).mp h3)
  have hocc2_of_s : ∀ q, isOcc s2 q → isOcc s q := by
    rintro q ⟨k, hk1, hkn, hk⟩
    rw [hs2n] at hkn
    have hk' : s1.pq.getD k none = s.pq.getD (swapIdx 1 s.n k) none := hpq1 k
    rw [show s2.pq.getD k none = s1.pq.getD k none from rfl, hk'] at hk
    by_cases h1 : k = 1
    · refine ⟨s.n, hn1, le_rfl, ?_⟩
      have hsw : swapIdx 1 s.n k = s.n := by rw [h1, swapIdx_self]
      rw [← hsw]
      exact hk
    · have hkne : k ≠ s.n := by omega
      rw [swapIdx_other h1 hkne] at hk
      exact ⟨k, hk1, by omega, hk⟩
  have hqp3_unocc : ∀ q, ¬ isOcc s2 q → s3.qp.getD q (-1) = s1.qp.getD q (-1) := by
    intro q hno
    rw [hu3.hqpun q hno]
  -- well-formedness of the final state
  have hslot4 : ∀ k, 1 ≤ k → k ≤ s3.n → ∃ i, s3.pq.getD k none = some i ∧
      i ≠ r ∧ i < maxN ∧ s3.qp.getD i (-1) = Int.ofNat k ∧
      (s3.keys.getD i none).isSome = true := by
    intro k hk1 hkn
    obtain ⟨i', hi', hlt', hqp', hks'⟩ := hc3.hslot k hk1 hkn
    have hir : i' ≠ r := by
      intro hh
      exact hrnot3 ⟨k, hk1, hkn, hh ▸ hi'⟩
    exact ⟨i', hi', hir, hlt', hqp', hks'⟩
  have hc4 : Core s4 maxN := by
    refine ⟨?_, ?_, ?_, ?_, ?_⟩
    · show (s3.keys.set r none).length = maxN + 1
      simpa using hc3.hkeys
    · exact hc3.hpq
    · show (s3.qp.set r (-1)).length = maxN + 1
      simpa using hc3.hqp
    · exact hc3.hn
    · intro k hk1 hkn
      obtain ⟨i', hi', hir, hlt', hqp', hks'⟩ := hslot4 k hk1 hkn
      refine ⟨i', hi', hlt', ?_, ?_⟩
      · show (s3.qp.set r (-1)).getD i' (-1) = Int.ofNat k
        rw [getD_set_ne _ _ _ (fun h2 => hir h2.symm)]
        exact hqp'
      · show ((s3.keys.set r none).getD i' none).isSome = true
        rw [getD_set_ne _ _ _ (fun h2 => hir h2.symm)]
        exact hks'
  have hsk4 : ∀ k, 1 ≤ k → k ≤ s3.n → s4.slotKey k = s3.slotKey k := by
    intro k hk1 hkn
    obtain ⟨i', hi', hir, _, _, _⟩ := hslot4 k hk1 hkn
    rw [slotKey_eq_keyAt (s := s4) hi', slotKey_eq_keyAt hi']
    show (s3.keys.set r none).getD i' none = s3.keys.getD i' none
    exact getD_set_ne _ _ _ (fun h2 => hir h2.symm)
  have hord4 : Ord s4 := by
    intro k hk2 hkn a b ha hb
    have hkn' : k ≤ s3.n := hkn
    rw [hsk4 k (by omega) hkn'] at hb
    rw [hsk4 (k / 2) (by omega) (by omega)] at ha
    exact hord3 k hk2 hkn' a b ha hb
  have hqmem4 : QpMem s4 := by
    intro q hq4
    by_cases hqr : q = r
    · exfalso
      apply hq4
      rw [hqr]
      show (s3.qp.set r (-1)).getD r (-1) = -1
      exact getD_set_self _ _ _ _ hrq
    · have e4 : s4.qp.getD q (-1) = s3.qp.getD q (-1) := by
        show (s3.qp.set r (-1)).getD q (-1) = _
        exact getD_set_ne _ _ _ (fun h2 => hqr h2.symm)
      rw [e4] at hq4
      have hocc3 : isOcc s3 q := by
        by_contra hno3
        have hno2 : ¬ isOcc s2 q := fun h2 => hno3 ((hu3.hocc q).mpr h2)
        have e3 : s3.qp.getD q (-1) = s1.qp.getD q (-1) := hqp3_unocc q hno2
        rw [e3, hqp1 q, hrAt, hrnAt, if_neg hqr] at hq4
        by_cases hq2 : q = rn
        · rw [if_pos hq2] at hq4
          by_cases hsn1 : s.n = 1
          · apply hqr
            rw [hq2]
            rw [hsn1] at hrn
            rw [hrn] at hr
            simpa using hr
          · apply hno2
            refine ⟨1, le_rfl, by rw [hs2n]; omega, ?_⟩
            show s1.pq.getD 1 none = some q
            rw [hpq1 1, swapIdx_self, hq2, hrn]
        · rw [if_neg hq2] at hq4
          obtain ⟨k, hk1, hkn, _, hp⟩ := hq q hq4
          by_cases hk1' : k = 1
          · apply hqr
            rw [hk1'] at hp
            rw [hp] at hr
            simpa using hr
          · by_cases hkn' : k = s.n
            · apply hq2
              rw [hkn'] at hp
              rw [hp] at hrn
              simpa using hrn
            · apply hno2
              refine ⟨k, hk1, by rw [hs2n]; omega, ?_⟩
              show s1.pq.getD k none = some q
              rw [hpq1 k, swapIdx_other hk1' hkn']
              exact hp
      obtain ⟨k, hk1, hkn, hk⟩ := hocc3
      have hqpv := (hc3.qp_of_slot hk1 hkn hk).2.1
      rw [e4, hqpv]
      exact ⟨k, hk1, hkn, rfl, hk⟩
  refine ⟨r, s4, heq, contains_of_occ hc ⟨1, le_rfl, hn1, hr⟩, ?_,
    ⟨hc4, hqmem4, hord4⟩, ?_, ?_, ?_⟩
  · intro j a b hj ha hb
    obtain ⟨k, hk1, hkn, hpkj, _⟩ := occ_of_contains hq hj
    have h1 : s.slotKey 1 = some a := by rw [slotKey_eq_keyAt hr]; exact ha
    have h2 : s.slotKey k = some b := by rw [slotKey_eq_keyAt hpkj]; exact hb
    exact root_min hc ho k hk1 hkn a b h1 h2
  · show s3.n = s.n - 1
    exact hn3
  · rw [contains_false_iff]
    show (s3.qp.set r (-1)).getD r (-1) = -1
    exact getD_set_self _ _ _ _ hrq
  · intro j hj
    constructor
    · have e4 : s4.qp.getD j (-1) = s3.qp.getD j (-1) := by
        show (s3.qp.set r (-1)).getD j (-1) = _
        exact getD_set_ne _ _ _ (fun h2 => hj h2.symm)
      by_cases h3 : isOcc s3 j
      · have c1 : s4.contains j = true := by
          rw [contains_iff, e4]
          obtain ⟨k, hk1, hkn, hk⟩ := h3
          rw [(hc3.qp_of_slot hk1 hkn hk).2.1]
          simp
        have c2 : s.contains j = true :=
          contains_of_occ hc (hocc2_of_s j ((hu3.hocc j).mp h3))
        rw [c1, c2]
      · have hno2 : ¬ isOcc s2 j := fun h2 => h3 ((hu3.hocc j).mpr h2)
        have e3 : s3.qp.getD j (-1) = s1.qp.getD j (-1) := hqp3_unocc j hno2
        show (s4.qp.getD j (-1) != -1) = (s.qp.getD j (-1) != -1)
        rw [e4, e3, hqp1 j, hrAt, hrnAt, if_neg hj]
        by_cases hq2 : j = rn
        · rw [if_pos hq2]
          have hv : s.qp.getD j (-1) = Int.ofNat s.n := by rw [hq2]; exact hqprn
          rw [hv]
          simp
        · rw [if_neg hq2]
    · show (s3.keys.set r none).getD j none = s.keys.getD j none
      rw [getD_set_ne _ _ _ (fun h2 => hj h2.symm), hkeys31]

/-- On a well-formed queue, a fresh in-range index implies spare capacity:
the occupants are `n` distinct indices below `maxN`, all different from
`i`. -/
theorem n_lt_of_fresh {maxN : Nat} {s : IndexMinPQ α} (h : WF s maxN)
    {i : Nat} (hi : i < maxN) (hni : s.contains i = false) : s.n < maxN := by
  by_contra hge
  have hn : s.n = maxN := le_antisymm h.core.hn (Nat.le_of_not_lt hge)
  have hmaps : ∀ k ∈ Finset.Icc 1 s.n, s.pqAt k ∈ (Finset.range maxN).erase i := by
    intro k hk
    rw [Finset.mem_Icc] at hk
    obtain ⟨i', hi', hlt', _, _⟩ := h.core.hslot k hk.1 hk.2
    have hAt : s.pqAt k = i' := by unfold pqAt; rw [hi']; rfl
    rw [hAt, Finset.mem_erase, Finset.mem_range]
    refine ⟨?_, hlt'⟩
    intro heq2
    rw [contains_false_iff] at hni
    have := (h.core.qp_of_slot hk.1 hk.2 hi').2.1
    rw [heq2, hni] at this
    simp at this
  have hinj : Set.InjOn (fun k => s.pqAt k) (Finset.Icc 1 s.n) := by
    intro k hk k' hk' he
    rw [Finset.coe_Icc, Set.mem_Icc] at hk hk'
    obtain ⟨i1, hi1, _, _, _⟩ := h.core.hslot k hk.1 hk.2
    obtain ⟨i2, hi2, _, _, _⟩ := h.core.hslot k' hk'.1 hk'.2
    have e1 : s.pqAt k = i1 := by unfold pqAt; rw [hi1]; rfl
    have e2 : s.pqAt k' = i2 := by unfold pqAt; rw [hi2]; rfl
    simp only at he
    rw [e1, e2] at he
    exact h.core.slot_inj hk.1 hk.2 hk'.1 hk'.2 hi1 (he ▸ hi2)
  have hcard := Finset.card_le_card_of_injOn _ hmaps hinj
  rw [Nat.card_Icc, Finset.card_erase_of_mem (Finset.mem_range.mpr hi),
    Finset.card_range] at hcard
  omega

/-- States reachable from a freshly constructed `IndexMinPQ(maxN)` by a
sequence of contract-respecting operations: `insert` on a fresh in-range
index, `decrease_key` on a contained index, and successful `del_min`. -/
inductive PQReach (maxN : Nat) : IndexMinPQ α → Prop where
  | base : PQReach maxN (new α maxN)
  | ins {s s' : IndexMinPQ α} {i : Nat} {key : α} : PQReach maxN s →
      i < maxN → s.contains i = false → s.insert i key = .ok s' →
      PQReach maxN s'
  | dec {s s' : IndexMinPQ α} {i : Nat} {key : α} : PQReach maxN s →
      s.contains i = true → s.decrease_key i key = .ok s' → PQReach maxN s'
  | del {s s' : IndexMinPQ α} {r : Nat} : PQReach maxN s →
      s.del_min = .ok (r, s') → PQReach maxN s'

/-- Every reachable state is well-formed. -/
theorem PQReach.wf {maxN : Nat} {s : IndexMinPQ α} (h : PQReach maxN s) :
    WF s maxN := by
  induction h with
  | base => exact new_wf maxN
  | ins hre hi hni hstep ih =>
    obtain ⟨s'', heq, hwf, _⟩ := insert_spec ih hi hni (n_lt_of_fresh ih hi hni) _
    rw [heq] at hstep
    obtain rfl : s'' = _ := by
      have := Except.ok.inj hstep
      exact this
    exact hwf
  | dec hre hcont hstep ih =>
    rename_i s0 s' i key
    obtain ⟨k, hk1, hkn, hpk, _⟩ := occ_of_contains ih.qpmem hcont
    have hks := (ih.core.qp_of_slot hk1 hkn hpk).2.2
    obtain ⟨cur, hcur⟩ := Option.isSome_iff_exists.mp hks
    have hilen : i < s0.keys.length := by
      have h1 : i < s0.qp.length := by
        by_contra hbig
        rw [contains_iff, getD_oob _ _ (Nat.le_of_not_lt hbig)] at hcont
        exact hcont rfl
      have := ih.core.hkeys
      have := ih.core.hqp
      omega
    by_cases hklt : key < cur
    · obtain ⟨s'', heq, hwf, _⟩ := decrease_key_spec ih hcont hcur hklt
      rw [heq] at hstep
      obtain rfl : s'' = s' := Except.ok.inj hstep
      exact hwf
    · exfalso
      rw [decrease_key, if_pos hilen, hcur] at hstep
      simp only [if_neg hklt] at hstep
      exact Except.noConfusion hstep
  | del hre hstep ih =>
    rename_i s0 s' r
    by_cases hn0 : s0.n = 0
    · exfalso
      rw [del_min_empty hn0] at hstep
      exact Except.noConfusion hstep
    · obtain ⟨r', s'', heq, _, _, hwf, _⟩ := del_min_spec ih hn0
      rw [heq] at hstep
      have := Except.ok.inj hstep
      obtain ⟨-, rfl⟩ : r' = r ∧ s'' = s' := Prod.mk.injEq .. ▸ this
      exact hwf

end IndexMinPQ

/-! ### UnionFind (`src/minimum_spanning_tree/utils/union_find.py`) -/

/-- The exceptions the `UnionFind` code can raise on integer arguments:
`IndexError` from the explicit range check or from an out-of-range list
subscript.  (The `ValueError` for non-integer arguments cannot arise in
this typed model.) -/
inductive UFError where
  | indexError
  | loops
deriving DecidableEq, Repr

/-- State of `UnionFind`: the parent array `self._id` and the component
sizes `self._size`. -/
structure UnionFind where
  id : List Nat
  size : List Nat
deriving DecidableEq, Repr

namespace UnionFind

/-- `UnionFind.__init__(n)`: `id = list(range(n))`, `size = [1] * n`. -/
def new (n : Nat) : UnionFind :=
  ⟨List.range n, List.replicate n 1⟩

/-- The loop of `UnionFind._root` with path halving, by recursion on fuel:
`while id[i] != i: id[i] = id[id[i]]; i = id[i]`.  Out-of-range reads
raise `IndexError`; fuel exhaustion (`UFError.loops`, which models the
infinite loop Python would enter on a cyclic parent array) is unreachable
from well-formed states. -/
def rootAux : Nat → UnionFind → Nat → Except UFError (Nat × UnionFind)
  | 0, _, _ => .error .loops
  | fuel + 1, uf, i =>
    match uf.id[i]? with
    | none => .error .indexError
    | some pi =>
      if pi = i then .ok (i, uf)
      else
        match uf.id[pi]? with
        | none => .error .indexError
        | some gi =>
          rootAux fuel { uf with id := uf.id.set i gi } gi

/-- `UnionFind._root(i)`.  `len(id) + 1` units of fuel always suffice on a
well-formed state (the chased chain visits distinct sites). -/
def root (uf : UnionFind) (i : Nat) : Except UFError (Nat × UnionFind) :=
  rootAux (uf.id.length + 1) uf i

/-- `UnionFind.connected(p, q)`: explicit range check (note the Python
code's `<=` upper bound, which admits `p == n` and lets the subsequent
`id[p]` subscript raise the `IndexError` instead), then
`self._root(p) == self._root(q)` with left-to-right evaluation, each root
lookup compressing paths. -/
def connected (uf : UnionFind) (p q : Int) : Except UFError (Bool × UnionFind) :=
  if ¬ (0 ≤ p ∧ p ≤ (uf.size.length : Int)) ∨ ¬ (0 ≤ q ∧ q ≤ (uf.size.length : Int)) then
    .error .indexError
  else
    match uf.root p.toNat with
    | .error e => .error e
    | .ok (i, uf1) =>
      match uf1.root q.toNat with
      | .error e => .error e
      | .ok (j, uf2) => .ok (decide (i = j), uf2)

/-- `UnionFind.union(p, q)`: the same range check, then weighted union of
the two roots (no-op when already equal).  The size reads `size[i]`,
`size[j]` are always in range on well-formed states and are modelled with
junk default `0`. -/
def union (uf : UnionFind) (p q : Int) : Except UFError UnionFind :=
  if ¬ (0 ≤ p ∧ p ≤ (uf.size.length : Int)) ∨ ¬ (0 ≤ q ∧ q ≤ (uf.size.length : Int)) then
    .error .indexError
  else
    match uf.root p.toNat with
    | .error e => .error e
    | .ok (i, uf1) =>
      match uf1.root q.toNat with
      | .error e => .error e
      | .ok (j, uf2) =>
        if i = j then .ok uf2
        else if uf2.size.getD i 0 < uf2.size.getD j 0 then
          .ok { uf2 with
            id := uf2.id.set i j,
            size := uf2.size.set j (uf2.size.getD j 0 + uf2.size.getD i 0) }
        else
          .ok { uf2 with
            id := uf2.id.set j i,
            size := uf2.size.set i (uf2.size.getD i 0 + uf2.size.getD j 0) }

/-! #### Specification-side description of the parent forest -/

/-- `RRd idl i k r`: chasing parent pointers from site `i` reaches the
root `r` (a fixpoint of the parent array) in exactly `k` steps. -/
inductive RRd (idl : List Nat) : Nat → Nat → Nat → Prop where
  | root {i : Nat} : idl[i]? = some i → RRd idl i 0 i
  | step {i p k r : Nat} : idl[i]? = some p → p ≠ i → RRd idl p k r →
      RRd idl i (k + 1) r

/-- Well-formedness: list lengths match the site count and every site's
parent chain reaches a root. -/
structure UFWF (uf : UnionFind) (n : Nat) : Prop where
  hid : uf.id.length = n
  hsize : uf.size.length = n
  hroot : ∀ i, i < n → ∃ k r, RRd uf.id i k r

/-- Sites `x` and `y` currently belong to the same component. -/
def sameRoot (uf : UnionFind) (x y : Nat) : Prop :=
  ∃ r kx ky, RRd uf.id x kx r ∧ RRd uf.id y ky r

theorem RRd_lt {idl : List Nat} {i k r : Nat} (h : RRd idl i k r) :
    i < idl.length := by
  cases h with
  | root h0 => exact (List.getElem?_eq_some_iff.mp h0).1
  | step h0 _ _ => exact (List.getElem?_eq_some_iff.mp h0).1

theorem RRd_det {idl : List Nat} {i k r : Nat} (h : RRd idl i k r) :
    ∀ {k' r' : Nat}, RRd idl i k' r' → k = k' ∧ r = r' := by
  induction h with
  | root h0 =>
    intro k' r' h'
    cases h' with
    | root h1 => exact ⟨rfl, rfl⟩
    | step h1 hne _ =>
      rw [h0] at h1
      exact absurd (Option.some.inj h1).symm hne
  | step h0 hne hrec ih =>
    intro k' r' h'
    cases h' with
    | root h1 =>
      rw [h0] at h1
      exact absurd (Option.some.inj h1) hne
    | step h1 hne1 hrec1 =>
      rw [h0] at h1
      obtain rfl := Option.some.inj h1
      obtain ⟨rfl, rfl⟩ := ih hrec1
      exact ⟨rfl, rfl⟩

theorem RRd_root_self {idl : List Nat} {i k r : Nat} (h : RRd idl i k r) :
    RRd idl r 0 r := by
  induction h with
  | root h0 => exact RRd.root h0
  | step _ _ _ ih => exact ih

theorem RRd_exists_at {idl : List Nat} {i k r : Nat} (h : RRd idl i k r) :
    ∀ j, j ≤ k → ∃ x, RRd idl x j r := by
  induction h with
  | root h0 =>
    intro j hj
    obtain rfl : j = 0 := Nat.le_zero.mp hj
    exact ⟨_, RRd.root h0⟩
  | @step i0 p0 k0 r0 h0 hne hrec ih =>
    intro j hj
    by_cases hj0 : j = k0 + 1
    · exact ⟨i0, hj0 ▸ RRd.step h0 hne hrec⟩
    · exact ih j (by omega)

/-- A successful parent chase visits pairwise distinct sites, so its step
count is below the array length. -/
theorem RRd_bound {idl : List Nat} {i k r : Nat} (h : RRd idl i k r) :
    k < idl.length := by
  by_contra hge
  have hge' : idl.length ≤ k := Nat.le_of_not_lt hge
  have hex : ∀ j ∈ Finset.range (k + 1), ∃ x, RRd idl x j r := by
    intro j hj
    exact RRd_exists_at h j (by simpa [Nat.lt_succ_iff] using Finset.mem_range.mp hj)
  classical
  have hcard : (Finset.range idl.length).card < (Finset.range (k + 1)).card := by
    simp only [Finset.card_range]
    omega
  have hmaps : ∀ j ∈ Finset.range (k + 1),
      (fun j => if hj : ∃ x, RRd idl x j r then Classical.choose hj else 0) j ∈
        Finset.range idl.length := by
    intro j hj
    have hj' := hex j hj
    simp only [dif_pos hj']
    exact Finset.mem_range.mpr (RRd_lt (Classical.choose_spec hj'))
  obtain ⟨a, ha, b, hb, hab, he⟩ :=
    Finset.exists_ne_map_eq_of_card_lt_of_maps_to hcard hmaps
  have ha' := hex a ha
  have hb' := hex b hb
  rw [dif_pos ha', dif_pos hb'] at he
  have h1 := Classical.choose_spec ha'
  have h2 := Classical.choose_spec hb'
  rw [he] at h1
  exact hab (RRd_det h1 h2).1

/-- A path-halving write `id[i] = id[id[i]]` preserves every site's root
and never increases its chase distance. -/
theorem RRd_halve {idl : List Nat} {i pi gi : Nat}
    (hpi : idl[i]? = some pi) (hne : pi ≠ i) (hgi : idl[pi]? = some gi) :
    ∀ kx, ∀ {x rx : Nat}, RRd idl x kx rx →
      ∃ kx', kx' ≤ kx ∧ RRd (idl.set i gi) x kx' rx := by
  intro kx
  induction kx using Nat.strong_induction_on with
  | _ kx ih =>
    intro x rx h
    cases h with
    | root h0 =>
      have hxi : x ≠ i := by
        intro hcon
        rw [hcon] at h0
        rw [h0] at hpi
        exact hne (Option.some.inj hpi).symm
      refine ⟨0, le_rfl, RRd.root ?_⟩
      rw [List.getElem?_set_ne (fun h2 => hxi h2.symm)]
      exact h0
    | @step _ p k0 _ h0 hne0 hrec =>
      by_cases hxi : x = i
      · have hp : p = pi := by
          rw [hxi] at h0
          rw [h0] at hpi
          exact Option.some.inj hpi
        have hilen : i < idl.length := (List.getElem?_eq_some_iff.mp hpi).1
        cases hrec with
        | root h1 =>
          -- the parent p is a root, so gi = p and rx = p
          have hgi' : idl[rx]? = some gi := by rw [hp]; exact hgi
          rw [h1] at hgi'
          have hgr : gi = rx := (Option.some.inj hgi').symm
          refine ⟨1, by omega, ?_⟩
          rw [hxi]
          refine RRd.step (p := rx) ?_ (hxi ▸ hne0) (RRd.root ?_)
          · rw [List.getElem?_set_self hilen, hgr]
          · rw [List.getElem?_set_ne ?_]
            · exact h1
            · intro h2
              apply hne
              omega
        | @step _ p1 k1 _ h1 hne1 hrec1 =>
          have hp1 : p1 = gi := by
            rw [hp] at h1
            rw [h1] at hgi
            exact Option.some.inj hgi
          have hgine : gi ≠ i := by
            intro hcon
            have hii : RRd idl i k1 rx := by
              rw [hp1, hcon] at hrec1
              exact hrec1
            have houter : RRd idl i (k1 + 1 + 1) rx :=
              hxi ▸ RRd.step h0 hne0 (RRd.step h1 hne1 hrec1)
            have hd := RRd_det hii houter
            omega
          obtain ⟨k', hk', hrd⟩ := ih k1 (by omega) hrec1
          refine ⟨k' + 1, by omega, ?_⟩
          rw [hxi]
          exact RRd.step (by rw [List.getElem?_set_self hilen]) hgine (hp1 ▸ hrd)
      · obtain ⟨k', hk', hrd⟩ := ih k0 (by omega) hrec
        refine ⟨k' + 1, by omega, ?_⟩
        refine RRd.step ?_ hne0 hrd
        rw [List.getElem?_set_ne (fun h2 => hxi h2.symm)]
        exact h0

theorem rootAux_spec : ∀ (fuel k : Nat) (uf : UnionFind) (i r : Nat),
    RRd uf.id i k r → k + 1 ≤ fuel →
    ∃ uf', rootAux fuel uf i = .ok (r, uf') ∧
      uf'.size = uf.size ∧ uf'.id.length = uf.id.length ∧
      (∀ x kx rx, RRd uf.id x kx rx →
        ∃ kx', kx' ≤ kx ∧ RRd uf'.id x kx' rx) := by
  intro fuel
  induction fuel with
  | zero =>
    intro k uf i r _ hf
    omega
  | succ fuel ih =>
    intro k uf i r h hf
    rw [rootAux]
    cases h with
    | root h0 =>
      refine ⟨uf, ?_, rfl, rfl, fun x kx rx hx => ⟨kx, le_rfl, hx⟩⟩
      simp [h0]
    | @step _ p k0 _ h0 hne0 hrec =>
      simp only [h0]
      rw [if_neg hne0]
      have hplen : p < uf.id.length := RRd_lt hrec
      obtain ⟨gi, hgi⟩ : ∃ a, uf.id[p]? = some a := by
        rw [List.getElem?_eq_getElem hplen]
        exact ⟨_, rfl⟩
      simp only [hgi]
      have hhalve := RRd_halve h0 hne0 hgi
      -- gi's distance in the halved array is at most k0
      have hgid : ∃ kg, kg ≤ k0 ∧ RRd (uf.id.set i gi) gi kg r := by
        cases hrec with
        | root h1 =>
          rw [h1] at hgi
          have hgp : gi = r := (Option.some.inj hgi).symm
          have hgr : RRd uf.id gi 0 r := by
            rw [hgp]
            exact RRd.root h1
          obtain ⟨kg, hkg, hrd⟩ := hhalve 0 hgr
          exact ⟨kg, by omega, hrd⟩
        | @step _ p1 k1 _ h1 hne1 hrec1 =>
          have hp1 : p1 = gi := by
            rw [h1] at hgi
            exact Option.some.inj hgi
          obtain ⟨kg, hkg, hrd⟩ := hhalve k1 (hp1 ▸ hrec1)
          exact ⟨kg, by omega, hrd⟩
      obtain ⟨kg, hkg, hrd⟩ := hgid
      obtain ⟨uf', heq, hsz, hlen, hpres⟩ :=
        ih kg { uf with id := uf.id.set i gi } gi r hrd (by omega)
      refine ⟨uf', heq, by rw [hsz], by rw [hlen]; simp, ?_⟩
      intro x kx rx hx
      obtain ⟨k1, hk1, h1⟩ := hhalve kx hx
      obtain ⟨k2, hk2, h2⟩ := hpres x k1 rx h1
      exact ⟨k2, by omega, h2⟩

/-- `UnionFind.__init__` produces a well-formed forest of singletons. -/
theorem newUF_wf (n : Nat) : UFWF (new n) n := by
  refine ⟨by simp [new], by simp [new], ?_⟩
  intro i hi
  refine ⟨0, i, RRd.root ?_⟩
  show (List.range n)[i]? = some i
  simp [List.getElem?_range, hi]

/-- `_root` raises `IndexError` on an out-of-range site (including the
boundary site `n` that slips past the `<=` checks of the callers). -/
theorem root_oob {uf : UnionFind} {i : Nat} (h : uf.id.length ≤ i) :
    uf.root i = .error .indexError := by
  rw [root, rootAux]
  simp [List.getElem?_eq_none h]

/-- `_root` on a well-formed state: succeeds with `len(id) + 1` fuel,
returns the chain's root, and preserves every site's root. -/
theorem root_spec {n : Nat} {uf : UnionFind} (hwf : UFWF uf n) {i : Nat}
    (hi : i < n) :
    ∃ r uf', uf.root i = .ok (r, uf') ∧ UFWF uf' n ∧
      (∃ k, RRd uf.id i k r) ∧
      (∀ x kx rx, RRd uf.id x kx rx → ∃ kx', kx' ≤ kx ∧ RRd uf'.id x kx' rx) := by
  obtain ⟨k, r, hrd⟩ := hwf.hroot i hi
  have hb : k < uf.id.length := RRd_bound hrd
  obtain ⟨uf', heq, hsz, hlen, hpres⟩ :=
    rootAux_spec (uf.id.length + 1) k uf i r hrd (by omega)
  refine ⟨r, uf', heq, ⟨by rw [hlen, hwf.hid], by rw [hsz, hwf.hsize], ?_⟩,
    ⟨k, hrd⟩, hpres⟩
  intro x hx
  obtain ⟨kx, rx, hrdx⟩ := hwf.hroot x hx
  obtain ⟨kx', _, h'⟩ := hpres x kx rx hrdx
  exact ⟨kx', rx, h'⟩

/-- Preserving every root pointwise preserves the same-component relation
in both directions (using root uniqueness on well-formed states). -/
theorem sameRoot_iff_of_pres {n : Nat} {uf uf' : UnionFind} (hwf : UFWF uf n)
    (hid' : uf'.id.length = n)
    (hpres : ∀ x kx rx, RRd uf.id x kx rx → ∃ kx', kx' ≤ kx ∧ RRd uf'.id x kx' rx) :
    ∀ x y, sameRoot uf x y ↔ sameRoot uf' x y := by
  intro x y
  constructor
  · rintro ⟨r, kx, ky, hx, hy⟩
    obtain ⟨kx', _, hx'⟩ := hpres x kx r hx
    obtain ⟨ky', _, hy'⟩ := hpres y ky r hy
    exact ⟨r, kx', ky', hx', hy'⟩
  · rintro ⟨r, kx, ky, hx, hy⟩
    have hxlt : x < n := by
      have := RRd_lt hx
      omega
    have hylt : y < n := by
      have := RRd_lt hy
      omega
    obtain ⟨kx0, rx, hx0⟩ := hwf.hroot x hxlt
    obtain ⟨ky0, ry, hy0⟩ := hwf.hroot y hylt
    obtain ⟨kx1, _, hx1⟩ := hpres x kx0 rx hx0
    obtain ⟨ky1, _, hy1⟩ := hpres y ky0 ry hy0
    obtain ⟨-, hrx⟩ := RRd_det hx hx1
    obtain ⟨-, hry⟩ := RRd_det hy hy1
    exact ⟨rx, kx0, ky0, hx0, hrx ▸ hry ▸ hy0⟩

/-- Attaching root `i` below another root `j` (the write `id[i] = j` of
`union`): every site keeps its root, except that the sites rooted at `i`
become rooted at `j`. -/
theorem RRd_attach {idl : List Nat} {i j : Nat}
    (hi : RRd idl i 0 i) (hj : RRd idl j 0 j) (hij : i ≠ j) :
    (∀ x kx rx, rx ≠ i → RRd idl x kx rx → RRd (idl.set i j) x kx rx) ∧
    (∀ x kx, RRd idl x kx i → RRd (idl.set i j) x (kx + 1) j) := by
  have hilen : i < idl.length := RRd_lt hi
  have hir : idl[i]? = some i := by
    cases hi with
    | root h0 => exact h0
  have part1 : ∀ kx, ∀ x rx, rx ≠ i → RRd idl x kx rx →
      RRd (idl.set i j) x kx rx := by
    intro kx
    induction kx using Nat.strong_induction_on with
    | _ kx ih =>
      intro x rx hrx h
      cases h with
      | root h0 =>
        refine RRd.root ?_
        rw [List.getElem?_set_ne (fun h2 => hrx h2.symm)]
        exact h0
      | @step _ p k _ h0 hne0 hrec =>
        have hxi : x ≠ i := by
          intro h2
          rw [h2, hir] at h0
          exact hne0 ((Option.some.inj h0).symm.trans h2.symm)
        refine RRd.step ?_ hne0 (ih k (by omega) p rx hrx hrec)
        rw [List.getElem?_set_ne (fun h2 => hxi h2.symm)]
        exact h0
  have hjset : RRd (idl.set i j) j 0 j :=
    part1 0 j j (fun h2 => hij h2.symm) hj
  refine ⟨fun x kx rx => part1 kx x rx, ?_⟩
  intro x kx
  induction kx using Nat.strong_induction_on generalizing x with
  | _ kx ih =>
    intro h
    cases h with
    | root h0 =>
      exact @RRd.step _ i j 0 j (by rw [List.getElem?_set_self hilen])
        (fun h2 => hij h2.symm) hjset
    | @step _ p k _ h0 hne0 hrec =>
      have hxi : x ≠ i := by
        intro h2
        rw [h2, hir] at h0
        exact hne0 ((Option.some.inj h0).symm.trans h2.symm)
      refine RRd.step ?_ hne0 (ih k (by omega) p hrec)
      rw [List.getElem?_set_ne (fun h2 => hxi h2.symm)]
      exact h0

/-- Full specification of `union` on in-range arguments over a well-formed
state: it succeeds, preserves well-formedness, makes `p` and `q` share a
root, and keeps every previously-connected pair connected. -/
theorem union_spec {n : Nat} {uf : UnionFind} (hwf : UFWF uf n) {p q : Int}
    (hp0 : 0 ≤ p) (hpn : p.toNat < n) (hq0 : 0 ≤ q) (hqn : q.toNat < n) :
    ∃ uf', uf.union p q = .ok uf' ∧ UFWF uf' n ∧
      sameRoot uf' p.toNat q.toNat ∧
      (∀ x y, sameRoot uf x y → sameRoot uf' x y) := by
  have hguard : ¬ (¬ (0 ≤ p ∧ p ≤ (uf.size.length : Int)) ∨
      ¬ (0 ≤ q ∧ q ≤ (uf.size.length : Int))) := by
    rw [hwf.hsize]
    push_neg
    exact ⟨⟨hp0, by omega⟩, hq0, by omega⟩
  obtain ⟨i, uf1, heq1, hwf1, ⟨ki, hrdi⟩, hpres1⟩ := root_spec hwf hpn
  obtain ⟨j, uf2, heq2, hwf2, ⟨kj, hrdj1⟩, hpres2⟩ := root_spec hwf1 hqn
  rw [union, if_neg hguard]
  simp only [heq1, heq2]
  -- p's and q's roots inside uf2
  obtain ⟨ki1, -, hrdi1⟩ := hpres1 p.toNat ki i hrdi
  obtain ⟨ki2, -, hrdi2⟩ := hpres2 p.toNat ki1 i hrdi1
  obtain ⟨kq2, -, hrdq2⟩ := hpres2 q.toNat kj j hrdj1
  have hiroot2 : RRd uf2.id i 0 i := RRd_root_self hrdi2
  have hjroot2 : RRd uf2.id j 0 j := RRd_root_self hrdq2
  have hpres12 : ∀ x kx rx, RRd uf.id x kx rx →
      ∃ kx', kx' ≤ kx ∧ RRd uf2.id x kx' rx := by
    intro x kx rx h
    obtain ⟨k1, hk1, h1⟩ := hpres1 x kx rx h
    obtain ⟨k2, hk2, h2⟩ := hpres2 x k1 rx h1
    exact ⟨k2, by omega, h2⟩
  by_cases hij : i = j
  · rw [if_pos hij]
    refine ⟨uf2, rfl, hwf2, ⟨j, ki2, kq2, hij ▸ hrdi2, hrdq2⟩, ?_⟩
    intro x y hxy
    exact (sameRoot_iff_of_pres hwf (by rw [hwf2.hid]) hpres12 x y).mp hxy
  · rw [if_neg hij]
    have hilen : i < n := by
      have h1 := RRd_lt hiroot2
      have h2 := hwf2.hid
      omega
    have hjlen : j < n := by
      have h1 := RRd_lt hjroot2
      have h2 := hwf2.hid
      omega
    -- both branches attach one root below the other
    by_cases hsz : uf2.size.getD i 0 < uf2.size.getD j 0
    · rw [if_pos hsz]
      obtain ⟨hkeep, hmove⟩ := RRd_attach hiroot2 hjroot2 hij
      refine ⟨_, rfl, ⟨by simpa using hwf2.hid, by simpa using hwf2.hsize, ?_⟩, ?_, ?_⟩
      · intro x hx
        obtain ⟨kx, rx, hrdx⟩ := hwf2.hroot x hx
        by_cases hrxi : rx = i
        · exact ⟨kx + 1, j, hmove x kx (hrxi ▸ hrdx)⟩
        · exact ⟨kx, rx, hkeep x kx rx hrxi hrdx⟩
      · exact ⟨j, ki2 + 1, kq2, hmove p.toNat ki2 hrdi2,
          hkeep q.toNat kq2 j (fun h2 => hij h2.symm) hrdq2⟩
      · intro x y hxy
        obtain ⟨r, kx, ky, hx, hy⟩ :=
          (sameRoot_iff_of_pres hwf (by rw [hwf2.hid]) hpres12 x y).mp hxy
        by_cases hri : r = i
        · exact ⟨j, kx + 1, ky + 1, hmove x kx (hri ▸ hx), hmove y ky (hri ▸ hy)⟩
        · exact ⟨r, kx, ky, hkeep x kx r hri hx, hkeep y ky r hri hy⟩
    · rw [if_neg hsz]
      obtain ⟨hkeep, hmove⟩ := RRd_attach hjroot2 hiroot2 (fun h2 => hij h2.symm)
      refine ⟨_, rfl, ⟨by simpa using hwf2.hid, by simpa using hwf2.hsize, ?_⟩, ?_, ?_⟩
      · intro x hx
        obtain ⟨kx, rx, hrdx⟩ := hwf2.hroot x hx
        by_cases hrxj : rx = j
        · exact ⟨kx + 1, i, hmove x kx (hrxj ▸ hrdx)⟩
        · exact ⟨kx, rx, hkeep x kx rx hrxj hrdx⟩
      · exact ⟨i, ki2, kq2 + 1, hkeep p.toNat ki2 i hij hrdi2,
          hmove q.toNat kq2 hrdq2⟩
      · intro x y hxy
        obtain ⟨r, kx, ky, hx, hy⟩ :=
          (sameRoot_iff_of_pres hwf (by rw [hwf2.hid]) hpres12 x y).mp hxy
        by_cases hrj : r = j
        · exact ⟨i, kx + 1, ky + 1, hmove x kx (hrj ▸ hx), hmove y ky (hrj ▸ hy)⟩
        · exact ⟨r, kx, ky, hkeep x kx r hrj hx, hkeep y ky r hrj hy⟩

/-- Full specification of `connected` on in-range arguments over a
well-formed state: it succeeds, returns exactly whether the two sites
share a root, and the path compression it performs changes no
component. -/
theorem connected_spec {n : Nat} {uf : UnionFind} (hwf : UFWF uf n) {p q : Int}
    (hp0 : 0 ≤ p) (hpn : p.toNat < n) (hq0 : 0 ≤ q) (hqn : q.toNat < n) :
    ∃ b uf', uf.connected p q = .ok (b, uf') ∧ UFWF uf' n ∧
      (b = true ↔ sameRoot uf p.toNat q.toNat) ∧
      (∀ x y, sameRoot uf x y ↔ sameRoot uf' x y) := by
  have hguard : ¬ (¬ (0 ≤ p ∧ p ≤ (uf.size.length : Int)) ∨
      ¬ (0 ≤ q ∧ q ≤ (uf.size.length : Int))) := by
    rw [hwf.hsize]
    push_neg
    exact ⟨⟨hp0, by omega⟩, hq0, by omega⟩
  obtain ⟨i, uf1, heq1, hwf1, ⟨ki, hrdi⟩, hpres1⟩ := root_spec hwf hpn
  obtain ⟨j, uf2, heq2, hwf2, ⟨kj, hrdj1⟩, hpres2⟩ := root_spec hwf1 hqn
  rw [connected, if_neg hguard]
  simp only [heq1, heq2]
  have hpres12 : ∀ x kx rx, RRd uf.id x kx rx →
      ∃ kx', kx' ≤ kx ∧ RRd uf2.id x kx' rx := by
    intro x kx rx h
    obtain ⟨k1, hk1, h1⟩ := hpres1 x kx rx h
    obtain ⟨k2, hk2, h2⟩ := hpres2 x k1 rx h1
    exact ⟨k2, by omega, h2⟩
  -- q's root in uf1 is also its root in uf
  obtain ⟨kq0, rq0, hrdq0⟩ := hwf.hroot q.toNat hqn
  obtain ⟨kq1, -, hrdq1'⟩ := hpres1 q.toNat kq0 rq0 hrdq0
  obtain ⟨-, hrq⟩ := RRd_det hrdj1 hrdq1'
  refine ⟨decide (i = j), uf2, rfl, hwf2, ?_,
    sameRoot_iff_of_pres hwf (by rw [hwf2.hid]) hpres12⟩
  rw [decide_eq_true_iff]
  constructor
  · intro hij
    exact ⟨i, ki, kq0, hrdi, by rw [← hrq, ← hij] at hrdq0; exact hrdq0⟩
  · rintro ⟨r, kx, ky, hx, hy⟩
    obtain ⟨-, h1⟩ := RRd_det hx hrdi
    obtain ⟨-, h2⟩ := RRd_det hy hrdq0
    rw [← h1, hrq]
    exact h2

/-- Inversion: any `union` call that returns `.ok` was on in-range
arguments, and its result is well-formed and preserves connectivity. -/
theorem union_ok_inv {n : Nat} {uf uf' : UnionFind} (hwf : UFWF uf n)
    {p q : Int} (h : uf.union p q = .ok uf') :
    UFWF uf' n ∧ (∀ x y, sameRoot uf x y → sameRoot uf' x y) := by
  by_cases hg : ¬ (0 ≤ p ∧ p ≤ (uf.size.length : Int)) ∨
      ¬ (0 ≤ q ∧ q ≤ (uf.size.length : Int))
  · rw [union, if_pos hg] at h
    cases h
  · push_neg at hg
    have hL : (uf.size.length : Int) = (n : Int) := by rw [hwf.hsize]
    have hp0 : 0 ≤ p := hg.1.1
    have hq0 : 0 ≤ q := hg.2.1
    by_cases hpn : p.toNat < n
    · by_cases hqn : q.toNat < n
      · obtain ⟨uf0, heq, hwf0, hsr0, hpres0⟩ := union_spec hwf hp0 hpn hq0 hqn
        rw [heq] at h
        cases h
        exact ⟨hwf0, hpres0⟩
      · -- q.toNat = n : the second `_root` call raises, contradicting `.ok`
        exfalso
        have hqe : q.toNat = n := by
          have := hg.2.2
          omega
        obtain ⟨i, uf1, heq1, hwf1, -, -⟩ := root_spec hwf hpn
        rw [union, if_neg (by push_neg; exact hg)] at h
        simp only [heq1] at h
        rw [root_oob (by rw [hwf1.hid, hqe])] at h
        cases h
    · -- p.toNat = n : the first `_root` call raises, contradicting `.ok`
      exfalso
      have hpe : p.toNat = n := by
        have := hg.1.2
        omega
      rw [union, if_neg (by push_neg; exact hg)] at h
      rw [root_oob (by rw [hwf.hid, hpe])] at h
      cases h

/-- A (possibly empty) sequence of successful `union` operations. -/
inductive UFChain : UnionFind → UnionFind → Prop where
  | refl (uf : UnionFind) : UFChain uf uf
  | step {uf uf' uf'' : UnionFind} {p q : Int} :
      uf.union p q = .ok uf' → UFChain uf' uf'' → UFChain uf uf''

/-- A chain of successful unions preserves well-formedness and keeps every
connected pair connected. -/
theorem UFChain_pres {n : Nat} : ∀ {uf uf' : UnionFind}, UFChain uf uf' →
    UFWF uf n → UFWF uf' n ∧ (∀ x y, sameRoot uf x y → sameRoot uf' x y) := by
  intro uf uf' hc
  induction hc with
  | refl uf => exact fun hwf => ⟨hwf, fun x y h => h⟩
  | step hu hrest ih =>
    intro hwf
    obtain ⟨hwf1, hpres1⟩ := union_ok_inv hwf hu
    obtain ⟨hwf2, hpres2⟩ := ih hwf1
    exact ⟨hwf2, fun x y h => hpres2 x y (hpres1 x y h)⟩

/-- `sameRoot` is an equivalence on the sites of a well-formed state. -/
theorem sameRoot_equiv {n : Nat} {uf : UnionFind} (hwf : UFWF uf n) :
    (∀ x, x < n → sameRoot uf x x) ∧
    (∀ x y, sameRoot uf x y → sameRoot uf y x) ∧
    (∀ x y z, sameRoot uf x y → sameRoot uf y z → sameRoot uf x z) := by
  refine ⟨?_, ?_, ?_⟩
  · intro x hx
    obtain ⟨k, r, h⟩ := hwf.hroot x hx
    exact ⟨r, k, k, h, h⟩
  · rintro x y ⟨r, kx, ky, hx, hy⟩
    exact ⟨r, ky, kx, hy, hx⟩
  · rintro x y z ⟨r1, kx, ky, hx, hy⟩ ⟨r2, ky', kz, hy', hz⟩
    obtain ⟨-, hr⟩ := RRd_det hy hy'
    exact ⟨r1, kx, kz, hx, hr ▸ hz⟩

end UnionFind

/-! ### Shortest paths (`src/shortest_path/`)

`directed_edge.py`, `edge_weighted_digraph.py`, `dijkstra_sp.py` and the
state of `bellman_ford.py`.  Python `float` weights are modelled as `ℚ`
and `float('inf')` as `⊤` of `EVal`. -/

/-- `directed_edge.WeightedEdge`: a directed edge `vertex_v → vertex_w`
with a rational weight. -/
structure WeightedEdge where
  vertex_v : Nat
  vertex_w : Nat
  weight : ℚ
deriving DecidableEq

namespace WeightedEdge

/-- `WeightedEdge.from_edge`: the source vertex. -/
def from_edge (e : WeightedEdge) : Nat := e.vertex_v

/-- `WeightedEdge.to_edge`: the destination vertex. -/
def to_edge (e : WeightedEdge) : Nat := e.vertex_w

end WeightedEdge

/-- `EdgeWeightedDigraph`: vertex count plus the list of added edges in
insertion order.  The Python object also keeps per-vertex adjacency lists
`adjacency_lists[v]`; since `add_edge` appends each edge both to
`adjacency_lists[edge.from_edge()]` and to `edges`, the dict entry for an
in-range vertex `v` always equals the in-order sublist of `edges` whose
source is `v`, which is how `adjacents` is modelled here. -/
structure EdgeWeightedDigraph where
  number_of_vertices : Nat
  edges : List WeightedEdge

namespace EdgeWeightedDigraph

/-- `EdgeWeightedDigraph.add_edge`. -/
def add_edge (g : EdgeWeightedDigraph) (e : WeightedEdge) : EdgeWeightedDigraph :=
  { g with edges := g.edges ++ [e] }

/-- `EdgeWeightedDigraph.adjacents(v)`: the edges leaving `v`, in
insertion order (see the structure's comment). -/
def adjacents (g : EdgeWeightedDigraph) (v : Nat) : List WeightedEdge :=
  g.edges.filter (fun e => e.from_edge == v)

end EdgeWeightedDigraph

/-- A graph argument the Python code accepts without faulting: every edge
endpoint is an in-range vertex.  (`add_edge` on an out-of-range source
raises `KeyError`, and the shortest-path algorithms index the
vertex-count-sized arrays with edge endpoints.) -/
def GWF (g : EdgeWeightedDigraph) : Prop :=
  ∀ e ∈ g.edges, e.vertex_v < g.number_of_vertices ∧
    e.vertex_w < g.number_of_vertices

/-- Specification-side: `Walk g u es w` states that the edge list `es` is
a directed walk from `u` to `w` using edges of `g`. -/
inductive Walk (g : EdgeWeightedDigraph) : Nat → List WeightedEdge → Nat → Prop where
  | nil (v : Nat) : Walk g v [] v
  | cons {u w : Nat} {e : WeightedEdge} {es : List WeightedEdge} :
      e ∈ g.edges → e.from_edge = u → Walk g e.to_edge es w →
      Walk g u (e :: es) w

/-- Total weight of an edge list. -/
def weightSum (es : List WeightedEdge) : ℚ :=
  (es.map WeightedEdge.weight).sum

/-- The edge-collecting loop shared verbatim by `DijkstraSP.path_to` and
`BellmanFord.path_to`:

`current_edge = self._edge_to[vertex]` /
`while current_edge: path.append(current_edge);`
`current_edge = self._edge_to[current_edge.from_edge()]`,

by recursion on fuel.  On the parent arrays both algorithms produce, the
chain strictly descends a finite ranking, so `len(edge_to)` fuel always
suffices (proved below); an out-of-range subscript is junk-valued `None`
(where Python would raise `IndexError`). -/
def edgeChain (par : List (Option WeightedEdge)) : Nat → Nat → List WeightedEdge
  | 0, _ => []
  | fuel + 1, v =>
    match par.getD v none with
    | none => []
    | some e => e :: edgeChain par fuel e.from_edge

/-- State of `DijkstraSP`: attributes `_edge_to`, `_dist_to`,
`_priority_queue`. -/
structure DijkstraSP where
  edgeTo : List (Option WeightedEdge)
  distTo : List EVal
  priority_queue : IndexMinPQ EVal

namespace DijkstraSP

/-- `DijkstraSP._relax(edge)`.  Reads and writes of `_dist_to` /
`_edge_to` use junk-defaulted `getD`/`set` (all subscripts are in range
on well-formed graphs); the `decrease_key` / `insert` calls can raise,
which propagates. -/
def relax (s : DijkstraSP) (e : WeightedEdge) : Except PQError DijkstraSP :=
  let v := e.from_edge
  let w := e.to_edge
  if s.distTo.getD w ⊤ > (e.weight : EVal) + s.distTo.getD v ⊤ then
    let s1 : DijkstraSP :=
      { s with
        distTo := s.distTo.set w ((e.weight : EVal) + s.distTo.getD v ⊤),
        edgeTo := s.edgeTo.set w (some e) }
    if s1.priority_queue.contains w then
      match s1.priority_queue.decrease_key w (s1.distTo.getD w ⊤) with
      | .error er => .error er
      | .ok pq' => .ok { s1 with priority_queue := pq' }
    else
      match s1.priority_queue.insert w (s1.distTo.getD w ⊤) with
      | .error er => .error er
      | .ok pq' => .ok { s1 with priority_queue := pq' }
  else
    .ok s

/-- The `for edge in digraph.adjacents(vertex): self._relax(edge)` loop. -/
def relaxAll (s : DijkstraSP) : List WeightedEdge → Except PQError DijkstraSP
  | [] => .ok s
  | e :: es =>
    match s.relax e with
    | .error er => .error er
    | .ok s' => s'.relaxAll es

end DijkstraSP

/-- The `while self._priority_queue:` loop of `DijkstraSP.__init__`, by
recursion on fuel; exhausted fuel returns the current state (the
termination theorem shows `number_of_vertices + 1` units always reach the
empty-queue exit). -/
def dijkstraLoop (g : EdgeWeightedDigraph) : Nat → DijkstraSP → Except PQError DijkstraSP
  | 0, s => .ok s
  | fuel + 1, s =>
    if s.priority_queue.toBool = true then
      match s.priority_queue.del_min with
      | .error er => .error er
      | .ok (vertex, pq') =>
        match DijkstraSP.relaxAll { s with priority_queue := pq' }
            (g.adjacents vertex) with
        | .error er => .error er
        | .ok s' => dijkstraLoop g fuel s'
    else
      .ok s

/-- The straight-line prefix of `DijkstraSP.__init__`: allocate the three
arrays, set `dist_to[source] = 0.0`, insert the source. -/
def dijkstraStart (g : EdgeWeightedDigraph) (source : Nat) :
    Except PQError DijkstraSP :=
  let s : DijkstraSP :=
    ⟨List.replicate g.number_of_vertices none,
     (List.replicate g.number_of_vertices (⊤ : EVal)).set source (0 : EVal),
     IndexMinPQ.new EVal g.number_of_vertices⟩
  match s.priority_queue.insert source (s.distTo.getD source ⊤) with
  | .error er => .error er
  | .ok pq' => .ok { s with priority_queue := pq' }

/-- `DijkstraSP.__init__` in full: the prefix followed by the main loop,
run with the always-sufficient fuel `number_of_vertices + 1`. -/
def dijkstraRun (g : EdgeWeightedDigraph) (source : Nat) :
    Except PQError DijkstraSP :=
  match dijkstraStart g source with
  | .error er => .error er
  | .ok s => dijkstraLoop g (g.number_of_vertices + 1) s

namespace DijkstraSP

/-- `DijkstraSP.dist_to(vertex)`. -/
def dist_to (d : DijkstraSP) (vertex : Nat) : EVal :=
  d.distTo.getD vertex ⊤

/-- `DijkstraSP.path_to(vertex)`: collect parent edges from `vertex`
backwards, then `list(reversed(path))`. -/
def path_to (d : DijkstraSP) (vertex : Nat) : List WeightedEdge :=
  (edgeChain d.edgeTo d.edgeTo.length vertex).reverse

end DijkstraSP

/-- State of `BellmanFord`: attributes `_edge_to`, `_dist_to`,
`_on_queue`, `_cost`, `_cycle`, `_queue`. -/
structure BellmanFord where
  edgeTo : List (Option WeightedEdge)
  distTo : List EVal
  onQueue : List Bool
  cost : Nat
  cycle : Option (List Nat)
  queue : List Nat

namespace BellmanFord

/-- `BellmanFord.has_negative_cycle`: `self._cycle is not None`. -/
def has_negative_cycle (b : BellmanFord) : Bool :=
  b.cycle.isSome

/-- `BellmanFord.negative_cycle()`: returns `self._cycle` (a vertex list,
or `None`). -/
def negative_cycle (b : BellmanFord) : Option (List Nat) :=
  b.cycle

/-- `BellmanFord.dist_to(vertex)`: the stored distance if no negative
cycle was detected, `float('inf')` otherwise. -/
def dist_to (b : BellmanFord) (vertex : Nat) : EVal :=
  if b.has_negative_cycle = false then b.distTo.getD vertex ⊤
  else ⊤

/-- `BellmanFord.path_to(vertex)`: the parent-edge path if no negative
cycle was detected (the same collecting loop as `DijkstraSP.path_to`),
`None` otherwise. -/
def path_to (b : BellmanFord) (vertex : Nat) : Option (List WeightedEdge) :=
  if b.has_negative_cycle = false then
    some ((edgeChain b.edgeTo b.edgeTo.length vertex).reverse)
  else
    none

/-- `BellmanFord.has_path_to(vertex)`: `self._dist_to[vertex] < float('inf')`. -/
def has_path_to (b : BellmanFord) (vertex : Nat) : Bool :=
  decide (b.distTo.getD vertex ⊤ < ⊤)

end BellmanFord

/-! #### Auxiliary facts about the priority queue interface -/

namespace IndexMinPQ

variable {α : Type} [LinearOrder α]

/-- A contained index is always below the capacity. -/
theorem contains_lt {maxN : Nat} {s : IndexMinPQ α} (h : WF s maxN) {i : Nat}
    (hc : s.contains i = true) : i < maxN := by
  obtain ⟨k, hk1, hkn, hpk, -⟩ := occ_of_contains h.qpmem hc
  obtain ⟨i', hi', hlt, -, -⟩ := h.core.hslot k hk1 hkn
  rw [hpk] at hi'
  rw [Option.some.inj hi']
  exact hlt

/-- `bool(pq)` is `False` exactly when `n = 0`. -/
theorem toBool_false_iff {s : IndexMinPQ α} : s.toBool = false ↔ s.n = 0 := by
  simp [toBool]

/-- An empty well-formed queue contains nothing. -/
theorem contains_false_of_empty {s : IndexMinPQ α} (hq : QpMem s) (h : s.n = 0) :
    ∀ i, s.contains i = false := by
  intro i
  cases h2 : s.contains i with
  | false => rfl
  | true =>
    exfalso
    obtain ⟨k, hk1, hkn, -, -⟩ := occ_of_contains hq h2
    omega

end IndexMinPQ

/-! #### The Dijkstra loop invariant -/

/-- Position of the first occurrence of `v` in a list (junk `length` when
absent); used to rank the vertices by deletion order. -/
def posIn : List Nat → Nat → Nat
  | [], _ => 0
  | a :: rest, v => if a = v then 0 else posIn rest v + 1

theorem posIn_lt_length {l : List Nat} {v : Nat} (h : v ∈ l) :
    posIn l v < l.length := by
  induction l with
  | nil => cases h
  | cons a rest ih =>
    by_cases hav : a = v
    · simp [posIn, hav]
    · have hv : v ∈ rest := by
        cases List.mem_cons.mp h with
        | inl h2 => exact absurd h2.symm hav
        | inr h2 => exact h2
      simp only [posIn, if_neg hav, List.length_cons]
      exact Nat.succ_lt_succ (ih hv)

theorem posIn_append_of_mem {l : List Nat} (m : List Nat) {v : Nat}
    (h : v ∈ l) : posIn (l ++ m) v = posIn l v := by
  induction l with
  | nil => cases h
  | cons a rest ih =>
    by_cases hav : a = v
    · simp [posIn, hav]
    · have hv : v ∈ rest := by
        cases List.mem_cons.mp h with
        | inl h2 => exact absurd h2.symm hav
        | inr h2 => exact h2
      simp only [List.cons_append, posIn, if_neg hav]
      exact congrArg (fun t => t + 1) (ih hv)

theorem posIn_append_self {l : List Nat} {v : Nat} (h : v ∉ l) :
    posIn (l ++ [v]) v = l.length := by
  induction l with
  | nil => simp [posIn]
  | cons a rest ih =>
    have hav : a ≠ v := fun h2 => h (h2 ▸ List.mem_cons_self a rest)
    have hv : v ∉ rest := fun h2 => h (List.mem_cons_of_mem a h2)
    simp only [List.cons_append, posIn, if_neg hav, List.length_cons]
    exact congrArg (fun t => t + 1) (ih hv)

/-- The state facts maintained throughout the Dijkstra main loop.  `dels`
is the sequence of vertices deleted from the queue so far, in order. -/
structure BaseInv (g : EdgeWeightedDigraph) (source : Nat) (s : DijkstraSP)
    (dels : List Nat) : Prop where
  hlenD : s.distTo.length = g.number_of_vertices
  hlenE : s.edgeTo.length = g.number_of_vertices
  hpqwf : IndexMinPQ.WF s.priority_queue g.number_of_vertices
  hdelslt : ∀ v ∈ dels, v < g.number_of_vertices
  hnodup : dels.Nodup
  hdone : ∀ v, v ∈ dels ↔
    (s.distTo.getD v ⊤ ≠ ⊤ ∧ s.priority_queue.contains v = false)
  hsrc_dist : s.distTo.getD source ⊤ = 0
  hsrc_par : s.edgeTo.getD source none = none
  hnonneg : ∀ v, 0 ≤ s.distTo.getD v ⊤
  hkeysync : ∀ w, s.priority_queue.contains w = true →
    s.priority_queue.keyAt w = some (s.distTo.getD w ⊤)
  hqfin : ∀ w, s.priority_queue.contains w = true → s.distTo.getD w ⊤ ≠ ⊤
  hdone_min : ∀ v ∈ dels, ∀ u, s.priority_queue.contains u = true →
    s.distTo.getD v ⊤ ≤ s.distTo.getD u ⊤
  hpar : ∀ w e, s.edgeTo.getD w none = some e →
    e ∈ g.edges ∧ e.to_edge = w ∧ e.from_edge ∈ dels ∧
    s.distTo.getD w ⊤ = (e.weight : EVal) + s.distTo.getD e.from_edge ⊤ ∧
    (w ∈ dels → posIn dels e.from_edge < posIn dels w)
  hreach_par : ∀ v, v < g.number_of_vertices → v ≠ source →
    s.distTo.getD v ⊤ ≠ ⊤ → ∃ e, s.edgeTo.getD v none = some e

/-- The invariant holding between iterations of the main loop: the base
facts plus "every out-edge of a deleted vertex is relaxed". -/
structure LoopInv (g : EdgeWeightedDigraph) (source : Nat) (s : DijkstraSP)
    (dels : List Nat) : Prop where
  base : BaseInv g source s dels
  hrelaxed : ∀ u ∈ dels, ∀ e ∈ g.edges, e.from_edge = u →
    s.distTo.getD e.to_edge ⊤ ≤ (e.weight : EVal) + s.distTo.getD u ⊤

/-- The invariant holding during the adjacency scan of the freshly
deleted vertex `v`, with `rest` the edges still to be relaxed. -/
structure RelaxInv (g : EdgeWeightedDigraph) (source : Nat) (s : DijkstraSP)
    (dels : List Nat) (v : Nat) (rest : List WeightedEdge) : Prop where
  base : BaseInv g source s dels
  hv : v ∈ dels
  hvmax : ∀ u ∈ dels, s.distTo.getD u ⊤ ≤ s.distTo.getD v ⊤
  hrelaxed : ∀ u ∈ dels, ∀ e ∈ g.edges, e.from_edge = u →
    e ∈ rest ∨
    s.distTo.getD e.to_edge ⊤ ≤ (e.weight : EVal) + s.distTo.getD u ⊤

/-- One step of the adjacency scan: relaxing the next edge of the freshly
deleted vertex succeeds (in particular `decrease_key` is only ever called
with a strictly smaller key) and maintains the scan invariant. -/
theorem relax_step {g : EdgeWeightedDigraph} {source : Nat} {s : DijkstraSP}
    {dels : List Nat} {e : WeightedEdge} {rest : List WeightedEdge}
    (hg : GWF g) (hnn : ∀ e' ∈ g.edges, 0 ≤ e'.weight)
    (hinv : RelaxInv g source s dels e.from_edge (e :: rest))
    (he : e ∈ g.edges) :
    ∃ s', s.relax e = .ok s' ∧ RelaxInv g source s' dels e.from_edge rest := by
  obtain ⟨hb, hv, hvmax, hrel⟩ := hinv
  by_cases himp : s.distTo.getD e.to_edge ⊤ >
      (e.weight : EVal) + s.distTo.getD e.from_edge ⊤
  case neg =>
    refine ⟨s, ?_, ⟨hb, hv, hvmax, ?_⟩⟩
    · simp only [DijkstraSP.relax]
      rw [if_neg himp]
    · intro u hu e' he' hef'
      rcases hrel u hu e' he' hef' with hl | hr
      · rcases List.mem_cons.mp hl with heq | hrest
        · refine .inr ?_
          have huf : e.from_edge = u := heq ▸ hef'
          rw [heq, ← huf]
          exact le_of_not_lt himp
        · exact .inl hrest
      · exact .inr hr
  case pos =>
    set c : EVal := (e.weight : EVal) + s.distTo.getD e.from_edge ⊤ with hcdef
    have hvn : e.from_edge < g.number_of_vertices := hb.hdelslt _ hv
    have hwn : e.to_edge < g.number_of_vertices := (hg e he).2
    have hdv_fin : s.distTo.getD e.from_edge ⊤ ≠ ⊤ := ((hb.hdone _).mp hv).1
    have hwgt0 : (0 : EVal) ≤ (e.weight : EVal) := by exact_mod_cast hnn e he
    have hc_ge_v : s.distTo.getD e.from_edge ⊤ ≤ c := le_add_of_nonneg_left hwgt0
    have hc0 : (0 : EVal) ≤ c := add_nonneg hwgt0 (hb.hnonneg _)
    have hcfin : c ≠ ⊤ := by
      rw [hcdef]
      exact WithTop.add_ne_top.mpr ⟨WithTop.coe_ne_top, hdv_fin⟩
    have hwnd : e.to_edge ∉ dels := by
      intro hwd
      exact absurd himp (not_lt.mpr (le_trans (hvmax _ hwd) hc_ge_v))
    have hwsrc : e.to_edge ≠ source := by
      intro hws
      rw [hws, hb.hsrc_dist] at himp
      exact absurd (lt_of_le_of_lt hc0 himp) (lt_irrefl 0)
    have hvw : e.from_edge ≠ e.to_edge := by
      intro h2
      exact hwnd (h2 ▸ hv)
    have hwD : e.to_edge < s.distTo.length := by
      rw [hb.hlenD]
      exact hwn
    have hwE : e.to_edge < s.edgeTo.length := by
      rw [hb.hlenE]
      exact hwn
    have hd1w : (s.distTo.set e.to_edge c).getD e.to_edge ⊤ = c :=
      getD_set_self _ _ _ _ hwD
    have hd1o : ∀ u, u ≠ e.to_edge →
        (s.distTo.set e.to_edge c).getD u ⊤ = s.distTo.getD u ⊤ :=
      fun u hu => getD_set_ne _ _ _ (fun h2 => hu h2.symm)
    have hp1w : (s.edgeTo.set e.to_edge (some e)).getD e.to_edge none = some e :=
      getD_set_self _ _ _ _ hwE
    have hp1o : ∀ u, u ≠ e.to_edge →
        (s.edgeTo.set e.to_edge (some e)).getD u none = s.edgeTo.getD u none :=
      fun u hu => getD_set_ne _ _ _ (fun h2 => hu h2.symm)
    -- the common post-state analysis, for any queue satisfying the update contract
    have hpost : ∀ pq' : IndexMinPQ EVal,
        IndexMinPQ.WF pq' g.number_of_vertices →
        pq'.contains e.to_edge = true →
        pq'.keyAt e.to_edge = some c →
        (∀ j, j ≠ e.to_edge →
          pq'.contains j = s.priority_queue.contains j ∧
          pq'.keyAt j = s.priority_queue.keyAt j) →
        RelaxInv g source
          ⟨s.edgeTo.set e.to_edge (some e), s.distTo.set e.to_edge c, pq'⟩
          dels e.from_edge rest := by
      intro pq' hwf' hcont' hkey' hoth'
      have hdist' : ∀ u, (s.distTo.set e.to_edge c).getD u ⊤ =
          if u = e.to_edge then c else s.distTo.getD u ⊤ := by
        intro u
        by_cases hu : u = e.to_edge
        · rw [if_pos hu, hu, hd1w]
        · rw [if_neg hu, hd1o u hu]
      refine ⟨⟨?_, ?_, hwf', hb.hdelslt, hb.hnodup, ?_, ?_, ?_, ?_, ?_, ?_, ?_,
        ?_, ?_⟩, hv, ?_, ?_⟩
      · show (s.distTo.set e.to_edge c).length = _
        rw [List.length_set]
        exact hb.hlenD
      · show (s.edgeTo.set e.to_edge (some e)).length = _
        rw [List.length_set]
        exact hb.hlenE
      · -- hdone
        intro u
        by_cases hu : u = e.to_edge
        · subst hu
          constructor
          · intro hud
            exact absurd hud hwnd
          · rintro ⟨-, hcf⟩
            rw [hcont'] at hcf
            cases hcf
        · rw [show (⟨_, _, pq'⟩ : DijkstraSP).distTo.getD u ⊤ =
              s.distTo.getD u ⊤ from hd1o u hu, (hoth' u hu).1]
          exact hb.hdone u
      · -- hsrc_dist
        show (s.distTo.set e.to_edge c).getD source ⊤ = 0
        rw [hd1o source (fun h2 => hwsrc h2.symm)]
        exact hb.hsrc_dist
      · -- hsrc_par
        show (s.edgeTo.set e.to_edge (some e)).getD source none = none
        rw [hp1o source (fun h2 => hwsrc h2.symm)]
        exact hb.hsrc_par
      · -- hnonneg
        intro u
        show 0 ≤ (s.distTo.set e.to_edge c).getD u ⊤
        rw [hdist' u]
        by_cases hu : u = e.to_edge
        · rw [if_pos hu]
          exact hc0
        · rw [if_neg hu]
          exact hb.hnonneg u
      · -- hkeysync
        intro u hcu
        show pq'.keyAt u = some ((s.distTo.set e.to_edge c).getD u ⊤)
        rw [hdist' u]
        by_cases hu : u = e.to_edge
        · rw [if_pos hu, hu]
          exact hkey'
        · rw [if_neg hu, (hoth' u hu).2]
          exact hb.hkeysync u (by rw [← (hoth' u hu).1]; exact hcu)
      · -- hqfin
        intro u hcu
        show (s.distTo.set e.to_edge c).getD u ⊤ ≠ ⊤
        rw [hdist' u]
        by_cases hu : u = e.to_edge
        · rw [if_pos hu]
          exact hcfin
        · rw [if_neg hu]
          exact hb.hqfin u (by rw [← (hoth' u hu).1]; exact hcu)
      · -- hdone_min
        intro d hd u hcu
        show (s.distTo.set e.to_edge c).getD d ⊤ ≤
          (s.distTo.set e.to_edge c).getD u ⊤
        have hdne : d ≠ e.to_edge := fun h2 => hwnd (h2 ▸ hd)
        rw [hdist' d, hdist' u, if_neg hdne]
        by_cases hu : u = e.to_edge
        · rw [if_pos hu]
          exact le_trans (hvmax d hd) hc_ge_v
        · rw [if_neg hu]
          exact hb.hdone_min d hd u (by rw [← (hoth' u hu).1]; exact hcu)
      · -- hpar
        intro u e' hpe'
        by_cases hu : u = e.to_edge
        · subst hu
          rw [show (⟨_, _, pq'⟩ : DijkstraSP).edgeTo.getD e.to_edge none =
              some e from hp1w] at hpe'
          obtain rfl : e = e' := Option.some.inj hpe'
          refine ⟨he, rfl, hv, ?_, ?_⟩
          · rw [hdist' e.to_edge, if_pos rfl, hdist' e.from_edge, if_neg hvw,
              hcdef]
          · intro hmem
            exact absurd hmem hwnd
        · rw [show (⟨_, _, pq'⟩ : DijkstraSP).edgeTo.getD u none =
              s.edgeTo.getD u none from hp1o u hu] at hpe'
          obtain ⟨h1, h2, h3, h4, h5⟩ := hb.hpar u e' hpe'
          have hfne : e'.from_edge ≠ e.to_edge := fun hx => hwnd (hx ▸ h3)
          refine ⟨h1, h2, h3, ?_, h5⟩
          rw [hdist' u, if_neg hu, hdist' e'.from_edge, if_neg hfne]
          exact h4
      · -- hreach_par
        intro u hun husrc hfin
        by_cases hu : u = e.to_edge
        · exact ⟨e, by rw [hu]; exact hp1w⟩
        · rw [show (⟨_, _, pq'⟩ : DijkstraSP).distTo.getD u ⊤ =
              s.distTo.getD u ⊤ from hd1o u hu] at hfin
          obtain ⟨e', he'⟩ := hb.hreach_par u hun husrc hfin
          exact ⟨e', by rw [hp1o u hu]; exact he'⟩
      · -- hvmax
        intro u hu
        have hune : u ≠ e.to_edge := fun h2 => hwnd (h2 ▸ hu)
        show (s.distTo.set e.to_edge c).getD u ⊤ ≤
          (s.distTo.set e.to_edge c).getD e.from_edge ⊤
        rw [hdist' u, if_neg hune, hdist' e.from_edge, if_neg hvw]
        exact hvmax u hu
      · -- hrelaxed
        intro u hu e' he' hef'
        have hune : u ≠ e.to_edge := fun h2 => hwnd (h2 ▸ hu)
        have hrhs : (s.distTo.set e.to_edge c).getD u ⊤ = s.distTo.getD u ⊤ :=
          hd1o u hune
        rcases hrel u hu e' he' hef' with hl | hr
        · rcases List.mem_cons.mp hl with heq | hrest
          · refine .inr ?_
            have huf : e.from_edge = u := heq ▸ hef'
            show (s.distTo.set e.to_edge c).getD e'.to_edge ⊤ ≤
              (e'.weight : EVal) + (s.distTo.set e.to_edge c).getD u ⊤
            rw [heq, hdist' e.to_edge, if_pos rfl, ← huf, hd1o e.from_edge hvw]
          · exact .inl hrest
        · refine .inr ?_
          show (s.distTo.set e.to_edge c).getD e'.to_edge ⊤ ≤
            (e'.weight : EVal) + (s.distTo.set e.to_edge c).getD u ⊤
          rw [hdist' e'.to_edge, hrhs]
          by_cases hte : e'.to_edge = e.to_edge
          · rw [if_pos hte]
            exact le_trans (le_of_lt himp) (by rw [← hte]; exact hr)
          · rw [if_neg hte]
            exact hr
    by_cases hcw : s.priority_queue.contains e.to_edge = true
    · -- decrease_key branch
      have hkey := hb.hkeysync _ hcw
      obtain ⟨pq', heqd, hwf', hn', hcont', hkey', hoth'⟩ :=
        IndexMinPQ.decrease_key_spec hb.hpqwf hcw hkey himp
      refine ⟨⟨s.edgeTo.set e.to_edge (some e), s.distTo.set e.to_edge c, pq'⟩,
        ?_, hpost pq' hwf' hcont' hkey' hoth'⟩
      simp only [DijkstraSP.relax]
      rw [if_pos himp, if_pos hcw]
      rw [show (s.distTo.set e.to_edge c).getD e.to_edge ⊤ = c from hd1w, heqd]
    · -- insert branch
      have hcw' : s.priority_queue.contains e.to_edge = false := by
        revert hcw
        cases s.priority_queue.contains e.to_edge <;> simp
      have hroom : s.priority_queue.n < g.number_of_vertices :=
        IndexMinPQ.n_lt_of_fresh hb.hpqwf hwn hcw'
      obtain ⟨pq', heqi, hwf', hn', hcont', hkey', hoth'⟩ :=
        IndexMinPQ.insert_spec hb.hpqwf hwn hcw' hroom c
      refine ⟨⟨s.edgeTo.set e.to_edge (some e), s.distTo.set e.to_edge c, pq'⟩,
        ?_, hpost pq' hwf' hcont' hkey' hoth'⟩
      simp only [DijkstraSP.relax]
      rw [if_pos himp, if_neg (by rw [hcw']; exact Bool.false_ne_true)]
      rw [show (s.distTo.set e.to_edge c).getD e.to_edge ⊤ = c from hd1w, heqi]

/-- A fresh `IndexMinPQ` contains nothing. -/
theorem IndexMinPQ.contains_new (α : Type) [LinearOrder α] (maxN i : Nat) :
    (IndexMinPQ.new α maxN).contains i = false := by
  show ((List.replicate (maxN + 1) (-1 : Int)).getD i (-1) != -1) = false
  by_cases h : i < maxN + 1
  · rw [getD_replicate_lt _ _ h]
    simp
  · rw [getD_oob _ _ (by simpa using Nat.le_of_not_lt h)]
    simp

/-- The full adjacency scan of the freshly deleted vertex succeeds and
ends with every pending edge relaxed. -/
theorem relaxAll_spec {g : EdgeWeightedDigraph} {source : Nat} (hg : GWF g)
    (hnn : ∀ e ∈ g.edges, 0 ≤ e.weight) :
    ∀ (l : List WeightedEdge) (s : DijkstraSP) (dels : List Nat) (v : Nat),
      (∀ e ∈ l, e ∈ g.edges ∧ e.from_edge = v) →
      RelaxInv g source s dels v l →
      ∃ s', DijkstraSP.relaxAll s l = .ok s' ∧ RelaxInv g source s' dels v [] := by
  intro l
  induction l with
  | nil => exact fun s dels v _ hinv => ⟨s, rfl, hinv⟩
  | cons e l ih =>
    intro s dels v hmem hinv
    have he := (hmem e (List.mem_cons_self e l)).1
    have hef := (hmem e (List.mem_cons_self e l)).2
    obtain ⟨s', heq, hinv'⟩ := relax_step hg hnn (hef.symm ▸ hinv) he
    obtain ⟨s'', heq2, hinv''⟩ :=
      ih s' dels v (fun e' he' => hmem e' (List.mem_cons_of_mem e he'))
        (hef ▸ hinv')
    refine ⟨s'', ?_, hinv''⟩
    show DijkstraSP.relaxAll s (e :: l) = .ok s''
    simp only [DijkstraSP.relaxAll]
    rw [heq]
    exact heq2

/-- A finished scan restores the between-iterations invariant. -/
theorem loopInv_of_relaxInv {g : EdgeWeightedDigraph} {source : Nat}
    {s : DijkstraSP} {dels : List Nat} {v : Nat}
    (h : RelaxInv g source s dels v []) : LoopInv g source s dels := by
  refine ⟨h.base, ?_⟩
  intro u hu e he hef
  rcases h.hrelaxed u hu e he hef with hl | hr
  · cases hl
  · exact hr

/-- The deleted-vertex sequence never exceeds the vertex count. -/
theorem dels_length_le {g : EdgeWeightedDigraph} {source : Nat}
    {s : DijkstraSP} {dels : List Nat} (hb : BaseInv g source s dels) :
    dels.length ≤ g.number_of_vertices := by
  have hcard : dels.toFinset.card = dels.length :=
    List.toFinset_card_of_nodup hb.hnodup
  have hsub : dels.toFinset ⊆ Finset.range g.number_of_vertices := by
    intro v hv
    rw [List.mem_toFinset] at hv
    exact Finset.mem_range.mpr (hb.hdelslt v hv)
  have := Finset.card_le_card hsub
  rw [hcard, Finset.card_range] at this
  exact this

/-- One iteration of the main loop: `del_min` succeeds on a nonempty
queue, the deleted vertex is new, and the scan invariant starts. -/
theorem delmin_step {g : EdgeWeightedDigraph} {source : Nat} {s : DijkstraSP}
    {dels : List Nat} (hinv : LoopInv g source s dels)
    (hne : s.priority_queue.toBool = true) :
    ∃ r pq', s.priority_queue.del_min = .ok (r, pq') ∧
      RelaxInv g source ⟨s.edgeTo, s.distTo, pq'⟩ (dels ++ [r]) r
        (g.adjacents r) := by
  obtain ⟨hb, hrel⟩ := hinv
  have hne' : s.priority_queue.n ≠ 0 := by
    simp [IndexMinPQ.toBool] at hne
    exact hne
  obtain ⟨r, pq', heq, hcr, hmin, hwf', hn', hcr', hoth'⟩ :=
    IndexMinPQ.del_min_spec hb.hpqwf hne'
  have hrn : r < g.number_of_vertices := IndexMinPQ.contains_lt hb.hpqwf hcr
  have hrfin : s.distTo.getD r ⊤ ≠ ⊤ := hb.hqfin r hcr
  have hrnotdels : r ∉ dels := by
    intro hrd
    have h2 := ((hb.hdone r).mp hrd).2
    rw [hcr] at h2
    cases h2
  have hmin' : ∀ u, s.priority_queue.contains u = true →
      s.distTo.getD r ⊤ ≤ s.distTo.getD u ⊤ :=
    fun u hcu => hmin u _ _ hcu (hb.hkeysync r hcr) (hb.hkeysync u hcu)
  refine ⟨r, pq', heq,
    ⟨⟨hb.hlenD, hb.hlenE, hwf', ?_, ?_, ?_, hb.hsrc_dist, hb.hsrc_par,
      hb.hnonneg, ?_, ?_, ?_, ?_, hb.hreach_par⟩, ?_, ?_, ?_⟩⟩
  · -- hdelslt
    intro u hu
    rcases List.mem_append.mp hu with h1 | h1
    · exact hb.hdelslt u h1
    · rw [List.mem_singleton.mp h1]
      exact hrn
  · -- hnodup
    exact List.nodup_append.mpr ⟨hb.hnodup, List.nodup_singleton r,
      fun a ha hb2 => hrnotdels ((List.mem_singleton.mp hb2) ▸ ha)⟩
  · -- hdone
    intro u
    by_cases hu : u = r
    · subst hu
      constructor
      · exact fun _ => ⟨hrfin, hcr'⟩
      · exact fun _ => List.mem_append.mpr (.inr (List.mem_singleton.mpr rfl))
    · rw [show (⟨s.edgeTo, s.distTo, pq'⟩ : DijkstraSP).priority_queue.contains u
          = s.priority_queue.contains u from (hoth' u hu).1]
      constructor
      · intro h1
        rcases List.mem_append.mp h1 with h2 | h2
        · exact (hb.hdone u).mp h2
        · exact absurd (List.mem_singleton.mp h2) hu
      · intro h1
        exact List.mem_append.mpr (.inl ((hb.hdone u).mpr h1))
  · -- hkeysync
    intro u hcu
    have hune : u ≠ r := by
      intro h2
      rw [h2, hcr'] at hcu
      cases hcu
    rw [(hoth' u hune).2]
    exact hb.hkeysync u (by rw [← (hoth' u hune).1]; exact hcu)
  · -- hqfin
    intro u hcu
    have hune : u ≠ r := by
      intro h2
      rw [h2, hcr'] at hcu
      cases hcu
    exact hb.hqfin u (by rw [← (hoth' u hune).1]; exact hcu)
  · -- hdone_min
    intro d hd u hcu
    have hune : u ≠ r := by
      intro h2
      rw [h2, hcr'] at hcu
      cases hcu
    have hcu' : s.priority_queue.contains u = true := by
      rw [← (hoth' u hune).1]
      exact hcu
    rcases List.mem_append.mp hd with h1 | h1
    · exact hb.hdone_min d h1 u hcu'
    · rw [List.mem_singleton.mp h1]
      exact hmin' u hcu'
  · -- hpar
    intro w e hpe
    obtain ⟨h1, h2, h3, h4, h5⟩ := hb.hpar w e hpe
    refine ⟨h1, h2, List.mem_append.mpr (.inl h3), h4, ?_⟩
    intro hw
    rcases List.mem_append.mp hw with hw1 | hw1
    · rw [posIn_append_of_mem [r] h3, posIn_append_of_mem [r] hw1]
      exact h5 hw1
    · rw [List.mem_singleton.mp hw1] at hpe hw ⊢
      rw [posIn_append_of_mem [r] h3, posIn_append_self hrnotdels]
      exact posIn_lt_length h3
  · -- hv
    exact List.mem_append.mpr (.inr (List.mem_singleton.mpr rfl))
  · -- hvmax
    intro u hu
    rcases List.mem_append.mp hu with h1 | h1
    · exact hb.hdone_min u h1 r hcr
    · rw [List.mem_singleton.mp h1]
  · -- hrelaxed
    intro u hu e he hef
    rcases List.mem_append.mp hu with h1 | h1
    · exact .inr (hrel u h1 e he hef)
    · refine .inl ?_
      show e ∈ g.edges.filter (fun e' => e'.from_edge == r)
      refine List.mem_filter.mpr ⟨he, ?_⟩
      rw [hef, List.mem_singleton.mp h1]
      exact beq_self_eq_true r

/-- The main loop never raises, whatever the fuel: every `del_min`,
`decrease_key` and `insert` call it makes satisfies its contract. -/
theorem dijkstraLoop_ok {g : EdgeWeightedDigraph} {source : Nat} (hg : GWF g)
    (hnn : ∀ e ∈ g.edges, 0 ≤ e.weight) :
    ∀ (fuel : Nat) (s : DijkstraSP) (dels : List Nat),
      LoopInv g source s dels →
      ∃ s' dels', dijkstraLoop g fuel s = .ok s' ∧ LoopInv g source s' dels' ∧
        dels.length ≤ dels'.length ∧
        (g.number_of_vertices + 1 - dels.length ≤ fuel →
          s'.priority_queue.toBool = false) := by
  intro fuel
  induction fuel with
  | zero =>
    intro s dels hinv
    refine ⟨s, dels, rfl, hinv, le_rfl, ?_⟩
    intro hle
    exfalso
    have := dels_length_le hinv.base
    omega
  | succ fuel ih =>
    intro s dels hinv
    by_cases hne : s.priority_queue.toBool = true
    · obtain ⟨r, pq', heqd, hrinv⟩ := delmin_step hinv hne
      have hmem : ∀ e ∈ g.adjacents r, e ∈ g.edges ∧ e.from_edge = r := by
        intro e he
        obtain ⟨h1, h2⟩ := List.mem_filter.mp he
        exact ⟨h1, by simpa using h2⟩
      obtain ⟨s1, heqr, hrinv'⟩ :=
        relaxAll_spec hg hnn (g.adjacents r) _ (dels ++ [r]) r hmem hrinv
      obtain ⟨s', dels', heql, hinv', hlen, hterm⟩ :=
        ih s1 (dels ++ [r]) (loopInv_of_relaxInv hrinv')
      refine ⟨s', dels', ?_, hinv', ?_, ?_⟩
      · show dijkstraLoop g (fuel + 1) s = .ok s'
        rw [dijkstraLoop, if_pos hne, heqd]
        show (match DijkstraSP.relaxAll { s with priority_queue := pq' }
            (g.adjacents r) with
          | .error er => (.error er : Except PQError DijkstraSP)
          | .ok s'' => dijkstraLoop g fuel s'') = .ok s'
        rw [show DijkstraSP.relaxAll { s with priority_queue := pq' }
            (g.adjacents r) = .ok s1 from heqr]
        exact heql
      · simp only [List.length_append, List.length_singleton] at hlen
        omega
      · intro hf
        apply hterm
        simp only [List.length_append, List.length_singleton]
        omega
    · have hfalse : s.priority_queue.toBool = false := by
        revert hne
        cases s.priority_queue.toBool <;> simp
      refine ⟨s, dels, ?_, hinv, le_rfl, fun _ => hfalse⟩
      rw [dijkstraLoop, if_neg hne]

/-- Once the loop has reached the empty queue, extra fuel changes
nothing. -/
theorem dijkstraLoop_mono {g : EdgeWeightedDigraph} :
    ∀ (fuel fuel' : Nat) (s d : DijkstraSP), fuel ≤ fuel' →
      dijkstraLoop g fuel s = .ok d → d.priority_queue.toBool = false →
      dijkstraLoop g fuel' s = .ok d := by
  intro fuel
  induction fuel with
  | zero =>
    intro fuel' s d hle heq hdone
    have hd : s = d := by
      have := Except.ok.inj heq
      exact this
    subst hd
    cases fuel' with
    | zero => rfl
    | succ m =>
      rw [dijkstraLoop, if_neg (by rw [hdone]; exact Bool.false_ne_true)]
  | succ fuel ih =>
    intro fuel' s d hle heq hdone
    cases fuel' with
    | zero => omega
    | succ m =>
      rw [dijkstraLoop] at heq
      by_cases hne : s.priority_queue.toBool = true
      · rw [if_pos hne] at heq
        rw [dijkstraLoop, if_pos hne]
        cases heqd : s.priority_queue.del_min with
        | error er =>
          rw [heqd] at heq
          cases heq
        | ok pr =>
          obtain ⟨r, pq'⟩ := pr
          rw [heqd] at heq
          have heq2 : (match DijkstraSP.relaxAll { s with priority_queue := pq' }
              (g.adjacents r) with
            | .error er => (.error er : Except PQError DijkstraSP)
            | .ok s'' => dijkstraLoop g fuel s'') = .ok d := heq
          show (match DijkstraSP.relaxAll { s with priority_queue := pq' }
              (g.adjacents r) with
            | .error er => (.error er : Except PQError DijkstraSP)
            | .ok s'' => dijkstraLoop g m s'') = .ok d
          cases heqr : DijkstraSP.relaxAll { s with priority_queue := pq' }
              (g.adjacents r) with
          | error er =>
            rw [heqr] at heq2
            cases heq2
          | ok s1 =>
            rw [heqr] at heq2
            exact ih m s1 d (by omega) heq2 hdone
      · rw [if_neg hne] at heq
        rw [dijkstraLoop, if_neg hne]
        exact heq

/-- The straight-line prefix of the constructor succeeds and establishes
the loop invariant with no vertex deleted yet. -/
theorem dijkstraStart_spec {g : EdgeWeightedDigraph} {source : Nat}
    (hsrc : source < g.number_of_vertices) :
    ∃ s0, dijkstraStart g source = .ok s0 ∧ LoopInv g source s0 [] := by
  set n := g.number_of_vertices with hn
  set dist0 : List EVal := (List.replicate n (⊤ : EVal)).set source 0 with hdist0
  have hlen0 : dist0.length = n := by
    rw [hdist0, List.length_set, List.length_replicate]
  have hds : dist0.getD source ⊤ = 0 :=
    getD_set_self _ _ _ _ (by rw [List.length_replicate]; exact hsrc)
  have hdo : ∀ v, v ≠ source → dist0.getD v ⊤ = ⊤ := by
    intro v hv
    rw [hdist0, getD_set_ne _ _ _ (fun h2 => hv h2.symm)]
    by_cases h : v < n
    · exact getD_replicate_lt _ _ h
    · exact getD_oob _ _ (by rw [List.length_replicate]; omega)
  have hfresh : (IndexMinPQ.new EVal n).contains source = false :=
    IndexMinPQ.contains_new EVal n source
  obtain ⟨pq', heqi, hwf', hn', hcont', hkey', hoth'⟩ :=
    IndexMinPQ.insert_spec (IndexMinPQ.new_wf n) hsrc hfresh
      (by show (IndexMinPQ.new EVal n).n < n; rw [show (IndexMinPQ.new EVal n).n = 0 from rfl]; omega)
      (dist0.getD source ⊤)
  have hcont_new : ∀ j, j ≠ source → pq'.contains j = false := by
    intro j hj
    rw [(hoth' j hj).1]
    exact IndexMinPQ.contains_new EVal n j
  refine ⟨⟨List.replicate n none, dist0, pq'⟩, ?_, ⟨⟨?_, ?_, hwf', ?_, ?_, ?_,
    hds, ?_, ?_, ?_, ?_, ?_, ?_, ?_⟩, ?_⟩⟩
  · show dijkstraStart g source = _
    rw [dijkstraStart]
    rw [show (⟨List.replicate g.number_of_vertices none,
        (List.replicate g.number_of_vertices (⊤ : EVal)).set source 0,
        IndexMinPQ.new EVal g.number_of_vertices⟩ : DijkstraSP).priority_queue.insert
        source ((⟨List.replicate g.number_of_vertices none,
        (List.replicate g.number_of_vertices (⊤ : EVal)).set source 0,
        IndexMinPQ.new EVal g.number_of_vertices⟩ : DijkstraSP).distTo.getD source ⊤)
        = .ok pq' from heqi]
  · exact hlen0
  · exact List.length_replicate n none
  · exact fun v hv => absurd hv (List.not_mem_nil v)
  · exact List.nodup_nil
  · -- hdone
    intro v
    constructor
    · intro hv
      exact absurd hv (List.not_mem_nil v)
    · rintro ⟨hfin, hcf⟩
      by_cases hv : v = source
      · rw [hv, hcont'] at hcf
        cases hcf
      · exact absurd (hdo v hv) hfin
  · -- hsrc_par
    show (List.replicate n (none : Option WeightedEdge)).getD source none = none
    by_cases h : source < n
    · exact getD_replicate_lt _ _ h
    · exact getD_oob _ _ (by rw [List.length_replicate]; omega)
  · -- hnonneg
    intro v
    by_cases hv : v = source
    · rw [hv]
      show 0 ≤ dist0.getD source ⊤
      rw [hds]
    · show 0 ≤ dist0.getD v ⊤
      rw [hdo v hv]
      exact le_top
  · -- hkeysync
    intro w hcw
    by_cases hw : w = source
    · subst hw
      show pq'.keyAt w = some (dist0.getD w ⊤)
      rw [hkey']
    · rw [hcont_new w hw] at hcw
      cases hcw
  · -- hqfin
    intro w hcw
    by_cases hw : w = source
    · subst hw
      show dist0.getD w ⊤ ≠ ⊤
      rw [hds]
      simp
    · rw [hcont_new w hw] at hcw
      cases hcw
  · -- hdone_min
    exact fun v hv => absurd hv (List.not_mem_nil v)
  · -- hpar
    intro w e hpe
    exfalso
    have : (List.replicate n (none : Option WeightedEdge)).getD w none = none := by
      by_cases h : w < n
      · exact getD_replicate_lt _ _ h
      · exact getD_oob _ _ (by rw [List.length_replicate]; omega)
    rw [this] at hpe
    cases hpe
  · -- hreach_par
    intro v hvn hvs hfin
    exact absurd (hdo v hvs) hfin
  · -- hrelaxed
    exact fun v hv => absurd hv (List.not_mem_nil v)

/-! #### The final state: lower and upper bounds on the distances -/

theorem weightSum_cons (e : WeightedEdge) (es : List WeightedEdge) :
    weightSum (e :: es) = e.weight + weightSum es := by
  simp [weightSum]

theorem weightSum_append (l1 l2 : List WeightedEdge) :
    weightSum (l1 ++ l2) = weightSum l1 + weightSum l2 := by
  simp [weightSum]

/-- Extending a walk by one edge at the end. -/
theorem Walk.append_edge {g : EdgeWeightedDigraph} {a b : Nat}
    {es : List WeightedEdge} (hw : Walk g a es b) {e : WeightedEdge}
    (he : e ∈ g.edges) (hf : e.from_edge = b) :
    Walk g a (es ++ [e]) e.to_edge := by
  induction hw with
  | nil v => exact Walk.cons he hf (Walk.nil e.to_edge)
  | cons he' hf' _ ih => exact Walk.cons he' hf' (ih hf)

/-- In a state with no tense edges whose source distance is `0`, every
walk from the source gives an upper bound: the lower-bound half of
Dijkstra's correctness. -/
theorem walk_lower {g : EdgeWeightedDigraph} {dist : List EVal}
    (htense : ∀ e ∈ g.edges, dist.getD e.to_edge ⊤ ≤
      (e.weight : EVal) + dist.getD e.from_edge ⊤) :
    ∀ (es : List WeightedEdge) (u v : Nat), Walk g u es v →
      dist.getD v ⊤ ≤ dist.getD u ⊤ + (weightSum es : EVal) := by
  intro es u v hw
  induction hw with
  | nil w =>
    show dist.getD w ⊤ ≤ dist.getD w ⊤ + ((weightSum [] : ℚ) : EVal)
    rw [show (weightSum [] : ℚ) = 0 from rfl]
    rw [show ((0 : ℚ) : EVal) = 0 from rfl, add_zero]
  | @cons u' w' e es' he hf _ ih =>
    calc dist.getD w' ⊤ ≤ dist.getD e.to_edge ⊤ + (weightSum es' : EVal) := ih
    _ ≤ ((e.weight : EVal) + dist.getD e.from_edge ⊤) + (weightSum es' : EVal) :=
        add_le_add_right (htense e he) _
    _ = dist.getD u' ⊤ + (weightSum (e :: es') : EVal) := by
        rw [hf, weightSum_cons]
        push_cast
        abel

/-- At the end of the run every edge is relaxed: edges out of deleted
vertices by the invariant, edges out of unreached vertices trivially. -/
theorem final_no_tense {g : EdgeWeightedDigraph} {source : Nat}
    {F : DijkstraSP} {dels : List Nat} (hinv : LoopInv g source F dels)
    (hempty : F.priority_queue.toBool = false) :
    ∀ e ∈ g.edges, F.distTo.getD e.to_edge ⊤ ≤
      (e.weight : EVal) + F.distTo.getD e.from_edge ⊤ := by
  intro e he
  by_cases hf : e.from_edge ∈ dels
  · exact hinv.hrelaxed _ hf e he rfl
  · have htop : F.distTo.getD e.from_edge ⊤ = ⊤ := by
      by_contra hne
      have hcf : F.priority_queue.contains e.from_edge = false :=
        IndexMinPQ.contains_false_of_empty hinv.base.hpqwf.qpmem
          (IndexMinPQ.toBool_false_iff.mp hempty) _
      exact hf ((hinv.base.hdone _).mpr ⟨hne, hcf⟩)
    rw [htop, add_top]
    exact le_top

/-- Parent-chain reconstruction: for every deleted vertex, `edgeChain`
with fuel beyond its deletion rank yields a walk from the source whose
total weight is exactly the stored distance. -/
theorem chain_reconstruct {g : EdgeWeightedDigraph} {source : Nat}
    {F : DijkstraSP} {dels : List Nat} (hinv : LoopInv g source F dels) :
    ∀ (k v : Nat), v ∈ dels → posIn dels v < k →
      ∀ fuel, posIn dels v < fuel →
        Walk g source ((edgeChain F.edgeTo fuel v).reverse) v ∧
        ((weightSum ((edgeChain F.edgeTo fuel v).reverse) : ℚ) : EVal) =
          F.distTo.getD v ⊤ := by
  intro k
  induction k with
  | zero =>
    intro v _ h
    omega
  | succ k ih =>
    intro v hv hk fuel hfuel
    cases fuel with
    | zero => omega
    | succ m =>
      by_cases hvs : v = source
      · have hchain : edgeChain F.edgeTo (m + 1) v = [] := by
          show (match F.edgeTo.getD v none with
            | none => []
            | some e => e :: edgeChain F.edgeTo m e.from_edge) = []
          rw [hvs, hinv.base.hsrc_par]
        rw [hchain]
        constructor
        · rw [hvs]
          exact Walk.nil source
        · rw [hvs, hinv.base.hsrc_dist]
          simp [weightSum]
      · have hvn : v < g.number_of_vertices := hinv.base.hdelslt v hv
        have hfin : F.distTo.getD v ⊤ ≠ ⊤ := ((hinv.base.hdone v).mp hv).1
        obtain ⟨e, hpe⟩ := hinv.base.hreach_par v hvn hvs hfin
        obtain ⟨h1, h2, h3, h4, h5⟩ := hinv.base.hpar v e hpe
        have hpp : posIn dels e.from_edge < posIn dels v := h5 hv
        have hchain : edgeChain F.edgeTo (m + 1) v =
            e :: edgeChain F.edgeTo m e.from_edge := by
          show (match F.edgeTo.getD v none with
            | none => []
            | some e' => e' :: edgeChain F.edgeTo m e'.from_edge) = _
          rw [hpe]
        obtain ⟨hwalk, hsum⟩ := ih e.from_edge h3 (by omega) m (by omega)
        rw [hchain, List.reverse_cons]
        refine ⟨h2 ▸ Walk.append_edge hwalk h1 rfl, ?_⟩
        rw [weightSum_append, h4]
        push_cast
        rw [← hsum, show weightSum [e] = e.weight by simp [weightSum],
          add_comm]

/-! ### Flow networks (`src/flow_network/`)

`flow_edge.py`, `flow_network.py`, `ford_fulkerson.py`.  A Python
`FlowEdge` object is mutable and shared between the adjacency lists of
both its endpoints; it is modelled as an immutable descriptor
(`vertex_v`, `vertex_w`, `capacity`) identified by its insertion position
in the network, plus a separate flow assignment `flows : List ℚ` indexed
by the same positions (sharing of the mutable object is sharing of the
position). -/

/-- `flow_edge.FlowEdge` without its mutable `_flow` field. -/
structure FlowEdge where
  vertex_v : Nat
  vertex_w : Nat
  capacity : ℚ
deriving DecidableEq

namespace FlowEdge

/-- `FlowEdge.from_edge`. -/
def from_edge (e : FlowEdge) : Nat := e.vertex_v

/-- `FlowEdge.to_edge`. -/
def to_edge (e : FlowEdge) : Nat := e.vertex_w

/-- `FlowEdge.other(vertex)`.  The final branch raises `ValueError` in
Python; it is junk-valued `0` here and every call site passes an
endpoint. -/
def other (e : FlowEdge) (vertex : Nat) : Nat :=
  if vertex = e.vertex_v then e.vertex_w
  else if vertex = e.vertex_w then e.vertex_v
  else 0

/-- `FlowEdge.residual_capacity_to(vertex)`, as a function of the edge's
current flow.  The final branch raises `ValueError` in Python; it is
junk-valued `0` here and every call site passes an endpoint. -/
def residual_capacity_to (e : FlowEdge) (flow : ℚ) (vertex : Nat) : ℚ :=
  if vertex = e.vertex_v then flow
  else if vertex = e.vertex_w then e.capacity - flow
  else 0

/-- `FlowEdge.add_residual_flow_to(vertex, delta)`: the edge's new flow.
The final branch raises `ValueError` in Python; it is junk-valued
"unchanged" here and every call site passes an endpoint. -/
def add_residual_flow_to (e : FlowEdge) (flow : ℚ) (vertex : Nat)
    (delta : ℚ) : ℚ :=
  if vertex = e.vertex_v then flow - delta
  else if vertex = e.vertex_w then flow + delta
  else flow

end FlowEdge

/-- `FlowNetwork`: vertex count plus the edge descriptors in insertion
order.  `add_edge` appends the edge object to the adjacency lists of both
endpoints, so the dict entry for an in-range vertex `v` lists, in
insertion order, the positions of the edges incident to `v` (twice for a
self-loop), which is how `adjacents` is modelled here. -/
structure FlowNetwork where
  number_of_vertices : Nat
  edges : List FlowEdge

namespace FlowNetwork

/-- `FlowNetwork.add_edge`. -/
def add_edge (net : FlowNetwork) (e : FlowEdge) : FlowNetwork :=
  { net with edges := net.edges ++ [e] }

/-- The edge stored at position `i` (junk descriptor out of range). -/
def edgeAt (net : FlowNetwork) (i : Nat) : FlowEdge :=
  net.edges.getD i ⟨0, 0, 0⟩

/-- Positions of the edges incident to `v` among `es`, starting the
numbering at `i`; one occurrence per incidence, as in the Python
adjacency lists. -/
def adjAux (v : Nat) : Nat → List FlowEdge → List Nat
  | _, [] => []
  | i, e :: rest =>
    ((if e.vertex_v = v then [i] else []) ++
      (if e.vertex_w = v then [i] else [])) ++ adjAux v (i + 1) rest

/-- `FlowNetwork.adjacents(v)` as edge positions (see the structure's
comment). -/
def adjacents (net : FlowNetwork) (v : Nat) : List Nat :=
  adjAux v 0 net.edges

end FlowNetwork

/-- A network argument the Python code accepts without faulting: every
edge endpoint is an in-range vertex. -/
def FNWF (net : FlowNetwork) : Prop :=
  ∀ e ∈ net.edges, e.vertex_v < net.number_of_vertices ∧
    e.vertex_w < net.number_of_vertices

/-- The state mutated by `FordFulkerson._has_augmenting_path`: the
`_edge_to` array (edge positions), the `_marked` array, and the local BFS
`queue`. -/
structure AugState where
  edge_to : List (Option Nat)
  marked : List Bool
  queue : List Nat

/-- The `for edge in digraph.adjacents(vertex_v):` body of the BFS, over
the remaining incident-edge positions.  Out-of-range subscripts (which
raise `IndexError` in Python, impossible on well-formed networks) are
junk-defaulted. -/
def bfsEdges (net : FlowNetwork) (flows : List ℚ) (v : Nat) :
    List Nat → AugState → AugState
  | [], st => st
  | i :: rest, st =>
    let e := net.edgeAt i
    let w := e.other v
    if 0 < e.residual_capacity_to (flows.getD i 0) w ∧
        st.marked.getD w false = false then
      bfsEdges net flows v rest
        ⟨st.edge_to.set w (some i), st.marked.set w true, st.queue ++ [w]⟩
    else
      bfsEdges net flows v rest st

/-- The `while queue:` loop of `_has_augmenting_path`, by recursion on
fuel; each iteration dequeues one vertex and enqueues only freshly marked
ones, so `number_of_vertices` units of fuel always reach the empty
queue. -/
def bfsLoop (net : FlowNetwork) (flows : List ℚ) :
    Nat → AugState → AugState
  | 0, st => st
  | fuel + 1, st =>
    match st.queue with
    | [] => st
    | v :: qrest =>
      bfsLoop net flows fuel
        (bfsEdges net flows v (net.adjacents v) ⟨st.edge_to, st.marked, qrest⟩)

/-- `FordFulkerson._has_augmenting_path`: reset `_edge_to` and `_marked`,
then BFS from the source; the caller reads `marked` at the target. -/
def hasAugPath (net : FlowNetwork) (flows : List ℚ) (source : Nat) :
    AugState :=
  bfsLoop net flows net.number_of_vertices
    ⟨List.replicate net.number_of_vertices none,
     (List.replicate net.number_of_vertices false).set source true,
     [source]⟩

/-- The two `while current != source:` walks of the constructor share
this parent chain: the `(position, vertex)` pairs visited from `current`
back to the source.  A missing parent (on which Python would raise
`AttributeError`; unreachable for marked vertices) ends the walk; the
rank argument below shows `number_of_vertices` fuel always reaches the
source. -/
def pathBack (net : FlowNetwork) (edge_to : List (Option Nat))
    (source : Nat) : Nat → Nat → List (Nat × Nat)
  | 0, _ => []
  | fuel + 1, current =>
    if current = source then []
    else
      match edge_to.getD current none with
      | none => []
      | some i =>
        (i, current) :: pathBack net edge_to source fuel
          ((net.edgeAt i).other current)

/-- The first constructor walk: `bottle = min(bottle, ...)` starting from
`float('inf')`. -/
def bottleOf (net : FlowNetwork) (flows : List ℚ)
    (path : List (Nat × Nat)) : EVal :=
  path.foldl
    (fun b p => min b
      ((net.edgeAt p.1).residual_capacity_to (flows.getD p.1 0) p.2 : EVal))
    ⊤

/-- The second constructor walk: `add_residual_flow_to(current, bottle)`
along the path.  Each update reads the accumulator, reproducing the
sequential mutation of the shared edge objects. -/
def augFlows (net : FlowNetwork) (path : List (Nat × Nat)) (delta : ℚ)
    (flows : List ℚ) : List ℚ :=
  path.foldl
    (fun fl p => fl.set p.1
      ((net.edgeAt p.1).add_residual_flow_to (fl.getD p.1 0) p.2 delta))
    flows

/-- The `while self._has_augmenting_path(...)` loop of
`FordFulkerson.__init__`, by recursion on fuel.  The bottleneck is an
extended rational exactly as in Python; the `untop' 0` when passing it as
the update delta is a typing device only — whenever the path is nonempty
the bottleneck is finite and equal to it, and on an empty path no update
happens. -/
def ffLoop (net : FlowNetwork) (source target : Nat) :
    Nat → List ℚ → EVal → List ℚ × EVal × AugState
  | 0, flows, value => (flows, value, hasAugPath net flows source)
  | fuel + 1, flows, value =>
    let st := hasAugPath net flows source
    if st.marked.getD target false = true then
      let path := pathBack net st.edge_to source net.number_of_vertices target
      let bottle := bottleOf net flows path
      ffLoop net source target fuel (augFlows net path (bottle.untop' 0) flows)
        (value + bottle)
    else
      (flows, value, st)

/-- The attributes of a constructed `FordFulkerson` object, together with
the final flows of the network's edge objects. -/
structure FordFulkerson where
  edge_to : List (Option Nat)
  marked : List Bool
  value : EVal
  flows : List ℚ

/-- `FordFulkerson.__init__` run with the given fuel for the outer loop
(every `FlowEdge.__init__` sets `_flow = 0.0`). -/
def FordFulkerson.run (net : FlowNetwork) (source target : Nat)
    (fuel : Nat) : FordFulkerson :=
  let r := ffLoop net source target fuel (List.replicate net.edges.length 0) 0
  ⟨r.2.2.edge_to, r.2.2.marked, r.2.1, r.1⟩

/-- `FordFulkerson.in_cut`: the marked vertices, in order. -/
def FordFulkerson.in_cut (f : FordFulkerson) : List Nat :=
  (List.range f.marked.length).filter (fun v => f.marked.getD v false)

/-! #### Basic facts about edges, adjacency and marking -/

theorem FlowEdge.other_of_v (e : FlowEdge) : e.other e.vertex_v = e.vertex_w := by
  rw [FlowEdge.other, if_pos rfl]

theorem FlowEdge.other_endpoint {e : FlowEdge} {v : Nat}
    (h : e.vertex_v = v ∨ e.vertex_w = v) :
    e.other v = e.vertex_v ∨ e.other v = e.vertex_w := by
  rw [FlowEdge.other]
  by_cases h1 : v = e.vertex_v
  · rw [if_pos h1]
    exact .inr rfl
  · rcases h with h2 | h2
    · exact absurd h2.symm h1
    · rw [if_neg h1, if_pos h2.symm]
      exact .inl rfl

/-- Two distinct vertices both endpoints of `e`, each the `other` of the
opposite one. -/
theorem FlowEdge.other_eq_of_both {e : FlowEdge} {a b : Nat}
    (ha : e.vertex_v = a ∨ e.vertex_w = a) (hb : e.vertex_v = b ∨ e.vertex_w = b)
    (hab : a ≠ b) : e.other a = b := by
  rcases ha with h1 | h1 <;> rcases hb with h2 | h2
  · exact absurd (h1.symm.trans h2) hab
  · rw [FlowEdge.other, if_pos h1.symm]
    exact h2
  · by_cases hav : a = e.vertex_v
    · exact absurd (hav.trans h2) hab
    · rw [FlowEdge.other, if_neg hav, if_pos h1.symm]
      exact h2
  · exact absurd (h1.symm.trans h2) hab

theorem FlowEdge.other_other {e : FlowEdge} {v : Nat}
    (hv : e.vertex_v = v ∨ e.vertex_w = v) (hne : e.other v ≠ v) :
    e.other (e.other v) = v :=
  FlowEdge.other_eq_of_both
    ((FlowEdge.other_endpoint hv).imp Eq.symm Eq.symm) hv hne

theorem mem_adjAux (v : Nat) : ∀ (es : List FlowEdge) (j i : Nat),
    i ∈ FlowNetwork.adjAux v j es ↔
    ∃ k, k < es.length ∧ i = j + k ∧
      ((es.getD k ⟨0, 0, 0⟩).vertex_v = v ∨ (es.getD k ⟨0, 0, 0⟩).vertex_w = v) := by
  intro es
  induction es with
  | nil =>
    intro j i
    constructor
    · intro h
      cases h
    · rintro ⟨k, hk, -, -⟩
      exact absurd hk (by simp)
  | cons e rest ih =>
    intro j i
    constructor
    · intro h
      rcases List.mem_append.mp h with h1 | h2
      · have hje : i = j ∧ (e.vertex_v = v ∨ e.vertex_w = v) := by
          rcases List.mem_append.mp h1 with h3 | h3
          · by_cases hv : e.vertex_v = v
            · rw [if_pos hv] at h3
              exact ⟨List.mem_singleton.mp h3, .inl hv⟩
            · rw [if_neg hv] at h3
              cases h3
          · by_cases hw : e.vertex_w = v
            · rw [if_pos hw] at h3
              exact ⟨List.mem_singleton.mp h3, .inr hw⟩
            · rw [if_neg hw] at h3
              cases h3
        exact ⟨0, by simp, by omega, hje.2⟩
      · obtain ⟨k, hk, hik, hep⟩ := (ih (j + 1) i).mp h2
        exact ⟨k + 1, by simpa using hk, by omega, hep⟩
    · rintro ⟨k, hk, hik, hep⟩
      cases k with
      | zero =>
        refine List.mem_append.mpr (.inl ?_)
        have hij : i = j := by omega
        have hep' : e.vertex_v = v ∨ e.vertex_w = v := hep
        rcases hep' with h3 | h3
        · refine List.mem_append.mpr (.inl ?_)
          rw [if_pos h3]
          exact List.mem_singleton.mpr hij
        · refine List.mem_append.mpr (.inr ?_)
          rw [if_pos h3]
          exact List.mem_singleton.mpr hij
      | succ k =>
        refine List.mem_append.mpr (.inr ?_)
        have hep' : (rest.getD k ⟨0, 0, 0⟩).vertex_v = v ∨
            (rest.getD k ⟨0, 0, 0⟩).vertex_w = v := hep
        exact (ih (j + 1) i).mpr ⟨k, by simpa using hk, by omega, hep'⟩

/-- Membership in `adjacents`, phrased with `edgeAt`. -/
theorem mem_adjacents {net : FlowNetwork} {v i : Nat} :
    i ∈ net.adjacents v ↔ i < net.edges.length ∧
      ((net.edgeAt i).vertex_v = v ∨ (net.edgeAt i).vertex_w = v) := by
  rw [FlowNetwork.adjacents, mem_adjAux]
  constructor
  · rintro ⟨k, hk, hik, hep⟩
    have hki : k = i := by omega
    subst hki
    exact ⟨hk, hep⟩
  · rintro ⟨hi, hep⟩
    exact ⟨i, hi, by omega, hep⟩

/-- An in-range position's edge is in the list. -/
theorem edgeAt_mem {net : FlowNetwork} {i : Nat} (h : i < net.edges.length) :
    net.edgeAt i ∈ net.edges := by
  rw [FlowNetwork.edgeAt, List.getD_eq_getElem _ _ h]
  exact List.getElem_mem h

theorem count_set_true : ∀ (l : List Bool) (w : Nat), w < l.length →
    l.getD w false = false → (l.set w true).count true = l.count true + 1 := by
  intro l
  induction l with
  | nil =>
    intro w hw
    cases hw
  | cons b rest ih =>
    intro w hw h0
    cases w with
    | zero =>
      have hb : b = false := h0
      rw [hb]
      simp [List.count_cons]
    | succ w =>
      have h1 := ih w (by simpa using hw) h0
      show ((b :: rest.set w true).count true) = _
      rw [List.count_cons, List.count_cons, h1]
      omega

theorem count_true_lt {l : List Bool} {w : Nat} (hw : w < l.length)
    (h0 : l.getD w false = false) : l.count true < l.length := by
  by_contra hge
  have hcnt : l.count true = l.length :=
    le_antisymm (List.count_le_length _ _) (Nat.le_of_not_lt hge)
  have hall := List.count_eq_length.mp hcnt
  have h1 : l.getD w false = l[w] := List.getD_eq_getElem _ _ hw
  rw [h1] at h0
  have h2 := hall l[w] (List.getElem_mem hw)
  simp [h0] at h2

/-- Marking preserves existing marks. -/
theorem marked_mono {l : List Bool} {w x : Nat}
    (h : l.getD x false = true) : (l.set w true).getD x false = true := by
  by_cases hx : x = w
  · subst hx
    by_cases hlt : x < l.length
    · exact getD_set_self _ _ _ _ hlt
    · rw [List.set_eq_of_length_le (Nat.le_of_not_lt hlt)]
      exact h
  · rw [getD_set_ne _ _ _ (fun h2 => hx h2.symm)]
    exact h

/-- A marked vertex is in range (the array has junk default `false`). -/
theorem marked_lt {l : List Bool} {x : Nat} (h : l.getD x false = true) :
    x < l.length := by
  by_contra hge
  rw [getD_oob _ _ (Nat.le_of_not_lt hge)] at h
  cases h

/-! #### The BFS invariant of `_has_augmenting_path` -/

/-- Facts holding between iterations of the BFS loop. -/
structure BfsInv (net : FlowNetwork) (flows : List ℚ) (source : Nat)
    (st : AugState) : Prop where
  hlenM : st.marked.length = net.number_of_vertices
  hlenE : st.edge_to.length = net.number_of_vertices
  hsrc : st.marked.getD source false = true
  hqm : ∀ u ∈ st.queue, st.marked.getD u false = true
  hqnodup : st.queue.Nodup
  hscan : ∀ u, st.marked.getD u false = true → u ∉ st.queue →
    ∀ i ∈ net.adjacents u,
      0 < (net.edgeAt i).residual_capacity_to (flows.getD i 0)
        ((net.edgeAt i).other u) →
      st.marked.getD ((net.edgeAt i).other u) false = true
  hpar : ∀ w i, st.edge_to.getD w none = some i →
    i < net.edges.length ∧ w ≠ source ∧
    st.marked.getD w false = true ∧
    ((net.edgeAt i).vertex_v = w ∨ (net.edgeAt i).vertex_w = w) ∧
    0 < (net.edgeAt i).residual_capacity_to (flows.getD i 0) w ∧
    st.marked.getD ((net.edgeAt i).other w) false = true
  hmpar : ∀ w, st.marked.getD w false = true → w = source ∨
    ∃ i, st.edge_to.getD w none = some i
  hrank : ∃ rnk : Nat → Nat,
    (∀ w i, st.edge_to.getD w none = some i →
      rnk ((net.edgeAt i).other w) < rnk w) ∧
    (∀ w, st.marked.getD w false = true → rnk w < st.marked.count true)

/-- Facts holding during the adjacency scan of the dequeued vertex `v`,
with `rest` the incident positions still to be examined. -/
structure BfsScanInv (net : FlowNetwork) (flows : List ℚ) (source : Nat)
    (v : Nat) (rest : List Nat) (st : AugState) : Prop where
  hlenM : st.marked.length = net.number_of_vertices
  hlenE : st.edge_to.length = net.number_of_vertices
  hsrc : st.marked.getD source false = true
  hqm : ∀ u ∈ st.queue, st.marked.getD u false = true
  hqnodup : st.queue.Nodup
  hvm : st.marked.getD v false = true
  hvq : v ∉ st.queue
  hscanO : ∀ u, u ≠ v → st.marked.getD u false = true → u ∉ st.queue →
    ∀ i ∈ net.adjacents u,
      0 < (net.edgeAt i).residual_capacity_to (flows.getD i 0)
        ((net.edgeAt i).other u) →
      st.marked.getD ((net.edgeAt i).other u) false = true
  hscanV : ∀ i ∈ net.adjacents v, i ∈ rest ∨
    (0 < (net.edgeAt i).residual_capacity_to (flows.getD i 0)
        ((net.edgeAt i).other v) →
      st.marked.getD ((net.edgeAt i).other v) false = true)
  hpar : ∀ w i, st.edge_to.getD w none = some i →
    i < net.edges.length ∧ w ≠ source ∧
    st.marked.getD w false = true ∧
    ((net.edgeAt i).vertex_v = w ∨ (net.edgeAt i).vertex_w = w) ∧
    0 < (net.edgeAt i).residual_capacity_to (flows.getD i 0) w ∧
    st.marked.getD ((net.edgeAt i).other w) false = true
  hmpar : ∀ w, st.marked.getD w false = true → w = source ∨
    ∃ i, st.edge_to.getD w none = some i
  hrank : ∃ rnk : Nat → Nat,
    (∀ w i, st.edge_to.getD w none = some i →
      rnk ((net.edgeAt i).other w) < rnk w) ∧
    (∀ w, st.marked.getD w false = true → rnk w < st.marked.count true)

/-- The adjacency scan: marks and enqueues the reachable fresh vertices,
finishing the scan obligation for `v`. -/
theorem bfsEdges_spec {net : FlowNetwork} {flows : List ℚ} {source v : Nat}
    (hwf : FNWF net) :
    ∀ (ids : List Nat) (st : AugState), (∀ i ∈ ids, i ∈ net.adjacents v) →
      BfsScanInv net flows source v ids st →
      BfsScanInv net flows source v [] (bfsEdges net flows v ids st) ∧
      ∃ ps, (bfsEdges net flows v ids st).queue = st.queue ++ ps ∧
        (bfsEdges net flows v ids st).marked.count true =
          st.marked.count true + ps.length ∧
        (∀ x, st.marked.getD x false = true →
          (bfsEdges net flows v ids st).marked.getD x false = true) := by
  intro ids
  induction ids with
  | nil =>
    intro st _ hinv
    exact ⟨hinv, [], by simp [bfsEdges], by simp [bfsEdges], fun x h => h⟩
  | cons i rest ih =>
    intro st hmem hinv
    have hiadj : i ∈ net.adjacents v := hmem i (List.mem_cons_self i rest)
    obtain ⟨hilen, hend⟩ := mem_adjacents.mp hiadj
    by_cases hg : 0 < (net.edgeAt i).residual_capacity_to (flows.getD i 0)
        ((net.edgeAt i).other v) ∧
        st.marked.getD ((net.edgeAt i).other v) false = false
    · -- fresh reachable vertex: mark, record parent, enqueue
      obtain ⟨hres, hwm⟩ := hg
      have hwend : (net.edgeAt i).other v = (net.edgeAt i).vertex_v ∨
          (net.edgeAt i).other v = (net.edgeAt i).vertex_w :=
        FlowEdge.other_endpoint hend
      have hwn : (net.edgeAt i).other v < net.number_of_vertices := by
        rcases hwend with h | h <;> rw [h]
        · exact (hwf _ (edgeAt_mem hilen)).1
        · exact (hwf _ (edgeAt_mem hilen)).2
      have hwsrc : (net.edgeAt i).other v ≠ source := by
        intro h2
        rw [h2, hinv.hsrc] at hwm
        cases hwm
      have hwv : (net.edgeAt i).other v ≠ v := by
        intro h2
        rw [h2, hinv.hvm] at hwm
        cases hwm
      have hwq : (net.edgeAt i).other v ∉ st.queue := by
        intro h2
        rw [hinv.hqm _ h2] at hwm
        cases hwm
      have hvo : (net.edgeAt i).other ((net.edgeAt i).other v) = v :=
        FlowEdge.other_other hend hwv
      have hwMlen : (net.edgeAt i).other v < st.marked.length := by
        rw [hinv.hlenM]
        exact hwn
      have hwElen : (net.edgeAt i).other v < st.edge_to.length := by
        rw [hinv.hlenE]
        exact hwn
      set w := (net.edgeAt i).other v with hwdef
      set st1 : AugState :=
        ⟨st.edge_to.set w (some i), st.marked.set w true, st.queue ++ [w]⟩
        with hst1
      have hm1 : ∀ x, x ≠ w →
          st1.marked.getD x false = st.marked.getD x false :=
        fun x hx => getD_set_ne _ _ _ (fun h2 => hx h2.symm)
      have hm1w : st1.marked.getD w false = true := getD_set_self _ _ _ _ hwMlen
      have he1 : ∀ x, x ≠ w →
          st1.edge_to.getD x none = st.edge_to.getD x none :=
        fun x hx => getD_set_ne _ _ _ (fun h2 => hx h2.symm)
      have he1w : st1.edge_to.getD w none = some i := getD_set_self _ _ _ _ hwElen
      have hcnt1 : st1.marked.count true = st.marked.count true + 1 :=
        count_set_true _ _ hwMlen hwm
      have hinv1 : BfsScanInv net flows source v rest st1 := by
        obtain ⟨rnk, hdec, hbound⟩ := hinv.hrank
        refine ⟨by simpa using hinv.hlenM, by simpa using hinv.hlenE,
          by rw [hm1 source (fun h2 => hwsrc h2.symm)]; exact hinv.hsrc,
          ?_, ?_,
          by rw [hm1 v (fun h2 => hwv h2.symm)]; exact hinv.hvm,
          ?_, ?_, ?_, ?_, ?_, ?_⟩
        · intro u hu
          rcases List.mem_append.mp hu with h1 | h1
          · exact marked_mono (hinv.hqm u h1)
          · rw [List.mem_singleton.mp h1]
            exact hm1w
        · exact List.nodup_append.mpr ⟨hinv.hqnodup, List.nodup_singleton _,
            fun a ha hb => hwq ((List.mem_singleton.mp hb) ▸ ha)⟩
        · intro h2
          rcases List.mem_append.mp h2 with h3 | h3
          · exact hinv.hvq h3
          · exact hwv (List.mem_singleton.mp h3).symm
        · -- hscanO
          intro u huv hum huq i' hi' hres'
          have huw : u ≠ w := by
            intro h2
            apply huq
            show u ∈ st.queue ++ [w]
            exact List.mem_append.mpr (.inr (List.mem_singleton.mpr h2))
          rw [hm1 u huw] at hum
          have huq' : u ∉ st.queue := fun h2 =>
            huq (List.mem_append.mpr (.inl h2))
          exact marked_mono (hinv.hscanO u huv hum huq' i' hi' hres')
        · -- hscanV
          intro i' hi'
          rcases hinv.hscanV i' hi' with h1 | h1
          · rcases List.mem_cons.mp h1 with h2 | h2
            · refine .inr ?_
              intro hres'
              rw [h2]
              exact hm1w
            · exact .inl h2
          · exact .inr (fun hres' => marked_mono (h1 hres'))
        · -- hpar
          intro x j hx
          by_cases hxw : x = w
          · rw [hxw, he1w] at hx
            obtain rfl : i = j := Option.some.inj hx
            rw [hxw]
            exact ⟨hilen, hwsrc, hm1w,
              hwend.imp Eq.symm Eq.symm, hres,
              by rw [hvo, hm1 v (fun h2 => hwv h2.symm)]; exact hinv.hvm⟩
          · rw [he1 x hxw] at hx
            obtain ⟨p1, p2, p3, p4, p5, p6⟩ := hinv.hpar x j hx
            exact ⟨p1, p2, marked_mono p3, p4, p5, marked_mono p6⟩
        · -- hmpar
          intro x hx
          by_cases hxw : x = w
          · exact .inr ⟨i, by rw [hxw, he1w]⟩
          · rw [hm1 x hxw] at hx
            rcases hinv.hmpar x hx with h1 | ⟨j, hj⟩
            · exact .inl h1
            · exact .inr ⟨j, by rw [he1 x hxw]; exact hj⟩
        · -- hrank
          refine ⟨fun x => if x = w then st.marked.count true else rnk x,
            ?_, ?_⟩
          · intro x j hx
            show (if (net.edgeAt j).other x = w then st.marked.count true
                else rnk ((net.edgeAt j).other x)) <
              (if x = w then st.marked.count true else rnk x)
            by_cases hxw : x = w
            · rw [hxw, he1w] at hx
              obtain rfl : i = j := Option.some.inj hx
              rw [if_pos hxw, hxw, hvo, if_neg (fun h2 => hwv h2.symm)]
              exact hbound v hinv.hvm
            · rw [he1 x hxw] at hx
              have hother : (net.edgeAt j).other x ≠ w := by
                intro h2
                have h3 := (hinv.hpar x j hx).2.2.2.2.2
                rw [h2, hwm] at h3
                cases h3
              rw [if_neg hxw, if_neg hother]
              exact hdec x j hx
          · intro x hx
            show (if x = w then st.marked.count true else rnk x) <
              st1.marked.count true
            rw [hcnt1]
            by_cases hxw : x = w
            · rw [if_pos hxw]
              omega
            · rw [if_neg hxw]
              rw [hm1 x hxw] at hx
              have := hbound x hx
              omega
      have hshow : bfsEdges net flows v (i :: rest) st =
          bfsEdges net flows v rest st1 := by
        show (if 0 < (net.edgeAt i).residual_capacity_to (flows.getD i 0)
            ((net.edgeAt i).other v) ∧
            st.marked.getD ((net.edgeAt i).other v) false = false then
          bfsEdges net flows v rest
            ⟨st.edge_to.set ((net.edgeAt i).other v) (some i),
             st.marked.set ((net.edgeAt i).other v) true,
             st.queue ++ [(net.edgeAt i).other v]⟩
        else bfsEdges net flows v rest st) = _
        rw [if_pos ⟨hres, hwm⟩]
      obtain ⟨hinv', ps, hq, hcnt, hmono⟩ :=
        ih st1 (fun i' hi' => hmem i' (List.mem_cons_of_mem i hi')) hinv1
      rw [hshow]
      refine ⟨hinv', w :: ps, ?_, ?_, ?_⟩
      · rw [hq]
        show st1.queue ++ ps = st.queue ++ w :: ps
        rw [hst1]
        simp
      · rw [hcnt, hcnt1]
        simp [Nat.add_assoc, Nat.add_comm 1 _]
      · intro x hx
        exact hmono x (marked_mono hx)
    · -- nothing to do for this edge
      have hshow : bfsEdges net flows v (i :: rest) st =
          bfsEdges net flows v rest st := by
        show (if 0 < (net.edgeAt i).residual_capacity_to (flows.getD i 0)
            ((net.edgeAt i).other v) ∧
            st.marked.getD ((net.edgeAt i).other v) false = false then
          bfsEdges net flows v rest
            ⟨st.edge_to.set ((net.edgeAt i).other v) (some i),
             st.marked.set ((net.edgeAt i).other v) true,
             st.queue ++ [(net.edgeAt i).other v]⟩
        else bfsEdges net flows v rest st) = _
        rw [if_neg hg]
      have hinv1 : BfsScanInv net flows source v rest st := by
        refine ⟨hinv.hlenM, hinv.hlenE, hinv.hsrc, hinv.hqm, hinv.hqnodup,
          hinv.hvm, hinv.hvq, hinv.hscanO, ?_, hinv.hpar, hinv.hmpar,
          hinv.hrank⟩
        intro i' hi'
        rcases hinv.hscanV i' hi' with h1 | h1
        · rcases List.mem_cons.mp h1 with h2 | h2
          · refine .inr ?_
            intro hres'
            rw [h2] at hres' ⊢
            by_cases hm : st.marked.getD ((net.edgeAt i).other v) false = true
            · exact hm
            · exfalso
              have hmf : st.marked.getD ((net.edgeAt i).other v) false
                  = false := by
                revert hm
                cases st.marked.getD ((net.edgeAt i).other v) false <;> simp
              exact hg ⟨hres', hmf⟩
          · exact .inl h2
        · exact .inr h1
      rw [hshow]
      exact ih st (fun i' hi' => hmem i' (List.mem_cons_of_mem i hi')) hinv1

/-- Dequeuing a vertex starts its scan. -/
theorem scanInv_of_inv {net : FlowNetwork} {flows : List ℚ} {source : Nat}
    {st : AugState} (hinv : BfsInv net flows source st) {v : Nat}
    {qrest : List Nat} (hq : st.queue = v :: qrest) :
    BfsScanInv net flows source v (net.adjacents v)
      ⟨st.edge_to, st.marked, qrest⟩ := by
  have hvq : v ∈ st.queue := by
    rw [hq]
    exact List.mem_cons_self v qrest
  have hnodup := hinv.hqnodup
  rw [hq] at hnodup
  refine ⟨hinv.hlenM, hinv.hlenE, hinv.hsrc, ?_, (List.nodup_cons.mp hnodup).2,
    hinv.hqm v hvq, (List.nodup_cons.mp hnodup).1, ?_, ?_, hinv.hpar,
    hinv.hmpar, hinv.hrank⟩
  · intro u hu
    exact hinv.hqm u (by rw [hq]; exact List.mem_cons_of_mem v hu)
  · intro u huv hum huq
    refine hinv.hscan u hum ?_
    rw [hq]
    intro h2
    rcases List.mem_cons.mp h2 with h3 | h3
    · exact huv h3
    · exact huq h3
  · intro i hi
    exact .inl hi

/-- A finished scan restores the between-iterations invariant. -/
theorem inv_of_scanInv {net : FlowNetwork} {flows : List ℚ} {source v : Nat}
    {st : AugState} (hinv : BfsScanInv net flows source v [] st) :
    BfsInv net flows source st := by
  refine ⟨hinv.hlenM, hinv.hlenE, hinv.hsrc, hinv.hqm, hinv.hqnodup, ?_,
    hinv.hpar, hinv.hmpar, hinv.hrank⟩
  intro u hum huq i hi hres
  by_cases huv : u = v
  · rcases hinv.hscanV i (huv ▸ hi) with h1 | h1
    · cases h1
    · rw [huv]
      exact h1 (huv ▸ hres)
  · exact hinv.hscanO u huv hum huq i hi hres

/-- The BFS while-loop: with fuel at least the measure
`|queue| + (n - #marked)`, it reaches the empty queue with the invariant
intact. -/
theorem bfsLoop_spec {net : FlowNetwork} {flows : List ℚ} {source : Nat}
    (hwf : FNWF net) :
    ∀ (fuel : Nat) (st : AugState), BfsInv net flows source st →
      st.queue.length +
        (net.number_of_vertices - st.marked.count true) ≤ fuel →
      BfsInv net flows source (bfsLoop net flows fuel st) ∧
      (bfsLoop net flows fuel st).queue = [] := by
  intro fuel
  induction fuel with
  | zero =>
    intro st hinv hm
    have h0 : st.queue.length = 0 := by omega
    have hq : st.queue = [] := List.length_eq_zero.mp h0
    refine ⟨?_, ?_⟩
    · show BfsInv net flows source st
      exact hinv
    · show st.queue = []
      exact hq
  | succ fuel ih =>
    intro st hinv hm
    cases hq : st.queue with
    | nil =>
      have hshow : bfsLoop net flows (fuel + 1) st = st := by
        show (match st.queue with
          | [] => st
          | v :: qrest => bfsLoop net flows fuel
              (bfsEdges net flows v (net.adjacents v)
                ⟨st.edge_to, st.marked, qrest⟩)) = st
        rw [hq]
      rw [hshow]
      exact ⟨hinv, hq⟩
    | cons v qrest =>
      have hsinv := scanInv_of_inv hinv hq
      obtain ⟨hsinv', ps, hq', hcnt', hmono'⟩ :=
        bfsEdges_spec hwf (net.adjacents v) _ (fun i hi => hi) hsinv
      have hinv' := inv_of_scanInv hsinv'
      have hcle : (bfsEdges net flows v (net.adjacents v)
          ⟨st.edge_to, st.marked, qrest⟩).marked.count true ≤
          net.number_of_vertices := by
        have h1 := List.count_le_length true (bfsEdges net flows v
          (net.adjacents v) ⟨st.edge_to, st.marked, qrest⟩).marked
        rw [hinv'.hlenM] at h1
        exact h1
      have hmeas : (bfsEdges net flows v (net.adjacents v)
            ⟨st.edge_to, st.marked, qrest⟩).queue.length +
          (net.number_of_vertices - (bfsEdges net flows v (net.adjacents v)
            ⟨st.edge_to, st.marked, qrest⟩).marked.count true) ≤ fuel := by
        rw [hq', hcnt']
        rw [List.length_append]
        have hql : st.queue.length = qrest.length + 1 := by
          rw [hq]
          rfl
        show qrest.length + ps.length + (net.number_of_vertices -
          (st.marked.count true + ps.length)) ≤ fuel
        rw [hcnt'] at hcle
        have hproj : List.count true
            (⟨st.edge_to, st.marked, qrest⟩ : AugState).marked =
            List.count true st.marked := rfl
        rw [hproj] at hcle
        omega
      have hshow : bfsLoop net flows (fuel + 1) st = bfsLoop net flows fuel
          (bfsEdges net flows v (net.adjacents v)
            ⟨st.edge_to, st.marked, qrest⟩) := by
        show (match st.queue with
          | [] => st
          | v :: qrest => bfsLoop net flows fuel
              (bfsEdges net flows v (net.adjacents v)
                ⟨st.edge_to, st.marked, qrest⟩)) = _
        rw [hq]
      rw [hshow]
      exact ih _ hinv' hmeas

/-- `_has_augmenting_path` establishes the invariant with an empty
queue: the BFS has completed. -/
theorem hasAugPath_spec {net : FlowNetwork} {flows : List ℚ} {source : Nat}
    (hwf : FNWF net) (hsn : source < net.number_of_vertices) :
    BfsInv net flows source (hasAugPath net flows source) ∧
    (hasAugPath net flows source).queue = [] := by
  have hsM : source < (List.replicate net.number_of_vertices false).length := by
    rw [List.length_replicate]
    exact hsn
  have hms : ((List.replicate net.number_of_vertices false).set source
      true).getD source false = true := getD_set_self _ _ _ _ hsM
  have hmo : ∀ x, x ≠ source →
      ((List.replicate net.number_of_vertices false).set source true).getD x
        false = false := by
    intro x hx
    rw [getD_set_ne _ _ _ (fun h2 => hx h2.symm)]
    by_cases h : x < net.number_of_vertices
    · exact getD_replicate_lt _ _ h
    · exact getD_oob _ _ (by rw [List.length_replicate]; omega)
  have hcnt : ((List.replicate net.number_of_vertices false).set source
      true).count true = 1 := by
    rw [count_set_true _ _ hsM (by rw [getD_replicate_lt _ _ hsn])]
    simp [List.count_replicate]
  have hpe : ∀ w, (List.replicate net.number_of_vertices
      (none : Option Nat)).getD w none = none := by
    intro w
    by_cases h : w < net.number_of_vertices
    · exact getD_replicate_lt _ _ h
    · exact getD_oob _ _ (by rw [List.length_replicate]; omega)
  have hinv0 : BfsInv net flows source
      ⟨List.replicate net.number_of_vertices none,
       (List.replicate net.number_of_vertices false).set source true,
       [source]⟩ := by
    refine ⟨by simp, by simp, hms, ?_, List.nodup_singleton _, ?_, ?_, ?_, ?_⟩
    · intro u hu
      rw [List.mem_singleton.mp hu]
      exact hms
    · intro u hum huq i hi hres
      by_cases hus : u = source
      · exact absurd (List.mem_singleton.mpr hus) huq
      · rw [hmo u hus] at hum
        cases hum
    · intro w i hw
      rw [hpe w] at hw
      cases hw
    · intro w hw
      by_cases hws : w = source
      · exact .inl hws
      · rw [hmo w hws] at hw
        cases hw
    · refine ⟨fun _ => 0, ?_, ?_⟩
      · intro w i hw
        rw [hpe w] at hw
        cases hw
      · intro w hw
        show 0 < _
        rw [hcnt]
        omega
  have hmeas : ([source] : List Nat).length +
      (net.number_of_vertices -
        ((List.replicate net.number_of_vertices false).set source
          true).count true) ≤ net.number_of_vertices := by
    rw [hcnt]
    show 1 + (net.number_of_vertices - 1) ≤ net.number_of_vertices
    omega
  exact bfsLoop_spec hwf net.number_of_vertices _ hinv0 hmeas

/-! #### The augmenting path -/

/-- Specification-side description of the parent walk from `current` back
to the source: the `(position, vertex)` pairs the two constructor walks
visit. -/
inductive Chain (net : FlowNetwork) (edge_to : List (Option Nat))
    (source : Nat) : Nat → List (Nat × Nat) → Prop where
  | nil : Chain net edge_to source source []
  | cons {current i : Nat} {rest : List (Nat × Nat)} :
      current ≠ source → edge_to.getD current none = some i →
      Chain net edge_to source ((net.edgeAt i).other current) rest →
      Chain net edge_to source current ((i, current) :: rest)

/-- `pathBack` follows the parent chain: with fuel beyond the rank of the
start vertex it produces exactly the chain to the source. -/
theorem pathBack_chain {net : FlowNetwork} {flows : List ℚ} {source : Nat}
    {st : AugState} (hinv : BfsInv net flows source st) {rnk : Nat → Nat}
    (hdec : ∀ w i, st.edge_to.getD w none = some i →
      rnk ((net.edgeAt i).other w) < rnk w) :
    ∀ (fuel current : Nat), st.marked.getD current false = true →
      rnk current < fuel →
      Chain net st.edge_to source current
        (pathBack net st.edge_to source fuel current) := by
  intro fuel
  induction fuel with
  | zero =>
    intro current _ hr
    omega
  | succ m ih =>
    intro current hm hr
    by_cases hcs : current = source
    · have hshow : pathBack net st.edge_to source (m + 1) current = [] := by
        show (if current = source then [] else _) = []
        rw [if_pos hcs]
      rw [hshow, hcs]
      exact Chain.nil
    · rcases hinv.hmpar current hm with h | ⟨i, hi⟩
      · exact absurd h hcs
      · have hshow : pathBack net st.edge_to source (m + 1) current =
            (i, current) :: pathBack net st.edge_to source m
              ((net.edgeAt i).other current) := by
          show (if current = source then [] else
            match st.edge_to.getD current none with
            | none => []
            | some i => (i, current) :: pathBack net st.edge_to source m
                ((net.edgeAt i).other current)) = _
          rw [if_neg hcs, hi]
        rw [hshow]
        have hnm : st.marked.getD ((net.edgeAt i).other current) false = true :=
          (hinv.hpar current i hi).2.2.2.2.2
        have hdec' := hdec current i hi
        exact Chain.cons hcs hi (ih _ hnm (by omega))

/-- Every chain element records its parent entry, ranks weakly below the
start, and the recorded positions are distinct. -/
theorem chain_facts {net : FlowNetwork} {flows : List ℚ} {source : Nat}
    {st : AugState} (hinv : BfsInv net flows source st) {rnk : Nat → Nat}
    (hdec : ∀ w i, st.edge_to.getD w none = some i →
      rnk ((net.edgeAt i).other w) < rnk w) :
    ∀ {current : Nat} {p : List (Nat × Nat)},
      Chain net st.edge_to source current p →
      (∀ q ∈ p, st.edge_to.getD q.2 none = some q.1 ∧ rnk q.2 ≤ rnk current) ∧
      (p.map Prod.fst).Nodup := by
  intro current p hchain
  induction hchain with
  | nil => exact ⟨fun q hq => absurd hq (List.not_mem_nil q), List.nodup_nil⟩
  | @cons current i rest hcs hi hrest ih =>
    obtain ⟨helem, hnodup⟩ := ih
    have hlt : rnk ((net.edgeAt i).other current) < rnk current :=
      hdec current i hi
    refine ⟨?_, ?_⟩
    · intro q hq
      rcases List.mem_cons.mp hq with h1 | h1
      · rw [h1]
        exact ⟨hi, le_rfl⟩
      · obtain ⟨h2, h3⟩ := helem q h1
        exact ⟨h2, by omega⟩
    · rw [List.map_cons]
      refine List.nodup_cons.mpr ⟨?_, hnodup⟩
      intro hmem
      obtain ⟨q, hq, hq1⟩ := List.mem_map.mp hmem
      obtain ⟨hq2, hq3⟩ := helem q hq
      -- q.2 and current are distinct vertices sharing the parent edge i
      have hqc : q.2 ≠ current := by
        intro h2
        rw [h2] at hq3
        omega
      rw [hq1] at hq2
      have hend1 := (hinv.hpar current i hi).2.2.2.1
      have hend2 := (hinv.hpar q.2 i hq2).2.2.2.1
      have ho1 : (net.edgeAt i).other current = q.2 :=
        FlowEdge.other_eq_of_both hend1 hend2 (fun h2 => hqc h2.symm)
      have ho2 : (net.edgeAt i).other q.2 = current :=
        FlowEdge.other_eq_of_both hend2 hend1 hqc
      have hd1 := hdec current i hi
      have hd2 := hdec q.2 i hq2
      rw [ho1] at hd1
      rw [ho2] at hd2
      omega

/-! #### The bottleneck -/

theorem foldl_min_le_init {α : Type} (g : α → EVal) :
    ∀ (l : List α) (b : EVal), l.foldl (fun acc p => min acc (g p)) b ≤ b := by
  intro l
  induction l with
  | nil => exact fun b => le_rfl
  | cons q l ih =>
    intro b
    exact le_trans (ih (min b (g q))) (min_le_left _ _)

theorem foldl_min_le_elem {α : Type} (g : α → EVal) :
    ∀ (l : List α) (b : EVal) (p : α), p ∈ l →
      l.foldl (fun acc p => min acc (g p)) b ≤ g p := by
  intro l
  induction l with
  | nil =>
    intro b p hp
    cases hp
  | cons q l ih =>
    intro b p hp
    rcases List.mem_cons.mp hp with h1 | h1
    · rw [h1]
      exact le_trans (foldl_min_le_init g l (min b (g q))) (min_le_right _ _)
    · exact ih (min b (g q)) p h1

theorem foldl_min_pos {α : Type} (g : α → EVal) :
    ∀ (l : List α) (b : EVal), 0 < b → (∀ p ∈ l, 0 < g p) →
      0 < l.foldl (fun acc p => min acc (g p)) b := by
  intro l
  induction l with
  | nil => exact fun b hb _ => hb
  | cons q l ih =>
    intro b hb hl
    exact ih (min b (g q)) (lt_min hb (hl q (List.mem_cons_self q l)))
      (fun p hp => hl p (List.mem_cons_of_mem q hp))

/-! #### The flow update -/

/-- The effect of the update walk on the flow assignment, one edge per
distinct position. -/
theorem augFlows_spec (net : FlowNetwork) (δ : ℚ) :
    ∀ (path : List (Nat × Nat)) (flows : List ℚ),
      (path.map Prod.fst).Nodup →
      (augFlows net path δ flows).length = flows.length ∧
      (∀ j, j ∉ path.map Prod.fst →
        (augFlows net path δ flows).getD j 0 = flows.getD j 0) ∧
      (∀ q ∈ path, q.1 < flows.length →
        (augFlows net path δ flows).getD q.1 0 =
          (net.edgeAt q.1).add_residual_flow_to (flows.getD q.1 0) q.2 δ) := by
  intro path
  induction path with
  | nil => exact fun flows _ => ⟨rfl, fun j _ => rfl, fun q hq => absurd hq
      (List.not_mem_nil q)⟩
  | cons q rest ih =>
    intro flows hnodup
    rw [List.map_cons] at hnodup
    obtain ⟨hqni, hnodup'⟩ := List.nodup_cons.mp hnodup
    set flows1 : List ℚ := flows.set q.1
      ((net.edgeAt q.1).add_residual_flow_to (flows.getD q.1 0) q.2 δ)
      with hflows1
    have hshow : augFlows net (q :: rest) δ flows = augFlows net rest δ flows1 :=
      rfl
    obtain ⟨hlen, hunch, hupd⟩ := ih flows1 hnodup'
    have hlen1 : flows1.length = flows.length := List.length_set _ _ _
    refine ⟨by rw [hshow, hlen, hlen1], ?_, ?_⟩
    · intro j hj
      have hjq : j ≠ q.1 := by
        intro h2
        exact hj (by rw [List.map_cons]; exact h2 ▸ List.mem_cons_self _ _)
      have hjr : j ∉ rest.map Prod.fst := by
        intro h2
        exact hj (by rw [List.map_cons]; exact List.mem_cons_of_mem _ h2)
      rw [hshow, hunch j hjr]
      exact getD_set_ne _ _ _ (fun h2 => hjq h2.symm)
    · intro q' hq' hq'len
      rcases List.mem_cons.mp hq' with h1 | h1
      · rw [hshow, h1, hunch q.1 hqni]
        rw [h1] at hq'len
        exact getD_set_self _ _ _ _ hq'len
      · have hne : q'.1 ≠ q.1 := by
          intro h2
          exact hqni (h2 ▸ List.mem_map.mpr ⟨q', h1, rfl⟩)
        have hsame : flows1.getD q'.1 0 = flows.getD q'.1 0 :=
          getD_set_ne _ _ _ (fun h2 => hne h2.symm)
        rw [hshow, hupd q' h1 (by rw [hlen1]; exact hq'len), hsame]

/-! #### Flow conservation -/

/-- Total flow leaving `v` over the directed edges. -/
def outFlow (net : FlowNetwork) (flows : List ℚ) (v : Nat) : ℚ :=
  ∑ i ∈ Finset.range net.edges.length,
    if (net.edgeAt i).vertex_v = v then flows.getD i 0 else 0

/-- Total flow entering `v` over the directed edges. -/
def inFlow (net : FlowNetwork) (flows : List ℚ) (v : Nat) : ℚ :=
  ∑ i ∈ Finset.range net.edges.length,
    if (net.edgeAt i).vertex_w = v then flows.getD i 0 else 0

/-- Net inflow at `v`. -/
def excess (net : FlowNetwork) (flows : List ℚ) (v : Nat) : ℚ :=
  inFlow net flows v - outFlow net flows v

theorem excess_zero_flows (net : FlowNetwork) (len : Nat) (v : Nat) :
    excess net (List.replicate len 0) v = 0 := by
  have hz : ∀ i : Nat, (List.replicate len (0 : ℚ)).getD i 0 = 0 := by
    intro i
    by_cases h : i < len
    · exact getD_replicate_lt _ _ h
    · exact getD_oob _ _ (by rw [List.length_replicate]; omega)
  have h1 : inFlow net (List.replicate len 0) v = 0 :=
    Finset.sum_eq_zero (fun i _ => by rw [hz i, ite_self])
  have h2 : outFlow net (List.replicate len 0) v = 0 :=
    Finset.sum_eq_zero (fun i _ => by rw [hz i, ite_self])
  rw [excess, h1, h2, sub_zero]

/-- Changing the flow of the single edge at position `i` shifts the
excess at each vertex by the flow difference, entering at the edge's head
and leaving at its tail. -/
theorem excess_update {net : FlowNetwork} {flows flows' : List ℚ} {i : Nat}
    (hi : i < net.edges.length)
    (hoth : ∀ j, j ≠ i → flows'.getD j 0 = flows.getD j 0) (v : Nat) :
    excess net flows' v = excess net flows v +
      ((if (net.edgeAt i).vertex_w = v then flows'.getD i 0 - flows.getD i 0
          else 0) -
       (if (net.edgeAt i).vertex_v = v then flows'.getD i 0 - flows.getD i 0
          else 0)) := by
  have hin : inFlow net flows' v = inFlow net flows v +
      (if (net.edgeAt i).vertex_w = v then flows'.getD i 0 - flows.getD i 0
        else 0) := by
    rw [inFlow, inFlow]
    rw [show (∑ j ∈ Finset.range net.edges.length,
        if (net.edgeAt j).vertex_w = v then flows.getD j 0 else 0) +
        (if (net.edgeAt i).vertex_w = v then flows'.getD i 0 - flows.getD i 0
          else 0) =
      ∑ j ∈ Finset.range net.edges.length,
        ((if (net.edgeAt j).vertex_w = v then flows.getD j 0 else 0) +
          (if j = i then (if (net.edgeAt i).vertex_w = v then
            flows'.getD i 0 - flows.getD i 0 else 0) else 0)) from by
      rw [Finset.sum_add_distrib, Finset.sum_ite_eq'
        (Finset.range net.edges.length) i, if_pos (Finset.mem_range.mpr hi)]]
    refine Finset.sum_congr rfl ?_
    intro j _
    by_cases hji : j = i
    · subst hji
      rw [if_pos rfl]
      by_cases hc : (net.edgeAt j).vertex_w = v
      · simp only [if_pos hc]
        ring
      · simp only [if_neg hc]
        ring
    · rw [if_neg hji, hoth j hji, add_zero]
  have hout : outFlow net flows' v = outFlow net flows v +
      (if (net.edgeAt i).vertex_v = v then flows'.getD i 0 - flows.getD i 0
        else 0) := by
    rw [outFlow, outFlow]
    rw [show (∑ j ∈ Finset.range net.edges.length,
        if (net.edgeAt j).vertex_v = v then flows.getD j 0 else 0) +
        (if (net.edgeAt i).vertex_v = v then flows'.getD i 0 - flows.getD i 0
          else 0) =
      ∑ j ∈ Finset.range net.edges.length,
        ((if (net.edgeAt j).vertex_v = v then flows.getD j 0 else 0) +
          (if j = i then (if (net.edgeAt i).vertex_v = v then
            flows'.getD i 0 - flows.getD i 0 else 0) else 0)) from by
      rw [Finset.sum_add_distrib, Finset.sum_ite_eq'
        (Finset.range net.edges.length) i, if_pos (Finset.mem_range.mpr hi)]]
    refine Finset.sum_congr rfl ?_
    intro j _
    by_cases hji : j = i
    · subst hji
      rw [if_pos rfl]
      by_cases hc : (net.edgeAt j).vertex_v = v
      · simp only [if_pos hc]
        ring
      · simp only [if_neg hc]
        ring
    · rw [if_neg hji, hoth j hji, add_zero]
  rw [excess, excess, hin, hout]
  ring

/-- One step of the update walk moves `δ` of excess from the next chain
vertex to the current one. -/
theorem single_aug_excess {net : FlowNetwork} {flows : List ℚ} {i w : Nat}
    {δ : ℚ} (hlen : flows.length = net.edges.length)
    (hi : i < net.edges.length)
    (hend : (net.edgeAt i).vertex_v = w ∨ (net.edgeAt i).vertex_w = w)
    (hne : (net.edgeAt i).other w ≠ w) (v : Nat) :
    excess net (flows.set i ((net.edgeAt i).add_residual_flow_to
      (flows.getD i 0) w δ)) v =
    excess net flows v + ((if v = w then δ else 0) -
      (if v = (net.edgeAt i).other w then δ else 0)) := by
  have hilen : i < flows.length := by
    rw [hlen]
    exact hi
  have hd : (flows.set i ((net.edgeAt i).add_residual_flow_to
      (flows.getD i 0) w δ)).getD i 0 =
      (net.edgeAt i).add_residual_flow_to (flows.getD i 0) w δ :=
    getD_set_self _ _ _ _ hilen
  have hneg : ∀ (c : Prop) [Decidable c],
      (if c then -δ else 0) = -(if c then δ else 0) := by
    intro c hc
    by_cases h : c <;> simp [h]
  rw [excess_update hi (fun j hj => getD_set_ne _ _ _ (fun h2 => hj h2.symm)) v,
    hd]
  by_cases hwv : (net.edgeAt i).vertex_v = w
  · have hob : (net.edgeAt i).other w = (net.edgeAt i).vertex_w := by
      rw [FlowEdge.other, if_pos hwv.symm]
    have hadd : (net.edgeAt i).add_residual_flow_to (flows.getD i 0) w δ =
        flows.getD i 0 - δ := by
      rw [FlowEdge.add_residual_flow_to, if_pos hwv.symm]
    rw [hadd, hob]
    have hval : flows.getD i 0 - δ - flows.getD i 0 = -δ := by ring
    rw [hval]
    have e1 : (if v = w then δ else 0) =
        (if (net.edgeAt i).vertex_v = v then δ else 0) :=
      if_congr ⟨fun h => by rw [hwv, h], fun h => by rw [← hwv, ← h]⟩ rfl rfl
    have e2 : (if v = (net.edgeAt i).vertex_w then δ else 0) =
        (if (net.edgeAt i).vertex_w = v then δ else 0) :=
      if_congr eq_comm rfl rfl
    rw [e1, e2, hneg, hneg]
    ring
  · have hww : (net.edgeAt i).vertex_w = w := hend.resolve_left hwv
    have hob : (net.edgeAt i).other w = (net.edgeAt i).vertex_v := by
      rw [FlowEdge.other, if_neg (fun h2 => hwv h2.symm), if_pos hww.symm]
    have hadd : (net.edgeAt i).add_residual_flow_to (flows.getD i 0) w δ =
        flows.getD i 0 + δ := by
      rw [FlowEdge.add_residual_flow_to, if_neg (fun h2 => hwv h2.symm),
        if_pos hww.symm]
    rw [hadd, hob]
    have hval : flows.getD i 0 + δ - flows.getD i 0 = δ := by ring
    rw [hval]
    have e1 : (if v = w then δ else 0) =
        (if (net.edgeAt i).vertex_w = v then δ else 0) :=
      if_congr ⟨fun h => by rw [hww, h], fun h => by rw [← hww, ← h]⟩ rfl rfl
    have e2 : (if v = (net.edgeAt i).vertex_v then δ else 0) =
        (if (net.edgeAt i).vertex_v = v then δ else 0) :=
      if_congr eq_comm rfl rfl
    rw [e1, e2]

/-- The whole update walk moves `δ` of excess from the source to the
chain's start. -/
theorem chain_excess {net : FlowNetwork} {edge_to : List (Option Nat)}
    {source : Nat} {δ : ℚ} :
    ∀ {current : Nat} {p : List (Nat × Nat)},
      Chain net edge_to source current p →
      ∀ flows : List ℚ, flows.length = net.edges.length →
        (∀ q ∈ p, q.1 < net.edges.length ∧
          ((net.edgeAt q.1).vertex_v = q.2 ∨ (net.edgeAt q.1).vertex_w = q.2) ∧
          (net.edgeAt q.1).other q.2 ≠ q.2) →
        ∀ v, excess net (augFlows net p δ flows) v =
          excess net flows v +
            ((if v = current then δ else 0) - (if v = source then δ else 0)) := by
  intro current p hchain
  induction hchain with
  | nil =>
    intro flows _ _ v
    have h : augFlows net [] δ flows = flows := rfl
    rw [h]
    ring
  | @cons current i rest hcs hi hrest ih =>
    intro flows hlen helem v
    have hq := helem (i, current) (List.mem_cons_self _ _)
    have hflows1 : (flows.set i ((net.edgeAt i).add_residual_flow_to
        (flows.getD i 0) current δ)).length = net.edges.length := by
      rw [List.length_set]
      exact hlen
    have hstep := single_aug_excess (δ := δ) hlen hq.1 hq.2.1 hq.2.2 v
    have hrest' := ih _ hflows1
      (fun q hq2 => helem q (List.mem_cons_of_mem _ hq2)) v
    show excess net (augFlows net rest δ (flows.set i
      ((net.edgeAt i).add_residual_flow_to (flows.getD i 0) current δ))) v = _
    rw [hrest', hstep]
    ring

/-- The update walk keeps the flow assignment feasible. -/
theorem augment_feas {net : FlowNetwork} {flows : List ℚ}
    {path : List (Nat × Nat)} {δ : ℚ}
    (hlen : flows.length = net.edges.length)
    (hnodup : (path.map Prod.fst).Nodup) (hd0 : 0 ≤ δ)
    (helem : ∀ q ∈ path, q.1 < net.edges.length ∧
      ((net.edgeAt q.1).vertex_v = q.2 ∨ (net.edgeAt q.1).vertex_w = q.2) ∧
      δ ≤ (net.edgeAt q.1).residual_capacity_to (flows.getD q.1 0) q.2)
    (hfeas : ∀ i, i < net.edges.length → 0 ≤ flows.getD i 0 ∧
      flows.getD i 0 ≤ (net.edgeAt i).capacity) :
    (augFlows net path δ flows).length = net.edges.length ∧
    ∀ i, i < net.edges.length → 0 ≤ (augFlows net path δ flows).getD i 0 ∧
      (augFlows net path δ flows).getD i 0 ≤ (net.edgeAt i).capacity := by
  obtain ⟨hL, hunch, hupd⟩ := augFlows_spec net δ path flows hnodup
  refine ⟨by rw [hL, hlen], ?_⟩
  intro i hi
  by_cases hmem : i ∈ path.map Prod.fst
  · obtain ⟨q, hq, hq1⟩ := List.mem_map.mp hmem
    obtain ⟨hqi, hqend, hqres⟩ := helem q hq
    obtain ⟨hf0, hfc⟩ := hfeas i hi
    have hq1' : q.1 = i := hq1
    subst hq1'
    rw [hupd q hq (by rw [hlen]; exact hqi)]
    by_cases hv : q.2 = (net.edgeAt q.1).vertex_v
    · rw [FlowEdge.add_residual_flow_to, if_pos hv]
      rw [FlowEdge.residual_capacity_to, if_pos hv] at hqres
      constructor
      · linarith
      · linarith
    · have hw : q.2 = (net.edgeAt q.1).vertex_w := by
        rcases hqend with h | h
        · exact absurd h.symm hv
        · exact h.symm
      rw [FlowEdge.add_residual_flow_to, if_neg hv, if_pos hw]
      rw [FlowEdge.residual_capacity_to, if_neg hv, if_pos hw] at hqres
      constructor
      · linarith
      · linarith
  · rw [hunch i hmem]
    exact hfeas i hi

/-! #### The outer Ford-Fulkerson loop -/

/-- Facts maintained by the constructor loop: feasibility and
conservation, with `value` the (finite) excess at the target. -/
structure FFInv (net : FlowNetwork) (source target : Nat) (flows : List ℚ)
    (value : EVal) : Prop where
  hlen : flows.length = net.edges.length
  hfeas : ∀ i, i < net.edges.length → 0 ≤ flows.getD i 0 ∧
    flows.getD i 0 ≤ (net.edgeAt i).capacity
  hval : ∃ vq : ℚ, value = (vq : EVal) ∧ excess net flows target = vq ∧
    ∀ v, v ≠ source → v ≠ target → excess net flows v = 0

/-- A round of the loop on an augmenting path: the bookkeeping bundle. -/
theorem ffRound {net : FlowNetwork} {source target : Nat} {flows : List ℚ}
    {value : EVal} (hwf : FNWF net)
    (hsn : source < net.number_of_vertices) (hst : source ≠ target)
    (hinv : FFInv net source target flows value)
    (hm : (hasAugPath net flows source).marked.getD target false = true) :
    FFInv net source target
      (augFlows net (pathBack net (hasAugPath net flows source).edge_to source
          net.number_of_vertices target)
        ((bottleOf net flows (pathBack net
          (hasAugPath net flows source).edge_to source
          net.number_of_vertices target)).untop' 0) flows)
      (value + bottleOf net flows (pathBack net
        (hasAugPath net flows source).edge_to source
        net.number_of_vertices target)) := by
  obtain ⟨hbfs, hq⟩ := @hasAugPath_spec net flows source hwf hsn
  obtain ⟨rnk, hdec, hbound⟩ := hbfs.hrank
  set st := hasAugPath net flows source with hst_def
  set path := pathBack net st.edge_to source net.number_of_vertices target
    with hpath_def
  have hrt : rnk target < net.number_of_vertices := by
    have h1 := hbound target hm
    have h2 := List.count_le_length true st.marked
    rw [hbfs.hlenM] at h2
    omega
  have hchain : Chain net st.edge_to source target path :=
    pathBack_chain hbfs hdec _ target hm hrt
  obtain ⟨helems, hids⟩ := chain_facts hbfs hdec hchain
  -- expand the per-element facts
  have hfacts : ∀ q ∈ path, q.1 < net.edges.length ∧ q.2 ≠ source ∧
      ((net.edgeAt q.1).vertex_v = q.2 ∨ (net.edgeAt q.1).vertex_w = q.2) ∧
      0 < (net.edgeAt q.1).residual_capacity_to (flows.getD q.1 0) q.2 ∧
      (net.edgeAt q.1).other q.2 ≠ q.2 := by
    intro q hq2
    have hedge := (helems q hq2).1
    obtain ⟨p1, p2, p3, p4, p5, p6⟩ := hbfs.hpar q.2 q.1 hedge
    have hne : (net.edgeAt q.1).other q.2 ≠ q.2 := by
      intro h2
      have := hdec q.2 q.1 hedge
      rw [h2] at this
      omega
    exact ⟨p1, p2, p4, p5, hne⟩
  have hne_nil : path ≠ [] := by
    intro h0
    cases h0 ▸ hchain with
    | nil => exact hst rfl
  obtain ⟨q0, rest0, hq0⟩ : ∃ q0 rest0, path = q0 :: rest0 := by
    cases hp : path with
    | nil => exact absurd hp hne_nil
    | cons a b => exact ⟨a, b, rfl⟩
  have hbpos : 0 < bottleOf net flows path := by
    refine foldl_min_pos _ path ⊤ (WithTop.coe_lt_top 0) ?_
    intro q hq2
    exact_mod_cast (hfacts q hq2).2.2.2.1
  have hble : ∀ q ∈ path, bottleOf net flows path ≤
      ((net.edgeAt q.1).residual_capacity_to (flows.getD q.1 0) q.2 : EVal) :=
    fun q hq2 => foldl_min_le_elem _ path ⊤ q hq2
  have hbfin : bottleOf net flows path ≠ ⊤ :=
    ne_top_of_le_ne_top WithTop.coe_ne_top (hble q0 (hq0 ▸ List.mem_cons_self _ _))
  obtain ⟨δ, hδ⟩ : ∃ δ : ℚ, bottleOf net flows path = (δ : EVal) := by
    obtain ⟨a, ha⟩ := WithTop.ne_top_iff_exists.mp hbfin
    exact ⟨a, ha.symm⟩
  have huntop : (bottleOf net flows path).untop' 0 = δ := by
    rw [hδ]
    rfl
  have hδ0 : 0 < δ := by
    rw [hδ] at hbpos
    exact_mod_cast hbpos
  have hδle : ∀ q ∈ path, δ ≤
      (net.edgeAt q.1).residual_capacity_to (flows.getD q.1 0) q.2 := by
    intro q hq2
    have := hble q hq2
    rw [hδ] at this
    exact_mod_cast this
  obtain ⟨vq, hv1, hv2, hv3⟩ := hinv.hval
  rw [huntop]
  obtain ⟨hL', hfeas'⟩ := augment_feas hinv.hlen hids hδ0.le
    (fun q hq2 => ⟨(hfacts q hq2).1, (hfacts q hq2).2.2.1, hδle q hq2⟩)
    hinv.hfeas
  have hexc := chain_excess (δ := δ) hchain flows hinv.hlen
    (fun q hq2 => ⟨(hfacts q hq2).1, (hfacts q hq2).2.2.1,
      (hfacts q hq2).2.2.2.2⟩)
  refine ⟨hL', hfeas', ⟨vq + δ, ?_, ?_, ?_⟩⟩
  · rw [hv1, hδ]
    push_cast
    rfl
  · rw [hexc target, hv2, if_pos rfl, if_neg (fun h2 => hst h2.symm)]
    ring
  · intro v hvs hvt
    rw [hexc v, hv3 v hvs hvt, if_neg hvt, if_neg hvs]
    ring

/-- The constructor loop maintains the invariant and always returns a
state whose BFS has completed. -/
theorem ffLoop_spec {net : FlowNetwork} {source target : Nat} (hwf : FNWF net)
    (hsn : source < net.number_of_vertices) (hst : source ≠ target) :
    ∀ (fuel : Nat) (flows : List ℚ) (value : EVal),
      FFInv net source target flows value →
      FFInv net source target (ffLoop net source target fuel flows value).1
        (ffLoop net source target fuel flows value).2.1 ∧
      (ffLoop net source target fuel flows value).2.2 =
        hasAugPath net (ffLoop net source target fuel flows value).1 source := by
  intro fuel
  induction fuel with
  | zero =>
    intro flows value hinv
    exact ⟨hinv, rfl⟩
  | succ fuel ih =>
    intro flows value hinv
    by_cases hm : (hasAugPath net flows source).marked.getD target false = true
    · have hshow : ffLoop net source target (fuel + 1) flows value =
          ffLoop net source target fuel
            (augFlows net (pathBack net
                (hasAugPath net flows source).edge_to source
                net.number_of_vertices target)
              ((bottleOf net flows (pathBack net
                (hasAugPath net flows source).edge_to source
                net.number_of_vertices target)).untop' 0) flows)
            (value + bottleOf net flows (pathBack net
              (hasAugPath net flows source).edge_to source
              net.number_of_vertices target)) := by
        show (if (hasAugPath net flows source).marked.getD target false = true
          then _ else _) = _
        rw [if_pos hm]
      rw [hshow]
      exact ih _ _ (ffRound hwf hsn hst hinv hm)
    · have hshow : ffLoop net source target (fuel + 1) flows value =
          (flows, value, hasAugPath net flows source) := by
        show (if (hasAugPath net flows source).marked.getD target false = true
          then _ else _) = _
        rw [if_neg hm]
      rw [hshow]
      exact ⟨hinv, rfl⟩

/-- The capacity of the cut from the marked vertices to their complement
(the quantity the claim compares the flow value with). -/
def cutCapacity (net : FlowNetwork) (marked : List Bool) : ℚ :=
  ((List.range net.edges.length).map (fun i =>
    if marked.getD (net.edgeAt i).vertex_v false = true ∧
        marked.getD (net.edgeAt i).vertex_w false = false
    then (net.edgeAt i).capacity else 0)).sum

theorem list_range_map_sum (f : Nat → ℚ) :
    ∀ n : Nat, ((List.range n).map f).sum = ∑ i ∈ Finset.range n, f i := by
  intro n
  induction n with
  | zero => simp
  | succ n ih =>
    rw [List.range_succ, List.map_append, List.sum_append,
      Finset.sum_range_succ, ih]
    simp

/-- Exit analysis: when the final BFS fails to reach the target, the flow
value equals the capacity of the marked-to-unmarked cut. -/
theorem maxflow_eq_mincut {net : FlowNetwork} {source target : Nat}
    {flows : List ℚ} {value : EVal} {st : AugState} (hwf : FNWF net)
    (htn : target < net.number_of_vertices) (hst : source ≠ target)
    (hinv : FFInv net source target flows value)
    (hbfs : BfsInv net flows source st) (hq : st.queue = [])
    (hm : st.marked.getD target false = false) :
    value = ((cutCapacity net st.marked : ℚ) : EVal) := by
  obtain ⟨vq, hv1, hv2, hv3⟩ := hinv.hval
  -- saturation of the forward crossing edges
  have hsatF : ∀ i, i < net.edges.length →
      st.marked.getD (net.edgeAt i).vertex_v false = true →
      st.marked.getD (net.edgeAt i).vertex_w false = false →
      flows.getD i 0 = (net.edgeAt i).capacity := by
    intro i hi hmv hmw
    have hvw : (net.edgeAt i).vertex_w ≠ (net.edgeAt i).vertex_v := by
      intro h2
      rw [h2, hmv] at hmw
      cases hmw
    have hadj : i ∈ net.adjacents (net.edgeAt i).vertex_v :=
      mem_adjacents.mpr ⟨hi, .inl rfl⟩
    have hsc := hbfs.hscan (net.edgeAt i).vertex_v hmv
      (by rw [hq]; exact List.not_mem_nil _) i hadj
    rw [FlowEdge.other_of_v] at hsc
    have hres_le : (net.edgeAt i).residual_capacity_to (flows.getD i 0)
        (net.edgeAt i).vertex_w ≤ 0 := by
      by_contra hgt
      push_neg at hgt
      rw [hsc hgt] at hmw
      cases hmw
    rw [FlowEdge.residual_capacity_to, if_neg hvw, if_pos rfl] at hres_le
    have := (hinv.hfeas i hi).2
    linarith
  -- the backward crossing edges carry no flow
  have hsat0 : ∀ i, i < net.edges.length →
      st.marked.getD (net.edgeAt i).vertex_w false = true →
      st.marked.getD (net.edgeAt i).vertex_v false = false →
      flows.getD i 0 = 0 := by
    intro i hi hmw hmv
    have hvw : (net.edgeAt i).vertex_v ≠ (net.edgeAt i).vertex_w := by
      intro h2
      rw [h2, hmw] at hmv
      cases hmv
    have hadj : i ∈ net.adjacents (net.edgeAt i).vertex_w :=
      mem_adjacents.mpr ⟨hi, .inr rfl⟩
    have hsc := hbfs.hscan (net.edgeAt i).vertex_w hmw
      (by rw [hq]; exact List.not_mem_nil _) i hadj
    have hov : (net.edgeAt i).other (net.edgeAt i).vertex_w =
        (net.edgeAt i).vertex_v :=
      FlowEdge.other_eq_of_both (.inr rfl) (.inl rfl) (fun h2 => hvw h2.symm)
    rw [hov] at hsc
    have hres_le : (net.edgeAt i).residual_capacity_to (flows.getD i 0)
        (net.edgeAt i).vertex_v ≤ 0 := by
      by_contra hgt
      push_neg at hgt
      rw [hsc hgt] at hmv
      cases hmv
    rw [FlowEdge.residual_capacity_to, if_pos rfl] at hres_le
    have := (hinv.hfeas i hi).1
    linarith
  -- sum the excesses over the unmarked side
  set U : Finset Nat := (Finset.range net.number_of_vertices).filter
    (fun v => st.marked.getD v false = false) with hU
  have hmemU : ∀ x, x ∈ U ↔ x < net.number_of_vertices ∧
      st.marked.getD x false = false := by
    intro x
    constructor
    · intro h2
      have h3 := Finset.mem_filter.mp h2
      exact ⟨Finset.mem_range.mp h3.1, h3.2⟩
    · rintro ⟨h2, h3⟩
      exact Finset.mem_filter.mpr ⟨Finset.mem_range.mpr h2, h3⟩
  have htU : target ∈ U := (hmemU target).mpr ⟨htn, hm⟩
  have h1 : ∑ v ∈ U, excess net flows v = vq := by
    rw [Finset.sum_eq_single_of_mem target htU]
    · exact hv2
    · intro b hb hbt
      have hbs : b ≠ source := by
        intro h2
        have h3 := ((hmemU b).mp hb).2
        rw [h2, hbfs.hsrc] at h3
        cases h3
      exact hv3 b hbs hbt
  have hswap_in : ∑ v ∈ U, inFlow net flows v =
      ∑ i ∈ Finset.range net.edges.length,
        (if (net.edgeAt i).vertex_w ∈ U then flows.getD i 0 else 0) := by
    have e1 : ∑ v ∈ U, inFlow net flows v =
        ∑ v ∈ U, ∑ i ∈ Finset.range net.edges.length,
          (if (net.edgeAt i).vertex_w = v then flows.getD i 0 else 0) :=
      Finset.sum_congr rfl (fun v _ => rfl)
    rw [e1, Finset.sum_comm]
    refine Finset.sum_congr rfl ?_
    intro i _
    exact Finset.sum_ite_eq U ((net.edgeAt i).vertex_w)
      (fun _ => flows.getD i 0)
  have hswap_out : ∑ v ∈ U, outFlow net flows v =
      ∑ i ∈ Finset.range net.edges.length,
        (if (net.edgeAt i).vertex_v ∈ U then flows.getD i 0 else 0) := by
    have e1 : ∑ v ∈ U, outFlow net flows v =
        ∑ v ∈ U, ∑ i ∈ Finset.range net.edges.length,
          (if (net.edgeAt i).vertex_v = v then flows.getD i 0 else 0) :=
      Finset.sum_congr rfl (fun v _ => rfl)
    rw [e1, Finset.sum_comm]
    refine Finset.sum_congr rfl ?_
    intro i _
    exact Finset.sum_ite_eq U ((net.edgeAt i).vertex_v)
      (fun _ => flows.getD i 0)
  have h2 : ∑ v ∈ U, excess net flows v =
      ∑ i ∈ Finset.range net.edges.length,
        ((if (net.edgeAt i).vertex_w ∈ U then flows.getD i 0 else 0) -
         (if (net.edgeAt i).vertex_v ∈ U then flows.getD i 0 else 0)) := by
    have e2 : ∑ v ∈ U, excess net flows v =
        (∑ v ∈ U, inFlow net flows v) - ∑ v ∈ U, outFlow net flows v := by
      rw [← Finset.sum_sub_distrib]
      exact Finset.sum_congr rfl (fun v _ => rfl)
    rw [e2, hswap_in, hswap_out, Finset.sum_sub_distrib]
  have h3 : ∀ i ∈ Finset.range net.edges.length,
      ((if (net.edgeAt i).vertex_w ∈ U then flows.getD i 0 else 0) -
       (if (net.edgeAt i).vertex_v ∈ U then flows.getD i 0 else 0)) =
      (if st.marked.getD (net.edgeAt i).vertex_v false = true ∧
          st.marked.getD (net.edgeAt i).vertex_w false = false
        then (net.edgeAt i).capacity else 0) := by
    intro i hir
    have hi := Finset.mem_range.mp hir
    have hvn : (net.edgeAt i).vertex_v < net.number_of_vertices :=
      (hwf _ (edgeAt_mem hi)).1
    have hwn : (net.edgeAt i).vertex_w < net.number_of_vertices :=
      (hwf _ (edgeAt_mem hi)).2
    by_cases hmv : st.marked.getD (net.edgeAt i).vertex_v false = true <;>
      by_cases hmw : st.marked.getD (net.edgeAt i).vertex_w false = true
    · have hc1 : (net.edgeAt i).vertex_w ∉ U := by
        intro h4
        have h5 := ((hmemU _).mp h4).2
        rw [hmw] at h5
        cases h5
      have hc2 : (net.edgeAt i).vertex_v ∉ U := by
        intro h4
        have h5 := ((hmemU _).mp h4).2
        rw [hmv] at h5
        cases h5
      have hc3 : ¬ (st.marked.getD (net.edgeAt i).vertex_v false = true ∧
          st.marked.getD (net.edgeAt i).vertex_w false = false) := by
        intro h4
        rw [hmw] at h4
        cases h4.2
      rw [if_neg hc1, if_neg hc2, if_neg hc3]
      ring
    · have hmw' : st.marked.getD (net.edgeAt i).vertex_w false = false := by
        revert hmw
        cases st.marked.getD (net.edgeAt i).vertex_w false <;> simp
      have hc1 : (net.edgeAt i).vertex_w ∈ U := (hmemU _).mpr ⟨hwn, hmw'⟩
      have hc2 : (net.edgeAt i).vertex_v ∉ U := by
        intro h4
        have h5 := ((hmemU _).mp h4).2
        rw [hmv] at h5
        cases h5
      rw [if_pos hc1, if_neg hc2, if_pos ⟨hmv, hmw'⟩, hsatF i hi hmv hmw']
      ring
    · have hmv' : st.marked.getD (net.edgeAt i).vertex_v false = false := by
        revert hmv
        cases st.marked.getD (net.edgeAt i).vertex_v false <;> simp
      have hc1 : (net.edgeAt i).vertex_w ∉ U := by
        intro h4
        have h5 := ((hmemU _).mp h4).2
        rw [hmw] at h5
        cases h5
      have hc2 : (net.edgeAt i).vertex_v ∈ U := (hmemU _).mpr ⟨hvn, hmv'⟩
      have hc3 : ¬ (st.marked.getD (net.edgeAt i).vertex_v false = true ∧
          st.marked.getD (net.edgeAt i).vertex_w false = false) :=
        fun h4 => hmv h4.1
      rw [if_neg hc1, if_pos hc2, if_neg hc3, hsat0 i hi hmw hmv']
      ring
    · have hmv' : st.marked.getD (net.edgeAt i).vertex_v false = false := by
        revert hmv
        cases st.marked.getD (net.edgeAt i).vertex_v false <;> simp
      have hmw' : st.marked.getD (net.edgeAt i).vertex_w false = false := by
        revert hmw
        cases st.marked.getD (net.edgeAt i).vertex_w false <;> simp
      have hc1 : (net.edgeAt i).vertex_w ∈ U := (hmemU _).mpr ⟨hwn, hmw'⟩
      have hc2 : (net.edgeAt i).vertex_v ∈ U := (hmemU _).mpr ⟨hvn, hmv'⟩
      have hc3 : ¬ (st.marked.getD (net.edgeAt i).vertex_v false = true ∧
          st.marked.getD (net.edgeAt i).vertex_w false = false) :=
        fun h4 => hmv h4.1
      rw [if_pos hc1, if_pos hc2, if_neg hc3]
      ring
  have h4 : vq = cutCapacity net st.marked := by
    rw [cutCapacity, list_range_map_sum, ← h1, h2]
    exact Finset.sum_congr rfl h3
  rw [hv1, h4]

/-! #### Termination of the constructor loop -/

/-- Total capacity of the network: an upper bound for the flow value. -/
def totalCap (net : FlowNetwork) : ℚ :=
  ∑ i ∈ Finset.range net.edges.length, (net.edgeAt i).capacity

/-- The flow value never exceeds the total capacity. -/
theorem vq_le_totalCap {net : FlowNetwork} {flows : List ℚ} {target : Nat}
    (hfeas : ∀ i, i < net.edges.length → 0 ≤ flows.getD i 0 ∧
      flows.getD i 0 ≤ (net.edgeAt i).capacity) :
    excess net flows target ≤ totalCap net := by
  have hout : 0 ≤ outFlow net flows target := by
    refine Finset.sum_nonneg ?_
    intro i hir
    by_cases hc : (net.edgeAt i).vertex_v = target
    · rw [if_pos hc]
      exact (hfeas i (Finset.mem_range.mp hir)).1
    · rw [if_neg hc]
  have hin : inFlow net flows target ≤ totalCap net := by
    refine Finset.sum_le_sum ?_
    intro i hir
    have hi := Finset.mem_range.mp hir
    by_cases hc : (net.edgeAt i).vertex_w = target
    · rw [if_pos hc]
      exact (hfeas i hi).2
    · rw [if_neg hc]
      exact le_trans (hfeas i hi).1 (hfeas i hi).2
  rw [excess]
  linarith

/-- A common denominator for the capacities. -/
def capDen (net : FlowNetwork) : Nat :=
  net.edges.foldr (fun e d => Nat.lcm e.capacity.den d) 1

theorem capDen_pos (net : FlowNetwork) : 0 < capDen net := by
  rw [capDen]
  induction net.edges with
  | nil => exact Nat.one_pos
  | cons e rest ih =>
    show 0 < Nat.lcm e.capacity.den (rest.foldr _ 1)
    have h1 : e.capacity.den ≠ 0 := e.capacity.den_nz
    have h2 : rest.foldr (fun e d => Nat.lcm e.capacity.den d) 1 ≠ 0 := by
      omega
    have := Nat.lcm_ne_zero h1 h2
    omega

theorem capDen_dvd {net : FlowNetwork} : ∀ e ∈ net.edges,
    e.capacity.den ∣ capDen net := by
  rw [capDen]
  induction net.edges with
  | nil =>
    intro e he
    cases he
  | cons e0 rest ih =>
    intro e he
    rcases List.mem_cons.mp he with h1 | h1
    · rw [h1]
      exact Nat.dvd_lcm_left _ _
    · exact dvd_trans (ih e h1) (Nat.dvd_lcm_right _ _)

/-- `q` is a multiple of `1 / D`. -/
def DenOK (D : Nat) (q : ℚ) : Prop := ∃ z : ℤ, q * D = z

theorem DenOK_zero (D : Nat) : DenOK D 0 := ⟨0, by push_cast; ring⟩

theorem DenOK_add {D : Nat} {a b : ℚ} (ha : DenOK D a) (hb : DenOK D b) :
    DenOK D (a + b) := by
  obtain ⟨z1, h1⟩ := ha
  obtain ⟨z2, h2⟩ := hb
  exact ⟨z1 + z2, by push_cast; rw [← h1, ← h2]; ring⟩

theorem DenOK_sub {D : Nat} {a b : ℚ} (ha : DenOK D a) (hb : DenOK D b) :
    DenOK D (a - b) := by
  obtain ⟨z1, h1⟩ := ha
  obtain ⟨z2, h2⟩ := hb
  exact ⟨z1 - z2, by push_cast; rw [← h1, ← h2]; ring⟩

theorem DenOK_of_den_dvd {D : Nat} {q : ℚ} (h : q.den ∣ D) : DenOK D q := by
  obtain ⟨k, hk⟩ := h
  refine ⟨q.num * k, ?_⟩
  rw [hk]
  push_cast
  rw [show (q.den : ℚ) * k = q.den * k from rfl, ← mul_assoc,
    Rat.mul_den_eq_num]

/-- A positive multiple of `1 / D` is at least `1 / D`: `q * D ≥ 1`. -/
theorem DenOK_pos_ge {D : Nat} {q : ℚ} (h : DenOK D q) (hq : 0 < q)
    (hD : 0 < D) : 1 ≤ q * D := by
  obtain ⟨z, hz⟩ := h
  have hzpos : 0 < (z : ℚ) := by
    rw [← hz]
    positivity
  have hz1 : 1 ≤ z := by exact_mod_cast hzpos
  rw [hz]
  exact_mod_cast hz1

/-- The minimum computed by the bottleneck fold is one of the folded
values (or the start). -/
theorem foldl_min_mem {α : Type} (g : α → EVal) :
    ∀ (l : List α) (b : EVal), l.foldl (fun acc p => min acc (g p)) b = b ∨
      ∃ p ∈ l, l.foldl (fun acc p => min acc (g p)) b = g p := by
  intro l
  induction l with
  | nil => exact fun b => .inl rfl
  | cons q l ih =>
    intro b
    rw [List.foldl_cons]
    rcases ih (min b (g q)) with h1 | ⟨p, hp, h2⟩
    · rcases min_cases b (g q) with ⟨hm, -⟩ | ⟨hm, -⟩
      · exact .inl (by rw [h1, hm])
      · exact .inr ⟨q, List.mem_cons_self q l, by rw [h1, hm]⟩
    · exact .inr ⟨p, List.mem_cons_of_mem q hp, h2⟩

/-- Residual capacities inherit the common denominator. -/
theorem residual_DenOK {net : FlowNetwork} {flows : List ℚ} {D : Nat}
    (hDc : ∀ e ∈ net.edges, DenOK D e.capacity)
    (hDf : ∀ i, i < net.edges.length → DenOK D (flows.getD i 0))
    {i w : Nat} (hi : i < net.edges.length) :
    DenOK D ((net.edgeAt i).residual_capacity_to (flows.getD i 0) w) := by
  rw [FlowEdge.residual_capacity_to]
  by_cases h1 : w = (net.edgeAt i).vertex_v
  · rw [if_pos h1]
    exact hDf i hi
  · rw [if_neg h1]
    by_cases h2 : w = (net.edgeAt i).vertex_w
    · rw [if_pos h2]
      exact DenOK_sub (hDc _ (edgeAt_mem hi)) (hDf i hi)
    · rw [if_neg h2]
      exact DenOK_zero D

/-- The updated flows inherit the common denominator. -/
theorem augFlows_DenOK {net : FlowNetwork} {flows : List ℚ} {δ : ℚ} {D : Nat}
    (hDf : ∀ i, i < net.edges.length → DenOK D (flows.getD i 0))
    (hDδ : DenOK D δ) {path : List (Nat × Nat)}
    (hnodup : (path.map Prod.fst).Nodup)
    (hlen : flows.length = net.edges.length) :
    ∀ i, i < net.edges.length →
      DenOK D ((augFlows net path δ flows).getD i 0) := by
  obtain ⟨hL, hunch, hupd⟩ := augFlows_spec net δ path flows hnodup
  intro i hi
  by_cases hmem : i ∈ path.map Prod.fst
  · obtain ⟨q, hq, hq1⟩ := List.mem_map.mp hmem
    have hq1' : q.1 = i := hq1
    subst hq1'
    rw [hupd q hq (by rw [hlen]; exact hi)]
    rw [FlowEdge.add_residual_flow_to]
    by_cases h1 : q.2 = (net.edgeAt q.1).vertex_v
    · rw [if_pos h1]
      exact DenOK_sub (hDf q.1 hi) hDδ
    · rw [if_neg h1]
      by_cases h2 : q.2 = (net.edgeAt q.1).vertex_w
      · rw [if_pos h2]
        exact DenOK_add (hDf q.1 hi) hDδ
      · rw [if_neg h2]
        exact hDf q.1 hi
  · rw [hunch i hmem]
    exact hDf i hi

/-- On an augmenting round, the bottleneck is a positive multiple of the
common capacity denominator, and the updated flows remain multiples. -/
theorem ffRound_den {net : FlowNetwork} {source target : Nat}
    {flows : List ℚ} {value : EVal} {D : Nat} (hwf : FNWF net)
    (hsn : source < net.number_of_vertices) (hst : source ≠ target)
    (hinv : FFInv net source target flows value)
    (hm : (hasAugPath net flows source).marked.getD target false = true)
    (hDc : ∀ e ∈ net.edges, DenOK D e.capacity)
    (hDf : ∀ i, i < net.edges.length → DenOK D (flows.getD i 0)) :
    ∃ δ : ℚ, bottleOf net flows (pathBack net
        (hasAugPath net flows source).edge_to source
        net.number_of_vertices target) = (δ : EVal) ∧
      0 < δ ∧ DenOK D δ ∧
      ∀ i, i < net.edges.length →
        DenOK D ((augFlows net (pathBack net
            (hasAugPath net flows source).edge_to source
            net.number_of_vertices target)
          ((bottleOf net flows (pathBack net
            (hasAugPath net flows source).edge_to source
            net.number_of_vertices target)).untop' 0) flows).getD i 0) := by
  obtain ⟨hbfs, hq⟩ := @hasAugPath_spec net flows source hwf hsn
  obtain ⟨rnk, hdec, hbound⟩ := hbfs.hrank
  set st := hasAugPath net flows source with hst_def
  set path := pathBack net st.edge_to source net.number_of_vertices target
    with hpath_def
  have hrt : rnk target < net.number_of_vertices := by
    have h1 := hbound target hm
    have h2 := List.count_le_length true st.marked
    rw [hbfs.hlenM] at h2
    omega
  have hchain : Chain net st.edge_to source target path :=
    pathBack_chain hbfs hdec _ target hm hrt
  obtain ⟨helems, hids⟩ := chain_facts hbfs hdec hchain
  have hfacts : ∀ q ∈ path, q.1 < net.edges.length ∧
      0 < (net.edgeAt q.1).residual_capacity_to (flows.getD q.1 0) q.2 := by
    intro q hq2
    have hedge := (helems q hq2).1
    obtain ⟨p1, -, -, -, p5, -⟩ := hbfs.hpar q.2 q.1 hedge
    exact ⟨p1, p5⟩
  have hne_nil : path ≠ [] := by
    intro h0
    cases h0 ▸ hchain with
    | nil => exact hst rfl
  obtain ⟨q0, rest0, hq0⟩ : ∃ q0 rest0, path = q0 :: rest0 := by
    cases hp : path with
    | nil => exact absurd hp hne_nil
    | cons a b => exact ⟨a, b, rfl⟩
  have hbpos : 0 < bottleOf net flows path := by
    refine foldl_min_pos _ path ⊤ (WithTop.coe_lt_top 0) ?_
    intro q hq2
    exact_mod_cast (hfacts q hq2).2
  have hbfin : bottleOf net flows path ≠ ⊤ :=
    ne_top_of_le_ne_top WithTop.coe_ne_top
      (foldl_min_le_elem _ path ⊤ q0 (hq0 ▸ List.mem_cons_self _ _))
  obtain ⟨δ, hδ⟩ : ∃ δ : ℚ, bottleOf net flows path = (δ : EVal) := by
    obtain ⟨a, ha⟩ := WithTop.ne_top_iff_exists.mp hbfin
    exact ⟨a, ha.symm⟩
  have hδ0 : 0 < δ := by
    rw [hδ] at hbpos
    exact_mod_cast hbpos
  have hDδ : DenOK D δ := by
    rcases foldl_min_mem (fun p => ((net.edgeAt p.1).residual_capacity_to
        (flows.getD p.1 0) p.2 : EVal)) path ⊤ with h1 | ⟨p, hp, h2⟩
    · rw [show bottleOf net flows path = path.foldl
          (fun acc p => min acc ((net.edgeAt p.1).residual_capacity_to
            (flows.getD p.1 0) p.2 : EVal)) ⊤ from rfl, h1] at hδ
      exact absurd hδ.symm WithTop.coe_ne_top
    · have h3 : ((net.edgeAt p.1).residual_capacity_to (flows.getD p.1 0)
          p.2 : EVal) = (δ : EVal) := by
        rw [← h2]
        exact hδ
      have h4 : (net.edgeAt p.1).residual_capacity_to (flows.getD p.1 0) p.2
          = δ := by exact_mod_cast h3
      rw [← h4]
      exact residual_DenOK hDc hDf (hfacts p hp).1
  have huntop : (bottleOf net flows path).untop' 0 = δ := by
    rw [hδ]
    rfl
  refine ⟨δ, hδ, hδ0, hDδ, ?_⟩
  rw [huntop]
  exact augFlows_DenOK hDf hDδ hids hinv.hlen

/-- The constructor loop reaches the no-augmenting-path exit: each round
adds at least `1 / capDen` to a value bounded by the total capacity. -/
theorem ffLoop_exit {net : FlowNetwork} {source target : Nat} (hwf : FNWF net)
    (hsn : source < net.number_of_vertices) (hst : source ≠ target) :
    ∀ (fuel : Nat) (flows : List ℚ) (value : EVal) (vq : ℚ),
      FFInv net source target flows value →
      (∀ i, i < net.edges.length → DenOK (capDen net) (flows.getD i 0)) →
      value = (vq : EVal) →
      (totalCap net - vq) * (capDen net : ℚ) < (fuel : ℚ) →
      ((ffLoop net source target fuel flows value).2.2).marked.getD target
        false = false := by
  intro fuel
  induction fuel with
  | zero =>
    intro flows value vq hinv hDf hv hlt
    exfalso
    obtain ⟨vq', hv1, hv2, -⟩ := hinv.hval
    have hvv : vq' = vq := by
      rw [hv] at hv1
      exact_mod_cast hv1.symm
    have hle : vq ≤ totalCap net := by
      rw [← hvv, ← hv2]
      exact vq_le_totalCap hinv.hfeas
    have hD0 : (0 : ℚ) ≤ (capDen net : ℚ) := by positivity
    have : (0 : ℚ) ≤ (totalCap net - vq) * (capDen net : ℚ) :=
      mul_nonneg (by linarith) hD0
    simp only [Nat.cast_zero] at hlt
    linarith
  | succ fuel ih =>
    intro flows value vq hinv hDf hv hlt
    by_cases hm : (hasAugPath net flows source).marked.getD target false = true
    · have hshow : ffLoop net source target (fuel + 1) flows value =
          ffLoop net source target fuel
            (augFlows net (pathBack net
                (hasAugPath net flows source).edge_to source
                net.number_of_vertices target)
              ((bottleOf net flows (pathBack net
                (hasAugPath net flows source).edge_to source
                net.number_of_vertices target)).untop' 0) flows)
            (value + bottleOf net flows (pathBack net
              (hasAugPath net flows source).edge_to source
              net.number_of_vertices target)) := by
        show (if (hasAugPath net flows source).marked.getD target false = true
          then _ else _) = _
        rw [if_pos hm]
      rw [hshow]
      have hDc : ∀ e ∈ net.edges, DenOK (capDen net) e.capacity :=
        fun e he => DenOK_of_den_dvd (capDen_dvd e he)
      obtain ⟨δ, hδ, hδ0, hDδ, hDf'⟩ :=
        ffRound_den hwf hsn hst hinv hm hDc hDf
      have hinv' := ffRound hwf hsn hst hinv hm
      refine ih _ _ (vq + δ) hinv' hDf' ?_ ?_
      · rw [hv, hδ]
        push_cast
        rfl
      · have hδD : 1 ≤ δ * (capDen net : ℚ) :=
          DenOK_pos_ge hDδ hδ0 (capDen_pos net)
      -- (C - (vq + δ)) * D = (C - vq) * D - δ * D ≤ (C - vq) * D - 1
        have hexp : (totalCap net - (vq + δ)) * (capDen net : ℚ) =
            (totalCap net - vq) * (capDen net : ℚ) -
              δ * (capDen net : ℚ) := by ring
        rw [hexp]
        push_cast at hlt ⊢
        linarith
    · have hshow : ffLoop net source target (fuel + 1) flows value =
          (flows, value, hasAugPath net flows source) := by
        show (if (hasAugPath net flows source).marked.getD target false = true
          then _ else _) = _
        rw [if_neg hm]
      rw [hshow]
      revert hm
      cases (hasAugPath net flows source).marked.getD target false <;> simp

/-- Extra fuel after the exit changes nothing. -/
theorem ffLoop_mono {net : FlowNetwork} {source target : Nat} :
    ∀ (fuel fuel' : Nat) (flows : List ℚ) (value : EVal), fuel ≤ fuel' →
      ((ffLoop net source target fuel flows value).2.2).marked.getD target
        false = false →
      ffLoop net source target fuel' flows value =
        ffLoop net source target fuel flows value := by
  intro fuel
  induction fuel with
  | zero =>
    intro fuel' flows value _ hexit
    have hexit' : (hasAugPath net flows source).marked.getD target false =
        false := hexit
    cases fuel' with
    | zero => rfl
    | succ m =>
      show (if (hasAugPath net flows source).marked.getD target false = true
        then _ else _) = _
      rw [if_neg (by rw [hexit']; exact Bool.false_ne_true)]
      rfl
  | succ fuel ih =>
    intro fuel' flows value hle hexit
    cases fuel' with
    | zero => omega
    | succ m =>
      by_cases hg : (hasAugPath net flows source).marked.getD target false
          = true
      · have hs1 : ffLoop net source target (fuel + 1) flows value =
            ffLoop net source target fuel
              (augFlows net (pathBack net
                  (hasAugPath net flows source).edge_to source
                  net.number_of_vertices target)
                ((bottleOf net flows (pathBack net
                  (hasAugPath net flows source).edge_to source
                  net.number_of_vertices target)).untop' 0) flows)
              (value + bottleOf net flows (pathBack net
                (hasAugPath net flows source).edge_to source
                net.number_of_vertices target)) := by
          show (if (hasAugPath net flows source).marked.getD target false
            = true then _ else _) = _
          rw [if_pos hg]
        have hs2 : ffLoop net source target (m + 1) flows value =
            ffLoop net source target m
              (augFlows net (pathBack net
                  (hasAugPath net flows source).edge_to source
                  net.number_of_vertices target)
                ((bottleOf net flows (pathBack net
                  (hasAugPath net flows source).edge_to source
                  net.number_of_vertices target)).untop' 0) flows)
              (value + bottleOf net flows (pathBack net
                (hasAugPath net flows source).edge_to source
                net.number_of_vertices target)) := by
          show (if (hasAugPath net flows source).marked.getD target false
            = true then _ else _) = _
          rw [if_pos hg]
        rw [hs1] at hexit
        rw [hs1, hs2]
        exact ih m _ _ (by omega) hexit
      · have hs1 : ffLoop net source target (fuel + 1) flows value =
            (flows, value, hasAugPath net flows source) := by
          show (if (hasAugPath net flows source).marked.getD target false
            = true then _ else _) = _
          rw [if_neg hg]
        have hs2 : ffLoop net source target (m + 1) flows value =
            (flows, value, hasAugPath net flows source) := by
          show (if (hasAugPath net flows source).marked.getD target false
            = true then _ else _) = _
          rw [if_neg hg]
        rw [hs1, hs2]

namespace IndexMinPQ

/-- The queue obtained by `IndexMinPQ(2); insert(0, 5)` (keys are `float`s,
modelled as rationals). -/
def pqW : IndexMinPQ ℚ :=
  ⟨[some 5, none, none], [none, some 0, none], [1, -1, -1], 1⟩

theorem pqW_reach : PQReach 2 pqW := by
  have h0 : (new ℚ 2).insert 0 5 = .ok pqW := by rfl
  exact PQReach.ins PQReach.base (by decide) (by decide) h0

end IndexMinPQ

/-! ### `EdgeWeightedCycleFinder` (`cycle_finder.py`) -/

/-- State of `EdgeWeightedCycleFinder`: attributes `marked`, `on_stack`,
`edge_to` (which stores parent *vertices*) and `cycle` (a deque of
vertices, empty while no cycle has been found). -/
structure CFState where
  marked : List Bool
  on_stack : List Bool
  edge_to : List (Option Nat)
  cycle : List Nat
deriving DecidableEq

namespace CFState

/-- `EdgeWeightedCycleFinder.has_cycle`: `bool(self.cycle)`. -/
def has_cycle (st : CFState) : Bool :=
  !st.cycle.isEmpty

/-- `EdgeWeightedCycleFinder.get_cycle()`. -/
def get_cycle (st : CFState) : Option (List Nat) :=
  if st.cycle.isEmpty then none else some st.cycle

end CFState

/-- The `while current is not None` chain of
`EdgeWeightedCycleFinder._get_cycle_path`, collecting `appendleft`ed
vertices from `vertex` up to the tree root, by recursion on fuel (the
parent pointers strictly descend a finite ranking, so `len(edge_to)`
fuel always suffices, proved below). -/
def cfChain (par : List (Option Nat)) : Nat → Nat → List Nat
  | 0, v => [v]
  | fuel + 1, v =>
    match par.getD v none with
    | none => [v]
    | some p => cfChain par fuel p ++ [v]

/-- `EdgeWeightedCycleFinder._get_cycle_path(vertex, adjacent)`: the
`appendleft` loop builds the root-to-`vertex` chain, then `adjacent` is
appended on the right.  (It is only ever called while `self.cycle` is
empty: the `if self.has_cycle: return` guard at the top of every `_dfs`
loop iteration cuts the scan as soon as a cycle exists.) -/
def getCyclePath (vertex adjacent : Nat) (st : CFState) : CFState :=
  { st with cycle := cfChain st.edge_to st.edge_to.length vertex ++ [adjacent] }

/-- The `for edge in graph.adjacency_lists[vertex_v]:` loop of
`EdgeWeightedCycleFinder._dfs` over the remaining edges, parametrised by
the recursive call `dfs` (instantiated below with `cfDfs` at one less
fuel).  Returns the state plus whether the loop ended in the early
`return` (which in Python skips the final `self.on_stack[vertex_v] =
False`). -/
def cfScan (dfs : Nat → CFState → CFState) (v : Nat) :
    List WeightedEdge → CFState → CFState × Bool
  | [], st => (st, false)
  | e :: es, st =>
    if st.has_cycle then (st, true)
    else
      let w := e.to_edge
      if st.marked.getD w false = false then
        cfScan dfs v es (dfs w { st with edge_to := st.edge_to.set w (some v) })
      else if st.on_stack.getD w false then
        cfScan dfs v es (getCyclePath v w st)
      else
        cfScan dfs v es st

/-- `EdgeWeightedCycleFinder._dfs(graph, vertex_v)`, by recursion on
fuel: mark and stack `vertex_v`, scan its adjacency list, and unstack it
unless the scan hit the early `return`.  Every nested call is on a
freshly marked vertex, so `number_of_vertices + 1` fuel always
suffices. -/
def cfDfs (g : EdgeWeightedDigraph) : Nat → Nat → CFState → CFState
  | 0, _, st => st
  | fuel + 1, v, st =>
    let st1 : CFState :=
      { st with
        marked := st.marked.set v true
        on_stack := st.on_stack.set v true }
    let r := cfScan (cfDfs g fuel) v (g.adjacents v) st1
    if r.2 then r.1
    else { r.1 with on_stack := r.1.on_stack.set v false }

/-- The `while vertex < graph.number_of_vertices and not self.has_cycle`
loop of `EdgeWeightedCycleFinder.__init__`; `vertex` increases every
iteration so `number_of_vertices` fuel suffices exactly. -/
def cfOuter (g : EdgeWeightedDigraph) : Nat → Nat → CFState → CFState
  | 0, _, st => st
  | fuel + 1, vertex, st =>
    if vertex < g.number_of_vertices then
      if st.has_cycle then st
      else
        cfOuter g fuel (vertex + 1)
          (if st.marked.getD vertex false = false then
            cfDfs g (g.number_of_vertices + 1) vertex st
          else st)
    else st

/-- `EdgeWeightedCycleFinder.__init__(graph)` in full. -/
def cfRun (g : EdgeWeightedDigraph) : CFState :=
  cfOuter g g.number_of_vertices 0
    ⟨List.replicate g.number_of_vertices false,
     List.replicate g.number_of_vertices false,
     List.replicate g.number_of_vertices none, []⟩

/-! #### Generic frame facts about the DFS -/

/-- In-degree at most one: no two entries of the edge list share a
destination.  (The parent subgraphs Bellman-Ford builds have this shape,
one entry per `_edge_to` index.) -/
def NodupTargets (h : EdgeWeightedDigraph) : Prop :=
  (h.edges.map WeightedEdge.to_edge).Nodup

/-- Everything on the recursion stack has been marked. -/
def StackSub (st : CFState) : Prop :=
  ∀ x, st.on_stack.getD x false = true → st.marked.getD x false = true

/-- Pure frame facts of a scan step with scanner `v`, relating entry and
exit states: lengths are kept, marks are monotone, attributes of marked
vertices other than the `cycle` are untouched, and any parent pointer
either existed already or names `v` or an entry-unmarked parent. -/
structure ScanFrame (v : Nat) (st st2 : CFState) : Prop where
  lenM : st2.marked.length = st.marked.length
  lenS : st2.on_stack.length = st.on_stack.length
  lenE : st2.edge_to.length = st.edge_to.length
  mono : ∀ x, st.marked.getD x false = true → st2.marked.getD x false = true
  osF : ∀ x, st.marked.getD x false = true →
    st2.on_stack.getD x false = st.on_stack.getD x false
  etF : ∀ x, st.marked.getD x false = true →
    st2.edge_to.getD x none = st.edge_to.getD x none
  prov : ∀ x p, st2.edge_to.getD x none = some p →
    st.edge_to.getD x none = some p ∨ p = v ∨ st.marked.getD p false = false

theorem ScanFrame.rfl_self (v : Nat) (st : CFState) : ScanFrame v st st :=
  ⟨rfl, rfl, rfl, fun _ h => h, fun _ _ => rfl, fun _ _ => rfl,
   fun _ _ h => Or.inl h⟩

theorem ScanFrame.comp {v : Nat} {s1 s2 s3 : CFState}
    (a : ScanFrame v s1 s2) (b : ScanFrame v s2 s3) : ScanFrame v s1 s3 := by
  refine ⟨b.lenM.trans a.lenM, b.lenS.trans a.lenS, b.lenE.trans a.lenE,
    fun x h => b.mono x (a.mono x h),
    fun x h => (b.osF x (a.mono x h)).trans (a.osF x h),
    fun x h => (b.etF x (a.mono x h)).trans (a.etF x h), ?_⟩
  intro x p hp
  rcases b.prov x p hp with h1 | h1 | h1
  · exact a.prov x p h1
  · exact Or.inr (Or.inl h1)
  · right
    right
    cases h2 : s1.marked.getD p false with
    | false => rfl
    | true => rw [a.mono p h2] at h1; exact absurd h1 (by decide)

/-- Frame facts of a single `_dfs(w)` call on an unmarked `w`. -/
structure DfsOK (f : Nat → CFState → CFState) (w : Nat) (st : CFState) : Prop where
  lenM : (f w st).marked.length = st.marked.length
  lenS : (f w st).on_stack.length = st.on_stack.length
  lenE : (f w st).edge_to.length = st.edge_to.length
  mono : ∀ x, st.marked.getD x false = true → (f w st).marked.getD x false = true
  osF : ∀ x, st.marked.getD x false = true →
    (f w st).on_stack.getD x false = st.on_stack.getD x false
  etF : ∀ x, st.marked.getD x false = true →
    (f w st).edge_to.getD x none = st.edge_to.getD x none
  prov : ∀ x p, (f w st).edge_to.getD x none = some p →
    st.edge_to.getD x none = some p ∨ st.marked.getD p false = false
  hos2 : StackSub (f w st)
  cycP : st.cycle ≠ [] → (f w st).cycle = st.cycle
  cycE : st.cycle = [] → (f w st).cycle = [] →
    ∀ x, (f w st).on_stack.getD x false = st.on_stack.getD x false

/-- The recursive-call hypothesis threaded through the scan lemmas. -/
def CFDfsOK (f : Nat → CFState → CFState) : Prop :=
  ∀ w st, st.marked.getD w false = false → StackSub st →
    st.on_stack.length = st.marked.length → DfsOK f w st

theorem DfsOK.toScanFrame {f : Nat → CFState → CFState} {w : Nat}
    {st : CFState} (h : DfsOK f w st) (v : Nat) : ScanFrame v st (f w st) :=
  ⟨h.lenM, h.lenS, h.lenE, h.mono, h.osF, h.etF,
   fun x p hp => (h.prov x p hp).elim Or.inl (fun h2 => Or.inr (Or.inr h2))⟩

/-- `_get_cycle_path` only writes the `cycle` attribute, and writes it
nonempty. -/
theorem getCyclePath_cycle_ne (v w : Nat) (st : CFState) :
    (getCyclePath v w st).cycle ≠ [] := by
  show cfChain st.edge_to st.edge_to.length v ++ [w] ≠ []
  simp

/-- The chain collector always returns a nonempty list ending in its
start vertex. -/
theorem cfChain_last (par : List (Option Nat)) :
    ∀ fuel v, cfChain par fuel v ≠ [] ∧
      (cfChain par fuel v).getLast? = some v := by
  intro fuel
  induction fuel with
  | zero => intro v; exact ⟨by simp [cfChain], by simp [cfChain]⟩
  | succ fuel ih =>
    intro v
    cases hp : par.getD v none with
    | none =>
      rw [List.getD_eq_getElem?_getD] at hp
      exact ⟨by simp [cfChain, hp], by simp [cfChain, hp]⟩
    | some p =>
      rw [List.getD_eq_getElem?_getD] at hp
      have heq : cfChain par (fuel + 1) v = cfChain par fuel p ++ [v] := by
        simp [cfChain, hp]
      rw [heq]
      constructor
      · simp
      · rw [List.getLast?_append]
        simp

/-- A scan whose entry state already holds a cycle returns it unchanged
with the early-return flag (for a nonempty edge list). -/
theorem cfScan_stuck (f : Nat → CFState → CFState) (v : Nat)
    (es : List WeightedEdge) (st : CFState) (h : st.cycle ≠ []) :
    (cfScan f v es st).1 = st := by
  cases es with
  | nil => rfl
  | cons e es =>
    show (if st.has_cycle then (st, true) else _).1 = st
    rw [if_pos (by simp [CFState.has_cycle, List.isEmpty_iff, h])]

/-- Bundled conclusion of the scan lemma. -/
structure ScanOut (v : Nat) (st : CFState) (r : CFState × Bool) : Prop where
  fr : ScanFrame v st r.1
  ss : StackSub r.1
  e1 : r.2 = true → r.1.cycle ≠ []
  ce : st.cycle = [] → r.1.cycle = [] →
    ∀ x, r.1.on_stack.getD x false = st.on_stack.getD x false

/-- The adjacency scan satisfies the frame facts whenever the recursive
call does. -/
theorem cfScan_main (f : Nat → CFState → CFState) (hf : CFDfsOK f) (v : Nat) :
    ∀ (es : List WeightedEdge) (st : CFState), StackSub st →
      st.on_stack.length = st.marked.length →
      ScanOut v st (cfScan f v es st) := by
  intro es
  induction es with
  | nil =>
    intro st hss hlen
    exact ⟨ScanFrame.rfl_self v st, hss,
      fun h => absurd h (by decide : ¬(false = true)), fun _ _ _ => rfl⟩
  | cons e es ih =>
    intro st hss hlen
    by_cases hc : st.has_cycle = true
    · have hcy : st.cycle ≠ [] := by
        simpa [CFState.has_cycle, List.isEmpty_iff] using hc
      have hshow : cfScan f v (e :: es) st = (st, true) := by
        show (if st.has_cycle then (st, true) else _) = _
        rw [if_pos hc]
      rw [hshow]
      exact ⟨ScanFrame.rfl_self v st, hss, fun _ => hcy, fun h _ _ => absurd h hcy⟩
    · have hcy : st.cycle = [] := by
        simpa [CFState.has_cycle, List.isEmpty_iff] using hc
      by_cases hm : st.marked.getD e.to_edge false = false
      · have hshow : cfScan f v (e :: es) st = cfScan f v es
            (f e.to_edge { st with edge_to := st.edge_to.set e.to_edge (some v) }) := by
          show (if st.has_cycle then (st, true) else _) = _
          rw [if_neg hc]
          show (if st.marked.getD e.to_edge false = false then _ else _) = _
          rw [if_pos hm]
        rw [hshow]
        set stA : CFState :=
          { st with edge_to := st.edge_to.set e.to_edge (some v) } with hstA
        have hssA : StackSub stA := hss
        have hlenA : stA.on_stack.length = stA.marked.length := hlen
        have hdfs : DfsOK f e.to_edge stA := hf e.to_edge stA hm hssA hlenA
        have hssB : StackSub (f e.to_edge stA) := hdfs.hos2
        have hlenB : (f e.to_edge stA).on_stack.length =
            (f e.to_edge stA).marked.length := by
          rw [hdfs.lenS, hdfs.lenM]
          exact hlen
        have hout := ih (f e.to_edge stA) hssB hlenB
        have hfAB : ScanFrame v st stA := by
          refine ⟨rfl, rfl, by simp [hstA], fun x h => h, fun x _ => rfl, ?_, ?_⟩
          · intro x h
            have hxne : x ≠ e.to_edge := by
              intro h2
              rw [h2] at h
              exact absurd (hm.symm.trans h) (by decide)
            show (st.edge_to.set e.to_edge (some v)).getD x none =
              st.edge_to.getD x none
            exact getD_set_ne _ _ _ (fun h3 => hxne h3.symm)
          · intro x p hp
            by_cases h2 : x = e.to_edge
            · rw [h2] at hp
              by_cases h3 : e.to_edge < st.edge_to.length
              · have hp2 : (st.edge_to.set e.to_edge (some v)).getD
                    e.to_edge none = some p := hp
                rw [getD_set_self _ _ _ _ h3] at hp2
                exact Or.inr (Or.inl (Option.some.inj hp2).symm)
              · have hp2 : (st.edge_to.set e.to_edge (some v)).getD
                    e.to_edge none = some p := hp
                rw [List.set_eq_of_length_le (le_of_not_lt h3)] at hp2
                rw [h2]
                exact Or.inl hp2
            · have hp2 : (st.edge_to.set e.to_edge (some v)).getD x none =
                  some p := hp
              rw [getD_set_ne _ _ _ (fun h3 => h2 h3.symm)] at hp2
              exact Or.inl hp2
        refine ⟨ScanFrame.comp (ScanFrame.comp hfAB (hdfs.toScanFrame v))
          hout.fr, hout.ss, hout.e1, ?_⟩
        intro h1 h2 x
        by_cases hB : (f e.to_edge stA).cycle = []
        · have hA : stA.cycle = [] := h1
          have e2 := hout.ce hB h2 x
          have e3 := hdfs.cycE hA hB x
          rw [e2, e3]
        · exfalso
          have h4 := cfScan_stuck f v es (f e.to_edge stA) hB
          rw [h4] at h2
          exact hB h2
      · by_cases hs2 : st.on_stack.getD e.to_edge false = true
        · have hshow : cfScan f v (e :: es) st =
              cfScan f v es (getCyclePath v e.to_edge st) := by
            show (if st.has_cycle then (st, true) else _) = _
            rw [if_neg hc]
            show (if st.marked.getD e.to_edge false = false then _
              else if st.on_stack.getD e.to_edge false then _ else _) = _
            rw [if_neg hm, if_pos hs2]
          rw [hshow]
          have hssC : StackSub (getCyclePath v e.to_edge st) := hss
          have houtC := ih (getCyclePath v e.to_edge st) hssC hlen
          have hfC : ScanFrame v st (getCyclePath v e.to_edge st) :=
            ⟨rfl, rfl, rfl, fun _ h => h, fun _ _ => rfl, fun _ _ => rfl,
             fun _ _ h => Or.inl h⟩
          refine ⟨ScanFrame.comp hfC houtC.fr, houtC.ss, houtC.e1, ?_⟩
          intro h1 h2 x
          exfalso
          have h3 := getCyclePath_cycle_ne v e.to_edge st
          have h4 := cfScan_stuck f v es (getCyclePath v e.to_edge st) h3
          rw [h4] at h2
          exact h3 h2
        · have hshow : cfScan f v (e :: es) st = cfScan f v es st := by
            show (if st.has_cycle then (st, true) else _) = _
            rw [if_neg hc]
            show (if st.marked.getD e.to_edge false = false then _
              else if st.on_stack.getD e.to_edge false then _ else _) = _
            rw [if_neg hm, if_neg hs2]
          rw [hshow]
          exact ih st hss hlen

/-- Contrapositive of `StackSub`: an unmarked vertex is off the stack. -/
theorem StackSub.off {st : CFState} (hss : StackSub st) {w : Nat}
    (hmw : st.marked.getD w false = false) :
    st.on_stack.getD w false = false := by
  cases h : st.on_stack.getD w false with
  | false => rfl
  | true => exact absurd (hmw.symm.trans (hss w h)) (by decide)

/-- `_dfs` satisfies the frame facts at every fuel. -/
theorem cfDfs_ok (g : EdgeWeightedDigraph) : ∀ fuel, CFDfsOK (cfDfs g fuel) := by
  intro fuel
  induction fuel with
  | zero =>
    intro w st hmw hss hlen
    exact ⟨rfl, rfl, rfl, fun _ h => h, fun _ _ => rfl, fun _ _ => rfl,
      fun _ _ h => Or.inl h, hss, fun _ => rfl, fun _ _ _ => rfl⟩
  | succ fuel ih =>
    intro w st hmw hss hlen
    set st1 : CFState :=
      { st with
        marked := st.marked.set w true
        on_stack := st.on_stack.set w true } with hst1
    have hos1 : st1.on_stack = st.on_stack.set w true := rfl
    have hmk1 : st1.marked = st.marked.set w true := rfl
    have hss1 : StackSub st1 := by
      intro x hx
      rw [hmk1]
      by_cases h2 : x = w
      · rw [h2]
        by_cases h3 : w < st.marked.length
        · exact getD_set_self _ _ _ _ h3
        · rw [List.set_eq_of_length_le (le_of_not_lt h3)]
          have h4 : st.on_stack.length ≤ w := by omega
          rw [h2, hos1, List.set_eq_of_length_le h4] at hx
          exact hss w hx
      · rw [getD_set_ne _ _ _ (fun h3 => h2 h3.symm)]
        apply hss
        rw [hos1, getD_set_ne _ _ _ (fun h3 => h2 h3.symm)] at hx
        exact hx
    have hlen1 : st1.on_stack.length = st1.marked.length := by
      rw [hos1, hmk1, List.length_set, List.length_set]
      exact hlen
    have hout := cfScan_main (cfDfs g fuel) ih w (g.adjacents w) st1 hss1 hlen1
    have hm1 : ∀ x, st.marked.getD x false = true →
        st1.marked.getD x false = true := by
      intro x h
      rw [hmk1]
      by_cases h2 : x = w
      · exact absurd ((h2 ▸ hmw).symm.trans h) (by decide)
      · rw [getD_set_ne _ _ _ (fun h3 => h2 h3.symm)]
        exact h
    have hmeq : ∀ x, st1.marked.getD x false = false →
        st.marked.getD x false = false := by
      intro x h
      cases h2 : st.marked.getD x false with
      | false => rfl
      | true => exact absurd ((hm1 x h2).symm.trans h) (by decide)
    set r := cfScan (cfDfs g fuel) w (g.adjacents w) st1 with hr
    have hunf : cfDfs g (fuel + 1) w st =
        if r.2 then r.1
        else { r.1 with on_stack := r.1.on_stack.set w false } := rfl
    have hfm : (cfDfs g (fuel + 1) w st).marked = r.1.marked := by
      rw [hunf]
      by_cases hb : r.2 <;> simp [hb]
    have hfe : (cfDfs g (fuel + 1) w st).edge_to = r.1.edge_to := by
      rw [hunf]
      by_cases hb : r.2 <;> simp [hb]
    have hfc : (cfDfs g (fuel + 1) w st).cycle = r.1.cycle := by
      rw [hunf]
      by_cases hb : r.2 <;> simp [hb]
    refine ⟨?_, ?_, ?_, ?_, ?_, ?_, ?_, ?_, ?_, ?_⟩
    · rw [hfm, hout.fr.lenM, hmk1, List.length_set]
    · rw [hunf]
      by_cases hb : r.2 = true
      · rw [if_pos hb, hout.fr.lenS, hos1, List.length_set]
      · rw [if_neg hb]
        show (r.1.on_stack.set w false).length = st.on_stack.length
        rw [List.length_set, hout.fr.lenS, hos1, List.length_set]
    · rw [hfe, hout.fr.lenE]
    · intro x h
      rw [hfm]
      exact hout.fr.mono x (hm1 x h)
    · intro x h
      have hxw : x ≠ w := by
        intro h2
        exact absurd ((h2 ▸ hmw).symm.trans h) (by decide)
      have h5 : r.1.on_stack.getD x false = st.on_stack.getD x false := by
        rw [hout.fr.osF x (hm1 x h), hos1,
          getD_set_ne _ _ _ (fun h3 => hxw h3.symm)]
      rw [hunf]
      by_cases hb : r.2 = true
      · rw [if_pos hb]
        exact h5
      · rw [if_neg hb]
        show (r.1.on_stack.set w false).getD x false = st.on_stack.getD x false
        rw [getD_set_ne _ _ _ (fun h3 => hxw h3.symm)]
        exact h5
    · intro x h
      rw [hfe]
      exact hout.fr.etF x (hm1 x h)
    · intro x p hp
      rw [hfe] at hp
      rcases hout.fr.prov x p hp with h1 | h1 | h1
      · exact Or.inl h1
      · exact Or.inr (h1 ▸ hmw)
      · exact Or.inr (hmeq p h1)
    · intro x hx
      rw [hfm]
      rw [hunf] at hx
      by_cases hb : r.2 = true
      · rw [if_pos hb] at hx
        exact hout.ss x hx
      · rw [if_neg hb] at hx
        have hx2 : (r.1.on_stack.set w false).getD x false = true := hx
        by_cases h2 : x = w
        · by_cases h3 : w < r.1.on_stack.length
          · rw [h2, getD_set_self _ _ _ _ h3] at hx2
            exact absurd hx2 (by decide)
          · rw [List.set_eq_of_length_le (le_of_not_lt h3)] at hx2
            exact hout.ss x hx2
        · rw [getD_set_ne _ _ _ (fun h3 => h2 h3.symm)] at hx2
          exact hout.ss x hx2
    · intro h
      have h1 : st1.cycle ≠ [] := h
      have h2 := cfScan_stuck (cfDfs g fuel) w (g.adjacents w) st1 h1
      rw [← hr] at h2
      rw [hfc, h2]
    · intro h1 h2 x
      rw [hfc] at h2
      by_cases hb : r.2 = true
      · exact absurd h2 (hout.e1 hb)
      · have hce := hout.ce h1 h2 x
        rw [hunf, if_neg hb]
        show (r.1.on_stack.set w false).getD x false = st.on_stack.getD x false
        by_cases h3 : x = w
        · rw [h3]
          by_cases h4 : w < r.1.on_stack.length
          · rw [getD_set_self _ _ _ _ h4]
            exact (hss.off hmw).symm
          · rw [List.set_eq_of_length_le (le_of_not_lt h4)]
            have h5 : st.on_stack.length ≤ w := by
              have h6 := hout.fr.lenS
              rw [hos1, List.length_set] at h6
              omega
            rw [h3] at hce
            rw [hce, hos1, List.set_eq_of_length_le h5]
        · rw [getD_set_ne _ _ _ (fun h4 => h3 h4.symm), hce, hos1,
            getD_set_ne _ _ _ (fun h4 => h3 h4.symm)]

/-- With at least one unit of fuel, `_dfs(w)` marks an in-range `w`. -/
theorem cfDfs_marks (g : EdgeWeightedDigraph) (fuel w : Nat) (st : CFState)
    (hfuel : 1 ≤ fuel) (hw : w < st.marked.length) (hss : StackSub st)
    (hlen : st.on_stack.length = st.marked.length) :
    (cfDfs g fuel w st).marked.getD w false = true := by
  cases fuel with
  | zero => omega
  | succ fuel =>
    set st1 : CFState :=
      { st with
        marked := st.marked.set w true
        on_stack := st.on_stack.set w true } with hst1
    have hss1 : StackSub st1 := by
      intro x hx
      show (st.marked.set w true).getD x false = true
      by_cases h2 : x = w
      · rw [h2]
        exact getD_set_self _ _ _ _ hw
      · rw [getD_set_ne _ _ _ (fun h3 => h2 h3.symm)]
        apply hss
        have hx2 : (st.on_stack.set w true).getD x false = true := hx
        rw [getD_set_ne _ _ _ (fun h3 => h2 h3.symm)] at hx2
        exact hx2
    have hlen1 : st1.on_stack.length = st1.marked.length := by
      show (st.on_stack.set w true).length = (st.marked.set w true).length
      rw [List.length_set, List.length_set]
      exact hlen
    have hout := cfScan_main (cfDfs g fuel) (cfDfs_ok g fuel) w
      (g.adjacents w) st1 hss1 hlen1
    set r := cfScan (cfDfs g fuel) w (g.adjacents w) st1 with hr
    have hm1 : st1.marked.getD w false = true := getD_set_self _ _ _ _ hw
    have hm2 := hout.fr.mono w hm1
    show (if r.2 then r.1
      else { r.1 with on_stack := r.1.on_stack.set w false }).marked.getD
        w false = true
    by_cases hb : r.2 = true
    · rw [if_pos hb]
      exact hm2
    · rw [if_neg hb]
      exact hm2

/-! #### The collected chain under a decreasing ranking -/

/-- With enough fuel, the collected chain is parent-linked, starts at a
parentless root, and stays inside the marked class `M`. -/
theorem cfChain_spec (par : List (Option Nat)) (M : Nat → Prop) (rnk : Nat → Nat)
    (hM : ∀ x p, par.getD x none = some p → M x → M p ∧ rnk p < rnk x) :
    ∀ fuel v, M v → rnk v < fuel →
      (∀ i, i + 1 < (cfChain par fuel v).length →
        par.getD ((cfChain par fuel v).getD (i + 1) 0) none =
          some ((cfChain par fuel v).getD i 0)) ∧
      par.getD ((cfChain par fuel v).getD 0 0) none = none ∧
      (∀ x ∈ cfChain par fuel v, M x) := by
  intro fuel
  induction fuel with
  | zero => intro v _ hr; omega
  | succ fuel ih =>
    intro v hMv hr
    cases hp : par.getD v none with
    | none =>
      have heq : cfChain par (fuel + 1) v = [v] := by
        rw [List.getD_eq_getElem?_getD] at hp
        simp [cfChain, hp]
      rw [heq]
      refine ⟨?_, ?_, ?_⟩
      · intro i hi
        simp at hi
      · simpa using hp
      · intro x hx
        rw [List.mem_singleton] at hx
        rw [hx]
        exact hMv
    | some p =>
      obtain ⟨hMp, hrp⟩ := hM v p hp hMv
      have hr2 : rnk p < fuel := by omega
      obtain ⟨ih1, ih2, ih3⟩ := ih p hMp hr2
      have heq : cfChain par (fuel + 1) v = cfChain par fuel p ++ [v] := by
        rw [List.getD_eq_getElem?_getD] at hp
        simp [cfChain, hp]
      obtain ⟨hne, hlast⟩ := cfChain_last par fuel p
      have hlen1 : 1 ≤ (cfChain par fuel p).length := by
        cases h : cfChain par fuel p with
        | nil => exact absurd h hne
        | cons a l => simp
      have hget : ∀ i, i < (cfChain par fuel p).length →
          (cfChain par fuel p ++ [v]).getD i 0 =
            (cfChain par fuel p).getD i 0 := by
        intro i hi
        rw [List.getD_eq_getElem?_getD, List.getD_eq_getElem?_getD,
          List.getElem?_append_left hi]
      have hgetv : (cfChain par fuel p ++ [v]).getD
          (cfChain par fuel p).length 0 = v := by
        rw [List.getD_eq_getElem?_getD, List.getElem?_append_right (le_refl _)]
        simp
      rw [heq]
      refine ⟨?_, ?_, ?_⟩
      · intro i hi
        rw [List.length_append, List.length_singleton] at hi
        by_cases h2 : i + 1 < (cfChain par fuel p).length
        · rw [hget (i + 1) h2, hget i (by omega)]
          exact ih1 i h2
        · have h3 : i + 1 = (cfChain par fuel p).length := by omega
          rw [h3, hgetv, hget i (by omega)]
          have h4 : (cfChain par fuel p).getD i 0 = p := by
            have h5 := hlast
            rw [List.getLast?_eq_getElem?] at h5
            rw [List.getD_eq_getElem?_getD]
            have h6 : i = (cfChain par fuel p).length - 1 := by omega
            rw [h6, h5]
            rfl
          rw [h4]
          exact hp
      · rw [hget 0 (by omega)]
        exact ih2
      · intro x hx
        rw [List.mem_append, List.mem_singleton] at hx
        rcases hx with hx | hx
        · exact ih3 x hx
        · rw [hx]
          exact hMv

/-- Fuel stability of the chain under the same ranking. -/
theorem cfChain_stab (par : List (Option Nat)) (M : Nat → Prop) (rnk : Nat → Nat)
    (hM : ∀ x p, par.getD x none = some p → M x → M p ∧ rnk p < rnk x) :
    ∀ fuel fuel' v, M v → rnk v < fuel → fuel ≤ fuel' →
      cfChain par fuel' v = cfChain par fuel v := by
  intro fuel
  induction fuel with
  | zero => intro fuel' v _ hr; omega
  | succ fuel ih =>
    intro fuel' v hMv hr hle
    cases fuel' with
    | zero => omega
    | succ f2 =>
      cases hp : par.getD v none with
      | none =>
        rw [List.getD_eq_getElem?_getD] at hp
        simp [cfChain, hp]
      | some p =>
        obtain ⟨hMp, hrp⟩ := hM v p hp hMv
        rw [List.getD_eq_getElem?_getD] at hp
        have h1 : cfChain par (fuel + 1) v = cfChain par fuel p ++ [v] := by
          simp [cfChain, hp]
        have h2 : cfChain par (f2 + 1) v = cfChain par f2 p ++ [v] := by
          simp [cfChain, hp]
        rw [h1, h2, ih f2 p hMp (by omega) (by omega)]

/-- The chain only looks at entries of vertices in the closed class `M`. -/
theorem cfChain_congr (par1 par2 : List (Option Nat)) (M : Nat → Prop)
    (hagree : ∀ x, M x → par1.getD x none = par2.getD x none)
    (hclosed : ∀ x p, par1.getD x none = some p → M x → M p) :
    ∀ fuel v, M v → cfChain par1 fuel v = cfChain par2 fuel v := by
  intro fuel
  induction fuel with
  | zero => intro v _; rfl
  | succ fuel ih =>
    intro v hMv
    have hag := hagree v hMv
    cases hp : par1.getD v none with
    | none =>
      rw [hp] at hag
      rw [List.getD_eq_getElem?_getD] at hp
      have hag2 := hag.symm
      rw [List.getD_eq_getElem?_getD] at hag2
      simp [cfChain, hp, hag2]
    | some p =>
      have hMp := hclosed v p hp hMv
      rw [hp] at hag
      have hag2 := hag.symm
      rw [List.getD_eq_getElem?_getD] at hag2
      rw [List.getD_eq_getElem?_getD] at hp
      have h1 : cfChain par1 (fuel + 1) v = cfChain par1 fuel p ++ [v] := by
        simp [cfChain, hp]
      have h2 : cfChain par2 (fuel + 1) v = cfChain par2 fuel p ++ [v] := by
        simp [cfChain, hag2]
      rw [h1, h2, ih p hMp]

/-- The collected chain has no duplicates: ranks strictly increase. -/
theorem cfChain_nodup (par : List (Option Nat)) (M : Nat → Prop) (rnk : Nat → Nat)
    (hM : ∀ x p, par.getD x none = some p → M x → M p ∧ rnk p < rnk x) :
    ∀ fuel v, M v → rnk v < fuel →
      (cfChain par fuel v).Nodup ∧ ∀ x ∈ cfChain par fuel v, rnk x ≤ rnk v := by
  intro fuel
  induction fuel with
  | zero => intro v _ hr; omega
  | succ fuel ih =>
    intro v hMv hr
    cases hp : par.getD v none with
    | none =>
      have heq : cfChain par (fuel + 1) v = [v] := by
        rw [List.getD_eq_getElem?_getD] at hp
        simp [cfChain, hp]
      rw [heq]
      refine ⟨List.nodup_singleton v, ?_⟩
      intro x hx
      rw [List.mem_singleton] at hx
      rw [hx]
    | some p =>
      obtain ⟨hMp, hrp⟩ := hM v p hp hMv
      obtain ⟨ihn, ihb⟩ := ih p hMp (by omega)
      have heq : cfChain par (fuel + 1) v = cfChain par fuel p ++ [v] := by
        rw [List.getD_eq_getElem?_getD] at hp
        simp [cfChain, hp]
      rw [heq]
      have hvnot : v ∉ cfChain par fuel p := by
        intro hv
        have := ihb v hv
        omega
      refine ⟨?_, ?_⟩
      · rw [List.nodup_append]
        refine ⟨ihn, List.nodup_singleton v, ?_⟩
        intro x hx hx2
        rw [List.mem_singleton] at hx2
        rw [hx2] at hx
        exact hvnot hx
      · intro x hx
        rw [List.mem_append, List.mem_singleton] at hx
        rcases hx with hx | hx
        · have := ihb x hx
          omega
        · rw [hx]

/-! #### Soundness of the reported cycle -/

/-- What the reported vertex list is claimed to be: a closed list of at
least two vertices whose consecutive pairs are edges of the graph. -/
def CycProp (h : EdgeWeightedDigraph) (c : List Nat) : Prop :=
  2 ≤ c.length ∧ c.getD 0 0 = c.getD (c.length - 1) 0 ∧
  (c.drop 1).Nodup ∧
  ∀ i, i + 1 < c.length → ∃ e ∈ h.edges,
    e.from_edge = c.getD i 0 ∧ e.to_edge = c.getD (i + 1) 0

/-- Invariant bundle of the cycle finder's state. -/
structure CFI (h : EdgeWeightedDigraph) (st : CFState) : Prop where
  lenM : st.marked.length = h.number_of_vertices
  lenS : st.on_stack.length = h.number_of_vertices
  lenE : st.edge_to.length = h.number_of_vertices
  hpar : ∀ x p, st.edge_to.getD x none = some p →
    ∃ e ∈ h.edges, e.from_edge = p ∧ e.to_edge = x
  hrank : ∃ rnk : Nat → Nat,
    (∀ x p, st.edge_to.getD x none = some p →
      st.marked.getD p false = true ∧
      (st.marked.getD x false = true → rnk p < rnk x)) ∧
    (∀ x, st.marked.getD x false = true → rnk x < st.marked.count true)
  hcyc : st.cycle ≠ [] → CycProp h st.cycle

/-- Unmarked vertices left, the fuel measure of the DFS. -/
def TU (st : CFState) : Nat := st.marked.length - st.marked.count true

/-- Pointwise monotonicity of marks bounds the `true` count. -/
theorem count_true_mono : ∀ (l1 l2 : List Bool), l2.length = l1.length →
    (∀ x, l1.getD x false = true → l2.getD x false = true) →
    l1.count true ≤ l2.count true := by
  intro l1
  induction l1 with
  | nil => intro l2 _ _; simp
  | cons a t ih =>
    intro l2 hlen hmono
    cases l2 with
    | nil => simp at hlen
    | cons b t2 =>
      have htail : t2.length = t.length := by simpa using hlen
      have hmt : ∀ x, t.getD x false = true → t2.getD x false = true := by
        intro x hx
        exact hmono (x + 1) hx
      have h1 := ih t2 htail hmt
      rw [List.count_cons, List.count_cons]
      by_cases ha : a = true
      · have hb : b = true := hmono 0 ha
        rw [ha, hb]
        simp
        omega
      · have ha2 : a = false := by
          cases a
          · rfl
          · exact absurd rfl ha
        rw [ha2]
        simp
        cases b <;> simp <;> omega

/-- The parent chain of a vertex about to be visited (empty at a root). -/
def parChainN (st : CFState) (v : Nat) : List Nat :=
  match st.edge_to.getD v none with
  | none => []
  | some p => cfChain st.edge_to st.edge_to.length p

/-- At the `elif self.on_stack[vertex_w]` branch the reported list really
is a closed edge-linked cycle: with in-degree one the stacked `w` must be
the root of the scanner's own parent chain. -/
theorem cycProp_of_elif (h : EdgeWeightedDigraph) (hnt : NodupTargets h)
    {st : CFState} (hcfi : CFI h st) {v w : Nat}
    (hvm : st.marked.getD v false = true)
    (e : WeightedEdge) (he : e ∈ h.edges) (hef : e.from_edge = v)
    (het : e.to_edge = w)
    (hnotv : st.edge_to.getD w none ≠ some v)
    (hwin : w ∈ cfChain st.edge_to st.edge_to.length v) :
    CycProp h (cfChain st.edge_to st.edge_to.length v ++ [w]) := by
  obtain ⟨rnk, hr1, hr2⟩ := hcfi.hrank
  have hM : ∀ x p, st.edge_to.getD x none = some p →
      st.marked.getD x false = true →
      st.marked.getD p false = true ∧ rnk p < rnk x := by
    intro x p hp hx
    exact ⟨(hr1 x p hp).1, (hr1 x p hp).2 hx⟩
  have hrv : rnk v < st.edge_to.length := by
    have h1 := hr2 v hvm
    have h2 := List.count_le_length true st.marked
    rw [hcfi.lenE, ← hcfi.lenM]
    omega
  obtain ⟨hpairs, hroot, hmem⟩ := cfChain_spec st.edge_to
    (fun x => st.marked.getD x false = true) rnk hM st.edge_to.length v
    hvm hrv
  set c := cfChain st.edge_to st.edge_to.length v with hc
  obtain ⟨hcne, hclast⟩ := cfChain_last st.edge_to st.edge_to.length v
  have hclen : 1 ≤ c.length := by
    cases h2 : c with
    | nil => exact absurd h2 hcne
    | cons a l => simp [h2]
  -- the stacked vertex has no parent pointer
  have hwnone : st.edge_to.getD w none = none := by
    cases hp : st.edge_to.getD w none with
    | none => rfl
    | some p =>
      exfalso
      obtain ⟨e2, he2, he2f, he2t⟩ := hcfi.hpar w p hp
      have hinj := List.inj_on_of_nodup_map hnt
      have heq : e2 = e := hinj he2 he (by rw [he2t, het])
      have h5 : p = v := by rw [← he2f, heq, hef]
      rw [h5] at hp
      exact hnotv hp
  -- hence it is the head of the chain
  have hwhead : c.getD 0 0 = w := by
    obtain ⟨i, hi, hgi⟩ := List.getElem_of_mem hwin
    cases i with
    | zero =>
      rw [List.getD_eq_getElem _ _ hi] at *
      exact hgi
    | succ i =>
      exfalso
      have h2 := hpairs i hi
      have h3 : c.getD (i + 1) 0 = w := by
        rw [List.getD_eq_getElem _ _ hi]
        exact hgi
      rw [h3, hwnone] at h2
      exact Option.noConfusion h2
  have hlastv : c.getD (c.length - 1) 0 = v := by
    rw [List.getLast?_eq_getElem?] at hclast
    rw [List.getD_eq_getElem?_getD, hclast]
    rfl
  have hcnd : c.Nodup := by
    have h2 := cfChain_nodup st.edge_to
      (fun x => st.marked.getD x false = true) rnk hM st.edge_to.length v
      hvm hrv
    exact h2.1
  refine ⟨?_, ?_, ?_, ?_⟩
  · rw [List.length_append, List.length_singleton]
    omega
  · rw [List.length_append, List.length_singleton]
    have h1 : (c ++ [w]).getD 0 0 = c.getD 0 0 := by
      rw [List.getD_eq_getElem?_getD, List.getD_eq_getElem?_getD,
        List.getElem?_append_left (by omega)]
    have h2 : (c ++ [w]).getD (c.length + 1 - 1) 0 = w := by
      have h3 : c.length + 1 - 1 = c.length := by omega
      rw [h3, List.getD_eq_getElem?_getD,
        List.getElem?_append_right (le_refl _)]
      simp
    rw [h1, h2, hwhead]
  · cases hc2 : c with
    | nil => exact absurd hc2 hcne
    | cons c0 ctail =>
      have h2 : c0 = w := by
        rw [hc2] at hwhead
        exact hwhead
      rw [hc2] at hcnd
      rw [List.nodup_cons] at hcnd
      show (ctail ++ [w]).Nodup
      rw [List.nodup_append]
      refine ⟨hcnd.2, List.nodup_singleton w, ?_⟩
      intro x hx hx2
      rw [List.mem_singleton] at hx2
      rw [hx2] at hx
      rw [← h2] at hx
      exact hcnd.1 hx
  · intro i hi
    rw [List.length_append, List.length_singleton] at hi
    have hgl : ∀ j, j < c.length → (c ++ [w]).getD j 0 = c.getD j 0 := by
      intro j hj
      rw [List.getD_eq_getElem?_getD, List.getD_eq_getElem?_getD,
        List.getElem?_append_left hj]
    by_cases h2 : i + 1 < c.length
    · have h3 := hpairs i h2
      obtain ⟨e2, he2, he2f, he2t⟩ := hcfi.hpar _ _ h3
      refine ⟨e2, he2, ?_, ?_⟩
      · rw [hgl i (by omega)]
        exact he2f
      · rw [hgl (i + 1) h2]
        exact he2t
    · have h3 : i + 1 = c.length := by omega
      have h4 : (c ++ [w]).getD (i + 1) 0 = w := by
        rw [h3, List.getD_eq_getElem?_getD,
          List.getElem?_append_right (le_refl _)]
        simp
      refine ⟨e, he, ?_, ?_⟩
      · rw [hgl i (by omega)]
        have h5 : i = c.length - 1 := by omega
        rw [h5, hlastv]
        exact hef
      · rw [h4]
        exact het

/-- Invariant preservation through the adjacency scan, assuming it for
the recursive `_dfs` call (`ihSD` is discharged by `cfDfs_sound` below). -/
theorem cfScan_sound (h : EdgeWeightedDigraph) (hwf : GWF h)
    (hnt : NodupTargets h) (fuel : Nat)
    (ihSD : ∀ v st, CFI h st → StackSub st → TU st ≤ fuel →
      st.marked.getD v false = false → v < h.number_of_vertices →
      (st.cycle = [] → ∀ x, st.on_stack.getD x false = true ↔
        x ∈ parChainN st v) →
      (st.cycle = [] → ∀ x p, st.edge_to.getD x none = some p →
        st.marked.getD x false = true ∨ x = v) →
      CFI h (cfDfs h fuel v st) ∧
      ((cfDfs h fuel v st).cycle = [] → ∀ x p,
        (cfDfs h fuel v st).edge_to.getD x none = some p →
        (cfDfs h fuel v st).marked.getD x false = true))
    (v : Nat) (hvn : v < h.number_of_vertices) :
    ∀ (es : List WeightedEdge) (st : CFState), CFI h st → StackSub st →
      TU st ≤ fuel → st.marked.getD v false = true →
      (∀ e2 ∈ es, e2 ∈ h.edges ∧ e2.from_edge = v) →
      (es.map WeightedEdge.to_edge).Nodup →
      (st.cycle = [] → ∀ e2 ∈ es, st.edge_to.getD e2.to_edge none ≠ some v) →
      (st.cycle = [] → ∀ x, st.on_stack.getD x false = true ↔
        x ∈ cfChain st.edge_to st.edge_to.length v) →
      (st.cycle = [] → ∀ x p, st.edge_to.getD x none = some p →
        st.marked.getD x false = true) →
      CFI h (cfScan (cfDfs h fuel) v es st).1 ∧
      ((cfScan (cfDfs h fuel) v es st).1.cycle = [] → ∀ x p,
        (cfScan (cfDfs h fuel) v es st).1.edge_to.getD x none = some p →
        (cfScan (cfDfs h fuel) v es st).1.marked.getD x false = true) := by
  intro es
  induction es with
  | nil =>
    intro st hcfi hss htu hvm hes hesnd hsc hstk hopc
    exact ⟨hcfi, fun h2 => hopc h2⟩
  | cons e es ih =>
    intro st hcfi hss htu hvm hes hesnd hsc hstk hopc
    by_cases hc : st.has_cycle = true
    · have hshow : cfScan (cfDfs h fuel) v (e :: es) st = (st, true) := by
        show (if st.has_cycle then (st, true) else _) = _
        rw [if_pos hc]
      rw [hshow]
      exact ⟨hcfi, fun h2 => hopc h2⟩
    · have hcy : st.cycle = [] := by
        simpa [CFState.has_cycle, List.isEmpty_iff] using hc
      obtain ⟨heE, hef⟩ := hes e (List.mem_cons_self e es)
      have hwn : e.to_edge < h.number_of_vertices := (hwf e heE).2
      have hwlenE : e.to_edge < st.edge_to.length := by
        rw [hcfi.lenE]
        exact hwn
      have hndh : e.to_edge ∉ es.map WeightedEdge.to_edge :=
        (List.nodup_cons.mp hesnd).1
      have hndt : (es.map WeightedEdge.to_edge).Nodup :=
        (List.nodup_cons.mp hesnd).2
      by_cases hm : st.marked.getD e.to_edge false = false
      · have hshow : cfScan (cfDfs h fuel) v (e :: es) st =
            cfScan (cfDfs h fuel) v es (cfDfs h fuel e.to_edge
              { st with edge_to := st.edge_to.set e.to_edge (some v) }) := by
          show (if st.has_cycle then (st, true) else _) = _
          rw [if_neg hc]
          show (if st.marked.getD e.to_edge false = false then _ else _) = _
          rw [if_pos hm]
        rw [hshow]
        set stA : CFState :=
          { st with edge_to := st.edge_to.set e.to_edge (some v) } with hstA
        have hAe : stA.edge_to = st.edge_to.set e.to_edge (some v) := rfl
        have hAm : stA.marked = st.marked := rfl
        have hAs : stA.on_stack = st.on_stack := rfl
        have hAc : stA.cycle = st.cycle := rfl
        have hAgetself : stA.edge_to.getD e.to_edge none = some v := by
          rw [hAe]
          exact getD_set_self _ _ _ _ hwlenE
        have hAgetne : ∀ x, x ≠ e.to_edge →
            stA.edge_to.getD x none = st.edge_to.getD x none := by
          intro x hx
          rw [hAe]
          exact getD_set_ne _ _ _ (fun h3 => hx h3.symm)
        have hAlenE : stA.edge_to.length = st.edge_to.length := by
          rw [hAe, List.length_set]
        obtain ⟨rnk, hr1, hr2⟩ := hcfi.hrank
        have hcfiA : CFI h stA := by
          refine ⟨hcfi.lenM, hcfi.lenS, by rw [hAlenE]; exact hcfi.lenE,
            ?_, ?_, ?_⟩
          · intro x p hp
            by_cases h2 : x = e.to_edge
            · rw [h2, hAgetself] at hp
              have hpv : p = v := (Option.some.inj hp).symm
              refine ⟨e, heE, ?_, ?_⟩
              · rw [hpv]
                exact hef
              · rw [h2]
            · rw [hAgetne x h2] at hp
              exact hcfi.hpar x p hp
          · refine ⟨rnk, ?_, hr2⟩
            intro x p hp
            by_cases h2 : x = e.to_edge
            · rw [h2, hAgetself] at hp
              have hpv : p = v := (Option.some.inj hp).symm
              constructor
              · rw [hAm, hpv]
                exact hvm
              · intro hx
                rw [hAm, h2] at hx
                exact absurd (hm.symm.trans hx) (by decide)
            · rw [hAgetne x h2] at hp
              exact hr1 x p hp
          · intro h2
            exact hcfi.hcyc h2
        have hssA : StackSub stA := hss
        have hlenSM : stA.on_stack.length = stA.marked.length := by
          rw [hAs, hAm, hcfi.lenS, hcfi.lenM]
        have hchainA : ∀ F, cfChain stA.edge_to F v =
            cfChain st.edge_to F v := by
          intro F
          refine cfChain_congr stA.edge_to st.edge_to
            (fun x => st.marked.getD x false = true) ?_ ?_ F v hvm
          · intro x hx
            refine hAgetne x ?_
            intro h3
            rw [h3] at hx
            exact absurd (hm.symm.trans hx) (by decide)
          · intro x p hp hx
            have h3 : x ≠ e.to_edge := by
              intro h4
              rw [h4] at hx
              exact absurd (hm.symm.trans hx) (by decide)
            rw [hAgetne x h3] at hp
            exact (hr1 x p hp).1
        have hstkA : stA.cycle = [] → ∀ x,
            stA.on_stack.getD x false = true ↔ x ∈ parChainN stA e.to_edge := by
          intro hcyA x
          have hpc : parChainN stA e.to_edge =
              cfChain st.edge_to st.edge_to.length v := by
            show (match stA.edge_to.getD e.to_edge none with
              | none => []
              | some p => cfChain stA.edge_to stA.edge_to.length p) = _
            rw [hAgetself]
            rw [hAlenE]
            exact hchainA st.edge_to.length
          rw [hpc, hAs]
          exact hstk hcy x
        have hopcA : stA.cycle = [] → ∀ x p,
            stA.edge_to.getD x none = some p →
            stA.marked.getD x false = true ∨ x = e.to_edge := by
          intro hcyA x p hp
          by_cases h2 : x = e.to_edge
          · exact Or.inr h2
          · rw [hAgetne x h2] at hp
            rw [hAm]
            exact Or.inl (hopc hcy x p hp)
        obtain ⟨hcfiB, hopcB⟩ := ihSD e.to_edge stA hcfiA hssA htu hm hwn
          hstkA hopcA
        have hdok : DfsOK (cfDfs h fuel) e.to_edge stA :=
          cfDfs_ok h fuel e.to_edge stA hm hssA hlenSM
        set stB := cfDfs h fuel e.to_edge stA with hstB
        have hcyPA : stB.cycle = [] → stA.cycle = [] := by
          intro h2
          cases h3 : stA.cycle with
          | nil => rfl
          | cons a l =>
            exfalso
            have h4 := hdok.cycP (by rw [h3]; exact List.cons_ne_nil a l)
            rw [← hstB] at h4
            rw [h4, h3] at h2
            exact List.cons_ne_nil a l h2
        have htuB : TU stB ≤ fuel := by
          have h1 : stB.marked.length = stA.marked.length := hdok.lenM
          have h2 : stA.marked.count true ≤ stB.marked.count true :=
            count_true_mono stA.marked stB.marked h1 hdok.mono
          show stB.marked.length - stB.marked.count true ≤ fuel
          have h3 : TU stA ≤ fuel := htu
          rw [TU] at h3
          omega
        have hvmB : stB.marked.getD v false = true := hdok.mono v hvm
        have hesB : ∀ e2 ∈ es, e2 ∈ h.edges ∧ e2.from_edge = v :=
          fun e2 he2 => hes e2 (List.mem_cons_of_mem e he2)
        have hscB : stB.cycle = [] → ∀ e2 ∈ es,
            stB.edge_to.getD e2.to_edge none ≠ some v := by
          intro hcyB e2 he2 hpt
          rcases hdok.prov e2.to_edge v hpt with h1 | h1
          · have hne : e2.to_edge ≠ e.to_edge := by
              intro h3
              exact hndh (h3 ▸ List.mem_map_of_mem WeightedEdge.to_edge he2)
            rw [hAgetne e2.to_edge hne] at h1
            exact hsc hcy e2 (List.mem_cons_of_mem e he2) h1
          · rw [hAm] at h1
            exact absurd (h1.symm.trans hvm) (by decide)
        have hstkB : stB.cycle = [] → ∀ x,
            stB.on_stack.getD x false = true ↔
            x ∈ cfChain stB.edge_to stB.edge_to.length v := by
          intro hcyB x
          have hcyA := hcyPA hcyB
          have hosEq := hdok.cycE hcyA hcyB
          have hchainB : cfChain stB.edge_to stB.edge_to.length v =
              cfChain st.edge_to st.edge_to.length v := by
            have hlB : stB.edge_to.length = st.edge_to.length := by
              rw [hdok.lenE, hAlenE]
            rw [hlB]
            refine cfChain_congr stB.edge_to st.edge_to
              (fun y => st.marked.getD y false = true) ?_ ?_
              st.edge_to.length v hvm
            · intro y hy
              have h2 : stB.edge_to.getD y none = stA.edge_to.getD y none :=
                hdok.etF y (by rw [hAm]; exact hy)
              rw [h2]
              refine hAgetne y ?_
              intro h3
              rw [h3] at hy
              exact absurd (hm.symm.trans hy) (by decide)
            · intro y p hp hy
              have h2 : stB.edge_to.getD y none = stA.edge_to.getD y none :=
                hdok.etF y (by rw [hAm]; exact hy)
              rw [h2] at hp
              have h3 : y ≠ e.to_edge := by
                intro h4
                rw [h4] at hy
                exact absurd (hm.symm.trans hy) (by decide)
              rw [hAgetne y h3] at hp
              exact (hr1 y p hp).1
          rw [hchainB, hosEq x, hAs]
          exact hstk hcy x
        exact ih stB hcfiB hdok.hos2 htuB hvmB hesB hndt hscB hstkB hopcB
      · by_cases hs2 : st.on_stack.getD e.to_edge false = true
        · have hshow : cfScan (cfDfs h fuel) v (e :: es) st =
              cfScan (cfDfs h fuel) v es (getCyclePath v e.to_edge st) := by
            show (if st.has_cycle then (st, true) else _) = _
            rw [if_neg hc]
            show (if st.marked.getD e.to_edge false = false then _
              else if st.on_stack.getD e.to_edge false then _ else _) = _
            rw [if_neg hm, if_pos hs2]
          rw [hshow]
          have hcycC : CycProp h
              (cfChain st.edge_to st.edge_to.length v ++ [e.to_edge]) :=
            cycProp_of_elif h hnt hcfi hvm e heE hef rfl
              (hsc hcy e (List.mem_cons_self e es))
              ((hstk hcy e.to_edge).mp hs2)
          set stC := getCyclePath v e.to_edge st with hstC
          have hCne : stC.cycle ≠ [] := getCyclePath_cycle_ne v e.to_edge st
          have hcfiC : CFI h stC := by
            refine ⟨hcfi.lenM, hcfi.lenS, hcfi.lenE, hcfi.hpar,
              hcfi.hrank, ?_⟩
            intro h2
            exact hcycC
          refine ih stC hcfiC hss htu hvm
            (fun e2 he2 => hes e2 (List.mem_cons_of_mem e he2)) hndt
            (fun h2 => absurd h2 hCne) (fun h2 => absurd h2 hCne)
            (fun h2 => absurd h2 hCne)
        · have hshow : cfScan (cfDfs h fuel) v (e :: es) st =
              cfScan (cfDfs h fuel) v es st := by
            show (if st.has_cycle then (st, true) else _) = _
            rw [if_neg hc]
            show (if st.marked.getD e.to_edge false = false then _
              else if st.on_stack.getD e.to_edge false then _ else _) = _
            rw [if_neg hm, if_neg hs2]
          rw [hshow]
          exact ih st hcfi hss htu hvm
            (fun e2 he2 => hes e2 (List.mem_cons_of_mem e he2)) hndt
            (fun h2 e2 he2 => hsc h2 e2 (List.mem_cons_of_mem e he2))
            hstk hopc

/-- Invariant preservation through a full `_dfs` call. -/
theorem cfDfs_sound (h : EdgeWeightedDigraph) (hwf : GWF h)
    (hnt : NodupTargets h) :
    ∀ fuel v st, CFI h st → StackSub st → TU st ≤ fuel →
      st.marked.getD v false = false → v < h.number_of_vertices →
      (st.cycle = [] → ∀ x, st.on_stack.getD x false = true ↔
        x ∈ parChainN st v) →
      (st.cycle = [] → ∀ x p, st.edge_to.getD x none = some p →
        st.marked.getD x false = true ∨ x = v) →
      CFI h (cfDfs h fuel v st) ∧
      ((cfDfs h fuel v st).cycle = [] → ∀ x p,
        (cfDfs h fuel v st).edge_to.getD x none = some p →
        (cfDfs h fuel v st).marked.getD x false = true) := by
  intro fuel
  induction fuel with
  | zero =>
    intro v st hcfi hss htu hmv hvn hstk hopc
    exfalso
    have h1 : v < st.marked.length := by
      rw [hcfi.lenM]
      exact hvn
    have h2 := count_true_lt h1 hmv
    rw [TU] at htu
    omega
  | succ fuel ih =>
    intro v st hcfi hss htu hmv hvn hstk hopc
    have hvlenM : v < st.marked.length := by
      rw [hcfi.lenM]
      exact hvn
    have hvlenS : v < st.on_stack.length := by
      rw [hcfi.lenS]
      exact hvn
    set st1 : CFState :=
      { st with
        marked := st.marked.set v true
        on_stack := st.on_stack.set v true } with hst1
    have h1m : st1.marked = st.marked.set v true := rfl
    have h1s : st1.on_stack = st.on_stack.set v true := rfl
    have h1e : st1.edge_to = st.edge_to := rfl
    have h1c : st1.cycle = st.cycle := rfl
    obtain ⟨rnk, hr1, hr2⟩ := hcfi.hrank
    have hcnt : st1.marked.count true = st.marked.count true + 1 := by
      rw [h1m]
      exact count_set_true st.marked v hvlenM hmv
    have hcntlt : st.marked.count true < st.marked.length :=
      count_true_lt hvlenM hmv
    have hm1get : ∀ x, x ≠ v →
        st1.marked.getD x false = st.marked.getD x false := by
      intro x hx
      rw [h1m]
      exact getD_set_ne _ _ _ (fun h3 => hx h3.symm)
    have hm1self : st1.marked.getD v false = true := by
      rw [h1m]
      exact getD_set_self _ _ _ _ hvlenM
    have hcfi1 : CFI h st1 := by
      refine ⟨by rw [h1m, List.length_set]; exact hcfi.lenM,
        by rw [h1s, List.length_set]; exact hcfi.lenS,
        hcfi.lenE, hcfi.hpar, ?_, fun h2 => hcfi.hcyc h2⟩
      refine ⟨fun x => if x = v then st.marked.count true else rnk x, ?_, ?_⟩
      · intro x p hp
        obtain ⟨hpm, hpi⟩ := hr1 x p hp
        have hpv : p ≠ v := by
          intro h3
          rw [h3] at hpm
          exact absurd (hmv.symm.trans hpm) (by decide)
        constructor
        · rw [h1m]
          exact marked_mono hpm
        · intro hx
          show (if p = v then st.marked.count true else rnk p) <
            (if x = v then st.marked.count true else rnk x)
          rw [if_neg hpv]
          by_cases h2 : x = v
          · rw [if_pos h2]
            exact hr2 p hpm
          · rw [if_neg h2]
            rw [hm1get x h2] at hx
            exact hpi hx
      · intro x hx
        show (if x = v then st.marked.count true else rnk x) <
          st1.marked.count true
        rw [hcnt]
        by_cases h2 : x = v
        · rw [if_pos h2]
          omega
        · rw [if_neg h2]
          rw [hm1get x h2] at hx
          have := hr2 x hx
          omega
    have hss1 : StackSub st1 := by
      intro x hx
      by_cases h2 : x = v
      · rw [h2]
        exact hm1self
      · rw [h1s, getD_set_ne _ _ _ (fun h3 => h2 h3.symm)] at hx
        rw [hm1get x h2]
        exact hss x hx
    have htu1 : TU st1 ≤ fuel := by
      rw [TU] at htu ⊢
      rw [hcnt, h1m, List.length_set]
      omega
    have hes : ∀ e2 ∈ h.adjacents v, e2 ∈ h.edges ∧ e2.from_edge = v := by
      intro e2 he2
      rw [EdgeWeightedDigraph.adjacents, List.mem_filter] at he2
      exact ⟨he2.1, by simpa using he2.2⟩
    have hesnd : ((h.adjacents v).map WeightedEdge.to_edge).Nodup := by
      refine List.Nodup.sublist ?_ hnt
      exact List.Sublist.map _ (List.filter_sublist h.edges)
    have hsc1 : st1.cycle = [] → ∀ e2 ∈ h.adjacents v,
        st1.edge_to.getD e2.to_edge none ≠ some v := by
      intro hcy e2 he2 hpt
      rw [h1e] at hpt
      have := (hr1 _ _ hpt).1
      exact absurd (hmv.symm.trans this) (by decide)
    have hLpos : st.edge_to.length = h.number_of_vertices := hcfi.lenE
    have hstk1 : st1.cycle = [] → ∀ x,
        st1.on_stack.getD x false = true ↔
        x ∈ cfChain st1.edge_to st1.edge_to.length v := by
      intro hcy1
      have hcy : st.cycle = [] := hcy1
      have hchain : cfChain st.edge_to st.edge_to.length v =
          parChainN st v ++ [v] := by
        obtain ⟨K, hK⟩ : ∃ K, st.edge_to.length = K + 1 := by
          refine ⟨h.number_of_vertices - 1, ?_⟩
          rw [hLpos]
          omega
        cases hpv : st.edge_to.getD v none with
        | none =>
          have hpv2 := hpv
          rw [List.getD_eq_getElem?_getD] at hpv2
          rw [hK]
          have : cfChain st.edge_to (K + 1) v = [v] := by
            simp [cfChain, hpv2]
          rw [this]
          show _ = (match st.edge_to.getD v none with
            | none => ([] : List Nat)
            | some p => cfChain st.edge_to st.edge_to.length p) ++ [v]
          rw [hpv]
          simp
        | some p =>
          have hpv2 := hpv
          rw [List.getD_eq_getElem?_getD] at hpv2
          have hstep : cfChain st.edge_to (K + 1) v =
              cfChain st.edge_to K p ++ [v] := by
            simp [cfChain, hpv2]
          have hpm : st.marked.getD p false = true := (hr1 v p hpv).1
          have hrp : rnk p < K := by
            have h3 := hr2 p hpm
            have h4 := hcntlt
            have h5 : st.marked.length = h.number_of_vertices := hcfi.lenM
            rw [hLpos] at hK
            omega
          have hstab : cfChain st.edge_to (K + 1) p =
              cfChain st.edge_to K p := by
            refine cfChain_stab st.edge_to
              (fun y => st.marked.getD y false = true) rnk ?_ K (K + 1) p
              hpm hrp (by omega)
            intro y q hq hy
            exact ⟨(hr1 y q hq).1, (hr1 y q hq).2 hy⟩
          rw [hK, hstep]
          show _ = (match st.edge_to.getD v none with
            | none => ([] : List Nat)
            | some q => cfChain st.edge_to st.edge_to.length q) ++ [v]
          rw [hpv]
          show cfChain st.edge_to K p ++ [v] =
            cfChain st.edge_to st.edge_to.length p ++ [v]
          rw [hK, hstab]
      intro x
      rw [h1e, h1s]
      show (st.on_stack.set v true).getD x false = true ↔
        x ∈ cfChain st.edge_to st.edge_to.length v
      rw [hchain]
      by_cases h2 : x = v
      · rw [h2, getD_set_self _ _ _ _ hvlenS]
        simp
      · rw [getD_set_ne _ _ _ (fun h3 => h2 h3.symm)]
        rw [List.mem_append, List.mem_singleton]
        constructor
        · intro h3
          exact Or.inl ((hstk hcy x).mp h3)
        · intro h3
          rcases h3 with h3 | h3
          · exact (hstk hcy x).mpr h3
          · exact absurd h3 h2
    have hopc1 : st1.cycle = [] → ∀ x p,
        st1.edge_to.getD x none = some p →
        st1.marked.getD x false = true := by
      intro hcy1 x p hp
      rw [h1e] at hp
      rcases hopc hcy1 x p hp with h2 | h2
      · rw [h1m]
        exact marked_mono h2
      · rw [h2]
        exact hm1self
    have hout := cfScan_sound h hwf hnt fuel ih v hvn (h.adjacents v) st1
      hcfi1 hss1 htu1 hm1self hes hesnd hsc1 hstk1 hopc1
    set r := cfScan (cfDfs h fuel) v (h.adjacents v) st1 with hr
    have hunf : cfDfs h (fuel + 1) v st =
        if r.2 then r.1
        else { r.1 with on_stack := r.1.on_stack.set v false } := rfl
    rw [hunf]
    by_cases hb : r.2 = true
    · rw [if_pos hb]
      exact hout
    · rw [if_neg hb]
      constructor
      · refine ⟨hout.1.lenM, ?_, hout.1.lenE, hout.1.hpar, hout.1.hrank,
          hout.1.hcyc⟩
        show (r.1.on_stack.set v false).length = _
        rw [List.length_set]
        exact hout.1.lenS
      · intro h2 x p hp
        exact hout.2 h2 x p hp

/-- Invariant preservation through the constructor's vertex loop. -/
theorem cfOuter_sound (h : EdgeWeightedDigraph) (hwf : GWF h)
    (hnt : NodupTargets h) :
    ∀ fuel vertex st, CFI h st → StackSub st →
      (st.cycle = [] → ∀ x, st.on_stack.getD x false = false) →
      (st.cycle = [] → ∀ x p, st.edge_to.getD x none = some p →
        st.marked.getD x false = true) →
      CFI h (cfOuter h fuel vertex st) := by
  intro fuel
  induction fuel with
  | zero => intro vertex st hcfi _ _ _; exact hcfi
  | succ fuel ih =>
    intro vertex st hcfi hss hstk hopc
    show CFI h (if vertex < h.number_of_vertices then
      (if st.has_cycle then st else _) else st)
    by_cases h1 : vertex < h.number_of_vertices
    · rw [if_pos h1]
      by_cases h2 : st.has_cycle = true
      · rw [if_pos h2]
        exact hcfi
      · rw [if_neg h2]
        have hcy : st.cycle = [] := by
          simpa [CFState.has_cycle, List.isEmpty_iff] using h2
        by_cases h3 : st.marked.getD vertex false = false
        · rw [if_pos h3]
          have hstkd : st.cycle = [] → ∀ x,
              st.on_stack.getD x false = true ↔ x ∈ parChainN st vertex := by
            intro hcy2 x
            have hpn : parChainN st vertex = [] := by
              cases hp : st.edge_to.getD vertex none with
              | none =>
                show (match st.edge_to.getD vertex none with
                  | none => ([] : List Nat)
                  | some p => cfChain st.edge_to st.edge_to.length p) = []
                rw [hp]
              | some p =>
                exfalso
                have h4 := hopc hcy2 vertex p hp
                exact absurd (h3.symm.trans h4) (by decide)
            rw [hpn, hstk hcy2 x]
            simp
          have hopcw : st.cycle = [] → ∀ x p,
              st.edge_to.getD x none = some p →
              st.marked.getD x false = true ∨ x = vertex := by
            intro hcy2 x p hp
            exact Or.inl (hopc hcy2 x p hp)
          have htu : TU st ≤ h.number_of_vertices + 1 := by
            rw [TU]
            have := hcfi.lenM
            omega
          obtain ⟨hcfi2, hopc2⟩ := cfDfs_sound h hwf hnt
            (h.number_of_vertices + 1) vertex st hcfi hss htu h3 h1
            hstkd hopcw
          have hdok : DfsOK (cfDfs h (h.number_of_vertices + 1)) vertex st :=
            cfDfs_ok h (h.number_of_vertices + 1) vertex st h3 hss
              (by rw [hcfi.lenS, hcfi.lenM])
          refine ih (vertex + 1) _ hcfi2 hdok.hos2 ?_ hopc2
          intro hcy2 x
          have hcyS : st.cycle = [] := by
            cases h5 : st.cycle with
            | nil => rfl
            | cons a l =>
              exfalso
              have h6 := hdok.cycP (by rw [h5]; exact List.cons_ne_nil a l)
              rw [h6, h5] at hcy2
              exact List.cons_ne_nil a l hcy2
          rw [hdok.cycE hcyS hcy2 x]
          exact hstk hcyS x
        · rw [if_neg h3]
          exact ih (vertex + 1) st hcfi hss hstk hopc
    · rw [if_neg h1]
      exact hcfi

/-- Soundness of `EdgeWeightedCycleFinder`: a reported vertex list is a
closed, edge-linked cycle of the in-degree-one graph it was run on. -/
theorem cfRun_sound (h : EdgeWeightedDigraph) (hwf : GWF h)
    (hnt : NodupTargets h) :
    (cfRun h).cycle ≠ [] → CycProp h (cfRun h).cycle := by
  intro hne
  set st0 : CFState :=
    ⟨List.replicate h.number_of_vertices false,
     List.replicate h.number_of_vertices false,
     List.replicate h.number_of_vertices none, []⟩ with hst0
  have hget0 : ∀ x, st0.edge_to.getD x none = none := by
    intro x
    by_cases h2 : x < h.number_of_vertices
    · exact getD_replicate_lt _ _ h2
    · exact getD_oob _ _ (by rw [List.length_replicate]; omega)
  have hmk0 : ∀ x, st0.marked.getD x false = false := by
    intro x
    by_cases h2 : x < h.number_of_vertices
    · exact getD_replicate_lt _ _ h2
    · exact getD_oob _ _ (by rw [List.length_replicate]; omega)
  have hos0 : ∀ x, st0.on_stack.getD x false = false := by
    intro x
    by_cases h2 : x < h.number_of_vertices
    · exact getD_replicate_lt _ _ h2
    · exact getD_oob _ _ (by rw [List.length_replicate]; omega)
  have hcfi0 : CFI h st0 := by
    refine ⟨List.length_replicate _ _, List.length_replicate _ _,
      List.length_replicate _ _, ?_, ?_, ?_⟩
    · intro x p hp
      rw [hget0 x] at hp
      exact Option.noConfusion hp
    · refine ⟨fun _ => 0, ?_, ?_⟩
      · intro x p hp
        rw [hget0 x] at hp
        exact Option.noConfusion hp
      · intro x hx
        rw [hmk0 x] at hx
        exact absurd hx (by decide)
    · intro h2
      exact absurd rfl h2
  have hss0 : StackSub st0 := by
    intro x hx
    rw [hos0 x] at hx
    exact absurd hx (by decide)
  have hfin := cfOuter_sound h hwf hnt h.number_of_vertices 0 st0 hcfi0 hss0
    (fun _ x => hos0 x) (fun _ x p hp => by
      rw [hget0 x] at hp
      exact Option.noConfusion hp)
  exact hfin.hcyc hne

/-! #### Completeness: a cycle in the graph is always detected -/

theorem getD_mem_of_lt {l : List Nat} {i : Nat} (h : i < l.length) :
    l.getD i 0 ∈ l := by
  rw [List.getD_eq_getElem _ _ h]
  exact List.getElem_mem h

/-- Scan-level detection lemma: while scanning, either a cycle gets
reported, or no vertex of the given cycle `d` is newly marked and no
cycle edge out of the scanner was in the scanned list. -/
theorem cfScan_complete (h : EdgeWeightedDigraph) (hwf : GWF h)
    (d : List Nat) (hdne : d ≠ [])
    (hdn : ∀ x ∈ d, x < h.number_of_vertices)
    (fuel : Nat)
    (ihCD : ∀ w st, StackSub st → st.on_stack.length = st.marked.length →
      st.marked.length = h.number_of_vertices → TU st ≤ fuel →
      st.marked.getD w false = false → w < h.number_of_vertices →
      st.cycle = [] → (∀ x ∈ d, st.marked.getD x false = true →
        st.on_stack.getD x false = true) →
      ((cfDfs h fuel w st).cycle ≠ [] ∨
        ∀ x ∈ d, (cfDfs h fuel w st).marked.getD x false =
          st.marked.getD x false))
    (v : Nat) :
    ∀ es st, (∀ e2 ∈ es, e2 ∈ h.edges) → StackSub st →
      st.on_stack.length = st.marked.length →
      st.marked.length = h.number_of_vertices → TU st ≤ fuel →
      st.cycle = [] →
      (∀ x ∈ d, st.marked.getD x false = true →
        st.on_stack.getD x false = true) →
      ((cfScan (cfDfs h fuel) v es st).1.cycle ≠ [] ∨
        ((∀ x ∈ d, (cfScan (cfDfs h fuel) v es st).1.marked.getD x false =
          st.marked.getD x false) ∧
         ∀ j, j < d.length → v = d.getD j 0 → ∀ e2 ∈ es,
           e2.to_edge ≠ d.getD ((j + 1) % d.length) 0)) := by
  have hmpos : 0 < d.length := List.length_pos.mpr hdne
  intro es
  induction es with
  | nil =>
    intro st hes hss hlen hlenM htu hcy hdinv
    exact Or.inr ⟨fun x _ => rfl, fun j _ _ e2 he2 => absurd he2 (by simp)⟩
  | cons e es ih =>
    intro st hes hss hlen hlenM htu hcy hdinv
    have hc : st.has_cycle ≠ true := by
      simp [CFState.has_cycle, List.isEmpty_iff, hcy]
    have heE : e ∈ h.edges := hes e (List.mem_cons_self e es)
    have hwn : e.to_edge < h.number_of_vertices := (hwf e heE).2
    have hshow0 : cfScan (cfDfs h fuel) v (e :: es) st =
        (if st.marked.getD e.to_edge false = false then
          cfScan (cfDfs h fuel) v es (cfDfs h fuel e.to_edge
            { st with edge_to := st.edge_to.set e.to_edge (some v) })
        else if st.on_stack.getD e.to_edge false then
          cfScan (cfDfs h fuel) v es (getCyclePath v e.to_edge st)
        else cfScan (cfDfs h fuel) v es st) := by
      show (if st.has_cycle then (st, true) else _) = _
      rw [if_neg hc]
    by_cases hm : st.marked.getD e.to_edge false = false
    · -- target unmarked: recursive dfs call
      rw [hshow0, if_pos hm]
      set stA : CFState :=
        { st with edge_to := st.edge_to.set e.to_edge (some v) } with hstA
      have hssA : StackSub stA := hss
      have hlenA : stA.on_stack.length = stA.marked.length := hlen
      have hlenMA : stA.marked.length = h.number_of_vertices := hlenM
      have htuA : TU stA ≤ fuel := htu
      have hdinvA : ∀ x ∈ d, stA.marked.getD x false = true →
          stA.on_stack.getD x false = true := hdinv
      have hcd := ihCD e.to_edge stA hssA hlenA hlenMA htuA hm hwn hcy hdinvA
      set stB := cfDfs h fuel e.to_edge stA with hstB
      have hdok : DfsOK (cfDfs h fuel) e.to_edge stA :=
        cfDfs_ok h fuel e.to_edge stA hm hssA hlenA
      by_cases hBc : stB.cycle = []
      · rcases hcd with hcd | hcd
        · exact absurd hBc hcd
        · -- no new cycle marks; continue
          by_cases hin : e.to_edge ∈ d
          · -- a cycle vertex was entered yet left unmarked: impossible
            exfalso
            have h1 := hcd e.to_edge hin
            have h2 : (1 : Nat) ≤ fuel := by
              have h3 : e.to_edge < stA.marked.length := by
                rw [hlenMA]
                exact hwn
              have h4 := count_true_lt h3 hm
              rw [TU] at htuA
              omega
            have h5 := cfDfs_marks h fuel e.to_edge stA h2
              (by rw [hlenMA]; exact hwn) hssA hlenA
            rw [← hstB] at h5
            rw [h5] at h1
            have h7 : stA.marked.getD e.to_edge false = false := hm
            exact absurd (h1.trans h7) (by decide)
          · have hssB : StackSub stB := hdok.hos2
            have hlenB : stB.on_stack.length = stB.marked.length := by
              rw [hdok.lenS, hdok.lenM]
              exact hlen
            have hlenMB : stB.marked.length = h.number_of_vertices := by
              rw [hdok.lenM]
              exact hlenM
            have htuB : TU stB ≤ fuel := by
              have h1 : stB.marked.length = stA.marked.length := hdok.lenM
              have h2 : stA.marked.count true ≤ stB.marked.count true :=
                count_true_mono stA.marked stB.marked h1 hdok.mono
              rw [TU] at htuA ⊢
              omega
            have hdinvB : ∀ x ∈ d, stB.marked.getD x false = true →
                stB.on_stack.getD x false = true := by
              intro x hx hmx
              have h1 : st.marked.getD x false = true := by
                rw [← hcd x hx]
                exact hmx
              have h2 := hdinv x hx h1
              rw [hdok.osF x h1]
              exact h2
            have hrec := ih stB (fun e2 he2 => hes e2 (List.mem_cons_of_mem e he2))
              hssB hlenB hlenMB htuB hBc hdinvB
            rcases hrec with hrec | ⟨hrec1, hrec2⟩
            · exact Or.inl hrec
            · refine Or.inr ⟨?_, ?_⟩
              · intro x hx
                rw [hrec1 x hx, hcd x hx]
              · intro j hj hvj e2 he2
                rw [List.mem_cons] at he2
                rcases he2 with he2 | he2
                · -- the head edge led into the cycle, which was already
                  -- ruled out (`hin`)
                  intro hte
                  apply hin
                  have h6 : e.to_edge = d.getD ((j + 1) % d.length) 0 := by
                    rw [← he2]
                    exact hte
                  rw [h6]
                  exact getD_mem_of_lt (Nat.mod_lt _ hmpos)
                · exact hrec2 j hj hvj e2 he2
      · have hstuck := cfScan_stuck (cfDfs h fuel) v es stB hBc
        left
        rw [hstuck]
        exact hBc
    · by_cases hs2 : st.on_stack.getD e.to_edge false = true
      · rw [hshow0, if_neg hm, if_pos hs2]
        have hCne := getCyclePath_cycle_ne v e.to_edge st
        have hstuck := cfScan_stuck (cfDfs h fuel) v es
          (getCyclePath v e.to_edge st) hCne
        left
        rw [hstuck]
        exact hCne
      · rw [hshow0, if_neg hm, if_neg hs2]
        have hrec := ih st (fun e2 he2 => hes e2 (List.mem_cons_of_mem e he2))
          hss hlen hlenM htu hcy hdinv
        rcases hrec with hrec | ⟨hrec1, hrec2⟩
        · exact Or.inl hrec
        · refine Or.inr ⟨hrec1, ?_⟩
          intro j hj hvj e2 he2
          rw [List.mem_cons] at he2
          rcases he2 with he2 | he2
          · -- head edge: its target is marked; if it were the cycle
            -- successor it would be on the stack (DInv), firing the elif
            intro hte
            have hsucc : d.getD ((j + 1) % d.length) 0 ∈ d :=
              getD_mem_of_lt (Nat.mod_lt _ hmpos)
            have hmk : st.marked.getD e.to_edge false = true := by
              cases h3 : st.marked.getD e.to_edge false with
              | true => rfl
              | false => exact absurd h3 hm
            have h3b : e.to_edge = d.getD ((j + 1) % d.length) 0 := by
              rw [← he2]
              exact hte
            have h4 : st.on_stack.getD e.to_edge false = true := by
              apply hdinv e.to_edge ?_ hmk
              rw [h3b]
              exact hsucc
            exact hs2 h4
          · exact hrec2 j hj hvj e2 he2

/-- DFS-level detection: entering any vertex either reports a cycle or
leaves every vertex of `d` as it was; entering a vertex of `d` always
reports (derived below from the marking lemma). -/
theorem cfDfs_complete (h : EdgeWeightedDigraph) (hwf : GWF h)
    (d : List Nat) (hdne : d ≠ [])
    (hdn : ∀ x ∈ d, x < h.number_of_vertices)
    (hce : ∀ i, i < d.length → ∃ e2 ∈ h.edges,
      e2.from_edge = d.getD i 0 ∧
      e2.to_edge = d.getD ((i + 1) % d.length) 0) :
    ∀ fuel w st, StackSub st → st.on_stack.length = st.marked.length →
      st.marked.length = h.number_of_vertices → TU st ≤ fuel →
      st.marked.getD w false = false → w < h.number_of_vertices →
      st.cycle = [] → (∀ x ∈ d, st.marked.getD x false = true →
        st.on_stack.getD x false = true) →
      ((cfDfs h fuel w st).cycle ≠ [] ∨
        ∀ x ∈ d, (cfDfs h fuel w st).marked.getD x false =
          st.marked.getD x false) := by
  intro fuel
  induction fuel with
  | zero =>
    intro w st hss hlen hlenM htu hmw hwn hcy hdinv
    exfalso
    have h1 : w < st.marked.length := by
      rw [hlenM]
      exact hwn
    have h2 := count_true_lt h1 hmw
    rw [TU] at htu
    omega
  | succ fuel ih =>
    intro w st hss hlen hlenM htu hmw hwn hcy hdinv
    have hwlenM : w < st.marked.length := by
      rw [hlenM]
      exact hwn
    have hwlenS : w < st.on_stack.length := by
      rw [hlen, hlenM]
      exact hwn
    set st1 : CFState :=
      { st with
        marked := st.marked.set w true
        on_stack := st.on_stack.set w true } with hst1
    have h1m : st1.marked = st.marked.set w true := rfl
    have h1s : st1.on_stack = st.on_stack.set w true := rfl
    have hm1self : st1.marked.getD w false = true := by
      rw [h1m]
      exact getD_set_self _ _ _ _ hwlenM
    have hs1self : st1.on_stack.getD w false = true := by
      rw [h1s]
      exact getD_set_self _ _ _ _ hwlenS
    have hm1ne : ∀ x, x ≠ w →
        st1.marked.getD x false = st.marked.getD x false := by
      intro x hx
      rw [h1m]
      exact getD_set_ne _ _ _ (fun h3 => hx h3.symm)
    have hs1ne : ∀ x, x ≠ w →
        st1.on_stack.getD x false = st.on_stack.getD x false := by
      intro x hx
      rw [h1s]
      exact getD_set_ne _ _ _ (fun h3 => hx h3.symm)
    have hss1 : StackSub st1 := by
      intro x hx
      by_cases h2 : x = w
      · rw [h2]
        exact hm1self
      · rw [hs1ne x h2] at hx
        rw [hm1ne x h2]
        exact hss x hx
    have hlen1 : st1.on_stack.length = st1.marked.length := by
      rw [h1m, h1s, List.length_set, List.length_set]
      exact hlen
    have hlenM1 : st1.marked.length = h.number_of_vertices := by
      rw [h1m, List.length_set]
      exact hlenM
    have htu1 : TU st1 ≤ fuel := by
      have hcnt : st1.marked.count true = st.marked.count true + 1 := by
        rw [h1m]
        exact count_set_true st.marked w hwlenM hmw
      rw [TU] at htu ⊢
      rw [hcnt, h1m, List.length_set]
      omega
    have hdinv1 : ∀ x ∈ d, st1.marked.getD x false = true →
        st1.on_stack.getD x false = true := by
      intro x hx hmx
      by_cases h2 : x = w
      · rw [h2]
        exact hs1self
      · rw [hm1ne x h2] at hmx
        rw [hs1ne x h2]
        exact hdinv x hx hmx
    have hes : ∀ e2 ∈ h.adjacents w, e2 ∈ h.edges := by
      intro e2 he2
      rw [EdgeWeightedDigraph.adjacents, List.mem_filter] at he2
      exact he2.1
    have hout := cfScan_complete h hwf d hdne hdn fuel ih w (h.adjacents w)
      st1 hes hss1 hlen1 hlenM1 htu1 hcy hdinv1
    set r := cfScan (cfDfs h fuel) w (h.adjacents w) st1 with hr
    have hunf : cfDfs h (fuel + 1) w st =
        if r.2 then r.1
        else { r.1 with on_stack := r.1.on_stack.set w false } := rfl
    have hfm : (cfDfs h (fuel + 1) w st).marked = r.1.marked := by
      rw [hunf]
      by_cases hb : r.2 <;> simp [hb]
    have hfc : (cfDfs h (fuel + 1) w st).cycle = r.1.cycle := by
      rw [hunf]
      by_cases hb : r.2 <;> simp [hb]
    rcases hout with hout | ⟨hmks, hnin⟩
    · left
      rw [hfc]
      exact hout
    · by_cases hin : w ∈ d
      · exfalso
        obtain ⟨j, hj, hgj⟩ := List.getElem_of_mem hin
        have hgj2 : d.getD j 0 = w := by
          rw [List.getD_eq_getElem _ _ hj]
          exact hgj
        obtain ⟨e2, he2E, he2f, he2t⟩ := hce j hj
        have he2adj : e2 ∈ h.adjacents w := by
          rw [EdgeWeightedDigraph.adjacents, List.mem_filter]
          refine ⟨he2E, ?_⟩
          rw [he2f, hgj2]
          simp
        exact hnin j hj hgj2.symm e2 he2adj he2t
      · right
        intro x hx
        have hxw : x ≠ w := fun h2 => hin (h2 ▸ hx)
        rw [hfm, hmks x hx, hm1ne x hxw]

/-- A found cycle freezes the outer vertex loop. -/
theorem cfOuter_stuck (h : EdgeWeightedDigraph) :
    ∀ fuel vertex st, st.cycle ≠ [] → cfOuter h fuel vertex st = st := by
  intro fuel
  induction fuel with
  | zero => intro vertex st _; rfl
  | succ fuel ih =>
    intro vertex st hne
    show (if vertex < h.number_of_vertices then
      (if st.has_cycle then st else _) else st) = st
    by_cases h1 : vertex < h.number_of_vertices
    · rw [if_pos h1, if_pos (by simp [CFState.has_cycle, List.isEmpty_iff, hne])]
    · rw [if_neg h1]

/-- Outer-loop detection: if no cycle was reported, the loop marked every
vertex, restored the stack, and kept the cycle vertices unmarked-or-safe. -/
theorem cfOuter_complete (h : EdgeWeightedDigraph) (hwf : GWF h)
    (d : List Nat) (hdne : d ≠ [])
    (hdn : ∀ x ∈ d, x < h.number_of_vertices)
    (hce : ∀ i, i < d.length → ∃ e2 ∈ h.edges,
      e2.from_edge = d.getD i 0 ∧
      e2.to_edge = d.getD ((i + 1) % d.length) 0) :
    ∀ fuel vertex st, StackSub st →
      st.on_stack.length = st.marked.length →
      st.marked.length = h.number_of_vertices →
      (st.cycle = [] → ∀ x, st.on_stack.getD x false = false) →
      (st.cycle = [] → ∀ x ∈ d, st.marked.getD x false = true →
        st.on_stack.getD x false = true) →
      (∀ x, x < vertex → x < h.number_of_vertices →
        st.marked.getD x false = true) →
      h.number_of_vertices ≤ vertex + fuel →
      (cfOuter h fuel vertex st).cycle = [] →
      (∀ x, x < h.number_of_vertices →
        (cfOuter h fuel vertex st).marked.getD x false = true) ∧
      (∀ x, (cfOuter h fuel vertex st).on_stack.getD x false = false) ∧
      (∀ x ∈ d, (cfOuter h fuel vertex st).marked.getD x false = true →
        (cfOuter h fuel vertex st).on_stack.getD x false = true) := by
  intro fuel
  induction fuel with
  | zero =>
    intro vertex st hss hlen hlenM hsf hdinv hproc hnf hcy
    exact ⟨fun x hx => hproc x (by omega) hx, hsf hcy, hdinv hcy⟩
  | succ fuel ih =>
    intro vertex st hss hlen hlenM hsf hdinv hproc hnf hcy
    by_cases h1 : vertex < h.number_of_vertices
    · have hunf : cfOuter h (fuel + 1) vertex st =
          if st.has_cycle then st else
            cfOuter h fuel (vertex + 1)
              (if st.marked.getD vertex false = false then
                cfDfs h (h.number_of_vertices + 1) vertex st
              else st) := by
        show (if vertex < h.number_of_vertices then _ else st) = _
        rw [if_pos h1]
      by_cases h2 : st.has_cycle = true
      · have hcy0 : st.cycle ≠ [] := by
          simpa [CFState.has_cycle, List.isEmpty_iff] using h2
        rw [hunf, if_pos h2] at hcy
        exact absurd hcy hcy0
      · have hcy0 : st.cycle = [] := by
          simpa [CFState.has_cycle, List.isEmpty_iff] using h2
        rw [hunf, if_neg h2] at hcy ⊢
        by_cases h3 : st.marked.getD vertex false = false
        · rw [if_pos h3] at hcy ⊢
          set stB := cfDfs h (h.number_of_vertices + 1) vertex st with hstB
          have hBc : stB.cycle = [] := by
            cases h4 : stB.cycle with
            | nil => rfl
            | cons a l =>
              exfalso
              have h5 := cfOuter_stuck h fuel (vertex + 1) stB
                (by rw [h4]; exact List.cons_ne_nil a l)
              rw [h5, h4] at hcy
              exact List.cons_ne_nil a l hcy
          have hdok : DfsOK (cfDfs h (h.number_of_vertices + 1)) vertex st :=
            cfDfs_ok h (h.number_of_vertices + 1) vertex st h3 hss
              (by rw [hlen])
          have htu : TU st ≤ h.number_of_vertices + 1 := by
            rw [TU]
            omega
          have hcd := cfDfs_complete h hwf d hdne hdn hce
            (h.number_of_vertices + 1) vertex st hss hlen hlenM htu h3 h1
            hcy0 (hdinv hcy0)
          have hmarks : ∀ x ∈ d, stB.marked.getD x false =
              st.marked.getD x false := by
            rcases hcd with hcd | hcd
            · exact absurd hBc hcd
            · exact hcd
          have hosB : ∀ x, stB.on_stack.getD x false =
              st.on_stack.getD x false := hdok.cycE hcy0 hBc
          have hssB : StackSub stB := hdok.hos2
          have hlenB : stB.on_stack.length = stB.marked.length := by
            rw [hdok.lenS, hdok.lenM]
            exact hlen
          have hlenMB : stB.marked.length = h.number_of_vertices := by
            rw [hdok.lenM]
            exact hlenM
          have hsfB : stB.cycle = [] → ∀ x,
              stB.on_stack.getD x false = false := by
            intro _ x
            rw [hosB x]
            exact hsf hcy0 x
          have hdinvB : stB.cycle = [] → ∀ x ∈ d,
              stB.marked.getD x false = true →
              stB.on_stack.getD x false = true := by
            intro _ x hx hmx
            exfalso
            rw [hmarks x hx] at hmx
            have h5 := hdinv hcy0 x hx hmx
            rw [hsf hcy0 x] at h5
            exact absurd h5 (by decide)
          have hmarkv : stB.marked.getD vertex false = true := by
            rw [hstB]
            exact cfDfs_marks h (h.number_of_vertices + 1) vertex st
              (by omega) (by rw [hlenM]; exact h1) hss (by rw [hlen])
          have hprocB : ∀ x, x < vertex + 1 → x < h.number_of_vertices →
              stB.marked.getD x false = true := by
            intro x hx hxn
            by_cases h5 : x = vertex
            · rw [h5]
              exact hmarkv
            · exact hdok.mono x (hproc x (by omega) hxn)
          exact ih (vertex + 1) stB hssB hlenB hlenMB hsfB hdinvB hprocB
            (by omega) hcy
        · rw [if_neg h3] at hcy ⊢
          have hmk : st.marked.getD vertex false = true := by
            cases h4 : st.marked.getD vertex false with
            | true => rfl
            | false => exact absurd h4 h3
          have hproc2 : ∀ x, x < vertex + 1 → x < h.number_of_vertices →
              st.marked.getD x false = true := by
            intro x hx hxn
            by_cases h5 : x = vertex
            · rw [h5]
              exact hmk
            · exact hproc x (by omega) hxn
          exact ih (vertex + 1) st hss hlen hlenM hsf hdinv hproc2
            (by omega) hcy
    · have hunf : cfOuter h (fuel + 1) vertex st = st := by
        show (if vertex < h.number_of_vertices then _ else st) = _
        rw [if_neg h1]
      rw [hunf] at hcy ⊢
      refine ⟨fun x hx => hproc x (by omega) hx, hsf hcy, hdinv hcy⟩

/-- Completeness of `EdgeWeightedCycleFinder`: on a graph containing a
closed, edge-linked vertex list, the constructor always reports some
cycle. -/
theorem cfRun_complete (h : EdgeWeightedDigraph) (hwf : GWF h)
    (d : List Nat) (hdne : d ≠ [])
    (hdn : ∀ x ∈ d, x < h.number_of_vertices)
    (hce : ∀ i, i < d.length → ∃ e2 ∈ h.edges,
      e2.from_edge = d.getD i 0 ∧
      e2.to_edge = d.getD ((i + 1) % d.length) 0) :
    (cfRun h).cycle ≠ [] := by
  intro hcy
  set st0 : CFState :=
    ⟨List.replicate h.number_of_vertices false,
     List.replicate h.number_of_vertices false,
     List.replicate h.number_of_vertices none, []⟩ with hst0
  have hmk0 : ∀ x, st0.marked.getD x false = false := by
    intro x
    by_cases h2 : x < h.number_of_vertices
    · exact getD_replicate_lt _ _ h2
    · exact getD_oob _ _ (by rw [List.length_replicate]; omega)
  have hos0 : ∀ x, st0.on_stack.getD x false = false := by
    intro x
    by_cases h2 : x < h.number_of_vertices
    · exact getD_replicate_lt _ _ h2
    · exact getD_oob _ _ (by rw [List.length_replicate]; omega)
  obtain ⟨hall, hsf, hdinv⟩ := cfOuter_complete h hwf d hdne hdn hce
    h.number_of_vertices 0 st0
    (fun x hx => by rw [hos0 x] at hx; exact absurd hx (by decide))
    rfl
    (List.length_replicate _ _)
    (fun _ x => hos0 x)
    (fun _ x hx hmx => by rw [hmk0 x] at hmx; exact absurd hmx (by decide))
    (fun x hx _ => by omega)
    (by omega) hcy
  have hmpos : 0 < d.length := List.length_pos.mpr hdne
  have hd0 : d.getD 0 0 ∈ d := getD_mem_of_lt hmpos
  have h1 := hall (d.getD 0 0) (hdn _ hd0)
  have h2 := hdinv (d.getD 0 0) hd0 h1
  rw [hsf (d.getD 0 0)] at h2
  exact absurd h2 (by decide)


/-! ### The `BellmanFord` constructor (`bellman_ford.py`) -/

/-- The parent subgraph `_find_negative_cycle` builds: a fresh
`EdgeWeightedDigraph` over the same vertices, with every non-`None`
`_edge_to` entry added in index order. -/
def subgraphOf (par : List (Option WeightedEdge)) (n : Nat) :
    EdgeWeightedDigraph :=
  ⟨n, par.filterMap id⟩

/-- `BellmanFord._relax(digraph, vertex_v)`: the
`for edge in digraph.adjacents(vertex_v):` loop over the remaining
edges.  Besides relaxing, every scanned edge bumps `_cost`, and whenever
`_cost` is a multiple of the vertex count the parent subgraph is handed
to a fresh `EdgeWeightedCycleFinder` and `_cycle` is overwritten with its
`get_cycle()`.  (For a graph with zero vertices `_cost % 0` would raise
`ZeroDivisionError` in Python; the junk value `cost % 0 = cost` stands in
for it, and every claim below assumes at least one vertex.) -/
def bfRelax (g : EdgeWeightedDigraph) :
    List WeightedEdge → BellmanFord → BellmanFord
  | [], b => b
  | e :: es, b =>
    let v := e.from_edge
    let w := e.to_edge
    let b1 : BellmanFord :=
      if b.distTo.getD w ⊤ > (e.weight : EVal) + b.distTo.getD v ⊤ then
        let b2 : BellmanFord :=
          { b with
            distTo := b.distTo.set w ((e.weight : EVal) + b.distTo.getD v ⊤)
            edgeTo := b.edgeTo.set w (some e) }
        if b2.onQueue.getD w false = false then
          { b2 with
            queue := b2.queue ++ [w]
            onQueue := b2.onQueue.set w true }
        else b2
      else b
    let b3 : BellmanFord := { b1 with cost := b1.cost + 1 }
    let b4 : BellmanFord :=
      if b3.cost % g.number_of_vertices == 0 then
        { b3 with
          cycle := (cfRun (subgraphOf b3.edgeTo g.number_of_vertices)).get_cycle }
      else b3
    bfRelax g es b4

/-- The `while self._queue and not self.has_negative_cycle:` loop of
`BellmanFord.__init__`, by recursion on fuel: dequeue from the left,
clear the vertex's `_on_queue` flag and relax its adjacency list. -/
def bfLoop (g : EdgeWeightedDigraph) : Nat → BellmanFord → BellmanFord
  | 0, b => b
  | fuel + 1, b =>
    match b.queue with
    | [] => b
    | v :: rest =>
      if b.cycle.isSome then b
      else
        bfLoop g fuel (bfRelax g (g.adjacents v)
          { b with queue := rest, onQueue := b.onQueue.set v false })

/-- The straight-line prefix of `BellmanFord.__init__`. -/
def bfStart (g : EdgeWeightedDigraph) (source : Nat) : BellmanFord where
  edgeTo := List.replicate g.number_of_vertices none
  distTo := (List.replicate g.number_of_vertices (⊤ : EVal)).set source 0
  onQueue := (List.replicate g.number_of_vertices false).set source true
  cost := 0
  cycle := none
  queue := [source]

/-- `BellmanFord.__init__(digraph, source)` run with the given fuel for
the dequeueing loop. -/
def bfRun (g : EdgeWeightedDigraph) (source : Nat) (fuel : Nat) :
    BellmanFord :=
  bfLoop g fuel (bfStart g source)

/-! #### Parent chains, weight bounds and the termination grid -/

/-- Sum of absolute edge weights: the global weight bound. -/
def wB (g : EdgeWeightedDigraph) : ℚ :=
  (g.edges.map (fun e => |e.weight|)).sum

theorem wB_nonneg (g : EdgeWeightedDigraph) : 0 ≤ wB g := by
  rw [wB]
  refine List.sum_nonneg ?_
  intro q hq
  rw [List.mem_map] at hq
  obtain ⟨e, -, he⟩ := hq
  rw [← he]
  exact abs_nonneg _

theorem wB_edge {g : EdgeWeightedDigraph} {e : WeightedEdge}
    (he : e ∈ g.edges) : |e.weight| ≤ wB g := by
  rw [wB]
  have h1 : |e.weight| ∈ g.edges.map (fun e2 => |e2.weight|) :=
    List.mem_map_of_mem _ he
  exact List.single_le_sum (fun q hq => by
    rw [List.mem_map] at hq
    obtain ⟨e2, -, he2⟩ := hq
    rw [← he2]
    exact abs_nonneg _) _ h1

/-- Common denominator of all edge weights. -/
def wDen (g : EdgeWeightedDigraph) : Nat :=
  g.edges.foldr (fun e d => Nat.lcm e.weight.den d) 1

theorem wDen_pos (g : EdgeWeightedDigraph) : 0 < wDen g := by
  rw [wDen]
  induction g.edges with
  | nil => exact Nat.one_pos
  | cons e rest ih =>
    show 0 < Nat.lcm e.weight.den (rest.foldr _ 1)
    have h1 : e.weight.den ≠ 0 := e.weight.den_nz
    have h2 : rest.foldr (fun e d => Nat.lcm e.weight.den d) 1 ≠ 0 := by
      omega
    have := Nat.lcm_ne_zero h1 h2
    omega

theorem wDen_dvd {g : EdgeWeightedDigraph} : ∀ e ∈ g.edges,
    e.weight.den ∣ wDen g := by
  rw [wDen]
  induction g.edges with
  | nil => intro e he; cases he
  | cons e2 rest ih =>
    intro e he
    rw [List.mem_cons] at he
    show e.weight.den ∣ Nat.lcm e2.weight.den (rest.foldr _ 1)
    rcases he with he | he
    · rw [he]
      exact Nat.dvd_lcm_left _ _
    · exact (ih e he).trans (Nat.dvd_lcm_right _ _)

theorem weightSum_DenOK {g : EdgeWeightedDigraph} :
    ∀ es : List WeightedEdge, (∀ e ∈ es, e ∈ g.edges) →
      DenOK (wDen g) (weightSum es) := by
  intro es
  induction es with
  | nil => intro _; exact DenOK_zero _
  | cons e rest ih =>
    intro hsub
    rw [weightSum_cons]
    refine DenOK_add ?_ (ih (fun e2 he2 => hsub e2 (List.mem_cons_of_mem e he2)))
    exact DenOK_of_den_dvd (wDen_dvd e (hsub e (List.mem_cons_self e rest)))

/-- A chain of parent pointers: `PChain par u es w` says the edge list
`es` leads from `u` to `w`, every edge being the stored `_edge_to` entry
of its own target. -/
inductive PChain (par : List (Option WeightedEdge)) :
    Nat → List WeightedEdge → Nat → Prop where
  | nil (v : Nat) : PChain par v [] v
  | cons {u w : Nat} {e : WeightedEdge} {es : List WeightedEdge} :
      par.getD e.to_edge none = some e → e.from_edge = u →
      PChain par e.to_edge es w → PChain par u (e :: es) w

/-- Parent chains of in-graph entries are walks. -/
theorem PChain.toWalk {g : EdgeWeightedDigraph}
    {par : List (Option WeightedEdge)}
    (hsub : ∀ w e, par.getD w none = some e → e ∈ g.edges) :
    ∀ {u es w}, PChain par u es w → Walk g u es w := by
  intro u es w hch
  induction hch with
  | nil v => exact Walk.nil v
  | cons hp hf _ ih => exact Walk.cons (hsub _ _ hp) hf ih

/-- Telescoping the stored inequalities along a parent chain. -/
theorem pchain_dist {par : List (Option WeightedEdge)} {dist : List EVal}
    (hineq : ∀ w e, par.getD w none = some e →
      (e.weight : EVal) + dist.getD e.from_edge ⊤ ≤ dist.getD w ⊤) :
    ∀ {u es w}, PChain par u es w →
      dist.getD u ⊤ + (weightSum es : EVal) ≤ dist.getD w ⊤ := by
  intro u es w hch
  induction hch with
  | nil v =>
    rw [show (weightSum [] : ℚ) = 0 from rfl,
      show ((0 : ℚ) : EVal) = 0 from rfl, add_zero]
  | @cons u' w' e es' hp hf _ ih =>
    have h1 := hineq e.to_edge e hp
    calc dist.getD u' ⊤ + (weightSum (e :: es') : EVal)
        = (e.weight : EVal) + dist.getD u' ⊤ + (weightSum es' : EVal) := by
          rw [weightSum_cons]
          push_cast
          abel
      _ = (e.weight : EVal) + dist.getD e.from_edge ⊤ +
          (weightSum es' : EVal) := by rw [hf]
      _ ≤ dist.getD e.to_edge ⊤ + (weightSum es' : EVal) :=
          add_le_add_right h1 _
      _ ≤ dist.getD w' ⊤ := ih

/-- Splitting a parent chain at a list split. -/
theorem pchain_append_inv {par : List (Option WeightedEdge)} :
    ∀ (xs ys : List WeightedEdge) (u w : Nat),
      PChain par u (xs ++ ys) w →
      ∃ m, PChain par u xs m ∧ PChain par m ys w := by
  intro xs
  induction xs with
  | nil =>
    intro ys u w hch
    exact ⟨u, PChain.nil u, hch⟩
  | cons e xs ih =>
    intro ys u w hch
    cases hch with
    | cons hp hf htail =>
      obtain ⟨m, h1, h2⟩ := ih ys _ w htail
      exact ⟨m, PChain.cons hp hf h1, h2⟩

/-- A parent chain only reads the entries of its own targets. -/
theorem pchain_congr {par1 par2 : List (Option WeightedEdge)} :
    ∀ {u es w}, PChain par1 u es w →
      (∀ e ∈ es, par2.getD e.to_edge none = par1.getD e.to_edge none) →
      PChain par2 u es w := by
  intro u es w hch
  induction hch with
  | nil v => intro _; exact PChain.nil v
  | cons hp hf htail ih =>
    intro hag
    refine PChain.cons ?_ hf (ih (fun e2 he2 => hag e2 (List.mem_cons_of_mem _ he2)))
    rw [hag _ (List.mem_cons_self _ _)]
    exact hp

/-- Number of finite entries of the distance array. -/
def finCnt (b : BellmanFord) : Nat :=
  b.distTo.countP (fun d => decide (d ≠ ⊤))

theorem countP_le_len {β : Type} (p : β → Bool) (l : List β) :
    l.countP p ≤ l.length := List.countP_le_length p

/-- Setting an entry that newly satisfies the predicate bumps the count. -/
theorem countP_set_tf {β : Type} (p : β → Bool) :
    ∀ (l : List β) (w : Nat) (a : β) (hw : w < l.length),
      p (l.get ⟨w, hw⟩) = false → p a = true →
      (l.set w a).countP p = l.countP p + 1 := by
  intro l
  induction l with
  | nil => intro w a hw; cases hw
  | cons b rest ih =>
    intro w a hw h0 h1
    cases w with
    | zero =>
      show ((a :: rest).countP p) = _
      rw [List.countP_cons, List.countP_cons]
      have h2 : p b = false := h0
      rw [h1, h2]
      simp
    | succ w =>
      have h3 := ih w a (by simpa using hw) h0 h1
      show ((b :: rest.set w a).countP p) = _
      rw [List.countP_cons, List.countP_cons, h3]
      omega

/-- Setting an entry without changing predicate membership keeps it. -/
theorem countP_set_eq {β : Type} (p : β → Bool) :
    ∀ (l : List β) (w : Nat) (a : β) (hw : w < l.length),
      p (l.get ⟨w, hw⟩) = p a →
      (l.set w a).countP p = l.countP p := by
  intro l
  induction l with
  | nil => intro w a hw; cases hw
  | cons b rest ih =>
    intro w a hw h0
    cases w with
    | zero =>
      show ((a :: rest).countP p) = _
      rw [List.countP_cons, List.countP_cons]
      have h2 : p b = p a := h0
      rw [h2]
    | succ w =>
      have h3 := ih w a (by simpa using hw) h0
      show ((b :: rest.set w a).countP p) = _
      rw [List.countP_cons, List.countP_cons, h3]

/-- The per-vertex grid value of the termination measure: how many
`1 / wDen` steps a finite distance may still fall before `-wB`, with a
ceiling value for `float('inf')` entries. -/
def gval (g : EdgeWeightedDigraph) (d : EVal) : Nat :=
  if d = ⊤ then
    (Int.ceil ((g.number_of_vertices * wB g + wB g) * wDen g)).toNat + 2
  else (Int.ceil ((d.untop' 0 + wB g) * wDen g)).toNat + 1

/-- The grid part of the termination measure. -/
def gridBudget (g : EdgeWeightedDigraph) (b : BellmanFord) : Nat :=
  ∑ w ∈ Finset.range g.number_of_vertices, gval g (b.distTo.getD w ⊤)

/-- Has the run permanently committed to a cycle: either the source has
acquired a parent pointer, or some distance fell below `-wB`. -/
def condB (g : EdgeWeightedDigraph) (source : Nat) (b : BellmanFord) : Bool :=
  (b.edgeTo.getD source none).isSome ||
  (List.range g.number_of_vertices).any
    (fun w => decide (b.distTo.getD w ⊤ < ((-(wB g) : ℚ) : EVal)))

/-- The dequeue-step measure (`k` is the number of adjacency-list edges
still to be scanned, charged only after a cycle has been reported). -/
def bfNuK (g : EdgeWeightedDigraph) (source : Nat) (b : BellmanFord)
    (k : Nat) : Nat :=
  if condB g source b then
    if b.cycle.isSome then k
    else (g.number_of_vertices - b.cost % g.number_of_vertices) +
      g.edges.length + 1
  else gridBudget g b + g.number_of_vertices + 2 * g.edges.length + 2

/-- The loop measure: one dequeue-plus-relax round strictly decreases it. -/
def bfMeasure (g : EdgeWeightedDigraph) (source : Nat) (b : BellmanFord) : Nat :=
  bfNuK g source b 0 + b.queue.length

/-- A stored parent entry is an edge of the parent subgraph. -/
theorem mem_filterMap_of_getD (par : List (Option WeightedEdge)) (i : Nat)
    (e : WeightedEdge) (h : par.getD i none = some e) :
    e ∈ par.filterMap id := by
  rw [List.mem_filterMap]
  refine ⟨some e, ?_, rfl⟩
  rw [List.getD_eq_getElem?_getD] at h
  have hlt : i < par.length := by
    cases Nat.lt_or_ge i par.length with
    | inl h2 => exact h2
    | inr h2 =>
      rw [List.getElem?_eq_none h2] at h
      exact Option.noConfusion h
  rw [List.getElem?_eq_getElem hlt] at h
  have h2 : par[i] = some e := h
  rw [← h2]
  exact List.getElem_mem hlt

/-- Every subgraph edge sits at some index of the parent array. -/
theorem getD_some_of_mem_filterMap {par : List (Option WeightedEdge)}
    {e : WeightedEdge} (h : e ∈ par.filterMap id) :
    ∃ i, i < par.length ∧ par.getD i none = some e := by
  rw [List.mem_filterMap] at h
  obtain ⟨a, ha, hae⟩ := h
  have ha2 : a = some e := hae
  rw [ha2] at ha
  obtain ⟨i, hi, hgi⟩ := List.getElem_of_mem ha
  exact ⟨i, hi, by rw [List.getD_eq_getElem _ _ hi, hgi]⟩

/-- The parent subgraph is well-formed when the entries come from a
well-formed graph. -/
theorem subgraphOf_gwf {g : EdgeWeightedDigraph} (hg : GWF g)
    {par : List (Option WeightedEdge)}
    (hself : ∀ x e, par.getD x none = some e → e ∈ g.edges) :
    GWF (subgraphOf par g.number_of_vertices) := by
  intro e he
  obtain ⟨i, hi, hgi⟩ := getD_some_of_mem_filterMap he
  exact hg e (hself i e hgi)

/-- Targets of distinct entries of the parent array are distinct. -/
theorem filterMapTargetsNodup :
    ∀ par : List (Option WeightedEdge),
      (∀ x e, par.getD x none = some e → e.to_edge = x) →
      ((par.filterMap id).map WeightedEdge.to_edge).Nodup ∧
      ∀ t ∈ (par.filterMap id).map WeightedEdge.to_edge, t < par.length := by
  intro par
  induction par using List.reverseRecOn with
  | nil => intro _; exact ⟨List.nodup_nil, fun t ht => absurd ht (by simp)⟩
  | append_singleton l a ih =>
    intro hto
    have hto2 : ∀ x e, l.getD x none = some e → e.to_edge = x := by
      intro x e hx
      refine hto x e ?_
      rw [List.getD_eq_getElem?_getD] at hx ⊢
      cases hp : l[x]? with
      | none => rw [hp] at hx; exact Option.noConfusion hx
      | some b =>
        rw [hp] at hx
        have hxl : x < l.length := by
          cases Nat.lt_or_ge x l.length with
          | inl h2 => exact h2
          | inr h2 =>
            rw [List.getElem?_eq_none h2] at hp
            exact Option.noConfusion hp
        rw [List.getElem?_append_left hxl, hp]
        exact hx
    obtain ⟨ih1, ih2⟩ := ih hto2
    cases a with
    | none =>
      have hfm : (l ++ [(none : Option WeightedEdge)]).filterMap id =
          l.filterMap id := by
        rw [List.filterMap_append]
        simp
      rw [hfm]
      refine ⟨ih1, fun t ht => ?_⟩
      have := ih2 t ht
      rw [List.length_append, List.length_singleton]
      omega
    | some e =>
      have hfm : (l ++ [some e]).filterMap id = l.filterMap id ++ [e] := by
        rw [List.filterMap_append]
        simp
      have hte : e.to_edge = l.length := by
        refine hto l.length e ?_
        rw [List.getD_eq_getElem?_getD, List.getElem?_append_right (le_refl _)]
        simp
      rw [hfm, List.map_append]
      constructor
      · rw [List.nodup_append]
        refine ⟨ih1, by simp, ?_⟩
        intro t ht ht2
        simp at ht2
        rw [ht2, hte] at ht
        have := ih2 _ ht
        omega
      · intro t ht
        rw [List.mem_append] at ht
        rw [List.length_append, List.length_singleton]
        rcases ht with ht | ht
        · have := ih2 t ht
          omega
        · simp at ht
          rw [ht, hte]
          omega

/-- `NodupTargets` of the parent subgraph. -/
theorem subgraphOf_ndt {n : Nat} {par : List (Option WeightedEdge)}
    (hto : ∀ x e, par.getD x none = some e → e.to_edge = x) :
    NodupTargets (subgraphOf par n) :=
  (filterMapTargetsNodup par hto).1

/-- Concatenation of parent chains. -/
theorem pchain_append {par : List (Option WeightedEdge)} :
    ∀ {a xs b ys c}, PChain par a xs b → PChain par b ys c →
      PChain par a (xs ++ ys) c := by
  intro a xs b ys c h1 h2
  induction h1 with
  | nil v => exact h2
  | cons hp hf _ ih => exact PChain.cons hp hf (ih h2)

/-- Every edge of a parent chain is the stored entry of its target. -/
theorem pchain_entry {par : List (Option WeightedEdge)} :
    ∀ {u x : Nat} {es : List WeightedEdge}, PChain par u es x → ∀ e ∈ es,
      par.getD e.to_edge none = some e := by
  intro u x es h
  induction h with
  | nil v => intro e he; cases he
  | cons hp hf _ ih =>
    intro e2 he2
    rw [List.mem_cons] at he2
    rcases he2 with he2 | he2
    · rw [he2]; exact hp
    · exact ih e2 he2

/-- Chain targets are in range. -/
theorem pchain_targets_lt {par : List (Option WeightedEdge)} {u x : Nat}
    {es : List WeightedEdge}
    (h : PChain par u es x) : ∀ e ∈ es, e.to_edge < par.length := by
  intro e he
  have h1 := pchain_entry h e he
  cases Nat.lt_or_ge e.to_edge par.length with
  | inl h2 => exact h2
  | inr h2 =>
    rw [getD_oob _ _ h2] at h1
    exact Option.noConfusion h1

/-- Duplicate targets inside a chain yield a strictly shorter
parent-pointer cycle. -/
theorem pchain_cycle_of_dup {par : List (Option WeightedEdge)} {u x : Nat}
    {es : List WeightedEdge} (h : PChain par u es x)
    (hdup : ¬(es.map WeightedEdge.to_edge).Nodup) :
    ∃ v cyc, PChain par v cyc v ∧ cyc ≠ [] ∧ cyc.length < es.length := by
  have h2 : ¬ Function.Injective (es.map WeightedEdge.to_edge).get := by
    intro hinj
    exact hdup (List.nodup_iff_injective_get.mpr hinj)
  rw [Function.not_injective_iff] at h2
  obtain ⟨a, b, hab, hne⟩ := h2
  have hlm : (es.map WeightedEdge.to_edge).length = es.length :=
    List.length_map _ _
  -- reduce to ordered indices i < j with equal targets
  have hkey : ∀ i j : Nat, i < j → (hj : j < es.length) → (hi : i < es.length) →
      (es.get ⟨i, hi⟩).to_edge = (es.get ⟨j, hj⟩).to_edge →
      ∃ v cyc, PChain par v cyc v ∧ cyc ≠ [] ∧ cyc.length < es.length := by
    intro i j hij hj hi hteq
    have hent := pchain_entry h
    have hei : es.get ⟨i, hi⟩ = es.get ⟨j, hj⟩ := by
      have e1 := hent (es.get ⟨i, hi⟩) (es.get_mem _ _)
      have e2 := hent (es.get ⟨j, hj⟩) (es.get_mem _ _)
      rw [hteq] at e1
      rw [e1] at e2
      exact Option.some.inj e2
    set e := es.get ⟨j, hj⟩ with hedef
    have hsplit : es = es.take i ++ e :: es.drop (i + 1) := by
      rw [← hei]
      have h3 : es.get ⟨i, hi⟩ = es[i] := rfl
      rw [h3, ← List.drop_eq_getElem_cons hi, List.take_append_drop]
    rw [hsplit] at h
    obtain ⟨m1, hA, hB⟩ := pchain_append_inv _ _ _ _ h
    cases hB with
    | cons hpB hfB htailB =>
      have hjlen : j - i - 1 < (es.drop (i + 1)).length := by
        rw [List.length_drop]
        omega
      have hgd : (es.drop (i + 1))[j - i - 1] = e := by
        rw [List.getElem_drop]
        have h4 : i + 1 + (j - i - 1) = j := by omega
        have h5 : es[i + 1 + (j - i - 1)] = es[j] := by
          congr 1
        rw [h5]
        rfl
      have hsplit2 : es.drop (i + 1) =
          (es.drop (i + 1)).take (j - i - 1) ++
            e :: (es.drop (i + 1)).drop (j - i - 1 + 1) := by
        rw [← hgd, ← List.drop_eq_getElem_cons hjlen, List.take_append_drop]
      rw [hsplit2] at htailB
      obtain ⟨m2, hA2, hB2⟩ := pchain_append_inv _ _ _ _ htailB
      cases hB2 with
      | cons hpB2 hfB2 htailB2 =>
        refine ⟨e.from_edge, e :: (es.drop (i + 1)).take (j - i - 1),
          PChain.cons hpB rfl ?_, by simp, ?_⟩
        · rw [hfB2]
          exact hA2
        · rw [List.length_cons, List.length_take, List.length_drop]
          omega
  have ha2 : (a : Nat) < es.length := by
    rw [← hlm]
    exact a.isLt
  have hb2 : (b : Nat) < es.length := by
    rw [← hlm]
    exact b.isLt
  have hga : (es.map WeightedEdge.to_edge).get a = (es.get ⟨a, ha2⟩).to_edge := by
    simp [List.get_eq_getElem]
  have hgb : (es.map WeightedEdge.to_edge).get b = (es.get ⟨b, hb2⟩).to_edge := by
    simp [List.get_eq_getElem]
  have hteq : (es.get ⟨(a : Nat), ha2⟩).to_edge =
      (es.get ⟨(b : Nat), hb2⟩).to_edge := by
    rw [← hga, ← hgb, hab]
  cases Nat.lt_or_ge (a : Nat) (b : Nat) with
  | inl h3 => exact hkey a b h3 hb2 ha2 hteq
  | inr h3 =>
    have h4 : (b : Nat) < (a : Nat) := by
      cases Nat.lt_or_ge (b : Nat) (a : Nat) with
      | inl h5 => exact h5
      | inr h5 =>
        exfalso
        exact hne (Fin.ext (by omega))
    exact hkey b a h4 ha2 hb2 hteq.symm

/-- A duplicate-free list of naturals below `n` has length at most `n`. -/
theorem nodup_lt_length {l : List Nat} {n : Nat} (hnd : l.Nodup)
    (hlt : ∀ x ∈ l, x < n) : l.length ≤ n := by
  have h1 : l.toFinset ⊆ Finset.range n := by
    intro x hx
    rw [List.mem_toFinset] at hx
    rw [Finset.mem_range]
    exact hlt x hx
  have h2 := Finset.card_le_card h1
  rw [List.toFinset_card_of_nodup hnd, Finset.card_range] at h2
  exact h2

/-- A chain longer than the array has a cycle (pigeonhole on targets). -/
theorem pchain_cycle_of_long {par : List (Option WeightedEdge)} {u x : Nat}
    {es : List WeightedEdge} (h : PChain par u es x)
    (hlong : par.length + 1 ≤ es.length) :
    ∃ v cyc, PChain par v cyc v ∧ cyc ≠ [] := by
  have hdup : ¬(es.map WeightedEdge.to_edge).Nodup := by
    intro hnd
    have h2 := nodup_lt_length hnd (fun t ht => by
      rw [List.mem_map] at ht
      obtain ⟨e, he, hte⟩ := ht
      rw [← hte]
      exact pchain_targets_lt h e he)
    rw [List.length_map] at h2
    omega
  obtain ⟨v, cyc, h1, h2, -⟩ := pchain_cycle_of_dup h hdup
  exact ⟨v, cyc, h1, h2⟩

/-- Any parent-pointer cycle contains one with duplicate-free targets. -/
theorem pchain_simple_cycle {par : List (Option WeightedEdge)} :
    ∀ (k v : Nat) (cyc : List WeightedEdge), cyc.length ≤ k →
      PChain par v cyc v → cyc ≠ [] →
      ∃ v2 c2, PChain par v2 c2 v2 ∧ c2 ≠ [] ∧
        (c2.map WeightedEdge.to_edge).Nodup := by
  intro k
  induction k with
  | zero =>
    intro v cyc hlen hch hne
    have h2 : cyc = [] := List.length_eq_zero.mp (by omega)
    exact absurd h2 hne
  | succ k ih =>
    intro v cyc hlen hch hne
    by_cases hnd : (cyc.map WeightedEdge.to_edge).Nodup
    · exact ⟨v, cyc, hch, hne, hnd⟩
    · obtain ⟨v2, c2, h1, h2, h3⟩ := pchain_cycle_of_dup hch hnd
      exact ih v2 c2 (by omega) h1 h2

/-- Following parent pointers upward from `x`: either a cycle exists
somewhere, or `x`'s chain reaches a parentless root, or a chain of any
demanded length ends at `x`. -/
theorem pchain_trace (par : List (Option WeightedEdge))
    (hto : ∀ y e, par.getD y none = some e → e.to_edge = y) :
    ∀ (fuel x : Nat),
      (∃ v cyc, PChain par v cyc v ∧ cyc ≠ []) ∨
      (∃ r es, PChain par r es x ∧ par.getD r none = none) ∨
      (∃ w es, PChain par w es x ∧ fuel ≤ es.length) := by
  intro fuel
  induction fuel with
  | zero =>
    intro x
    exact Or.inr (Or.inr ⟨x, [], PChain.nil x, by simp⟩)
  | succ fuel ih =>
    intro x
    rcases ih x with h | h | h
    · exact Or.inl h
    · exact Or.inr (Or.inl h)
    · obtain ⟨w, es, hch, hlen⟩ := h
      cases hp : par.getD w none with
      | none => exact Or.inr (Or.inl ⟨w, es, hch, hp⟩)
      | some e =>
        have hte : e.to_edge = w := hto w e hp
        refine Or.inr (Or.inr ⟨e.from_edge, e :: es,
          PChain.cons (by rw [hte]; exact hp) rfl (by rw [hte]; exact hch),
          ?_⟩)
        rw [List.length_cons]
        omega

/-- Junk edge used as a `getD` default. -/
def dfltEdge : WeightedEdge := ⟨0, 0, 0⟩

theorem getD_map_lt {β γ : Type} (f : β → γ) {l : List β} {i : Nat}
    (h : i < l.length) (d : β) (d2 : γ) :
    (l.map f).getD i d2 = f (l.getD i d) := by
  rw [List.getD_eq_getElem _ _ h,
    List.getD_eq_getElem _ _ (by rw [List.length_map]; exact h)]
  exact List.getElem_map f

/-- Sum of a sublist of nonnegative rationals. -/
theorem sublist_sum_le {l1 l2 : List ℚ} (h : List.Sublist l1 l2)
    (hn : ∀ x ∈ l2, 0 ≤ x) : l1.sum ≤ l2.sum := by
  induction h with
  | slnil => exact le_refl _
  | cons b hsub ih =>
    rename_i t1 t2
    rw [List.sum_cons]
    have h1 := ih (fun x hx => hn x (List.mem_cons_of_mem b hx))
    have h2 := hn b (List.mem_cons_self b t2)
    linarith
  | cons₂ b hsub ih =>
    rename_i t1 t2
    rw [List.sum_cons, List.sum_cons]
    have h1 := ih (fun x hx => hn x (List.mem_cons_of_mem b hx))
    linarith

theorem neg_abs_sum_le : ∀ es : List WeightedEdge,
    -((es.map (fun e => |e.weight|)).sum) ≤ weightSum es := by
  intro es
  induction es with
  | nil => simp [weightSum]
  | cons e rest ih =>
    rw [weightSum_cons, List.map_cons, List.sum_cons]
    have h1 : -|e.weight| ≤ e.weight := neg_abs_le _
    linarith

/-- A duplicate-free selection of graph edges weighs at least `-wB`. -/
theorem weightSum_ge_neg_wB {g : EdgeWeightedDigraph}
    {es : List WeightedEdge} (hnd : es.Nodup)
    (hsub : ∀ e ∈ es, e ∈ g.edges) : -(wB g) ≤ weightSum es := by
  have hsp : List.Subperm es g.edges := hnd.subperm (fun e he => hsub e he)
  obtain ⟨l, hperm, hsl⟩ := hsp
  have h1 : (es.map (fun e => |e.weight|)).sum ≤ wB g := by
    rw [wB, ← (hperm.map (fun e => |e.weight|)).sum_eq]
    exact sublist_sum_le (hsl.map _) (fun x hx => by
      rw [List.mem_map] at hx
      obtain ⟨e, -, he⟩ := hx
      rw [← he]
      exact abs_nonneg _)
  have h2 := neg_abs_sum_le es
  linarith

/-- What the claim asks of a reported vertex list `c`: closed, of length
at least two, and realized by an edge list `es` whose sources are the
successive entries of `c` (`from = c.dropLast` / `to = c.drop 1`) with
strictly negative total weight. -/
def ReportOK (g : EdgeWeightedDigraph) (c : List Nat) : Prop :=
  2 ≤ c.length ∧ c.getD 0 0 = c.getD (c.length - 1) 0 ∧
  ∃ es : List WeightedEdge, es ≠ [] ∧ (∀ e ∈ es, e ∈ g.edges) ∧
    es.map WeightedEdge.from_edge = c.dropLast ∧
    es.map WeightedEdge.to_edge = c.drop 1 ∧
    weightSum es < 0

/-- Adjacent edges of a parent chain are linked tail to head. -/
theorem pchain_adj {par : List (Option WeightedEdge)} :
    ∀ {u x : Nat} {es : List WeightedEdge}, PChain par u es x →
      (es ≠ [] → (es.getD 0 dfltEdge).from_edge = u) ∧
      (∀ i, i + 1 < es.length →
        (es.getD i dfltEdge).to_edge = (es.getD (i + 1) dfltEdge).from_edge) ∧
      (es ≠ [] → (es.getD (es.length - 1) dfltEdge).to_edge = x) := by
  intro u x es h
  induction h with
  | nil v =>
    refine ⟨fun h2 => absurd rfl h2, fun i hi => by simp at hi,
      fun h2 => absurd rfl h2⟩
  | @cons u' x' e es' hp hf htail ih =>
    obtain ⟨ih1, ih2, ih3⟩ := ih
    refine ⟨fun _ => hf, ?_, ?_⟩
    · intro i hi
      rw [List.length_cons] at hi
      cases i with
      | zero =>
        have hne : es' ≠ [] := by
          intro h2
          rw [h2] at hi
          simp at hi
        show e.to_edge = (es'.getD 0 dfltEdge).from_edge
        rw [ih1 hne]
      | succ i =>
        show (es'.getD i dfltEdge).to_edge = (es'.getD (i + 1) dfltEdge).from_edge
        exact ih2 i (by omega)
    · intro _
      cases es' with
      | nil =>
        cases htail with
        | nil => rfl
      | cons e2 rest =>
        show ((e2 :: rest).getD ((e2 :: rest).length - 1) dfltEdge).to_edge = x'
        exact ih3 (List.cons_ne_nil _ _)

/-- Rebuilding a parent chain from a linked vertex list. -/
theorem pchain_of_pairs (par : List (Option WeightedEdge)) :
    ∀ c : List Nat,
      (∀ i, i + 1 < c.length → ∃ e, par.getD (c.getD (i + 1) 0) none = some e ∧
        e.from_edge = c.getD i 0 ∧ e.to_edge = c.getD (i + 1) 0) →
      c ≠ [] →
      ∃ es, PChain par (c.getD 0 0) es (c.getD (c.length - 1) 0) ∧
        es.map WeightedEdge.from_edge = c.dropLast ∧
        es.map WeightedEdge.to_edge = c.drop 1 := by
  intro c
  induction c with
  | nil => intro _ h2; exact absurd rfl h2
  | cons v0 t ih =>
    intro hlink _
    cases t with
    | nil =>
      exact ⟨[], PChain.nil v0, by simp, by simp⟩
    | cons v1 rest =>
      obtain ⟨e0, hp0, hf0, ht0⟩ := hlink 0 (by simp)
      have hlink2 : ∀ i, i + 1 < (v1 :: rest).length →
          ∃ e, par.getD ((v1 :: rest).getD (i + 1) 0) none = some e ∧
            e.from_edge = (v1 :: rest).getD i 0 ∧
            e.to_edge = (v1 :: rest).getD (i + 1) 0 := by
        intro i hi
        exact hlink (i + 1) (by rw [List.length_cons]; omega)
      obtain ⟨es2, hch2, hmf2, hmt2⟩ :=
        ih hlink2 (List.cons_ne_nil _ _)
      have hget1 : (v0 :: v1 :: rest).getD 1 0 = v1 := rfl
      refine ⟨e0 :: es2, ?_, ?_, ?_⟩
      · show PChain par v0 (e0 :: es2) ((v0 :: v1 :: rest).getD
          ((v0 :: v1 :: rest).length - 1) 0)
        have hlast : (v0 :: v1 :: rest).getD ((v0 :: v1 :: rest).length - 1) 0 =
            (v1 :: rest).getD ((v1 :: rest).length - 1) 0 := by
          rw [List.length_cons]
          show (v0 :: v1 :: rest).getD ((v1 :: rest).length - 1 + 1) 0 = _
          rfl
        rw [hlast]
        refine PChain.cons ?_ hf0 ?_
        · rw [ht0]
          rw [hget1] at hp0
          exact hp0
        · rw [ht0, hget1]
          have h5 : (v1 :: rest).getD 0 0 = v1 := rfl
          rw [← h5]
          exact hch2
      · rw [List.map_cons, hmf2, hf0]
        rfl
      · rw [List.map_cons, hmt2, ht0, hget1]
        rfl

/-- A reported cycle of the parent subgraph, under the pointer
invariants, satisfies the claim-facing `ReportOK`. -/
theorem reportOK_of_cycProp {g : EdgeWeightedDigraph}
    {par : List (Option WeightedEdge)}
    (hself : ∀ x e, par.getD x none = some e → e ∈ g.edges ∧ e.to_edge = x)
    (hneg : ∀ u es, PChain par u es u → es ≠ [] →
      (es.map WeightedEdge.to_edge).Nodup → weightSum es < 0)
    {c : List Nat}
    (hcp : CycProp (subgraphOf par g.number_of_vertices) c) :
    ReportOK g c := by
  obtain ⟨hl, hcl, hnd, hpairs⟩ := hcp
  have hlink : ∀ i, i + 1 < c.length →
      ∃ e, par.getD (c.getD (i + 1) 0) none = some e ∧
        e.from_edge = c.getD i 0 ∧ e.to_edge = c.getD (i + 1) 0 := by
    intro i hi
    obtain ⟨e, he, hef, het⟩ := hpairs i hi
    obtain ⟨idx, hidx, hgidx⟩ := getD_some_of_mem_filterMap he
    have hto := (hself idx e hgidx).2
    refine ⟨e, ?_, hef, het⟩
    rw [← het, hto]
    exact hgidx
  obtain ⟨es, hch, hmf, hmt⟩ := pchain_of_pairs par c hlink
    (by intro h2; rw [h2] at hl; simp at hl)
  rw [← hcl] at hch
  have hne : es ≠ [] := by
    intro h2
    rw [h2] at hmt
    have h3 : c.drop 1 = [] := hmt.symm
    have h4 := congrArg List.length h3
    rw [List.length_drop] at h4
    simp at h4
    omega
  have hndt : (es.map WeightedEdge.to_edge).Nodup := by
    rw [hmt]
    exact hnd
  have hmem : ∀ e ∈ es, e ∈ g.edges := by
    intro e he
    exact (hself e.to_edge e (pchain_entry hch e he)).1
  exact ⟨hl, hcl, es, hne, hmem, hmf, hmt, hneg _ es hch hne hndt⟩

/-- When the periodic check stores a cycle, it satisfies `ReportOK`. -/
theorem cycle_check_sound {g : EdgeWeightedDigraph} (hg : GWF g)
    {par : List (Option WeightedEdge)}
    (hself : ∀ x e, par.getD x none = some e → e ∈ g.edges ∧ e.to_edge = x)
    (hneg : ∀ u es, PChain par u es u → es ≠ [] →
      (es.map WeightedEdge.to_edge).Nodup → weightSum es < 0)
    {c : List Nat}
    (hc : (cfRun (subgraphOf par g.number_of_vertices)).get_cycle = some c) :
    ReportOK g c := by
  set sub := subgraphOf par g.number_of_vertices with hsub
  by_cases hE : (cfRun sub).cycle.isEmpty = true
  · rw [CFState.get_cycle, if_pos hE] at hc
    exact Option.noConfusion hc
  · rw [CFState.get_cycle, if_neg hE] at hc
    have hcc : c = (cfRun sub).cycle := (Option.some.inj hc).symm
    have hne2 : (cfRun sub).cycle ≠ [] := by
      intro h2
      apply hE
      rw [h2]
      rfl
    have hcp := cfRun_sound sub
      (subgraphOf_gwf hg (fun x e hx => (hself x e hx).1))
      (subgraphOf_ndt (fun x e hx => (hself x e hx).2)) hne2
    rw [← hcc] at hcp
    exact reportOK_of_cycProp hself hneg hcp

/-- When the parent subgraph has a pointer cycle, the periodic check
finds and stores one. -/
theorem cycle_check_complete {g : EdgeWeightedDigraph} (hg : GWF g)
    {par : List (Option WeightedEdge)}
    (hself : ∀ x e, par.getD x none = some e → e ∈ g.edges ∧ e.to_edge = x)
    (hcycle : ∃ v cyc, PChain par v cyc v ∧ cyc ≠ []) :
    ((cfRun (subgraphOf par g.number_of_vertices)).get_cycle).isSome = true := by
  obtain ⟨v, cyc, hch, hne⟩ := hcycle
  set sub := subgraphOf par g.number_of_vertices with hsub
  have hkpos : 0 < cyc.length := List.length_pos.mpr hne
  obtain ⟨hadj1, hadj2, hadj3⟩ := pchain_adj hch
  have hmemcyc : ∀ i, i < cyc.length → cyc.getD i dfltEdge ∈ cyc := by
    intro i hi
    rw [List.getD_eq_getElem _ _ hi]
    exact List.getElem_mem hi
  have hgmem : ∀ e ∈ cyc, e ∈ g.edges :=
    fun e he => (hself e.to_edge e (pchain_entry hch e he)).1
  set d := cyc.map WeightedEdge.from_edge with hd
  have hdlen : d.length = cyc.length := List.length_map _ _
  have hdne : d ≠ [] := by
    rw [hd]
    intro h2
    exact hne (List.map_eq_nil_iff.mp h2)
  have hdgetD : ∀ i, i < cyc.length →
      d.getD i 0 = (cyc.getD i dfltEdge).from_edge := by
    intro i hi
    exact getD_map_lt _ hi _ _
  have hdn : ∀ x ∈ d, x < sub.number_of_vertices := by
    intro x hx
    rw [hd, List.mem_map] at hx
    obtain ⟨e, he, hfe⟩ := hx
    have h2 := (hg e (hgmem e he)).1
    show x < g.number_of_vertices
    rw [← hfe]
    exact h2
  have hce : ∀ i, i < d.length → ∃ e2 ∈ sub.edges,
      e2.from_edge = d.getD i 0 ∧
      e2.to_edge = d.getD ((i + 1) % d.length) 0 := by
    intro i hi
    rw [hdlen] at hi
    refine ⟨cyc.getD i dfltEdge,
      mem_filterMap_of_getD par _ _ (pchain_entry hch _ (hmemcyc i hi)), ?_, ?_⟩
    · rw [hdgetD i hi]
    · by_cases h2 : i + 1 < cyc.length
      · have h3 : (i + 1) % d.length = i + 1 := by
          rw [hdlen]
          exact Nat.mod_eq_of_lt h2
        rw [h3, hdgetD (i + 1) h2]
        exact hadj2 i h2
      · have h4 : i + 1 = cyc.length := by omega
        have h5 : (i + 1) % d.length = 0 := by
          rw [hdlen, h4, Nat.mod_self]
        rw [h5, hdgetD 0 hkpos]
        have h6 : i = cyc.length - 1 := by omega
        rw [h6, hadj3 hne, hadj1 hne]
  have hne2 := cfRun_complete sub
    (subgraphOf_gwf hg (fun x e hx => (hself x e hx).1)) d hdne hdn hce
  have hE : (cfRun sub).cycle.isEmpty = false := by
    cases h2 : (cfRun sub).cycle.isEmpty
    · rfl
    · exact absurd (List.isEmpty_iff.mp h2) hne2
  rw [CFState.get_cycle,
    if_neg (by rw [hE]; exact (by decide : ¬(false = true)))]
  rfl

/-- Once committed (`condB`), the parent subgraph always has a cycle. -/
theorem cond_cyclic {g : EdgeWeightedDigraph} {source : Nat} {b : BellmanFord}
    (hg : GWF g)
    (hself : ∀ x e, b.edgeTo.getD x none = some e →
      e ∈ g.edges ∧ e.to_edge = x)
    (hpar : ∀ x e, b.edgeTo.getD x none = some e →
      (e.weight : EVal) + b.distTo.getD e.from_edge ⊤ ≤ b.distTo.getD x ⊤)
    (hfinp : ∀ x e, b.edgeTo.getD x none = some e →
      b.distTo.getD e.from_edge ⊤ ≠ ⊤)
    (hroot : ∀ x, x < g.number_of_vertices → b.distTo.getD x ⊤ ≠ ⊤ →
      b.edgeTo.getD x none = none → x = source)
    (hsrc0 : b.edgeTo.getD source none = none → b.distTo.getD source ⊤ = 0)
    (hcond : condB g source b = true) :
    ∃ v cyc, PChain b.edgeTo v cyc v ∧ cyc ≠ [] := by
  have hto : ∀ y e, b.edgeTo.getD y none = some e → e.to_edge = y :=
    fun y e hy => (hself y e hy).2
  -- shared root-chain analysis: a nonempty chain to a parentless root
  -- starts at the source
  have hstep : ∀ r x es, PChain b.edgeTo r es x →
      b.edgeTo.getD r none = none → es ≠ [] →
      r = source ∧ PChain b.edgeTo source es x := by
    intro r x es hch hr hes
    have hlenp : 0 < es.length := List.length_pos.mpr hes
    have hf0 := (pchain_adj hch).1 hes
    have he0 : es.getD 0 dfltEdge ∈ es := by
      rw [List.getD_eq_getElem _ _ hlenp]
      exact List.getElem_mem hlenp
    have hent := pchain_entry hch _ he0
    have hfin_r : b.distTo.getD r ⊤ ≠ ⊤ := by
      have h2 := hfinp _ _ hent
      rw [hf0] at h2
      exact h2
    have hrn : r < g.number_of_vertices := by
      have h2 := (hg _ (hself _ _ hent).1).1
      rw [← hf0]
      exact h2
    have hrs := hroot r hrn hfin_r hr
    rw [hrs] at hch
    exact ⟨hrs, hch⟩
  rw [condB, Bool.or_eq_true] at hcond
  rcases hcond with hs | hany
  · -- the source has acquired a parent pointer
    rcases pchain_trace b.edgeTo hto (b.edgeTo.length + 1) source with
      hcyc | ⟨r, es, hch, hr⟩ | ⟨w2, es, hch, hlen⟩
    · exact hcyc
    · by_cases hes : es = []
      · rw [hes] at hch
        cases hch
        rw [hr] at hs
        simp at hs
      · obtain ⟨-, hch2⟩ := hstep r source es hch hr hes
        exact ⟨source, es, hch2, hes⟩
    · exact pchain_cycle_of_long hch hlen
  · -- some distance fell below -wB
    rw [List.any_eq_true] at hany
    obtain ⟨w, hwr, hwd⟩ := hany
    rw [List.mem_range] at hwr
    have hw : b.distTo.getD w ⊤ < ((-(wB g) : ℚ) : EVal) :=
      of_decide_eq_true hwd
    rcases pchain_trace b.edgeTo hto (b.edgeTo.length + 1) w with
      hcyc | ⟨r, es, hch, hr⟩ | ⟨w2, es, hch, hlen⟩
    · exact hcyc
    · by_cases hes : es = []
      · exfalso
        rw [hes] at hch
        cases hch
        have hfinw : b.distTo.getD w ⊤ ≠ ⊤ := ne_top_of_lt hw
        have hws := hroot w hwr hfinw hr
        rw [hws] at hw hr
        rw [hsrc0 hr] at hw
        have h2 : (0 : ℚ) < -(wB g) := by
          have h3 : ((0 : ℚ) : EVal) < ((-(wB g) : ℚ) : EVal) := by
            rw [WithTop.coe_zero]
            exact hw
          exact_mod_cast h3
        have h4 := wB_nonneg g
        linarith
      · obtain ⟨hrs, hch2⟩ := hstep r w es hch hr hes
        by_cases hndt2 : (es.map WeightedEdge.to_edge).Nodup
        · exfalso
          have hesnd : es.Nodup := List.Nodup.of_map _ hndt2
          have hmem : ∀ e ∈ es, e ∈ g.edges :=
            fun e he => (hself _ _ (pchain_entry hch2 e he)).1
          have hwge := weightSum_ge_neg_wB hesnd hmem
          have htele := pchain_dist hpar hch2
          have hz : b.distTo.getD source ⊤ = 0 := by
            apply hsrc0
            rw [← hrs]
            exact hr
          rw [hz, zero_add] at htele
          have h2 : ((weightSum es : ℚ) : EVal) < ((-(wB g) : ℚ) : EVal) :=
            lt_of_le_of_lt htele hw
          have h3 : weightSum es < -(wB g) := by exact_mod_cast h2
          linarith
        · obtain ⟨v, cyc, h1, h2, -⟩ := pchain_cycle_of_dup hch2 hndt2
          exact ⟨v, cyc, h1, h2⟩
    · exact pchain_cycle_of_long hch hlen

/-- Tense edges still to be handled: each is covered by a queued vertex
or by the remainder of the adjacency list currently being scanned. -/
def TenseW (g : EdgeWeightedDigraph) (b : BellmanFord) (v : Nat)
    (rest : List WeightedEdge) : Prop :=
  ∀ e ∈ g.edges,
    (e.weight : EVal) + b.distTo.getD e.from_edge ⊤ <
      b.distTo.getD e.to_edge ⊤ →
    e.from_edge ∈ b.queue ∨ (e.from_edge = v ∧ e ∈ rest)

/-- The distance/parent-pointer part of the Bellman-Ford invariant: the
fields that only mention `distTo` and `edgeTo`. -/
structure BFD (g : EdgeWeightedDigraph) (source : Nat) (b : BellmanFord) :
    Prop where
  lenE : b.edgeTo.length = g.number_of_vertices
  lenD : b.distTo.length = g.number_of_vertices
  hself : ∀ x e, b.edgeTo.getD x none = some e → e ∈ g.edges ∧ e.to_edge = x
  hpar : ∀ x e, b.edgeTo.getD x none = some e →
    (e.weight : EVal) + b.distTo.getD e.from_edge ⊤ ≤ b.distTo.getD x ⊤
  hfinp : ∀ x e, b.edgeTo.getD x none = some e →
    b.distTo.getD x ⊤ ≠ ⊤ ∧ b.distTo.getD e.from_edge ⊤ ≠ ⊤
  hroot : ∀ x, x < g.number_of_vertices → b.distTo.getD x ⊤ ≠ ⊤ →
    b.edgeTo.getD x none = none → x = source
  hsrc0 : b.edgeTo.getD source none = none → b.distTo.getD source ⊤ = 0
  hsrcf : b.distTo.getD source ⊤ ≠ ⊤
  hden : ∀ x, DenOK (wDen g) ((b.distTo.getD x ⊤).untop' 0)
  hub : ∀ x, b.distTo.getD x ⊤ ≠ ⊤ →
    b.distTo.getD x ⊤ ≤ ((finCnt b * wB g : ℚ) : EVal)
  hP4 : ∀ x (q : ℚ), b.distTo.getD x ⊤ = (q : EVal) →
    ∃ es, Walk g source es x ∧ weightSum es = q
  hcycneg : ∀ u es, PChain b.edgeTo u es u → es ≠ [] →
    (es.map WeightedEdge.to_edge).Nodup → weightSum es < 0

/-- The Bellman-Ford state invariant, tenseness coverage aside. -/
structure BFC (g : EdgeWeightedDigraph) (source : Nat) (b : BellmanFord) :
    Prop where
  hd : BFD g source b
  lenQ : b.onQueue.length = g.number_of_vertices
  hqsub : ∀ x ∈ b.queue, x < g.number_of_vertices
  hqnd : b.queue.Nodup
  honq : ∀ x, b.onQueue.getD x false = true ↔ x ∈ b.queue
  hcycF : ∀ c, b.cycle = some c → ReportOK g c

/-- The full loop-boundary invariant: every tense edge is covered by the
queue alone. -/
structure BFI (g : EdgeWeightedDigraph) (source : Nat) (b : BellmanFord) :
    Prop where
  core : BFC g source b
  htense : TenseW g b 0 []

/-- The invariant holds right after `__init__`'s straight-line prefix. -/
theorem bfStart_BFI {g : EdgeWeightedDigraph} {source : Nat} (hg : GWF g)
    (hsn : source < g.number_of_vertices) :
    BFI g source (bfStart g source) := by
  have hdg : ∀ x, (bfStart g source).distTo.getD x ⊤ =
      if x = source then (0 : EVal) else ⊤ := by
    intro x
    show ((List.replicate g.number_of_vertices (⊤ : EVal)).set source 0).getD
      x ⊤ = _
    by_cases hx : x = source
    · rw [hx, if_pos rfl]
      exact getD_set_self _ _ _ _ (by rw [List.length_replicate]; exact hsn)
    · rw [if_neg hx, getD_set_ne _ (0 : EVal) ⊤ (fun h2 => hx h2.symm)]
      by_cases h2 : x < g.number_of_vertices
      · exact getD_replicate_lt _ _ h2
      · exact getD_oob _ _ (by rw [List.length_replicate]; omega)
  have heg : ∀ x, (bfStart g source).edgeTo.getD x none = none := by
    intro x
    show (List.replicate g.number_of_vertices
      (none : Option WeightedEdge)).getD x none = none
    by_cases h2 : x < g.number_of_vertices
    · exact getD_replicate_lt _ _ h2
    · exact getD_oob _ _ (by rw [List.length_replicate]; omega)
  have hog : ∀ x, (bfStart g source).onQueue.getD x false =
      if x = source then true else false := by
    intro x
    show ((List.replicate g.number_of_vertices false).set source true).getD
      x false = _
    by_cases hx : x = source
    · rw [hx, if_pos rfl]
      exact getD_set_self _ _ _ _ (by rw [List.length_replicate]; exact hsn)
    · rw [if_neg hx, getD_set_ne _ true false (fun h2 => hx h2.symm)]
      by_cases h2 : x < g.number_of_vertices
      · exact getD_replicate_lt _ _ h2
      · exact getD_oob _ _ (by rw [List.length_replicate]; omega)
  refine ⟨⟨⟨?_, ?_, ?_, ?_, ?_, ?_, ?_, ?_, ?_, ?_, ?_, ?_⟩, ?_, ?_, ?_, ?_,
    ?_⟩, ?_⟩
  · exact List.length_replicate _ _
  · show ((List.replicate g.number_of_vertices (⊤ : EVal)).set source 0).length
      = _
    rw [List.length_set, List.length_replicate]
  · intro x e hx
    rw [heg] at hx
    exact Option.noConfusion hx
  · intro x e hx
    rw [heg] at hx
    exact Option.noConfusion hx
  · intro x e hx
    rw [heg] at hx
    exact Option.noConfusion hx
  · intro x _ hfin _
    rw [hdg] at hfin
    by_cases hx : x = source
    · exact hx
    · rw [if_neg hx] at hfin
      exact absurd rfl hfin
  · intro _
    rw [hdg, if_pos rfl]
  · rw [hdg, if_pos rfl]
    exact WithTop.zero_ne_top
  · intro x
    rw [hdg]
    by_cases hx : x = source
    · rw [if_pos hx]
      exact DenOK_zero _
    · rw [if_neg hx]
      exact DenOK_zero _
  · intro x hfin
    rw [hdg] at hfin ⊢
    by_cases hx : x = source
    · rw [if_pos hx]
      have h2 : (0 : ℚ) ≤ (finCnt (bfStart g source) : ℚ) * wB g :=
        mul_nonneg (by positivity) (wB_nonneg g)
      calc (0 : EVal) = ((0 : ℚ) : EVal) := by rw [WithTop.coe_zero]
        _ ≤ _ := WithTop.coe_le_coe.mpr h2
    · rw [if_neg hx] at hfin
      exact absurd rfl hfin
  · intro x q hxq
    rw [hdg] at hxq
    by_cases hx : x = source
    · rw [if_pos hx] at hxq
      have hq0 : (0 : ℚ) = q := by
        rw [← WithTop.coe_zero] at hxq
        exact WithTop.coe_inj.mp hxq
      refine ⟨[], ?_, ?_⟩
      · rw [hx]
        exact Walk.nil source
      · rw [← hq0]
        rfl
    · rw [if_neg hx] at hxq
      exact absurd hxq.symm WithTop.coe_ne_top
  · intro u es hch hne _
    cases hch with
    | nil v => exact absurd rfl hne
    | cons hp hf htail =>
      rw [heg] at hp
      exact Option.noConfusion hp
  · show ((List.replicate g.number_of_vertices false).set source true).length
      = _
    rw [List.length_set, List.length_replicate]
  · intro x hx
    show x < g.number_of_vertices
    have h2 : x ∈ [source] := hx
    rw [List.mem_singleton] at h2
    rw [h2]
    exact hsn
  · show ([source] : List Nat).Nodup
    exact List.nodup_singleton _
  · intro x
    rw [hog]
    show _ ↔ x ∈ [source]
    rw [List.mem_singleton]
    by_cases hx : x = source
    · rw [if_pos hx]
      simp [hx]
    · rw [if_neg hx]
      simp [hx]
  · intro c hc
    exact Option.noConfusion hc
  · intro e he hlt
    left
    show e.from_edge ∈ [source]
    rw [List.mem_singleton]
    by_cases hf : e.from_edge = source
    · exact hf
    · exfalso
      rw [hdg e.from_edge, if_neg hf, add_top] at hlt
      exact not_top_lt hlt

theorem countP_lt_of_false {β : Type} (p : β → Bool) :
    ∀ (l : List β) (i : Nat) (hi : i < l.length),
      p (l.get ⟨i, hi⟩) = false → l.countP p < l.length := by
  intro l
  induction l with
  | nil => intro i hi; cases hi
  | cons b rest ih =>
    intro i hi h0
    cases i with
    | zero =>
      have h2 : p b = false := h0
      rw [List.countP_cons, h2, List.length_cons]
      have h3 := List.countP_le_length p (l := rest)
      simp
      omega
    | succ i =>
      have h3 := ih i (by simpa using hi) h0
      rw [List.countP_cons, List.length_cons]
      have h4 : (if p b then 1 else 0) ≤ 1 := by
        by_cases h5 : p b
        · rw [if_pos h5]
        · rw [if_neg h5]
          omega
      omega

/-- A firing relaxation preserves the distance/pointer invariant. -/
theorem bfFire_core {g : EdgeWeightedDigraph} {source : Nat}
    (hg : GWF g) {b : BellmanFord} (hC : BFD g source b)
    {e : WeightedEdge} (he : e ∈ g.edges)
    (hrel : (e.weight : EVal) + b.distTo.getD e.from_edge ⊤ <
      b.distTo.getD e.to_edge ⊤)
    {b' : BellmanFord}
    (hD : b'.distTo = b.distTo.set e.to_edge
      ((e.weight : EVal) + b.distTo.getD e.from_edge ⊤))
    (hE : b'.edgeTo = b.edgeTo.set e.to_edge (some e)) :
    BFD g source b' := by
  have hwn : e.to_edge < g.number_of_vertices := (hg e he).2
  have hvn : e.from_edge < g.number_of_vertices := (hg e he).1
  have hlenD' : b'.distTo.length = g.number_of_vertices := by
    rw [hD, List.length_set]
    exact hC.lenD
  have hlenE' : b'.edgeTo.length = g.number_of_vertices := by
    rw [hE, List.length_set]
    exact hC.lenE
  set nv : EVal := (e.weight : EVal) + b.distTo.getD e.from_edge ⊤ with hnv
  have hDw : b'.distTo.getD e.to_edge ⊤ = nv := by
    rw [hD]
    exact getD_set_self _ _ _ _ (by rw [hC.lenD]; exact hwn)
  have hDx : ∀ x, x ≠ e.to_edge → b'.distTo.getD x ⊤ = b.distTo.getD x ⊤ := by
    intro x hx
    rw [hD]
    exact getD_set_ne _ nv ⊤ (fun h2 => hx h2.symm)
  have hEw : b'.edgeTo.getD e.to_edge none = some e := by
    rw [hE]
    exact getD_set_self _ _ _ _ (by rw [hC.lenE]; exact hwn)
  have hEx : ∀ x, x ≠ e.to_edge →
      b'.edgeTo.getD x none = b.edgeTo.getD x none := by
    intro x hx
    rw [hE]
    exact getD_set_ne _ (some e) none (fun h2 => hx h2.symm)
  have hnvne : nv ≠ ⊤ := ne_top_of_lt hrel
  have hfv : b.distTo.getD e.from_edge ⊤ ≠ ⊤ := by
    intro h2
    rw [hnv, h2, add_top] at hnvne
    exact hnvne rfl
  have hle_ne : ∀ a c : EVal, a ≤ c → c ≠ ⊤ → a ≠ ⊤ := by
    intro a c hac hc ha
    rw [ha] at hac
    exact hc (top_le_iff.mp hac)
  have hdec : ∀ x, b'.distTo.getD x ⊤ ≤ b.distTo.getD x ⊤ := by
    intro x
    by_cases hx : x = e.to_edge
    · rw [hx, hDw]
      exact le_of_lt hrel
    · rw [hDx x hx]
  obtain ⟨qv, hqv⟩ := WithTop.ne_top_iff_exists.mp hfv
  have hnvq : nv = ((e.weight + qv : ℚ) : EVal) := by
    rw [hnv, ← hqv, ← WithTop.coe_add]
  -- the finite-entry count can only grow
  have hfc : finCnt b ≤ finCnt b' ∧
      (b.distTo.getD e.to_edge ⊤ = ⊤ →
        finCnt b' = finCnt b + 1 ∧ finCnt b ≤ g.number_of_vertices - 1) ∧
      (b.distTo.getD e.to_edge ⊤ ≠ ⊤ → finCnt b' = finCnt b) := by
    have hw2 : e.to_edge < b.distTo.length := by
      rw [hC.lenD]
      exact hwn
    have hget : b.distTo.get ⟨e.to_edge, hw2⟩ = b.distTo.getD e.to_edge ⊤ :=
      (List.getD_eq_getElem _ _ hw2).symm
    have hpnv : decide (nv ≠ ⊤) = true := decide_eq_true hnvne
    by_cases how : b.distTo.getD e.to_edge ⊤ = ⊤
    · have h1 : finCnt b' = finCnt b + 1 := by
        rw [finCnt, finCnt, hD]
        refine countP_set_tf _ _ _ _ hw2 ?_ hpnv
        rw [hget, how]
        simp
      have h2 : finCnt b < g.number_of_vertices := by
        have h3 := countP_lt_of_false (fun d => decide (d ≠ ⊤)) b.distTo
          e.to_edge hw2 (by rw [hget, how]; simp)
        rw [hC.lenD] at h3
        exact h3
      refine ⟨by omega, fun _ => ⟨h1, by omega⟩, fun h4 => absurd how h4⟩
    · have h1 : finCnt b' = finCnt b := by
        rw [finCnt, finCnt, hD]
        refine countP_set_eq _ _ _ _ hw2 ?_
        rw [hget]
        show decide (b.distTo.getD e.to_edge ⊤ ≠ ⊤) = decide (nv ≠ ⊤)
        rw [decide_eq_true how, hpnv]
      exact ⟨by omega, fun h4 => absurd h4 how, fun _ => h1⟩
  refine ⟨hlenE', hlenD', ?_, ?_, ?_, ?_, ?_, ?_, ?_, ?_, ?_, ?_⟩
  · -- hself
    intro x e2 hx
    by_cases hxw : x = e.to_edge
    · rw [hxw, hEw] at hx
      have h2 : e = e2 := Option.some.inj hx
      rw [← h2]
      exact ⟨he, hxw.symm⟩
    · rw [hEx x hxw] at hx
      exact hC.hself x e2 hx
  · -- hpar
    intro x e2 hx
    by_cases hxw : x = e.to_edge
    · rw [hxw, hEw] at hx
      have h2 : e = e2 := Option.some.inj hx
      rw [hxw, hDw, ← h2, hnv]
      exact add_le_add_left (hdec e.from_edge) _
    · rw [hEx x hxw] at hx
      have h2 := hC.hpar x e2 hx
      rw [hDx x hxw]
      calc (e2.weight : EVal) + b'.distTo.getD e2.from_edge ⊤
          ≤ (e2.weight : EVal) + b.distTo.getD e2.from_edge ⊤ :=
            add_le_add_left (hdec e2.from_edge) _
        _ ≤ b.distTo.getD x ⊤ := h2
  · -- hfinp
    intro x e2 hx
    by_cases hxw : x = e.to_edge
    · rw [hxw, hEw] at hx
      have h2 : e = e2 := Option.some.inj hx
      rw [hxw, hDw, ← h2]
      exact ⟨hnvne, hle_ne _ _ (hdec e.from_edge) hfv⟩
    · rw [hEx x hxw] at hx
      obtain ⟨h1, h2⟩ := hC.hfinp x e2 hx
      rw [hDx x hxw]
      exact ⟨h1, hle_ne _ _ (hdec e2.from_edge) h2⟩
  · -- hroot
    intro x hxn hfin hnone
    by_cases hxw : x = e.to_edge
    · rw [hxw, hEw] at hnone
      exact Option.noConfusion hnone
    · rw [hEx x hxw] at hnone
      rw [hDx x hxw] at hfin
      exact hC.hroot x hxn hfin hnone
  · -- hsrc0
    intro hnone
    by_cases hsw : source = e.to_edge
    · rw [hsw, hEw] at hnone
      exact Option.noConfusion hnone
    · rw [hEx source hsw] at hnone
      rw [hDx source hsw]
      exact hC.hsrc0 hnone
  · -- hsrcf
    exact hle_ne _ _ (hdec source) hC.hsrcf
  · -- hden
    intro x
    by_cases hxw : x = e.to_edge
    · rw [hxw, hDw, hnvq]
      rw [WithTop.untop'_coe]
      refine DenOK_add (DenOK_of_den_dvd (wDen_dvd e he)) ?_
      have h2 := hC.hden e.from_edge
      rw [← hqv, WithTop.untop'_coe] at h2
      exact h2
    · rw [hDx x hxw]
      exact hC.hden x
  · -- hub
    intro x hfin
    by_cases hxw : x = e.to_edge
    · rw [hxw, hDw, hnvq]
      rw [WithTop.coe_le_coe]
      have hwtb : e.weight ≤ wB g := le_trans (le_abs_self _) (wB_edge he)
      have hqvb : qv ≤ (finCnt b : ℚ) * wB g := by
        have h2 := hC.hub e.from_edge hfv
        rw [← hqv] at h2
        exact_mod_cast h2
      by_cases how : b.distTo.getD e.to_edge ⊤ = ⊤
      · obtain ⟨h1, h2⟩ := hfc.2.1 how
        rw [h1]
        have h3 : ((finCnt b + 1 : Nat) : ℚ) = (finCnt b : ℚ) + 1 := by
          push_cast
          ring
        rw [h3]
        have h4 := wB_nonneg g
        linarith [mul_nonneg (by positivity : (0:ℚ) ≤ (finCnt b : ℚ)) h4]
      · have h1 := hfc.2.2 how
        rw [h1]
        obtain ⟨qw, hqw⟩ := WithTop.ne_top_iff_exists.mp how
        have h2 : e.weight + qv < qw := by
          have h3 := hrel
          rw [hnv, ← hqv, ← hqw, ← WithTop.coe_add, WithTop.coe_lt_coe] at h3
          exact h3
        have h4 : qw ≤ (finCnt b : ℚ) * wB g := by
          have h5 := hC.hub e.to_edge how
          rw [← hqw] at h5
          exact_mod_cast h5
        linarith
    · rw [hDx x hxw] at hfin ⊢
      have h2 := hC.hub x hfin
      have h3 : ((finCnt b : ℚ)) * wB g ≤ ((finCnt b' : ℚ)) * wB g := by
        refine mul_le_mul_of_nonneg_right ?_ (wB_nonneg g)
        exact_mod_cast hfc.1
      calc b.distTo.getD x ⊤ ≤ ((finCnt b * wB g : ℚ) : EVal) := h2
        _ ≤ ((finCnt b' * wB g : ℚ) : EVal) := by
            rw [WithTop.coe_le_coe]
            push_cast
            push_cast at h3
            exact h3
  · -- hP4
    intro x q hxq
    by_cases hxw : x = e.to_edge
    · rw [hxw, hDw, hnvq] at hxq
      have hqe : e.weight + qv = q := WithTop.coe_inj.mp hxq
      obtain ⟨es1, hw1, hs1⟩ := hC.hP4 e.from_edge qv hqv.symm
      refine ⟨es1 ++ [e], ?_, ?_⟩
      · rw [hxw]
        exact Walk.append_edge hw1 he rfl
      · rw [weightSum_append, weightSum_cons, hs1]
        show qv + (e.weight + weightSum []) = q
        rw [show weightSum [] = 0 from rfl, add_zero, ← hqe]
        ring
    · rw [hDx x hxw] at hxq
      exact hC.hP4 x q hxq
  · -- hcycneg
    intro u es hch hne hnd
    by_cases hwmem : ∃ e0 ∈ es, e0.to_edge = e.to_edge
    · obtain ⟨e0, he0, hte0⟩ := hwmem
      have h1 := pchain_entry hch e0 he0
      rw [hte0, hEw] at h1
      have h2 : e = e0 := Option.some.inj h1
      rw [← h2] at he0
      obtain ⟨es1, es2, hsplit⟩ := List.append_of_mem he0
      rw [hsplit] at hch hnd ⊢
      obtain ⟨m, hA, hB⟩ := pchain_append_inv _ _ _ _ hch
      cases hB with
      | cons hpB hfB htailB =>
        have hcomb := pchain_append htailB hA
        rw [← hfB] at hcomb
        rw [List.map_append, List.map_cons] at hnd
        rw [List.nodup_append] at hnd
        obtain ⟨hndA, hndWB, hdisj⟩ := hnd
        rw [List.nodup_cons] at hndWB
        have hnotB : e.to_edge ∉ es2.map WeightedEdge.to_edge := hndWB.1
        have hnotA : e.to_edge ∉ es1.map WeightedEdge.to_edge := by
          intro h3
          exact hdisj h3 (List.mem_cons_self _ _)
        have htne : ∀ e2 ∈ es2 ++ es1, e2.to_edge ≠ e.to_edge := by
          intro e2 he2 h3
          rw [List.mem_append] at he2
          rcases he2 with he2 | he2
          · exact hnotB (h3 ▸ List.mem_map_of_mem _ he2)
          · exact hnotA (h3 ▸ List.mem_map_of_mem _ he2)
        have hold : PChain b.edgeTo e.to_edge (es2 ++ es1) e.from_edge :=
          pchain_congr hcomb (fun e2 he2 => (hEx _ (htne e2 he2)).symm)
        have htele := pchain_dist hC.hpar hold
        have hfw : b.distTo.getD e.to_edge ⊤ ≠ ⊤ := by
          intro h3
          have h4 := htele
          rw [h3, ← hqv, top_add] at h4
          exact WithTop.coe_ne_top (top_le_iff.mp h4)
        obtain ⟨qw, hqw⟩ := WithTop.ne_top_iff_exists.mp hfw
        have hq1 : qw + weightSum (es2 ++ es1) ≤ qv := by
          have h3 := htele
          rw [← hqw, ← hqv, ← WithTop.coe_add, WithTop.coe_le_coe] at h3
          exact h3
        have hq2 : e.weight + qv < qw := by
          have h3 := hrel
          rw [hnv, ← hqv, ← hqw, ← WithTop.coe_add, WithTop.coe_lt_coe] at h3
          exact h3
        rw [weightSum_append] at hq1
        rw [weightSum_append, weightSum_cons]
        linarith
    · push_neg at hwmem
      have hold : PChain b.edgeTo u es u :=
        pchain_congr hch (fun e2 he2 => (hEx _ (hwmem e2 he2)).symm)
      exact hC.hcycneg u es hold hne hnd

/-- The relaxation part of one `_relax` loop iteration (everything up to
the `_cost` bump), in flattened form. -/
def bfFire (g : EdgeWeightedDigraph) (e : WeightedEdge) (b : BellmanFord) :
    BellmanFord :=
  if b.distTo.getD e.to_edge ⊤ >
      (e.weight : EVal) + b.distTo.getD e.from_edge ⊤ then
    if b.onQueue.getD e.to_edge false = false then
      { b with
        distTo := b.distTo.set e.to_edge
          ((e.weight : EVal) + b.distTo.getD e.from_edge ⊤)
        edgeTo := b.edgeTo.set e.to_edge (some e)
        queue := b.queue ++ [e.to_edge]
        onQueue := b.onQueue.set e.to_edge true }
    else
      { b with
        distTo := b.distTo.set e.to_edge
          ((e.weight : EVal) + b.distTo.getD e.from_edge ⊤)
        edgeTo := b.edgeTo.set e.to_edge (some e) }
  else b

/-- The periodic negative-cycle check at the end of one loop iteration. -/
def bfCheck (g : EdgeWeightedDigraph) (b : BellmanFord) : BellmanFord :=
  if b.cost % g.number_of_vertices == 0 then
    { b with
      cycle := (cfRun (subgraphOf b.edgeTo g.number_of_vertices)).get_cycle }
  else b

/-- One iteration of the `for edge in digraph.adjacents(...)` body of
`BellmanFord._relax`, factored out of `bfRelax`. -/
def bfStep (g : EdgeWeightedDigraph) (e : WeightedEdge) (b : BellmanFord) :
    BellmanFord :=
  let b1 := bfFire g e b
  bfCheck g { b1 with cost := b1.cost + 1 }

theorem bfRelax_cons (g : EdgeWeightedDigraph) (e : WeightedEdge)
    (es : List WeightedEdge) (b : BellmanFord) :
    bfRelax g (e :: es) b = bfRelax g es (bfStep g e b) := rfl

theorem bfCheck_distTo (g : EdgeWeightedDigraph) (b : BellmanFord) :
    (bfCheck g b).distTo = b.distTo := by
  unfold bfCheck
  split <;> rfl

theorem bfCheck_edgeTo (g : EdgeWeightedDigraph) (b : BellmanFord) :
    (bfCheck g b).edgeTo = b.edgeTo := by
  unfold bfCheck
  split <;> rfl

theorem bfCheck_onQueue (g : EdgeWeightedDigraph) (b : BellmanFord) :
    (bfCheck g b).onQueue = b.onQueue := by
  unfold bfCheck
  split <;> rfl

theorem bfCheck_queue (g : EdgeWeightedDigraph) (b : BellmanFord) :
    (bfCheck g b).queue = b.queue := by
  unfold bfCheck
  split <;> rfl

theorem bfCheck_cost (g : EdgeWeightedDigraph) (b : BellmanFord) :
    (bfCheck g b).cost = b.cost := by
  unfold bfCheck
  split <;> rfl

theorem bfCheck_cycle_pos (g : EdgeWeightedDigraph) (b : BellmanFord)
    (h : (b.cost % g.number_of_vertices == 0) = true) :
    (bfCheck g b).cycle =
      (cfRun (subgraphOf b.edgeTo g.number_of_vertices)).get_cycle := by
  unfold bfCheck
  rw [if_pos h]

theorem bfCheck_cycle_neg (g : EdgeWeightedDigraph) (b : BellmanFord)
    (h : ¬((b.cost % g.number_of_vertices == 0) = true)) :
    (bfCheck g b).cycle = b.cycle := by
  unfold bfCheck
  rw [if_neg h]

/-- A finite distance strictly dropping on the `1 / wDen` grid, while
both values stay at or above `-wB`, loses at least one grid unit. -/
theorem gval_fin_decrease {g : EdgeWeightedDigraph} {qold qnew : ℚ}
    (hlt : qnew < qold) (hnewb : -(wB g) ≤ qnew)
    (hdo : DenOK (wDen g) qold) (hdn : DenOK (wDen g) qnew) :
    gval g ((qnew : ℚ) : EVal) + 1 ≤ gval g ((qold : ℚ) : EVal) := by
  rw [gval, gval, if_neg WithTop.coe_ne_top, if_neg WithTop.coe_ne_top,
    WithTop.untop'_coe, WithTop.untop'_coe]
  have hDpos : (0 : ℚ) < (wDen g : ℚ) := by exact_mod_cast wDen_pos g
  have h1 : 1 ≤ (qold - qnew) * wDen g :=
    DenOK_pos_ge (DenOK_sub hdo hdn) (by linarith) (wDen_pos g)
  have h2 : (qnew + wB g) * wDen g + 1 ≤ (qold + wB g) * wDen g := by
    nlinarith
  have h3 : Int.ceil ((qnew + wB g) * wDen g) + 1 ≤
      Int.ceil ((qold + wB g) * wDen g) := by
    rw [← Int.ceil_add_one]
    exact Int.ceil_le_ceil h2
  have h4 : 0 ≤ Int.ceil ((qnew + wB g) * wDen g) := by
    refine Int.ceil_nonneg ?_
    have h5 : (0 : ℚ) ≤ qnew + wB g := by linarith
    positivity
  omega

/-- Filling a `float('inf')` entry with a value at most `n * wB` loses at
least one grid unit. -/
theorem gval_top_decrease {g : EdgeWeightedDigraph} {qnew : ℚ}
    (hb : qnew ≤ (g.number_of_vertices : ℚ) * wB g) :
    gval g ((qnew : ℚ) : EVal) + 1 ≤ gval g ⊤ := by
  rw [gval, gval, if_neg WithTop.coe_ne_top, if_pos rfl, WithTop.untop'_coe]
  have hD : (0 : ℚ) ≤ (wDen g : ℚ) := by positivity
  have h2 : (qnew + wB g) * wDen g ≤
      ((g.number_of_vertices : ℚ) * wB g + wB g) * wDen g := by
    nlinarith
  have h3 := Int.ceil_le_ceil h2
  omega

/-- The grid budget drops when one entry's grid value drops and the rest
are unchanged. -/
theorem gridBudget_decrease {g : EdgeWeightedDigraph} {b b' : BellmanFord}
    {w : Nat} (hwn : w < g.number_of_vertices)
    (hx : ∀ x, x ≠ w → b'.distTo.getD x ⊤ = b.distTo.getD x ⊤)
    (hw : gval g (b'.distTo.getD w ⊤) + 1 ≤ gval g (b.distTo.getD w ⊤)) :
    gridBudget g b' + 1 ≤ gridBudget g b := by
  rw [gridBudget, gridBudget]
  have hmem : w ∈ Finset.range g.number_of_vertices := Finset.mem_range.mpr hwn
  rw [← Finset.add_sum_erase _ (fun x => gval g (b'.distTo.getD x ⊤)) hmem,
    ← Finset.add_sum_erase _ (fun x => gval g (b.distTo.getD x ⊤)) hmem]
  have h2 : ∑ x ∈ (Finset.range g.number_of_vertices).erase w,
      gval g (b'.distTo.getD x ⊤) =
      ∑ x ∈ (Finset.range g.number_of_vertices).erase w,
      gval g (b.distTo.getD x ⊤) := by
    refine Finset.sum_congr rfl ?_
    intro x hxm
    rw [hx x (Finset.ne_of_mem_erase hxm)]
  omega

/-- `condB` only looks at the distance and pointer arrays. -/
theorem condB_congr {g : EdgeWeightedDigraph} {source : Nat}
    {b b' : BellmanFord} (hd : b'.distTo = b.distTo)
    (he : b'.edgeTo = b.edgeTo) :
    condB g source b' = condB g source b := by
  rw [condB, condB, hd, he]

/-- `condB` is monotone along the run. -/
theorem condB_mono {g : EdgeWeightedDigraph} {source : Nat}
    {b b' : BellmanFord}
    (hd : ∀ x, b'.distTo.getD x ⊤ ≤ b.distTo.getD x ⊤)
    (he : ∀ x, (b.edgeTo.getD x none).isSome = true →
      (b'.edgeTo.getD x none).isSome = true)
    (hc : condB g source b = true) : condB g source b' = true := by
  rw [condB, Bool.or_eq_true] at hc ⊢
  rcases hc with hc | hc
  · exact Or.inl (he source hc)
  · right
    rw [List.any_eq_true] at hc ⊢
    obtain ⟨w, hw1, hw2⟩ := hc
    refine ⟨w, hw1, ?_⟩
    rw [decide_eq_true_eq] at hw2 ⊢
    exact lt_of_le_of_lt (hd w) hw2

/-- A non-wrapping `_cost` bump advances the residue. -/
theorem mod_succ_no_wrap {n c : Nat} (hn : 0 < n) (h : (c + 1) % n ≠ 0) :
    (c + 1) % n = c % n + 1 := by
  by_cases h1 : n = 1
  · subst h1
    simp [Nat.mod_one] at h
  · have h2 : (c + 1) % n = (c % n + 1) % n := by
      rw [Nat.add_mod, Nat.mod_eq_of_lt (show 1 < n by omega)]
    by_cases h3 : c % n + 1 < n
    · rw [h2, Nat.mod_eq_of_lt h3]
    · exfalso
      have h4 : c % n < n := Nat.mod_lt _ hn
      have h5 : c % n + 1 = n := by omega
      rw [h2, h5, Nat.mod_self] at h
      exact absurd rfl h

theorem bfFire_neg (g : EdgeWeightedDigraph) (e : WeightedEdge)
    (b : BellmanFord)
    (h : ¬(b.distTo.getD e.to_edge ⊤ >
      (e.weight : EVal) + b.distTo.getD e.from_edge ⊤)) :
    bfFire g e b = b := by
  unfold bfFire
  rw [if_neg h]

theorem bfFire_pos_enq (g : EdgeWeightedDigraph) (e : WeightedEdge)
    (b : BellmanFord)
    (h : b.distTo.getD e.to_edge ⊤ >
      (e.weight : EVal) + b.distTo.getD e.from_edge ⊤)
    (hq : b.onQueue.getD e.to_edge false = false) :
    bfFire g e b =
      { b with
        distTo := b.distTo.set e.to_edge
          ((e.weight : EVal) + b.distTo.getD e.from_edge ⊤)
        edgeTo := b.edgeTo.set e.to_edge (some e)
        queue := b.queue ++ [e.to_edge]
        onQueue := b.onQueue.set e.to_edge true } := by
  unfold bfFire
  rw [if_pos h, if_pos hq]

theorem bfFire_pos_noq (g : EdgeWeightedDigraph) (e : WeightedEdge)
    (b : BellmanFord)
    (h : b.distTo.getD e.to_edge ⊤ >
      (e.weight : EVal) + b.distTo.getD e.from_edge ⊤)
    (hq : ¬(b.onQueue.getD e.to_edge false = false)) :
    bfFire g e b =
      { b with
        distTo := b.distTo.set e.to_edge
          ((e.weight : EVal) + b.distTo.getD e.from_edge ⊤)
        edgeTo := b.edgeTo.set e.to_edge (some e) } := by
  unfold bfFire
  rw [if_pos h, if_neg hq]

/-- `BFD` only reads the distance and pointer arrays. -/
theorem BFD_congr {g : EdgeWeightedDigraph} {source : Nat}
    {b b' : BellmanFord} (hd : b'.distTo = b.distTo)
    (he : b'.edgeTo = b.edgeTo) (h : BFD g source b) : BFD g source b' := by
  have hfc : finCnt b' = finCnt b := by
    rw [finCnt, finCnt, hd]
  refine ⟨?_, ?_, ?_, ?_, ?_, ?_, ?_, ?_, ?_, ?_, ?_, ?_⟩
  · rw [he]; exact h.lenE
  · rw [hd]; exact h.lenD
  · rw [he]; exact h.hself
  · rw [he, hd]; exact h.hpar
  · rw [he, hd]; exact h.hfinp
  · rw [he, hd]; exact h.hroot
  · rw [he, hd]; exact h.hsrc0
  · rw [hd]; exact h.hsrcf
  · rw [hd]; exact h.hden
  · rw [hd, hfc]; exact h.hub
  · rw [hd]; exact h.hP4
  · rw [he]; exact h.hcycneg

/-- What `condB = false` says pointwise. -/
theorem condB_false_facts {g : EdgeWeightedDigraph} {source : Nat}
    {b : BellmanFord} (h : condB g source b = false) :
    b.edgeTo.getD source none = none ∧
    ∀ x, x < g.number_of_vertices →
      ((-(wB g) : ℚ) : EVal) ≤ b.distTo.getD x ⊤ := by
  rw [condB, Bool.or_eq_false_iff] at h
  obtain ⟨h1, h2⟩ := h
  constructor
  · exact Option.not_isSome_iff_eq_none.mp (by rw [h1]; exact Bool.false_ne_true)
  · intro x hx
    rw [List.any_eq_false] at h2
    have h3 := h2 x (List.mem_range.mpr hx)
    rw [decide_eq_true_eq] at h3
    exact not_lt.mp h3

theorem finCnt_le {g : EdgeWeightedDigraph} {source : Nat} {b : BellmanFord}
    (h : BFD g source b) : finCnt b ≤ g.number_of_vertices := by
  rw [finCnt, ← h.lenD]
  exact List.countP_le_length _

theorem gridBudget_congr {g : EdgeWeightedDigraph} {b b' : BellmanFord}
    (hd : b'.distTo = b.distTo) : gridBudget g b' = gridBudget g b := by
  rw [gridBudget, gridBudget, hd]

/-- Everything one relaxation does to the state, bundled. -/
theorem bfFire_bundle {g : EdgeWeightedDigraph} {source : Nat}
    (hg : GWF g) {e : WeightedEdge} (he : e ∈ g.edges)
    {b : BellmanFord} (hC : BFC g source b) :
    BFD g source (bfFire g e b) ∧
    (∀ x, (bfFire g e b).distTo.getD x ⊤ ≤ b.distTo.getD x ⊤) ∧
    (∀ x, (b.edgeTo.getD x none).isSome = true →
      ((bfFire g e b).edgeTo.getD x none).isSome = true) ∧
    (bfFire g e b).onQueue.length = g.number_of_vertices ∧
    (∀ x ∈ (bfFire g e b).queue, x < g.number_of_vertices) ∧
    (bfFire g e b).queue.Nodup ∧
    (∀ x, (bfFire g e b).onQueue.getD x false = true ↔
      x ∈ (bfFire g e b).queue) ∧
    (bfFire g e b).cycle = b.cycle ∧
    (bfFire g e b).cost = b.cost ∧
    (∀ x ∈ b.queue, x ∈ (bfFire g e b).queue) ∧
    (bfFire g e b).queue.length ≤ b.queue.length + 1 ∧
    (bfFire g e b = b ∨
      (condB g source b = false → condB g source (bfFire g e b) = false →
        gridBudget g (bfFire g e b) + 1 ≤ gridBudget g b)) := by
  have hwn : e.to_edge < g.number_of_vertices := (hg e he).2
  have hwl : e.to_edge < b.distTo.length := by
    rw [hC.hd.lenD]
    exact hwn
  have hwle : e.to_edge < b.edgeTo.length := by
    rw [hC.hd.lenE]
    exact hwn
  have hwlq : e.to_edge < b.onQueue.length := by
    rw [hC.lenQ]
    exact hwn
  by_cases hrel : b.distTo.getD e.to_edge ⊤ >
      (e.weight : EVal) + b.distTo.getD e.from_edge ⊤
  case neg =>
    rw [bfFire_neg g e b hrel]
    refine ⟨hC.hd, fun x => le_refl _, fun x hx => hx, hC.lenQ, hC.hqsub,
      hC.hqnd, hC.honq, rfl, rfl, fun x hx => hx, by omega, Or.inl rfl⟩
  case pos =>
  set nv : EVal := (e.weight : EVal) + b.distTo.getD e.from_edge ⊤ with hnvd
  -- the two fire shapes share their distance/pointer arrays
  have hshD : (bfFire g e b).distTo = b.distTo.set e.to_edge nv := by
    by_cases hq : b.onQueue.getD e.to_edge false = false
    · rw [bfFire_pos_enq g e b hrel hq]
    · rw [bfFire_pos_noq g e b hrel hq]
  have hshE : (bfFire g e b).edgeTo = b.edgeTo.set e.to_edge (some e) := by
    by_cases hq : b.onQueue.getD e.to_edge false = false
    · rw [bfFire_pos_enq g e b hrel hq]
    · rw [bfFire_pos_noq g e b hrel hq]
  have hshC : (bfFire g e b).cycle = b.cycle := by
    by_cases hq : b.onQueue.getD e.to_edge false = false
    · rw [bfFire_pos_enq g e b hrel hq]
    · rw [bfFire_pos_noq g e b hrel hq]
  have hshK : (bfFire g e b).cost = b.cost := by
    by_cases hq : b.onQueue.getD e.to_edge false = false
    · rw [bfFire_pos_enq g e b hrel hq]
    · rw [bfFire_pos_noq g e b hrel hq]
  have hBFD : BFD g source (bfFire g e b) :=
    bfFire_core hg hC.hd he hrel hshD hshE
  have hdw : (bfFire g e b).distTo.getD e.to_edge ⊤ = nv := by
    rw [hshD]
    exact getD_set_self _ _ _ _ hwl
  have hdx : ∀ x, x ≠ e.to_edge →
      (bfFire g e b).distTo.getD x ⊤ = b.distTo.getD x ⊤ := by
    intro x hx
    rw [hshD]
    exact getD_set_ne _ nv ⊤ (fun h2 => hx h2.symm)
  have hdec : ∀ x, (bfFire g e b).distTo.getD x ⊤ ≤ b.distTo.getD x ⊤ := by
    intro x
    by_cases hx : x = e.to_edge
    · rw [hx, hdw]
      exact le_of_lt hrel
    · rw [hdx x hx]
  have hsome : ∀ x, (b.edgeTo.getD x none).isSome = true →
      ((bfFire g e b).edgeTo.getD x none).isSome = true := by
    intro x hx
    by_cases hxw : x = e.to_edge
    · rw [hxw, hshE, getD_set_self _ _ _ _ hwle]
      rfl
    · rw [hshE, getD_set_ne _ (some e) none (fun h2 => hxw h2.symm)]
      exact hx
  have hgrid : condB g source b = false →
      condB g source (bfFire g e b) = false →
      gridBudget g (bfFire g e b) + 1 ≤ gridBudget g b := by
    intro hcb hcbM
    have hfM := condB_false_facts hcbM
    have hnvne : nv ≠ ⊤ := ne_top_of_lt hrel
    obtain ⟨qn, hqn⟩ := WithTop.ne_top_iff_exists.mp hnvne
    have hqnb : -(wB g) ≤ qn := by
      have h2 := hfM.2 e.to_edge hwn
      rw [hdw, ← hqn, WithTop.coe_le_coe] at h2
      exact h2
    refine gridBudget_decrease hwn hdx ?_
    rw [hdw, ← hqn]
    by_cases how : b.distTo.getD e.to_edge ⊤ = ⊤
    · rw [how]
      refine gval_top_decrease ?_
      have h3 := hBFD.hub e.to_edge (by rw [hdw]; exact hnvne)
      rw [hdw, ← hqn, WithTop.coe_le_coe] at h3
      have h4 := finCnt_le hBFD
      have h5 := wB_nonneg g
      have h6 : (qn : ℚ) ≤ (finCnt (bfFire g e b) : ℚ) * wB g := by
        exact_mod_cast h3
      have h7 : ((finCnt (bfFire g e b) : ℚ)) * wB g ≤
          (g.number_of_vertices : ℚ) * wB g := by
        refine mul_le_mul_of_nonneg_right ?_ h5
        exact_mod_cast h4
      linarith
    · obtain ⟨qo, hqo⟩ := WithTop.ne_top_iff_exists.mp how
      rw [← hqo]
      refine gval_fin_decrease ?_ hqnb ?_ ?_
      · have h2 : nv < b.distTo.getD e.to_edge ⊤ := hrel
        rw [← hqn, ← hqo, WithTop.coe_lt_coe] at h2
        exact h2
      · have h2 := hC.hd.hden e.to_edge
        rw [← hqo, WithTop.untop'_coe] at h2
        exact h2
      · have h2 := hBFD.hden e.to_edge
        rw [hdw, ← hqn, WithTop.untop'_coe] at h2
        exact h2
  by_cases hq : b.onQueue.getD e.to_edge false = false
  · have hsh := bfFire_pos_enq g e b hrel hq
    have hwq : e.to_edge ∉ b.queue := by
      intro h2
      rw [← hC.honq e.to_edge] at h2
      rw [h2] at hq
      exact Bool.noConfusion hq
    have hshQ : (bfFire g e b).queue = b.queue ++ [e.to_edge] := by
      rw [hsh]
    have hshO : (bfFire g e b).onQueue = b.onQueue.set e.to_edge true := by
      rw [hsh]
    refine ⟨hBFD, hdec, hsome, ?_, ?_, ?_, ?_, hshC, hshK, ?_, ?_,
      Or.inr hgrid⟩
    · rw [hshO, List.length_set]
      exact hC.lenQ
    · intro x hx
      rw [hshQ, List.mem_append, List.mem_singleton] at hx
      rcases hx with hx | hx
      · exact hC.hqsub x hx
      · rw [hx]
        exact hwn
    · rw [hshQ, List.nodup_append]
      exact ⟨hC.hqnd, List.nodup_singleton _, fun x hx hx2 => by
        rw [List.mem_singleton] at hx2
        rw [hx2] at hx
        exact hwq hx⟩
    · intro x
      rw [hshQ, hshO, List.mem_append, List.mem_singleton]
      by_cases hxw : x = e.to_edge
      · rw [hxw, getD_set_self _ _ _ _ hwlq]
        simp
      · rw [getD_set_ne _ true false (fun h2 => hxw h2.symm)]
        rw [hC.honq x]
        constructor
        · exact fun h2 => Or.inl h2
        · intro h2
          rcases h2 with h2 | h2
          · exact h2
          · exact absurd h2 hxw
    · intro x hx
      rw [hshQ, List.mem_append]
      exact Or.inl hx
    · rw [hshQ, List.length_append, List.length_singleton]
  · have hsh := bfFire_pos_noq g e b hrel hq
    have hshQ : (bfFire g e b).queue = b.queue := by
      rw [hsh]
    have hshO : (bfFire g e b).onQueue = b.onQueue := by
      rw [hsh]
    refine ⟨hBFD, hdec, hsome, ?_, ?_, ?_, ?_, hshC, hshK, ?_, ?_,
      Or.inr hgrid⟩
    · rw [hshO]
      exact hC.lenQ
    · rw [hshQ]
      exact hC.hqsub
    · rw [hshQ]
      exact hC.hqnd
    · intro x
      rw [hshQ, hshO]
      exact hC.honq x
    · intro x hx
      rw [hshQ]
      exact hx
    · rw [hshQ]
      omega

/-- Tense coverage moves from `e :: rest` to `rest` across one
relaxation. -/
theorem bfFire_tense {g : EdgeWeightedDigraph} {source : Nat}
    (hg : GWF g) {e : WeightedEdge} (he : e ∈ g.edges)
    {b : BellmanFord} (hC : BFC g source b) {v : Nat}
    {rest : List WeightedEdge} (hT : TenseW g b v (e :: rest)) :
    TenseW g (bfFire g e b) v rest := by
  have hwn : e.to_edge < g.number_of_vertices := (hg e he).2
  have hwl : e.to_edge < b.distTo.length := by
    rw [hC.hd.lenD]
    exact hwn
  by_cases hrel : b.distTo.getD e.to_edge ⊤ >
      (e.weight : EVal) + b.distTo.getD e.from_edge ⊤
  case neg =>
    rw [bfFire_neg g e b hrel]
    intro e2 he2 hlt
    rcases hT e2 he2 hlt with h2 | ⟨h2a, h2b⟩
    · exact Or.inl h2
    · rw [List.mem_cons] at h2b
      rcases h2b with h2b | h2b
      · exfalso
        rw [h2b] at hlt
        exact hrel hlt
      · exact Or.inr ⟨h2a, h2b⟩
  case pos =>
  set nv : EVal := (e.weight : EVal) + b.distTo.getD e.from_edge ⊤ with hnvd
  have hshD : (bfFire g e b).distTo = b.distTo.set e.to_edge nv := by
    by_cases hq : b.onQueue.getD e.to_edge false = false
    · rw [bfFire_pos_enq g e b hrel hq]
    · rw [bfFire_pos_noq g e b hrel hq]
  have hdw : (bfFire g e b).distTo.getD e.to_edge ⊤ = nv := by
    rw [hshD]
    exact getD_set_self _ _ _ _ hwl
  have hdx : ∀ x, x ≠ e.to_edge →
      (bfFire g e b).distTo.getD x ⊤ = b.distTo.getD x ⊤ := by
    intro x hx
    rw [hshD]
    exact getD_set_ne _ nv ⊤ (fun h2 => hx h2.symm)
  have hdec : ∀ x, (bfFire g e b).distTo.getD x ⊤ ≤ b.distTo.getD x ⊤ := by
    intro x
    by_cases hx : x = e.to_edge
    · rw [hx, hdw]
      exact le_of_lt hrel
    · rw [hdx x hx]
  have hMqmono : ∀ x ∈ b.queue, x ∈ (bfFire g e b).queue := by
    intro x hx
    by_cases hq : b.onQueue.getD e.to_edge false = false
    · rw [bfFire_pos_enq g e b hrel hq]
      show x ∈ b.queue ++ [e.to_edge]
      rw [List.mem_append]
      exact Or.inl hx
    · rw [bfFire_pos_noq g e b hrel hq]
      exact hx
  have hwqM : e.to_edge ∈ (bfFire g e b).queue := by
    by_cases hq : b.onQueue.getD e.to_edge false = false
    · rw [bfFire_pos_enq g e b hrel hq]
      show e.to_edge ∈ b.queue ++ [e.to_edge]
      rw [List.mem_append, List.mem_singleton]
      exact Or.inr rfl
    · rw [bfFire_pos_noq g e b hrel hq]
      show e.to_edge ∈ b.queue
      rw [← hC.honq]
      cases h2 : b.onQueue.getD e.to_edge false
      · exact absurd h2 hq
      · rfl
  intro e2 he2 hlt
  by_cases he2e : e2 = e
  · rw [he2e] at hlt ⊢
    by_cases hvw : e.from_edge = e.to_edge
    · left
      rw [hvw]
      exact hwqM
    · exfalso
      rw [hdw, hdx e.from_edge hvw, ← hnvd] at hlt
      exact lt_irrefl nv hlt
  · by_cases hot : (e2.weight : EVal) + b.distTo.getD e2.from_edge ⊤ <
        b.distTo.getD e2.to_edge ⊤
    · rcases hT e2 he2 hot with h2 | ⟨h2a, h2b⟩
      · exact Or.inl (hMqmono _ h2)
      · rw [List.mem_cons] at h2b
        rcases h2b with h2b | h2b
        · exact absurd h2b he2e
        · exact Or.inr ⟨h2a, h2b⟩
    · by_cases hf2w : e2.from_edge = e.to_edge
      · left
        rw [hf2w]
        exact hwqM
      · exfalso
        rw [hdx e2.from_edge hf2w] at hlt
        exact hot (lt_of_lt_of_le hlt (hdec e2.to_edge))

/-- One `_relax` body iteration preserves the invariant, moves the tense
coverage to the remaining adjacency edges, and cannot increase the
measure. -/
theorem bfStep_master {g : EdgeWeightedDigraph} {source : Nat}
    (hg : GWF g) (hn : 0 < g.number_of_vertices)
    {e : WeightedEdge} (he : e ∈ g.edges) {v : Nat}
    {rest : List WeightedEdge} {b : BellmanFord}
    (hC : BFC g source b) (hT : TenseW g b v (e :: rest)) :
    BFC g source (bfStep g e b) ∧ TenseW g (bfStep g e b) v rest ∧
    ∀ k, k ≤ g.edges.length →
      bfNuK g source (bfStep g e b) k + (bfStep g e b).queue.length ≤
        bfNuK g source b (k + 1) + b.queue.length := by
  obtain ⟨hMD, hMdec, hMsome, hMlenQ, hMqsub, hMqnd, hMhonq, hMcyc, hMcost,
    hMqmono, hMqlen, hMgrid⟩ := bfFire_bundle hg he hC
  set bM := bfFire g e b with hbM
  have hstep : bfStep g e b = bfCheck g { bM with cost := bM.cost + 1 } := rfl
  have hb4D : (bfStep g e b).distTo = bM.distTo := by
    rw [hstep, bfCheck_distTo]
  have hb4E : (bfStep g e b).edgeTo = bM.edgeTo := by
    rw [hstep, bfCheck_edgeTo]
  have hb4Q : (bfStep g e b).queue = bM.queue := by
    rw [hstep, bfCheck_queue]
  have hb4O : (bfStep g e b).onQueue = bM.onQueue := by
    rw [hstep, bfCheck_onQueue]
  have hb4K : (bfStep g e b).cost = b.cost + 1 := by
    rw [hstep, bfCheck_cost]
    show bM.cost + 1 = b.cost + 1
    rw [hMcost]
  have hBFC4 : BFC g source (bfStep g e b) := by
    refine ⟨BFD_congr hb4D hb4E hMD, ?_, ?_, ?_, ?_, ?_⟩
    · rw [hb4O]
      exact hMlenQ
    · intro x hx
      rw [hb4Q] at hx
      exact hMqsub x hx
    · rw [hb4Q]
      exact hMqnd
    · intro x
      rw [hb4O, hb4Q]
      exact hMhonq x
    · intro c hc
      rw [hstep] at hc
      by_cases hchk : (({ bM with cost := bM.cost + 1 } : BellmanFord).cost %
          g.number_of_vertices == 0) = true
      · rw [bfCheck_cycle_pos _ _ hchk] at hc
        exact cycle_check_sound hg hMD.hself hMD.hcycneg hc
      · rw [bfCheck_cycle_neg _ _ hchk] at hc
        have hc2 : b.cycle = some c := by
          rw [← hMcyc]
          exact hc
        exact hC.hcycF c hc2
  have hT4 : TenseW g (bfStep g e b) v rest := by
    intro e2 he2 hlt
    rw [hb4D] at hlt
    rw [hb4Q]
    exact bfFire_tense hg he hC hT e2 he2 hlt
  refine ⟨hBFC4, hT4, ?_⟩
  intro k hk
  have hql : (bfStep g e b).queue.length ≤ b.queue.length + 1 := by
    rw [hb4Q]
    exact hMqlen
  have hcond4 : condB g source (bfStep g e b) = condB g source bM :=
    condB_congr hb4D hb4E
  by_cases hcb : condB g source b = true
  · have hcbM : condB g source bM = true := condB_mono hMdec hMsome hcb
    have hcb4 : condB g source (bfStep g e b) = true := by
      rw [hcond4]
      exact hcbM
    have hfind : ∀ hchk : (({ bM with cost := bM.cost + 1 } :
        BellmanFord).cost % g.number_of_vertices == 0) = true,
        (bfStep g e b).cycle.isSome = true := by
      intro hchk
      rw [hstep, bfCheck_cycle_pos _ _ hchk]
      exact cycle_check_complete hg hMD.hself
        (cond_cyclic hg hMD.hself hMD.hpar
          (fun x e2 hx => (hMD.hfinp x e2 hx).2) hMD.hroot hMD.hsrc0 hcbM)
    by_cases hfl : b.cycle.isSome = true
    · have hfl4 : (bfStep g e b).cycle.isSome = true := by
        by_cases hchk : (({ bM with cost := bM.cost + 1 } :
            BellmanFord).cost % g.number_of_vertices == 0) = true
        · exact hfind hchk
        · rw [hstep, bfCheck_cycle_neg _ _ hchk]
          show bM.cycle.isSome = true
          rw [hMcyc]
          exact hfl
      unfold bfNuK
      rw [if_pos hcb4, if_pos hfl4, if_pos hcb, if_pos hfl]
      omega
    · have hmodlt : b.cost % g.number_of_vertices < g.number_of_vertices :=
        Nat.mod_lt _ hn
      by_cases hchk : (({ bM with cost := bM.cost + 1 } :
          BellmanFord).cost % g.number_of_vertices == 0) = true
      · have hfl4 := hfind hchk
        unfold bfNuK
        rw [if_pos hcb4, if_pos hfl4, if_pos hcb, if_neg hfl]
        omega
      · have hfl4 : ¬((bfStep g e b).cycle.isSome = true) := by
          rw [hstep, bfCheck_cycle_neg _ _ hchk]
          show ¬(bM.cycle.isSome = true)
          rw [hMcyc]
          exact hfl
        have hwrap : (b.cost + 1) % g.number_of_vertices =
            b.cost % g.number_of_vertices + 1 := by
          refine mod_succ_no_wrap hn ?_
          intro h2
          apply hchk
          show (({ bM with cost := bM.cost + 1 } : BellmanFord).cost %
            g.number_of_vertices == 0) = true
          have h3 : ({ bM with cost := bM.cost + 1 } : BellmanFord).cost =
              b.cost + 1 := by
            show bM.cost + 1 = b.cost + 1
            rw [hMcost]
          rw [h3, h2]
          rfl
        unfold bfNuK
        rw [if_pos hcb4, if_neg hfl4, if_pos hcb, if_neg hfl, hb4K, hwrap]
        omega
  · have hcbf : condB g source b = false := by
      cases h2 : condB g source b
      · rfl
      · exact absurd h2 hcb
    by_cases hcbM : condB g source bM = true
    · have hcb4 : condB g source (bfStep g e b) = true := by
        rw [hcond4]
        exact hcbM
      unfold bfNuK
      rw [if_pos hcb4, if_neg hcb]
      by_cases hfl4 : (bfStep g e b).cycle.isSome = true
      · rw [if_pos hfl4]
        omega
      · rw [if_neg hfl4]
        omega
    · have hcbMf : condB g source bM = false := by
        cases h2 : condB g source bM
        · rfl
        · exact absurd h2 hcbM
      have hcb4 : ¬(condB g source (bfStep g e b) = true) := by
        rw [hcond4]
        exact hcbM
      unfold bfNuK
      rw [if_neg hcb4, if_neg hcb]
      have hgb4 : gridBudget g (bfStep g e b) = gridBudget g bM :=
        gridBudget_congr hb4D
      rcases hMgrid with hMeq | hMg
      · have hgbe : gridBudget g bM = gridBudget g b := by
          rw [hMeq]
        have hqe : (bfStep g e b).queue.length = b.queue.length := by
          rw [hb4Q, hMeq]
        rw [hgb4, hgbe, hqe]
      · have h5 := hMg hcbf hcbMf
        rw [hgb4]
        omega

/-- The whole `for edge in digraph.adjacents(...)` scan. -/
theorem bfRelax_spec {g : EdgeWeightedDigraph} {source : Nat}
    (hg : GWF g) (hn : 0 < g.number_of_vertices) :
    ∀ (es : List WeightedEdge) (b : BellmanFord) (v : Nat),
      (∀ e2 ∈ es, e2 ∈ g.edges) → es.length ≤ g.edges.length →
      BFC g source b → TenseW g b v es →
      BFC g source (bfRelax g es b) ∧ TenseW g (bfRelax g es b) v [] ∧
      bfNuK g source (bfRelax g es b) 0 + (bfRelax g es b).queue.length ≤
        bfNuK g source b es.length + b.queue.length := by
  intro es
  induction es with
  | nil =>
    intro b v _ _ hC hT
    exact ⟨hC, hT, le_refl _⟩
  | cons e es ih =>
    intro b v hmem hlen hC hT
    rw [bfRelax_cons]
    have he : e ∈ g.edges := hmem e (List.mem_cons_self e es)
    obtain ⟨hC4, hT4, hnu⟩ := bfStep_master hg hn he hC hT
    obtain ⟨hC5, hT5, hnu5⟩ := ih (bfStep g e b) v
      (fun e2 he2 => hmem e2 (List.mem_cons_of_mem e he2))
      (by rw [List.length_cons] at hlen; omega) hC4 hT4
    refine ⟨hC5, hT5, ?_⟩
    have h2 := hnu es.length (by rw [List.length_cons] at hlen; omega)
    calc bfNuK g source (bfRelax g es (bfStep g e b)) 0 +
        (bfRelax g es (bfStep g e b)).queue.length
        ≤ bfNuK g source (bfStep g e b) es.length +
          (bfStep g e b).queue.length := hnu5
      _ ≤ bfNuK g source b (es.length + 1) + b.queue.length := h2
      _ = bfNuK g source b (e :: es).length + b.queue.length := by
          rw [List.length_cons]

/-- Popping the queue head and clearing its flag re-establishes the scan
precondition, with the popped vertex covering its adjacency list. -/
theorem bfDequeue_prep {g : EdgeWeightedDigraph} {source : Nat}
    {b : BellmanFord} (hI : BFI g source b) {v : Nat} {rest : List Nat}
    (hq : b.queue = v :: rest) :
    BFC g source { b with queue := rest, onQueue := b.onQueue.set v false } ∧
    TenseW g { b with queue := rest, onQueue := b.onQueue.set v false } v
      (g.adjacents v) := by
  have hvq : v ∈ b.queue := by
    rw [hq]
    exact List.mem_cons_self v rest
  have hvn : v < g.number_of_vertices := hI.core.hqsub v hvq
  have hvl : v < b.onQueue.length := by
    rw [hI.core.lenQ]
    exact hvn
  have hnd : (v :: rest).Nodup := by
    rw [← hq]
    exact hI.core.hqnd
  have hvrest : v ∉ rest := (List.nodup_cons.mp hnd).1
  constructor
  · refine ⟨BFD_congr
      (show ({ b with queue := rest, onQueue := b.onQueue.set v false } :
        BellmanFord).distTo = b.distTo from rfl)
      (show ({ b with queue := rest, onQueue := b.onQueue.set v false } :
        BellmanFord).edgeTo = b.edgeTo from rfl)
      hI.core.hd, ?_, ?_, ?_, ?_, ?_⟩
    · show (b.onQueue.set v false).length = _
      rw [List.length_set]
      exact hI.core.lenQ
    · intro x hx
      have hx2 : x ∈ b.queue := by
        rw [hq]
        exact List.mem_cons_of_mem v hx
      exact hI.core.hqsub x hx2
    · exact (List.nodup_cons.mp hnd).2
    · intro x
      show (b.onQueue.set v false).getD x false = true ↔ x ∈ rest
      by_cases hxv : x = v
      · rw [hxv, getD_set_self _ _ _ _ hvl]
        constructor
        · intro h2
          exact absurd h2 Bool.noConfusion
        · intro h2
          exact absurd h2 hvrest
      · rw [getD_set_ne _ false false (fun h2 => hxv h2.symm)]
        rw [hI.core.honq x, hq, List.mem_cons]
        constructor
        · intro h2
          rcases h2 with h2 | h2
          · exact absurd h2 hxv
          · exact h2
        · exact fun h2 => Or.inr h2
    · exact hI.core.hcycF
  · intro e2 he2 hlt
    have hlt2 : (e2.weight : EVal) + b.distTo.getD e2.from_edge ⊤ <
        b.distTo.getD e2.to_edge ⊤ := hlt
    rcases hI.htense e2 he2 hlt2 with h2 | ⟨-, h2b⟩
    · rw [hq, List.mem_cons] at h2
      rcases h2 with h2 | h2
      · right
        refine ⟨h2, ?_⟩
        rw [EdgeWeightedDigraph.adjacents, List.mem_filter]
        exact ⟨he2, by rw [beq_iff_eq]; exact h2⟩
      · left
        exact h2
    · cases h2b

/-- `bfNuK` ignores `k` when no cycle is stored. -/
theorem bfNuK_flag_none (g : EdgeWeightedDigraph) (source : Nat)
    {b : BellmanFord} (h : ¬(b.cycle.isSome = true)) (k k2 : Nat) :
    bfNuK g source b k = bfNuK g source b k2 := by
  unfold bfNuK
  by_cases hc : condB g source b = true
  · rw [if_pos hc, if_pos hc, if_neg h, if_neg h]
  · rw [if_neg hc, if_neg hc]

/-- `bfNuK` only reads the arrays, the cost and the cycle flag. -/
theorem bfNuK_congr (g : EdgeWeightedDigraph) (source : Nat)
    {b b' : BellmanFord} (hd : b'.distTo = b.distTo)
    (he : b'.edgeTo = b.edgeTo) (hk : b'.cost = b.cost)
    (hc : b'.cycle = b.cycle) (k : Nat) :
    bfNuK g source b' k = bfNuK g source b k := by
  unfold bfNuK
  rw [condB_congr hd he, gridBudget_congr hd, hk, hc]

theorem bfLoop_succ_nil (g : EdgeWeightedDigraph) (fuel : Nat)
    (b : BellmanFord) (h : b.queue = []) : bfLoop g (fuel + 1) b = b := by
  unfold bfLoop
  rw [h]

theorem bfLoop_succ_cycle (g : EdgeWeightedDigraph) (fuel : Nat)
    (b : BellmanFord) (v : Nat) (rest : List Nat) (h : b.queue = v :: rest)
    (hc : b.cycle.isSome = true) : bfLoop g (fuel + 1) b = b := by
  unfold bfLoop
  rw [h]
  show (if b.cycle.isSome = true then b
    else bfLoop g fuel (bfRelax g (g.adjacents v)
      { b with queue := rest, onQueue := b.onQueue.set v false })) = b
  rw [if_pos hc]

theorem bfLoop_succ_go (g : EdgeWeightedDigraph) (fuel : Nat)
    (b : BellmanFord) (v : Nat) (rest : List Nat) (h : b.queue = v :: rest)
    (hc : ¬(b.cycle.isSome = true)) :
    bfLoop g (fuel + 1) b = bfLoop g fuel (bfRelax g (g.adjacents v)
      { b with queue := rest, onQueue := b.onQueue.set v false }) := by
  conv_lhs => unfold bfLoop
  rw [h]
  show (if b.cycle.isSome = true then b
    else bfLoop g fuel (bfRelax g (g.adjacents v)
      { b with queue := rest, onQueue := b.onQueue.set v false })) = _
  rw [if_neg hc]

/-- The dequeueing loop: with fuel beyond the measure it reaches a state
with an empty queue or a stored cycle, keeps the invariant, and is
fuel-stable. -/
theorem bfLoop_ok {g : EdgeWeightedDigraph} {source : Nat}
    (hg : GWF g) (hn : 0 < g.number_of_vertices) :
    ∀ (fuel : Nat) (b : BellmanFord), BFI g source b →
      bfMeasure g source b < fuel →
      BFI g source (bfLoop g fuel b) ∧
      ((bfLoop g fuel b).queue = [] ∨
        (bfLoop g fuel b).cycle.isSome = true) ∧
      ∀ fuel2, fuel ≤ fuel2 → bfLoop g fuel2 b = bfLoop g fuel b := by
  intro fuel
  induction fuel with
  | zero =>
    intro b _ hm
    omega
  | succ fuel ih =>
    intro b hI hm
    cases hqe : b.queue with
    | nil =>
      rw [bfLoop_succ_nil g fuel b hqe]
      refine ⟨hI, Or.inl hqe, ?_⟩
      intro fuel2 hf2
      cases fuel2 with
      | zero => omega
      | succ f2 => rw [bfLoop_succ_nil g f2 b hqe]
    | cons v rest =>
      by_cases hcs : b.cycle.isSome = true
      · rw [bfLoop_succ_cycle g fuel b v rest hqe hcs]
        refine ⟨hI, Or.inr hcs, ?_⟩
        intro fuel2 hf2
        cases fuel2 with
        | zero => omega
        | succ f2 =>
          rw [bfLoop_succ_cycle g f2 b v rest hqe hcs]
      · have hgo := bfLoop_succ_go g fuel b v rest hqe hcs
        obtain ⟨hCmid, hTmid⟩ := bfDequeue_prep hI hqe
        have hadjmem : ∀ e2 ∈ g.adjacents v, e2 ∈ g.edges := by
          intro e2 he2
          rw [EdgeWeightedDigraph.adjacents, List.mem_filter] at he2
          exact he2.1
        have hadjlen : (g.adjacents v).length ≤ g.edges.length := by
          rw [EdgeWeightedDigraph.adjacents]
          exact List.length_filter_le _ _
        obtain ⟨hC2, hT2, hnu2⟩ := bfRelax_spec hg hn (g.adjacents v)
          { b with queue := rest, onQueue := b.onQueue.set v false } v
          hadjmem hadjlen hCmid hTmid
        have hI2 : BFI g source (bfRelax g (g.adjacents v)
            { b with queue := rest, onQueue := b.onQueue.set v false }) := by
          refine ⟨hC2, ?_⟩
          intro e2 he2 hlt
          rcases hT2 e2 he2 hlt with h2 | ⟨-, h2b⟩
          · exact Or.inl h2
          · cases h2b
        have hmdec : bfMeasure g source (bfRelax g (g.adjacents v)
            { b with queue := rest, onQueue := b.onQueue.set v false }) <
            fuel := by
          have hmid1 : bfNuK g source
              { b with queue := rest, onQueue := b.onQueue.set v false }
              (g.adjacents v).length = bfNuK g source b 0 := by
            rw [bfNuK_congr g source
              (show ({ b with queue := rest, onQueue := b.onQueue.set v false } :
                BellmanFord).distTo = b.distTo from rfl)
              (show ({ b with queue := rest, onQueue := b.onQueue.set v false } :
                BellmanFord).edgeTo = b.edgeTo from rfl)
              (show ({ b with queue := rest, onQueue := b.onQueue.set v false } :
                BellmanFord).cost = b.cost from rfl)
              (show ({ b with queue := rest, onQueue := b.onQueue.set v false } :
                BellmanFord).cycle = b.cycle from rfl)]
            exact bfNuK_flag_none g source hcs _ 0
          have hmlen : b.queue.length = rest.length + 1 := by
            rw [hqe, List.length_cons]
          rw [bfMeasure] at hm ⊢
          have h3 := hnu2
          rw [hmid1] at h3
          have h4 : ({ b with queue := rest, onQueue := b.onQueue.set v false } : BellmanFord).queue.length = rest.length := rfl
          rw [h4] at h3
          omega
        obtain ⟨hI3, hexit, hstab⟩ := ih _ hI2 hmdec
        rw [hgo]
        refine ⟨hI3, hexit, ?_⟩
        intro fuel2 hf2
        cases fuel2 with
        | zero => omega
        | succ f2 =>
          rw [bfLoop_succ_go g f2 b v rest hqe hcs]
          exact hstab f2 (by omega)

/-- Rebuilding a walk from a vertex list and its aligned edge list. -/
theorem walk_of_aligned {g : EdgeWeightedDigraph} :
    ∀ (es : List WeightedEdge) (c : List Nat),
      (∀ e ∈ es, e ∈ g.edges) →
      es.map WeightedEdge.from_edge = c.dropLast →
      es.map WeightedEdge.to_edge = c.drop 1 →
      1 ≤ c.length →
      Walk g (c.getD 0 0) es (c.getD (c.length - 1) 0) := by
  intro es
  induction es with
  | nil =>
    intro c _ _ hmt hc1
    cases c with
    | nil => simp at hc1
    | cons c0 ct =>
      have h2 : ([] : List Nat) = ct := hmt
      rw [← h2]
      exact Walk.nil c0
  | cons e es ih =>
    intro c hmem hmf hmt hc1
    cases c with
    | nil => simp at hc1
    | cons c0 ct =>
      have hct : ct = e.to_edge :: es.map WeightedEdge.to_edge := by
        have h2 : (e :: es).map WeightedEdge.to_edge = ct := hmt
        rw [List.map_cons] at h2
        exact h2.symm
      subst hct
      have hmf2 : (e :: es).map WeightedEdge.from_edge =
          c0 :: (e.to_edge :: es.map WeightedEdge.to_edge).dropLast := hmf
      rw [List.map_cons] at hmf2
      obtain ⟨hf1, hf2⟩ := List.cons.inj hmf2
      have hih := ih (e.to_edge :: es.map WeightedEdge.to_edge)
        (fun e2 he2 => hmem e2 (List.mem_cons_of_mem e he2)) hf2 rfl (by simp)
      have hh : (e.to_edge :: es.map WeightedEdge.to_edge).getD 0 0 =
          e.to_edge := rfl
      rw [hh] at hih
      show Walk g c0 (e :: es)
        ((e.to_edge :: es.map WeightedEdge.to_edge).getD
          ((e.to_edge :: es.map WeightedEdge.to_edge).length - 1) 0)
      exact Walk.cons (hmem e (List.mem_cons_self e es)) hf1 hih

/-- A `ReportOK` vertex list yields a closed negative-weight walk. -/
theorem walk_of_reportOK {g : EdgeWeightedDigraph} {c : List Nat}
    (h : ReportOK g c) :
    ∃ u es, es ≠ [] ∧ Walk g u es u ∧ weightSum es < 0 := by
  obtain ⟨hl, hcl, es, hne, hmem, hmf, hmt, hneg⟩ := h
  have hw := walk_of_aligned es c hmem hmf hmt (by omega)
  rw [← hcl] at hw
  exact ⟨c.getD 0 0, es, hne, hw, hneg⟩

/-- A pointer cycle under the invariants yields a closed negative walk
based at a vertex with finite distance. -/
theorem negwalk_of_pointer {g : EdgeWeightedDigraph} {source : Nat}
    {b : BellmanFord} (hD : BFD g source b)
    (hcycle : ∃ v cyc, PChain b.edgeTo v cyc v ∧ cyc ≠ []) :
    ∃ u es, es ≠ [] ∧ Walk g u es u ∧ weightSum es < 0 ∧
      b.distTo.getD u ⊤ ≠ ⊤ := by
  obtain ⟨v, cyc, hch, hne⟩ := hcycle
  obtain ⟨v2, c2, hch2, hne2, hnd2⟩ :=
    pchain_simple_cycle cyc.length v cyc (le_refl _) hch hne
  have hneg := hD.hcycneg v2 c2 hch2 hne2 hnd2
  have hw := PChain.toWalk (fun w e hw => (hD.hself w e hw).1) hch2
  have hfin : b.distTo.getD v2 ⊤ ≠ ⊤ := by
    have h1 := (pchain_adj hch2).1 hne2
    have hlp : 0 < c2.length := List.length_pos.mpr hne2
    have hmem0 : c2.getD 0 dfltEdge ∈ c2 := by
      rw [List.getD_eq_getElem _ _ hlp]
      exact List.getElem_mem hlp
    have h2 := pchain_entry hch2 _ hmem0
    have h3 := (hD.hfinp _ _ h2).2
    rw [h1] at h3
    exact h3
  exact ⟨v2, c2, hne2, hw, hneg, hfin⟩

/-- C4: on a well-formed digraph, for all sufficiently large loop fuel
the constructor's result is stable and: (a) if some negative-weight cycle
is reachable from the source, `has_negative_cycle` is `True` and
`negative_cycle()` returns a closed vertex list realized by graph edges
of strictly negative total weight; (b) if the graph has no negative
cycle at all, `has_negative_cycle` is `False` and `dist_to` of every
reachable vertex is finite, attained by a walk from the source, and a
lower bound on every walk from the source. -/
theorem claim_C4_bellman_ford {g : EdgeWeightedDigraph} {source : Nat}
    (hg : GWF g) (hsrc : source < g.number_of_vertices) :
    ∃ fuel0, ∀ fuel, fuel0 ≤ fuel → ∀ b : BellmanFord,
      bfRun g source fuel = b →
      ((∃ u ps cs, Walk g source ps u ∧ cs ≠ [] ∧ Walk g u cs u ∧
          weightSum cs < 0) →
        b.has_negative_cycle = true ∧
        ∃ c, b.negative_cycle = some c ∧ 2 ≤ c.length ∧
          c.getD 0 0 = c.getD (c.length - 1) 0 ∧
          ∃ es, es ≠ [] ∧ (∀ e2 ∈ es, e2 ∈ g.edges) ∧
            es.map WeightedEdge.from_edge = c.dropLast ∧
            es.map WeightedEdge.to_edge = c.drop 1 ∧
            weightSum es < 0) ∧
      ((∀ u cs, cs ≠ [] → Walk g u cs u → 0 ≤ weightSum cs) →
        b.has_negative_cycle = false ∧
        ∀ v, v < g.number_of_vertices → (∃ ps, Walk g source ps v) →
          ∃ q : ℚ, b.dist_to v = (q : EVal) ∧
            (∃ es, Walk g source es v ∧ weightSum es = q) ∧
            (∀ es, Walk g source es v → q ≤ weightSum es)) := by
  have hn : 0 < g.number_of_vertices := by omega
  have hI0 := bfStart_BFI hg hsrc
  obtain ⟨hIr, hexit, hstab⟩ := bfLoop_ok hg hn
    (bfMeasure g source (bfStart g source) + 1) (bfStart g source) hI0
    (by omega)
  refine ⟨bfMeasure g source (bfStart g source) + 1, ?_⟩
  intro fuel hfu b hbr
  have hbr2 : b = bfLoop g (bfMeasure g source (bfStart g source) + 1)
      (bfStart g source) := by
    rw [← hbr, bfRun]
    exact hstab fuel hfu
  rw [← hbr2] at hIr hexit
  constructor
  · -- (a) a reachable negative cycle forces detection
    intro hreach
    obtain ⟨u, ps, cs, hwps, hcsne, hwcs, hcsneg⟩ := hreach
    have hflag : b.cycle.isSome = true := by
      by_cases hfl : b.cycle.isSome = true
      · exact hfl
      · exfalso
        have hqe : b.queue = [] := by
          rcases hexit with h2 | h2
          · exact h2
          · exact absurd h2 hfl
        have hnt : ∀ e2 ∈ g.edges, b.distTo.getD e2.to_edge ⊤ ≤
            (e2.weight : EVal) + b.distTo.getD e2.from_edge ⊤ := by
          intro e2 he2
          by_contra h3
          rcases hIr.htense e2 he2 (not_le.mp h3) with h4 | ⟨-, h4b⟩
          · rw [hqe] at h4
            cases h4
          · cases h4b
        by_cases hcb : condB g source b = true
        · obtain ⟨v2, c2, hne2, hw2, hneg2, hfin2⟩ :=
            negwalk_of_pointer hIr.core.hd
              (cond_cyclic hg hIr.core.hd.hself hIr.core.hd.hpar
                (fun x e2 hx => (hIr.core.hd.hfinp x e2 hx).2)
                hIr.core.hd.hroot hIr.core.hd.hsrc0 hcb)
          obtain ⟨q2, hq2⟩ := WithTop.ne_top_iff_exists.mp hfin2
          have h5 := walk_lower hnt c2 v2 v2 hw2
          rw [← hq2, ← WithTop.coe_add, WithTop.coe_le_coe] at h5
          linarith
        · have hcbf : condB g source b = false := by
            cases h2 : condB g source b
            · rfl
            · exact absurd h2 hcb
          have hsrcnone := (condB_false_facts hcbf).1
          have hs0 := hIr.core.hd.hsrc0 hsrcnone
          have h5 := walk_lower hnt ps source u hwps
          rw [hs0, zero_add] at h5
          have hufin : b.distTo.getD u ⊤ ≠ ⊤ := by
            intro h6
            rw [h6] at h5
            exact WithTop.coe_ne_top (top_le_iff.mp h5)
          obtain ⟨qu, hqu⟩ := WithTop.ne_top_iff_exists.mp hufin
          have h6 := walk_lower hnt cs u u hwcs
          rw [← hqu, ← WithTop.coe_add, WithTop.coe_le_coe] at h6
          linarith
    obtain ⟨c, hc⟩ := Option.isSome_iff_exists.mp hflag
    obtain ⟨hl, hcl, es, hne, hmem, hmf, hmt, hneg⟩ := hIr.core.hcycF c hc
    refine ⟨?_, c, ?_, hl, hcl, es, hne, hmem, hmf, hmt, hneg⟩
    · rw [BellmanFord.has_negative_cycle, hflag]
    · rw [BellmanFord.negative_cycle]
      exact hc
  · -- (b) no negative cycles: exact distances
    intro hnnc
    have hflag : b.cycle.isSome = false := by
      cases hfl : b.cycle.isSome
      · rfl
      · exfalso
        obtain ⟨c, hc⟩ := Option.isSome_iff_exists.mp hfl
        obtain ⟨u2, es2, hne2, hw2, hneg2⟩ :=
          walk_of_reportOK (hIr.core.hcycF c hc)
        have h2 := hnnc u2 es2 hne2 hw2
        linarith
    have hqe : b.queue = [] := by
      rcases hexit with h2 | h2
      · exact h2
      · rw [hflag] at h2
        cases h2
    have hnt : ∀ e2 ∈ g.edges, b.distTo.getD e2.to_edge ⊤ ≤
        (e2.weight : EVal) + b.distTo.getD e2.from_edge ⊤ := by
      intro e2 he2
      by_contra h3
      rcases hIr.htense e2 he2 (not_le.mp h3) with h4 | ⟨-, h4b⟩
      · rw [hqe] at h4
        cases h4
      · cases h4b
    have hcbf : condB g source b = false := by
      cases hcb : condB g source b
      · rfl
      · exfalso
        obtain ⟨u2, es2, hne2, hw2, hneg2, -⟩ :=
          negwalk_of_pointer hIr.core.hd
            (cond_cyclic hg hIr.core.hd.hself hIr.core.hd.hpar
              (fun x e2 hx => (hIr.core.hd.hfinp x e2 hx).2)
              hIr.core.hd.hroot hIr.core.hd.hsrc0 hcb)
        have h2 := hnnc u2 es2 hne2 hw2
        linarith
    have hsrcnone := (condB_false_facts hcbf).1
    have hs0 := hIr.core.hd.hsrc0 hsrcnone
    have hhnc : b.has_negative_cycle = false := by
      rw [BellmanFord.has_negative_cycle, hflag]
    refine ⟨hhnc, ?_⟩
    intro v hv hex
    obtain ⟨ps, hps⟩ := hex
    have h5 := walk_lower hnt ps source v hps
    rw [hs0, zero_add] at h5
    have hvfin : b.distTo.getD v ⊤ ≠ ⊤ := by
      intro h6
      rw [h6] at h5
      exact WithTop.coe_ne_top (top_le_iff.mp h5)
    obtain ⟨qv, hqv⟩ := WithTop.ne_top_iff_exists.mp hvfin
    obtain ⟨esA, hwA, hsA⟩ := hIr.core.hd.hP4 v qv hqv.symm
    refine ⟨qv, ?_, ⟨esA, hwA, hsA⟩, ?_⟩
    · rw [BellmanFord.dist_to, if_pos hhnc]
      exact hqv.symm
    · intro es2 hes2
      have h7 := walk_lower hnt es2 source v hes2
      rw [hs0, zero_add, ← hqv, WithTop.coe_le_coe] at h7
      exact h7

/-- A one-vertex digraph with a negative self-loop. -/
def gC4 : EdgeWeightedDigraph := ⟨1, [⟨0, 0, -1⟩]⟩

/-- Witness for C4 on `gC4` from source `0`. -/
theorem claim_C4_bellman_ford_witness :
    ∃ fuel0, ∀ fuel, fuel0 ≤ fuel → ∀ b : BellmanFord,
      bfRun gC4 0 fuel = b →
      ((∃ u ps cs, Walk gC4 0 ps u ∧ cs ≠ [] ∧ Walk gC4 u cs u ∧
          weightSum cs < 0) →
        b.has_negative_cycle = true ∧
        ∃ c, b.negative_cycle = some c ∧ 2 ≤ c.length ∧
          c.getD 0 0 = c.getD (c.length - 1) 0 ∧
          ∃ es, es ≠ [] ∧ (∀ e2 ∈ es, e2 ∈ gC4.edges) ∧
            es.map WeightedEdge.from_edge = c.dropLast ∧
            es.map WeightedEdge.to_edge = c.drop 1 ∧
            weightSum es < 0) ∧
      ((∀ u cs, cs ≠ [] → Walk gC4 u cs u → 0 ≤ weightSum cs) →
        b.has_negative_cycle = false ∧
        ∀ v, v < gC4.number_of_vertices → (∃ ps, Walk gC4 0 ps v) →
          ∃ q : ℚ, b.dist_to v = (q : EVal) ∧
            (∃ es, Walk gC4 0 es v ∧ weightSum es = q) ∧
            (∀ es, Walk gC4 0 es v → q ≤ weightSum es)) :=
  claim_C4_bellman_ford (by intro e he; rw [gC4] at he; fin_cases he <;>
    exact ⟨Nat.zero_lt_one, Nat.zero_lt_one⟩) Nat.zero_lt_one

/-- C5: for every `IndexMinPQ` and every sequence of `insert` and
`decrease_key` operations with distinct indices in range (together with
any interleaved successful `del_min` calls), `del_min()` raises
`HeapEmptyError` when the queue is empty, and otherwise returns and
removes a contained index whose current key is the globally smallest
among all contained indices — in particular it never returns an index
that is not currently contained. -/
theorem claim_C5_del_min {α : Type} [LinearOrder α] {maxN : Nat}
    {s : IndexMinPQ α} (hreach : IndexMinPQ.PQReach maxN s) :
    (s.n = 0 → s.del_min = .error .heapEmpty) ∧
    (s.n ≠ 0 → ∃ r s', s.del_min = .ok (r, s') ∧
      s.contains r = true ∧
      (∀ j a b, s.contains j = true → s.keyAt r = some a →
        s.keyAt j = some b → a ≤ b) ∧
      s'.contains r = false ∧ s'.n = s.n - 1 ∧
      (∀ j, j ≠ r → s'.contains j = s.contains j ∧ s'.keyAt j = s.keyAt j)) := by
  have hwf := hreach.wf
  refine ⟨fun h0 => IndexMinPQ.del_min_empty h0, fun hne => ?_⟩
  obtain ⟨r, s', heq, hcont, hmin, _, hn', hrem, hother⟩ :=
    IndexMinPQ.del_min_spec hwf hne
  exact ⟨r, s', heq, hcont, hmin, hrem, hn', hother⟩

/-- Witness for C5 at the concrete queue `IndexMinPQ(2); insert(0, 5)`:
`del_min` returns index `0` and leaves the queue empty. -/
theorem claim_C5_del_min_witness :
    IndexMinPQ.pqW.n ≠ 0 ∧
    ∃ r s', IndexMinPQ.pqW.del_min = .ok (r, s') ∧
      IndexMinPQ.pqW.contains r = true ∧
      (∀ j a b, IndexMinPQ.pqW.contains j = true →
        IndexMinPQ.pqW.keyAt r = some a →
        IndexMinPQ.pqW.keyAt j = some b → a ≤ b) ∧
      s'.contains r = false ∧ s'.n = IndexMinPQ.pqW.n - 1 ∧
      (∀ j, j ≠ r → s'.contains j = IndexMinPQ.pqW.contains j ∧
        s'.keyAt j = IndexMinPQ.pqW.keyAt j) :=
  ⟨by decide, (claim_C5_del_min IndexMinPQ.pqW_reach).2 (by decide)⟩

/-- C6 counterexample: the claim "insert on an already-contained index
fails immediately and loudly" is false.  On the concrete queue
`IndexMinPQ(2); insert(0, 5)`, index `0` is contained, yet
`insert(0, 4)` returns normally (silently adding a second heap slot for
index `0`): the Python `insert` performs no duplicate check. -/
theorem claim_C6_counterexample :
    IndexMinPQ.pqW.contains 0 = true ∧
    IndexMinPQ.pqW.insert 0 4 =
      .ok (⟨[some 4, none, none], [none, some 0, some 0], [2, -1, -1], 2⟩ :
        IndexMinPQ ℚ) := by
  constructor
  · rfl
  · rfl

/-- C6 amended: calling `insert(i, key)` on an index `i` that is already
contained is silently accepted whenever the heap is not full (`n < maxN`):
`insert` performs no duplicate-index check, so the call returns normally
instead of failing.  (When the heap is full the call does fail, but with
an `IndexError` from the capacity overflow, not from a duplicate check.) -/
theorem claim_C6_duplicate_insert_accepted {α : Type} [LinearOrder α]
    {maxN : Nat} {s : IndexMinPQ α} (h : IndexMinPQ.WF s maxN) {i : Nat}
    (hcont : s.contains i = true) (hroom : s.n < maxN) (key : α) :
    ∃ s', s.insert i key = .ok s' := by
  have hilen : i < s.qp.length := by
    by_contra hbig
    rw [IndexMinPQ.contains_iff, getD_oob _ _ (Nat.le_of_not_lt hbig)] at hcont
    exact hcont rfl
  have hguard : s.n + 1 < s.pq.length ∧ i < s.qp.length ∧ i < s.keys.length := by
    have := h.core.hkeys
    have := h.core.hpq
    have := h.core.hqp
    omega
  exact ⟨_, by rw [IndexMinPQ.insert, if_pos hguard]⟩

/-- Witness for the amended C6 at the concrete queue
`IndexMinPQ(2); insert(0, 5)`. -/
theorem claim_C6_duplicate_insert_accepted_witness :
    ∃ s', IndexMinPQ.pqW.insert 0 9 = .ok s' :=
  claim_C6_duplicate_insert_accepted IndexMinPQ.pqW_reach.wf (by decide)
    (by decide) 9

/-- C7: on a well-formed `UnionFind` over `n` sites and in-range sites
`p`, `q`, after a successful `union(p, q)` the query `connected(p, q)`
returns `True`, and keeps returning `True` after any further sequence of
successful `union` operations; moreover at every state reachable by such
operations, `connected` restricted to in-range sites is reflexive,
symmetric and transitive. -/
theorem claim_C7_union_find {n : Nat} {uf uf1 : UnionFind}
    (hwf : UnionFind.UFWF uf n) {p q : Int}
    (hp0 : 0 ≤ p) (hpn : p.toNat < n) (hq0 : 0 ≤ q) (hqn : q.toNat < n)
    (hu : uf.union p q = .ok uf1) :
    (∀ uf2, UnionFind.UFChain uf1 uf2 →
        ∃ uf3, uf2.connected p q = .ok (true, uf3)) ∧
    (∀ uf2, UnionFind.UFChain uf uf2 →
      (∀ x : Int, 0 ≤ x → x.toNat < n →
        ∃ uf3, uf2.connected x x = .ok (true, uf3)) ∧
      (∀ x y : Int, 0 ≤ x → x.toNat < n → 0 ≤ y → y.toNat < n →
        (∃ uf3, uf2.connected x y = .ok (true, uf3)) →
        ∃ uf3, uf2.connected y x = .ok (true, uf3)) ∧
      (∀ x y z : Int, 0 ≤ x → x.toNat < n → 0 ≤ y → y.toNat < n →
          0 ≤ z → z.toNat < n →
        (∃ uf3, uf2.connected x y = .ok (true, uf3)) →
        (∃ uf3, uf2.connected y z = .ok (true, uf3)) →
        ∃ uf3, uf2.connected x z = .ok (true, uf3))) := by
  constructor
  · intro uf2 hchain
    obtain ⟨uf0, heq, hwf0, hsr0, -⟩ := UnionFind.union_spec hwf hp0 hpn hq0 hqn
    rw [heq] at hu
    cases hu
    obtain ⟨hwf2, hpres2⟩ := UnionFind.UFChain_pres hchain hwf0
    obtain ⟨b, uf3, heqc, -, hbiff, -⟩ :=
      UnionFind.connected_spec hwf2 hp0 hpn hq0 hqn
    have hb : b = true := hbiff.mpr (hpres2 _ _ hsr0)
    exact ⟨uf3, by rw [← hb]; exact heqc⟩
  · intro uf2 hchain
    obtain ⟨hwf2, -⟩ := UnionFind.UFChain_pres hchain hwf
    obtain ⟨hrefl, hsymm, htrans⟩ := UnionFind.sameRoot_equiv hwf2
    refine ⟨?_, ?_, ?_⟩
    · intro x hx0 hxn
      obtain ⟨b, uf3, heqc, -, hbiff, -⟩ :=
        UnionFind.connected_spec hwf2 hx0 hxn hx0 hxn
      have hb : b = true := hbiff.mpr (hrefl _ hxn)
      exact ⟨uf3, by rw [← hb]; exact heqc⟩
    · rintro x y hx0 hxn hy0 hyn ⟨uf3, hxy⟩
      obtain ⟨b, uf3', heqc, -, hbiff, -⟩ :=
        UnionFind.connected_spec hwf2 hx0 hxn hy0 hyn
      rw [heqc] at hxy
      have hb : b = true := congrArg Prod.fst (Except.ok.inj hxy)
      obtain ⟨b2, uf4, heqc2, -, hbiff2, -⟩ :=
        UnionFind.connected_spec hwf2 hy0 hyn hx0 hxn
      have hb2 : b2 = true := hbiff2.mpr (hsymm _ _ (hbiff.mp hb))
      exact ⟨uf4, by rw [← hb2]; exact heqc2⟩
    · rintro x y z hx0 hxn hy0 hyn hz0 hzn ⟨uf3, hxy⟩ ⟨uf4, hyz⟩
      obtain ⟨b, uf3', heqc, -, hbiff, -⟩ :=
        UnionFind.connected_spec hwf2 hx0 hxn hy0 hyn
      rw [heqc] at hxy
      have hb : b = true := congrArg Prod.fst (Except.ok.inj hxy)
      obtain ⟨b2, uf4', heqc2, -, hbiff2, -⟩ :=
        UnionFind.connected_spec hwf2 hy0 hyn hz0 hzn
      rw [heqc2] at hyz
      have hb2 : b2 = true := congrArg Prod.fst (Except.ok.inj hyz)
      obtain ⟨b3, uf5, heqc3, -, hbiff3, -⟩ :=
        UnionFind.connected_spec hwf2 hx0 hxn hz0 hzn
      have hb3 : b3 = true :=
        hbiff3.mpr (htrans _ _ _ (hbiff.mp hb) (hbiff2.mp hb2))
      exact ⟨uf5, by rw [← hb3]; exact heqc3⟩

/-- Witness for C7: `UnionFind(2); union(0, 1)` then `connected(0, 1)`
is `True`. -/
theorem claim_C7_union_find_witness :
    ∃ uf3, (UnionFind.mk [0, 0] [2, 1]).connected 0 1 = .ok (true, uf3) :=
  (@claim_C7_union_find 2 (UnionFind.new 2) (UnionFind.mk [0, 0] [2, 1])
      (UnionFind.newUF_wf 2) 0 1 (by decide) (by decide)
      (by decide) (by decide) (by rfl)).1
    _ (UnionFind.UFChain.refl _)

/-- C8: on a well-formed `UnionFind` over `n` sites, calling
`connected(p, q)` or `union(p, q)` with `p` outside `[0, n)` raises
`IndexError`, for every `q`.  (`p < 0` and `p > n` are caught by the
explicit range check; the boundary `p = n` slips past the check's `<=`
but faults on the list access `id[n]` inside `_root`.) -/
theorem claim_C8_out_of_range {n : Nat} {uf : UnionFind}
    (hwf : UnionFind.UFWF uf n) {p : Int} (hp : p < 0 ∨ (n : Int) ≤ p) :
    ∀ q : Int, uf.connected p q = .error .indexError ∧
      uf.union p q = .error .indexError := by
  intro q
  by_cases hg : ¬ (0 ≤ p ∧ p ≤ (uf.size.length : Int)) ∨
      ¬ (0 ≤ q ∧ q ≤ (uf.size.length : Int))
  · exact ⟨by rw [UnionFind.connected, if_pos hg],
      by rw [UnionFind.union, if_pos hg]⟩
  · push_neg at hg
    have hL : (uf.size.length : Int) = (n : Int) := by rw [hwf.hsize]
    have hpe : p.toNat = n := by
      have h1 := hg.1.1
      have h2 := hg.1.2
      omega
    have hoob : uf.root p.toNat = .error .indexError :=
      UnionFind.root_oob (by rw [hwf.hid, hpe])
    constructor
    · rw [UnionFind.connected, if_neg (by push_neg; exact hg)]
      simp only [hoob]
    · rw [UnionFind.union, if_neg (by push_neg; exact hg)]
      simp only [hoob]

/-- Witness for C8 at the boundary site `p = n`: `UnionFind(2)` with
`p = 2`, `q = 0`. -/
theorem claim_C8_out_of_range_witness :
    (UnionFind.new 2).connected 2 0 = .error .indexError ∧
      (UnionFind.new 2).union 2 0 = .error .indexError :=
  claim_C8_out_of_range (UnionFind.newUF_wf 2) (by decide) 0

/-- C1: on any digraph with in-range endpoints and non-negative weights
and any in-range source, the `DijkstraSP` construction terminates (any
fuel of at least `number_of_vertices + 1` gives the same final state) and
for every vertex reachable from the source, `dist_to` stores a finite
value that equals the true shortest-path distance — it is attained by the
edge list returned by `path_to`, which is a walk from the source to the
vertex, and it bounds every walk from the source to the vertex from
below. -/
theorem claim_C1_dijkstra {g : EdgeWeightedDigraph} {source : Nat}
    (hg : GWF g) (hnn : ∀ e ∈ g.edges, 0 ≤ e.weight)
    (hsrc : source < g.number_of_vertices) :
    ∃ d : DijkstraSP, dijkstraRun g source = .ok d ∧
      (∀ s0 fuel, dijkstraStart g source = .ok s0 →
        g.number_of_vertices + 1 ≤ fuel → dijkstraLoop g fuel s0 = .ok d) ∧
      (∀ v, v < g.number_of_vertices → (∃ es, Walk g source es v) →
        ∃ q : ℚ, d.distTo.getD v ⊤ = (q : EVal) ∧
          Walk g source (d.path_to v) v ∧ weightSum (d.path_to v) = q ∧
          (∀ es, Walk g source es v → q ≤ weightSum es)) := by
  obtain ⟨s0, heq0, hinv0⟩ := dijkstraStart_spec hsrc
  obtain ⟨F, dels, heqL, hinvF, hlen, hterm⟩ :=
    dijkstraLoop_ok hg hnn (g.number_of_vertices + 1) s0 [] hinv0
  have hempty : F.priority_queue.toBool = false := hterm (by simp)
  refine ⟨F, ?_, ?_, ?_⟩
  · rw [dijkstraRun, heq0]
    exact heqL
  · intro s0' fuel heq0' hfuel
    have hs0 : s0' = s0 := by
      rw [heq0] at heq0'
      exact (Except.ok.inj heq0').symm
    rw [hs0]
    exact dijkstraLoop_mono _ _ _ _ hfuel heqL hempty
  · rintro v hvn ⟨es, hwalk⟩
    have htense := final_no_tense hinvF hempty
    have hlow := walk_lower htense es source v hwalk
    have hsd : F.distTo.getD source ⊤ = 0 := hinvF.base.hsrc_dist
    have hfin : F.distTo.getD v ⊤ ≠ ⊤ := by
      intro htop
      rw [htop, hsd, zero_add] at hlow
      exact absurd (top_le_iff.mp hlow) WithTop.coe_ne_top
    have hvdels : v ∈ dels := (hinvF.base.hdone v).mpr
      ⟨hfin, IndexMinPQ.contains_false_of_empty hinvF.base.hpqwf.qpmem
        (IndexMinPQ.toBool_false_iff.mp hempty) v⟩
    have hfuelp : posIn dels v < F.edgeTo.length := by
      rw [hinvF.base.hlenE]
      exact lt_of_lt_of_le (posIn_lt_length hvdels) (dels_length_le hinvF.base)
    obtain ⟨hwalkp, hsump⟩ := chain_reconstruct hinvF (posIn dels v + 1) v
      hvdels (by omega) F.edgeTo.length hfuelp
    refine ⟨weightSum ((edgeChain F.edgeTo F.edgeTo.length v).reverse),
      hsump.symm, hwalkp, rfl, ?_⟩
    intro es' hwalk'
    have hlow' := walk_lower htense es' source v hwalk'
    rw [hsd, zero_add, ← hsump] at hlow'
    exact_mod_cast hlow'

/-- Concrete digraph for the C1 witness: two vertices, one edge `0 → 1`
of weight `3`. -/
def gW1 : EdgeWeightedDigraph := ⟨2, [⟨0, 1, 3⟩]⟩

/-- Witness for C1 on `gW1` from source `0`. -/
theorem claim_C1_dijkstra_witness :
    ∃ d : DijkstraSP, dijkstraRun gW1 0 = .ok d ∧
      ∃ q : ℚ, d.distTo.getD 1 ⊤ = (q : EVal) ∧ weightSum (d.path_to 1) = q := by
  obtain ⟨d, h1, -, h3⟩ :=
    @claim_C1_dijkstra gW1 0 (by unfold GWF; decide)
      (by decide) (by decide)
  obtain ⟨q, hq1, -, hq3, -⟩ := h3 1 (by decide)
    ⟨[⟨0, 1, 3⟩], Walk.cons (List.mem_singleton.mpr rfl) rfl (Walk.nil _)⟩
  exact ⟨d, h1, q, hq1, hq3⟩

/-- C9: during the whole `DijkstraSP` construction the priority-queue
calls all satisfy their contracts — in particular every `decrease_key`
call passes a strictly smaller key than the one stored (established in
`relax_step`), so the `ValueError` branch is unreachable: the run returns
normally for every fuel bound, i.e. no prefix of the run raises. -/
theorem claim_C9_decrease_key_strict {g : EdgeWeightedDigraph} {source : Nat}
    (hg : GWF g) (hnn : ∀ e ∈ g.edges, 0 ≤ e.weight)
    (hsrc : source < g.number_of_vertices) :
    ∃ s0, dijkstraStart g source = .ok s0 ∧
      ∀ fuel, ∃ d, dijkstraLoop g fuel s0 = .ok d := by
  obtain ⟨s0, heq0, hinv0⟩ := dijkstraStart_spec hsrc
  refine ⟨s0, heq0, ?_⟩
  intro fuel
  obtain ⟨d, -, heq, -⟩ := dijkstraLoop_ok hg hnn fuel s0 [] hinv0
  exact ⟨d, heq⟩

/-- Concrete digraph for the C9 witness: the second edge `0 → 1` improves
the first, forcing a `decrease_key` call during the run. -/
def gW9 : EdgeWeightedDigraph := ⟨2, [⟨0, 1, 5⟩, ⟨0, 1, 2⟩]⟩

/-- Witness for C9 on `gW9` from source `0`. -/
theorem claim_C9_decrease_key_strict_witness :
    ∃ s0, dijkstraStart gW9 0 = .ok s0 ∧
      ∀ fuel, ∃ d, dijkstraLoop gW9 fuel s0 = .ok d :=
  claim_C9_decrease_key_strict (by unfold GWF; decide) (by decide) (by decide)

/-- C10: on every `BellmanFord` state whose negative-cycle flag is set
(`_cycle is not None`), `dist_to` returns `float('inf')` and `path_to`
returns `None`, for every vertex, regardless of the stored distance and
parent arrays. -/
theorem claim_C10_accessors_with_cycle (b : BellmanFord)
    (h : b.has_negative_cycle = true) :
    ∀ v : Nat, b.dist_to v = ⊤ ∧ b.path_to v = none := by
  intro v
  constructor
  · rw [BellmanFord.dist_to, if_neg (by rw [h]; decide)]
  · rw [BellmanFord.path_to, if_neg (by rw [h]; decide)]

/-- Witness for C10 at a concrete state carrying a detected cycle and
nonempty stored arrays. -/
theorem claim_C10_accessors_with_cycle_witness :
    (BellmanFord.mk [some ⟨0, 1, -2⟩] [(3 : EVal)] [false] 7
        (some [0, 1, 0]) []).dist_to 0 = ⊤ ∧
    (BellmanFord.mk [some ⟨0, 1, -2⟩] [(3 : EVal)] [false] 7
        (some [0, 1, 0]) []).path_to 0 = none :=
  claim_C10_accessors_with_cycle
    (BellmanFord.mk [some ⟨0, 1, -2⟩] [(3 : EVal)] [false] 7
      (some [0, 1, 0]) []) rfl 0

/-- C2: for every well-formed flow network with non-negative capacities,
after constructing `FordFulkerson(digraph, source, target)` (with enough
fuel for the terminating outer loop), the flow value equals the capacity
of the cut from the reported `in_cut` vertex set (which contains `source`)
to its complement (which contains `target`), and every edge's flow `f_i`
satisfies `0 <= f_i <= capacity_i` at termination. -/
theorem claim_C2_ford_fulkerson {net : FlowNetwork} {source target : Nat}
    (hwf : FNWF net) (hcap : ∀ e ∈ net.edges, 0 ≤ e.capacity)
    (hsn : source < net.number_of_vertices)
    (htn : target < net.number_of_vertices) (hst : source ≠ target) :
    ∃ fuel0 : Nat, ∀ fuel, fuel0 ≤ fuel →
      ∀ f : FordFulkerson, FordFulkerson.run net source target fuel = f →
        f.value = ((cutCapacity net f.marked : ℚ) : EVal) ∧
        source ∈ f.in_cut ∧ target ∉ f.in_cut ∧
        f.flows.length = net.edges.length ∧
        ∀ i, i < net.edges.length →
          0 ≤ f.flows.getD i 0 ∧ f.flows.getD i 0 ≤ (net.edgeAt i).capacity := by
  set flows0 := List.replicate net.edges.length (0 : ℚ) with hflows0
  have hinv0 : FFInv net source target flows0 0 := by
    refine ⟨List.length_replicate _ _, ?_, ?_⟩
    · intro i hi
      have hz : flows0.getD i 0 = 0 := getD_replicate_lt 0 0 hi
      rw [hz]
      exact ⟨le_refl 0, hcap _ (edgeAt_mem hi)⟩
    · refine ⟨0, ?_, excess_zero_flows net _ target,
        fun v _ _ => excess_zero_flows net _ v⟩
      rfl
  have hDf0 : ∀ i, i < net.edges.length →
      DenOK (capDen net) (flows0.getD i 0) := by
    intro i hi
    rw [getD_replicate_lt 0 0 hi]
    exact DenOK_zero _
  have htc0 : 0 ≤ totalCap net :=
    Finset.sum_nonneg (fun i hir => hcap _ (edgeAt_mem (Finset.mem_range.mp hir)))
  have hD0 : (0 : ℚ) ≤ (capDen net : ℚ) := by positivity
  refine ⟨(Int.ceil (totalCap net * (capDen net : ℚ))).toNat + 1, ?_⟩
  intro fuel hge f hf
  have hclt : totalCap net * (capDen net : ℚ) <
      (((Int.ceil (totalCap net * (capDen net : ℚ))).toNat + 1 : Nat) : ℚ) := by
    have h1 : totalCap net * (capDen net : ℚ) ≤
        ((Int.ceil (totalCap net * (capDen net : ℚ))) : ℚ) := Int.le_ceil _
    have h2 : (0 : ℤ) ≤ Int.ceil (totalCap net * (capDen net : ℚ)) :=
      Int.ceil_nonneg (mul_nonneg htc0 hD0)
    have h3 : ((Int.ceil (totalCap net * (capDen net : ℚ))).toNat : ℤ) =
        Int.ceil (totalCap net * (capDen net : ℚ)) := Int.toNat_of_nonneg h2
    have h5 : (((Int.ceil (totalCap net * (capDen net : ℚ))).toNat : Nat) : ℚ) =
        ((Int.ceil (totalCap net * (capDen net : ℚ)) : ℤ) : ℚ) := by
      exact_mod_cast h3
    push_cast
    push_cast at h5
    linarith
  have hexit0 : ((ffLoop net source target
      ((Int.ceil (totalCap net * (capDen net : ℚ))).toNat + 1)
      flows0 0).2.2).marked.getD target false = false := by
    refine ffLoop_exit hwf hsn hst _ flows0 0 0 hinv0 hDf0 rfl ?_
    rw [sub_zero]
    exact hclt
  have hmono := ffLoop_mono _ fuel flows0 0 hge hexit0
  set r := ffLoop net source target
    ((Int.ceil (totalCap net * (capDen net : ℚ))).toNat + 1) flows0 0 with hr
  obtain ⟨hinvr, hstr⟩ := ffLoop_spec hwf hsn hst
    ((Int.ceil (totalCap net * (capDen net : ℚ))).toNat + 1) flows0 0 hinv0
  obtain ⟨hbfsr, hqr⟩ := @hasAugPath_spec net r.1 source hwf hsn
  have hbfs2 : BfsInv net r.1 source r.2.2 := by
    rw [hstr]
    exact hbfsr
  have hq2 : r.2.2.queue = [] := by
    rw [hstr]
    exact hqr
  have hm2 : r.2.2.marked.getD target false = false := hexit0
  have hval := maxflow_eq_mincut hwf htn hst hinvr hbfs2 hq2 hm2
  have hrun : f = ⟨r.2.2.edge_to, r.2.2.marked, r.2.1, r.1⟩ := by
    rw [← hf]
    show (⟨(ffLoop net source target fuel flows0 0).2.2.edge_to,
        (ffLoop net source target fuel flows0 0).2.2.marked,
        (ffLoop net source target fuel flows0 0).2.1,
        (ffLoop net source target fuel flows0 0).1⟩ : FordFulkerson) = _
    rw [hmono]
  rw [hrun]
  refine ⟨hval, ?_, ?_, hinvr.hlen, hinvr.hfeas⟩
  · show source ∈ (List.range r.2.2.marked.length).filter
      (fun v => r.2.2.marked.getD v false)
    refine List.mem_filter.mpr ⟨?_, hbfs2.hsrc⟩
    refine List.mem_range.mpr ?_
    rw [hbfs2.hlenM]
    exact hsn
  · show target ∉ (List.range r.2.2.marked.length).filter
      (fun v => r.2.2.marked.getD v false)
    intro hmem
    have h6 := (List.mem_filter.mp hmem).2
    rw [hm2] at h6
    exact Bool.false_ne_true h6

/-- Witness for C2 on the two-vertex network with the single capacity-1
edge 0 → 1, source 0 and target 1. -/
theorem claim_C2_ford_fulkerson_witness :
    FNWF ⟨2, [⟨0, 1, 1⟩]⟩ ∧ (∀ e ∈ (⟨2, [⟨0, 1, 1⟩]⟩ : FlowNetwork).edges,
      0 ≤ e.capacity) ∧ 0 < 2 ∧ 1 < 2 ∧ 0 ≠ 1 ∧
    ∃ fuel0 : Nat, ∀ fuel, fuel0 ≤ fuel →
      ∀ f : FordFulkerson,
        FordFulkerson.run ⟨2, [⟨0, 1, 1⟩]⟩ 0 1 fuel = f →
        f.value = ((cutCapacity ⟨2, [⟨0, 1, 1⟩]⟩ f.marked : ℚ) : EVal) ∧
        0 ∈ f.in_cut ∧ 1 ∉ f.in_cut ∧
        f.flows.length = (⟨2, [⟨0, 1, 1⟩]⟩ : FlowNetwork).edges.length ∧
        ∀ i, i < (⟨2, [⟨0, 1, 1⟩]⟩ : FlowNetwork).edges.length →
          0 ≤ f.flows.getD i 0 ∧
          f.flows.getD i 0 ≤ ((⟨2, [⟨0, 1, 1⟩]⟩ : FlowNetwork).edgeAt i).capacity :=
  ⟨by unfold FNWF; decide, by decide, by decide, by decide, by decide,
    claim_C2_ford_fulkerson (by unfold FNWF; decide) (by decide) (by decide)
      (by decide) (by decide)⟩

end GraphAlgs
